import Mathlib

/-!
# JSON module of Server_Framework: value model, decoder, encoders

Shallow embedding of `src/json_module/src/json_common.cpp` (declarations in
`src/json_module/inc/json_common.h`).

Conventions of the embedding
* `std::string` and the contents of a stream are `List Char`; a `Char` stands for one
  byte (code below 256).  Orderings compare the byte codes.
* `int` and `long` payloads are mathematical integers; the decoder only builds them
  inside the 32-bit and 64-bit two's-complement ranges (LP64 data model).
* `double` payloads are finite IEEE-754 binary64 values, held exactly as
  sign, significand and binary exponent.
* C++ exceptions are the `Except.error` results; the exception type is kept together
  with the `std::string` the exception object stores (`_what` for
  `JsonParserException`).  The text a caller reads through `what()` is
  `JsonError.what`: `what()` returns a C string, which ends at the first 0 byte.
* `std::istream` is the list of unread characters together with the `eofbit` that a
  formatted extraction (`in >> s`) leaves set when it runs into the end of the input.
* The call stack is finite: `JsonParser.ReadDepth stack` is `Read` run on a call stack
  with room for `stack` nested activations of `Read`, and a call that would need one
  more ends in `JsonError.stack_overflow` (the process is killed; no exception).
  `JsonParser.Read` is `Read` run on a stack with room for more activations than the
  input has characters, which is all that the recursion on that input can use.
-/

namespace JSON

/-- The type `std::string`: a sequence of bytes. -/
abbrev Str := List Char

/-! ## C library character classes and numeric conversions -/

/-- The function `std::isspace` in the "C" locale: space, `\t`, `\n`, `\v`, `\f`, `\r`. -/
def isspace (c : Char) : Bool :=
  decide (c.toNat = 32) || (decide (9 ≤ c.toNat) && decide (c.toNat ≤ 13))

/-- The function `std::isdigit`: the ten ASCII digits. -/
def isdigit (c : Char) : Bool :=
  decide (48 ≤ c.toNat) && decide (c.toNat ≤ 57)

/-- Value of a decimal digit character. -/
def digitVal (c : Char) : Nat := c.toNat - 48

/-- The character of a decimal digit `d < 10`. -/
def digitChar (d : Nat) : Char := Char.ofNat (48 + d)

/-- Decimal digits of a natural number, most significant first, prepended to `acc`;
the first argument bounds the number of digits. -/
def natDigits : Nat → Nat → List Char → List Char
  | 0, _, acc => acc
  | f + 1, n, acc =>
    if n < 10 then digitChar n :: acc
    else natDigits f (n / 10) (digitChar (n % 10) :: acc)

/-- Decimal text of a natural number, no leading zeros. -/
def showNat (n : Nat) : Str := natDigits (n + 1) n []

/-- Decimal text of an integer as `operator<<` prints an `int` or a `long`:
a `-` for negative values, no leading zeros. -/
def showInt (i : Int) : Str :=
  if i < 0 then '-' :: showNat i.natAbs else showNat i.natAbs

/-- Value of a run of decimal digits read left to right, starting from `acc`. -/
def digitsVal (acc : Nat) : List Char → Nat
  | [] => acc
  | c :: cs => digitsVal (acc * 10 + digitVal c) cs

/-- The longest prefix of decimal digits. -/
def takeDigits : List Char → List Char
  | [] => []
  | c :: cs => if isdigit c then c :: takeDigits cs else []

/-- What follows the longest prefix of decimal digits. -/
def dropDigits : List Char → List Char
  | [] => []
  | c :: cs => if isdigit c then dropDigits cs else c :: cs

/-- Leading white space removed. -/
def dropSpaces : List Char → List Char
  | [] => []
  | c :: cs => if isspace c then dropSpaces cs else c :: cs

/-- The integer that `strtol` (base 10) reads from the start of a string: optional
white space, optional sign, a non-empty run of digits.  `none` when there is no digit
(`std::invalid_argument` in `std::stoi`, `std::stol`). -/
def strtol (s : Str) : Option Int :=
  let body (neg : Bool) (t : Str) : Option Int :=
    if takeDigits t = [] then none
    else
      let v : Int := (digitsVal 0 (takeDigits t) : Nat)
      some (if neg then -v else v)
  match dropSpaces s with
  | '-' :: t => body true t
  | '+' :: t => body false t
  | t => body false t

/-- The function `std::stoi`: `none` stands for the exception it throws
(`invalid_argument`, or `out_of_range` outside the 32-bit range). -/
def stoi (s : Str) : Option Int :=
  match strtol s with
  | none => none
  | some v => if -2147483648 ≤ v ∧ v ≤ 2147483647 then some v else none

/-- The function `std::stol` with a 64-bit `long`: `none` stands for the exception it
throws (`invalid_argument`, or `out_of_range` outside the 64-bit range). -/
def stol (s : Str) : Option Int :=
  match strtol s with
  | none => none
  | some v => if -9223372036854775808 ≤ v ∧ v ≤ 9223372036854775807 then some v else none

/-! ## IEEE-754 binary64 -/

/-- A finite `double`: the value is `(-1)^neg * mant * 2^exp`, with `mant < 2^53`. -/
structure Double where
  neg : Bool
  mant : Nat
  exp : Int
  deriving DecidableEq, Repr

/-- Quotient `num / den` rounded to the nearest integer, ties to even. -/
def roundHalfEven (num den : Nat) : Nat :=
  let q := num / den
  let r := num % den
  if 2 * r < den then q
  else if den < 2 * r then q + 1
  else if q % 2 = 0 then q else q + 1

/-- The fraction `num / den` divided by `2^q`, as numerator and denominator. -/
def scale2 (num den : Nat) (q : Int) : Nat × Nat :=
  if 0 ≤ q then (num, den * 2 ^ q.toNat) else (num * 2 ^ (-q).toNat, den)

/-- The fraction `num / den` divided by `10^q`, as numerator and denominator. -/
def scale10 (num den : Nat) (q : Int) : Nat × Nat :=
  if 0 ≤ q then (num, den * 10 ^ q.toNat) else (num * 10 ^ (-q).toNat, den)

/-- Number of binary digits of `n` minus one (`floor (log2 n)` for positive `n`); the
first argument bounds the recursion. -/
def ilog2Nat : Nat → Nat → Nat
  | 0, _ => 0
  | f + 1, n => if n < 2 then 0 else ilog2Nat f (n / 2) + 1

/-- The integer `floor (log2 (num / den))` for positive `num` and `den`. -/
def ilog2 (num den : Nat) : Int :=
  let e0 : Int := (ilog2Nat num num : Int) - (ilog2Nat den den : Int)
  let p := scale2 num den e0
  if p.2 ≤ p.1 then e0 else e0 - 1

/-- Conversion of the positive or zero fraction `num / den` with sign `neg` to binary64,
round to nearest, ties to even, as glibc `strtod` does it.  `none` when `strtod`
reports `ERANGE`: the value overflows, or it is tiny (below `2^-1022` after rounding)
and not exactly representable. -/
def Double.round (neg : Bool) (num den : Nat) : Option Double :=
  if num = 0 then some ⟨neg, 0, 0⟩
  else
    let e := ilog2 num den
    let qa := e - 52
    let pa := scale2 num den qa
    let ma := roundHalfEven pa.1 pa.2
    let ea := if ma = 2 ^ 53 then e + 1 else e
    if 1023 < ea then none
    else if -1022 ≤ ea then
      some (if ma = 2 ^ 53 then ⟨neg, 2 ^ 52, qa + 1⟩ else ⟨neg, ma, qa⟩)
    else
      let ps := scale2 num den (-1074)
      if ps.1 % ps.2 ≠ 0 then none
      else some ⟨neg, ps.1 / ps.2, -1074⟩

/-- Conversion of an `int` or `long` to `double` (`static_cast<double>`). -/
def Double.ofInt (i : Int) : Double :=
  (Double.round (decide (i < 0)) i.natAbs 1).getD ⟨false, 0, 0⟩

/-- The number that `strtod` reads from the start of a decimal string: sign, digits
of the integer part and of the fraction taken together, and power of ten.  `none`
when the string does not start (after white space and sign) with a digit or with a
`.` followed by a digit. -/
def strtodParse (s : Str) : Option (Bool × Nat × Int) :=
  let body (neg : Bool) (t : Str) : Option (Bool × Nat × Int) :=
    let ip := takeDigits t
    let r1 := dropDigits t
    let fp := match r1 with
      | '.' :: u => takeDigits u
      | _ => []
    let r2 := match r1 with
      | '.' :: u => dropDigits u
      | _ => r1
    if ip = [] ∧ fp = [] then none
    else
      let ex : Int := match r2 with
        | c :: u =>
          if c = 'e' ∨ c = 'E' then
            match u with
            | '-' :: w => if takeDigits w = [] then 0 else -((digitsVal 0 (takeDigits w) : Nat) : Int)
            | '+' :: w => if takeDigits w = [] then 0 else ((digitsVal 0 (takeDigits w) : Nat) : Int)
            | w => if takeDigits w = [] then 0 else ((digitsVal 0 (takeDigits w) : Nat) : Int)
          else 0
        | [] => 0
      some (neg, digitsVal 0 (ip ++ fp), ex - (fp.length : Int))
  match dropSpaces s with
  | '-' :: t => body true t
  | '+' :: t => body false t
  | t => body false t

/-- The function `std::stod` on decimal input: `none` stands for the exception it
throws (`invalid_argument` when nothing converts, `out_of_range` on `ERANGE`). -/
def stod (s : Str) : Option Double :=
  match strtodParse s with
  | none => none
  | some (neg, m, e10) =>
    let p := scale10 m 1 (-e10)
    Double.round neg p.1 p.2

/-- Number of decimal digits of `n` minus one (`floor (log10 n)` for positive `n`);
the first argument bounds the recursion. -/
def ilog10Nat : Nat → Nat → Nat
  | 0, _ => 0
  | f + 1, n => if n < 10 then 0 else ilog10Nat f (n / 10) + 1

/-- The least `k` (searched upwards from `k`, at most `f` steps) with
`den ≤ num * 10^k`. -/
def firstScale : Nat → Nat → Nat → Nat → Nat
  | 0, _, _, k => k
  | f + 1, num, den, k => if den ≤ num * 10 ^ k then k else firstScale f num den (k + 1)

/-- The integer `floor (log10 (num / den))` for positive `num` and `den`. -/
def ilog10 (num den : Nat) : Int :=
  if den ≤ num then (ilog10Nat (num / den + 1) (num / den) : Int)
  else -((firstScale (den + 1) num den 0 : Nat) : Int)

/-- Trailing `0` characters removed. -/
def stripZeros (s : Str) : Str :=
  (s.reverse.dropWhile (fun c => decide (c = '0'))).reverse

/-- Padding with leading `0` characters up to width `w`. -/
def padZeros (w : Nat) (s : Str) : Str :=
  List.replicate (w - s.length) '0' ++ s

/-- Text of a `double` as `operator<<` prints it with the default stream settings
(format `%g`, precision 6). -/
def Double.print (d : Double) : Str :=
  let sign : Str := if d.neg then ['-'] else []
  if d.mant = 0 then sign ++ ['0']
  else
    let p := scale2 d.mant 1 (-d.exp)
    let x0 := ilog10 p.1 p.2
    let p6 := scale10 p.1 p.2 (x0 - 5)
    let s0 := roundHalfEven p6.1 p6.2
    let s := if s0 = 10 ^ 6 then 10 ^ 5 else s0
    let x := if s0 = 10 ^ 6 then x0 + 1 else x0
    if x < -4 ∨ 6 ≤ x then
      let ds := showNat s
      let frac := stripZeros ds.tail
      sign ++ ds.take 1 ++ (if frac = [] then [] else '.' :: frac)
        ++ ['e', if x < 0 then '-' else '+'] ++ padZeros 2 (showNat x.natAbs)
    else
      let dec := (5 - x).toNat
      let frac := stripZeros (padZeros dec (showNat (s % 10 ^ dec)))
      sign ++ showNat (s / 10 ^ dec) ++ (if frac = [] then [] else '.' :: frac)

/-! ## JsonNode -/

/-- The class `JsonNode`: the alternatives of `NodeValue`, a `std::variant` over
`nullptr_t, bool, int, long, double, String, Array, Object`.  An `Object` is a
`std::map`: its entries are kept in ascending key order, keys unique. -/
inductive JsonNode where
  | null
  | bool (v : Bool)
  | int (v : Int)
  | long (v : Int)
  | double (v : Double)
  | string (v : Str)
  | array (v : List JsonNode)
  | object (v : List (Str × JsonNode))

/-- The default constructor `JsonNode() = default`: the variant holds its first
alternative, `nullptr`. -/
instance : Inhabited JsonNode := ⟨JsonNode.null⟩

/-- The ways in which a call ends without a result.  The first three are the C++
exceptions of the library, each with the `std::string` that the exception object
stores.  `stack_overflow` is the overflow of the call stack by the recursion of `Read`:
no exception is thrown, the process is killed.  `out_of_fuel` is the exhaustion of the
iteration budget of a loop of the embedding (no C++ counterpart). -/
inductive JsonError where
  | runtime_error (what : Str)
  | JsonParserException (what : Str)
  | out_of_range (what : Str)
  | stack_overflow
  | out_of_fuel
  deriving DecidableEq, Repr

/-- The conversion `std::string::c_str()` as a caller reads its result: a C string ends
at the first 0 byte, so these are the bytes in front of the first 0 byte. -/
def c_str (s : Str) : Str := s.takeWhile (fun c => decide (c ≠ Char.ofNat 0))

/-- The member function `what()` of an exception: `JsonParserException::what()`
returns `_what.c_str()`, and `std::runtime_error` and `std::out_of_range` return the C
string of the message they store.  The two outcomes that are no exception have no
text. -/
def JsonError.what : JsonError → Str
  | .runtime_error w => c_str w
  | .JsonParserException w => c_str w
  | .out_of_range w => c_str w
  | .stack_overflow => []
  | .out_of_fuel => []

/-- The outcomes that are C++ exceptions of the library. -/
def JsonError.thrown : JsonError → Bool
  | .runtime_error _ => true
  | .JsonParserException _ => true
  | .out_of_range _ => true
  | .stack_overflow => false
  | .out_of_fuel => false

/-- The enumeration `JsonNode::TYPE`. -/
inductive TYPE where
  | EMPTY | BOOL | INT | LONG | DOUBLE | STRING | ARRAY | OBJECT
  deriving DecidableEq, Repr

namespace JsonNode

/-- The member `GetTypeIndx`: index of the alternative held by the variant. -/
def GetTypeIndx : JsonNode → TYPE
  | null => TYPE.EMPTY
  | bool _ => TYPE.BOOL
  | int _ => TYPE.INT
  | long _ => TYPE.LONG
  | double _ => TYPE.DOUBLE
  | string _ => TYPE.STRING
  | array _ => TYPE.ARRAY
  | object _ => TYPE.OBJECT

def IsNull (n : JsonNode) : Bool := decide (n.GetTypeIndx = TYPE.EMPTY)
def IsBool (n : JsonNode) : Bool := decide (n.GetTypeIndx = TYPE.BOOL)
def IsInt (n : JsonNode) : Bool := decide (n.GetTypeIndx = TYPE.INT)
def IsPureLong (n : JsonNode) : Bool := decide (n.GetTypeIndx = TYPE.LONG)
def IsLong (n : JsonNode) : Bool := n.IsPureLong || n.IsInt
def IsPureDouble (n : JsonNode) : Bool := decide (n.GetTypeIndx = TYPE.DOUBLE)
def IsDouble (n : JsonNode) : Bool := n.IsPureDouble || n.IsLong
def IsString (n : JsonNode) : Bool := decide (n.GetTypeIndx = TYPE.STRING)
def IsArray (n : JsonNode) : Bool := decide (n.GetTypeIndx = TYPE.ARRAY)
def IsObject (n : JsonNode) : Bool := decide (n.GetTypeIndx = TYPE.OBJECT)

/-! Accessors taking `bool& err`: the result and the value left in `err`. -/

def AsBool_err (n : JsonNode) (_err : Bool) : Bool × Bool :=
  match n with
  | bool v => (v, false)
  | _ => (false, true)

def AsInt_err (n : JsonNode) (_err : Bool) : Int × Bool :=
  match n with
  | int v => (v, false)
  | _ => (0, true)

def AsLong_err (n : JsonNode) (_err : Bool) : Int × Bool :=
  match n with
  | int v => (v, false)
  | long v => (v, false)
  | _ => (0, true)

def AsDouble_err (n : JsonNode) (_err : Bool) : Double × Bool :=
  match n with
  | int v => (Double.ofInt v, false)
  | long v => (Double.ofInt v, false)
  | double v => (v, false)
  | _ => (⟨false, 0, 0⟩, true)

def AsString_err (n : JsonNode) (_err : Bool) : Str × Bool :=
  match n with
  | string v => (v, false)
  | _ => ([], true)

def AsArray_err (n : JsonNode) (_err : Bool) : List JsonNode × Bool :=
  match n with
  | array v => (v, false)
  | _ => ([], true)

def AsObject_err (n : JsonNode) (_err : Bool) : List (Str × JsonNode) × Bool :=
  match n with
  | object v => (v, false)
  | _ => ([], true)

/-! Throwing accessors: they call the `err` overload on the member `_err` and throw
when it comes back set. -/

def AsBool (n : JsonNode) : Except JsonError Bool :=
  let r := n.AsBool_err false
  if !r.2 then pure r.1 else throw (.runtime_error "Node is not hold <bool>".toList)

def AsInt (n : JsonNode) : Except JsonError Int :=
  let r := n.AsInt_err false
  if !r.2 then pure r.1 else throw (.runtime_error "Node is not hold <int>".toList)

def AsLong (n : JsonNode) : Except JsonError Int :=
  let r := n.AsLong_err false
  if !r.2 then pure r.1 else throw (.runtime_error "Node is not hold <long> or <int>".toList)

def AsDouble (n : JsonNode) : Except JsonError Double :=
  let r := n.AsDouble_err false
  if !r.2 then pure r.1
  else throw (.runtime_error "Node is not hold <double> or <long> of <int>".toList)

def AsString (n : JsonNode) : Except JsonError Str :=
  let r := n.AsString_err false
  if !r.2 then pure r.1 else throw (.runtime_error "Node is not hold <string>".toList)

def AsArray (n : JsonNode) : Except JsonError (List JsonNode) :=
  let r := n.AsArray_err false
  if !r.2 then pure r.1 else throw (.runtime_error "Node is not hold <Array>".toList)

def AsObject (n : JsonNode) : Except JsonError (List (Str × JsonNode)) :=
  let r := n.AsObject_err false
  if !r.2 then pure r.1 else throw (.runtime_error "Node is not hold <Object>".toList)

end JsonNode

/-! ## std::map with std::string keys -/

/-- The order `std::less<std::string>`: lexicographic on the byte codes, a proper
prefix first. -/
def strLt : Str → Str → Bool
  | [], [] => false
  | [], _ :: _ => true
  | _ :: _, [] => false
  | a :: as, b :: bs =>
    if a.toNat < b.toNat then true
    else if b.toNat < a.toNat then false
    else strLt as bs

/-- The member `std::map::try_emplace`: the entry is inserted at its place in key
order when the key is absent; a present key leaves the map as it is. -/
def try_emplace : List (Str × JsonNode) → Str → JsonNode → List (Str × JsonNode)
  | [], k, v => [(k, v)]
  | (k1, v1) :: m, k, v =>
    if strLt k k1 then (k, v) :: (k1, v1) :: m
    else if strLt k1 k then (k1, v1) :: try_emplace m k v
    else (k1, v1) :: m

/-- Lookup of a key in a `std::map`. -/
def find : List (Str × JsonNode) → Str → Option JsonNode
  | [], _ => none
  | (k1, v1) :: m, k => if strLt k k1 then none else if strLt k1 k then find m k else some v1

/-- The member `std::map::at`: throws `std::out_of_range` for an absent key. -/
def «at» (m : List (Str × JsonNode)) (k : Str) : Except JsonError JsonNode :=
  match find m k with
  | some v => pure v
  | none => throw (.out_of_range "map::at".toList)

/-- The member `std::vector::operator[]`: the element at position `idx`.  The operator
makes no bounds check: an access with `idx` not below `size()` is undefined behaviour,
for which `none` stands. -/
def vector_subscript (v : List JsonNode) (idx : Nat) : Option JsonNode := v[idx]?

/-- The member `JsonNode::operator[](size_t idx)`: `AsArray()[idx]` on an Array, an
exception on every other kind.  The result `none` is the undefined behaviour of the
unchecked vector access. -/
def JsonNode.subscript_idx (n : JsonNode) (idx : Nat) : Except JsonError (Option JsonNode) :=
  match n.GetTypeIndx with
  | TYPE.ARRAY => do
    let a ← n.AsArray
    pure (vector_subscript a idx)
  | _ => throw (.runtime_error "JsonNode is not Array type".toList)

/-- The member `JsonNode::operator[](const String& name)`: `AsObject().at(name)` on an
Object, an exception on every other kind. -/
def JsonNode.subscript_name (n : JsonNode) (name : Str) : Except JsonError JsonNode :=
  match n.GetTypeIndx with
  | TYPE.OBJECT => do
    let o ← n.AsObject
    «at» o name
  | _ => throw (.runtime_error "JsonNode is not Object type".toList)

/-! ## Encoders -/

mutual
/-- The visitor `OneLineWriter` applied to the value of a node: the text written
to `out`. -/
def OneLineWriter : JsonNode → Str
  | .null => "null".toList
  | .bool arg => if arg then "true".toList else "false".toList
  | .int arg => showInt arg
  | .long arg => showInt arg
  | .double arg => arg.print
  | .string arg => '"' :: arg ++ ['"']
  | .array arg => "[ ".toList ++ OneLineWriter.array arg true ++ " ]".toList
  | .object arg => "\x7b ".toList ++ OneLineWriter.object arg true ++ " \x7d".toList
/-- The loop of `OneLineWriter::operator()(const Array&)` with its flag `first`. -/
def OneLineWriter.array : List JsonNode → Bool → Str
  | [], _ => []
  | node :: rest, first =>
    (if !first then ", ".toList else []) ++ OneLineWriter node ++ OneLineWriter.array rest false
/-- The loop of `OneLineWriter::operator()(const Object&)` with its flag `first`. -/
def OneLineWriter.object : List (Str × JsonNode) → Bool → Str
  | [], _ => []
  | (key, node) :: rest, first =>
    (if !first then ", ".toList else []) ++ ('"' :: key ++ ['"']) ++ ": ".toList
      ++ OneLineWriter node ++ OneLineWriter.object rest false
end

/-- The member `PrettyWriter::PrintIdent`. -/
def PrintIdent (ident : Nat) (need_ident : Bool) : Str :=
  if need_ident then List.replicate ident ' ' else []

mutual
/-- The visitor `PrettyWriter{out, ident, need_ident}` applied to the value of a
node: the text written to `out`. -/
def PrettyWriter (ident : Nat) (need_ident : Bool) : JsonNode → Str
  | .null => PrintIdent ident need_ident ++ "null".toList
  | .bool arg => PrintIdent ident need_ident ++ (if arg then "true".toList else "false".toList)
  | .int arg => PrintIdent ident need_ident ++ showInt arg
  | .long arg => PrintIdent ident need_ident ++ showInt arg
  | .double arg => PrintIdent ident need_ident ++ arg.print
  | .string arg => PrintIdent ident need_ident ++ ('"' :: arg ++ ['"'])
  | .array arg =>
    PrintIdent ident need_ident ++ "[ ".toList ++ PrettyWriter.array ident arg true
      ++ PrintIdent ident (!arg.isEmpty) ++ "]".toList
  | .object arg =>
    PrintIdent ident need_ident ++ "\x7b ".toList ++ PrettyWriter.object ident arg true
      ++ PrintIdent ident (!arg.isEmpty) ++ "\x7d".toList
/-- The loop of `PrettyWriter::operator()(const Array&)` with its flag `first`,
followed by the line break written after a non-empty loop. -/
def PrettyWriter.array (ident : Nat) : List JsonNode → Bool → Str
  | [], first => if !first then ['\n'] else []
  | node :: rest, first =>
    (if !first then ",\n".toList else ['\n']) ++ PrettyWriter (ident + 4) true node
      ++ PrettyWriter.array ident rest false
/-- The loop of `PrettyWriter::operator()(const Object&)` with its flag `first`,
followed by the line break written after a non-empty loop. -/
def PrettyWriter.object (ident : Nat) : List (Str × JsonNode) → Bool → Str
  | [], first => if !first then ['\n'] else []
  | (key, node) :: rest, first =>
    (if !first then ", \n".toList else ['\n'])
      ++ (PrintIdent (ident + 4) true ++ ('"' :: key ++ ['"'])) ++ ": ".toList
      ++ PrettyWriter (ident + 4) false node ++ PrettyWriter.object ident rest false
end

/-- The constructor of `JsonParserException`: the member `_what` is `what`, the text
` after node: `, and the one-line rendering of `last_node`. -/
def JsonParserException (last_node : JsonNode) (what : Str) : JsonError :=
  .JsonParserException (what ++ " after node: ".toList ++ OneLineWriter last_node)

/-! ## Input stream -/

/-- A `std::istream` over a fixed input: the characters not yet read, and the
`eofbit` of the stream state.  No library function here returns with `failbit` or
`badbit` set, so they are not part of the state. -/
structure IStream where
  buf : List Char
  eofbit : Bool
  deriving DecidableEq, Repr

/-- The value `static_cast<char>(EOF)`, the byte 255, returned by a `peek` at the end
of the input. -/
def eofChar : Char := Char.ofNat 255

namespace JsonParser

/-- The function `StreamPeek`.  On a stream whose `eofbit` is set `peek` sets
`failbit` and the function throws; at the end of the input `peek` returns `EOF`,
sets `eofbit`, and the function clears it again. -/
def StreamPeek (i : IStream) : Except JsonError Char :=
  if i.eofbit then throw (.runtime_error "istream bad after peek()".toList)
  else
    match i.buf with
    | [] => pure eofChar
    | c :: _ => pure c

/-- The function `StreamGet`: `get` fails at the end of the input and on a stream
whose `eofbit` is set. -/
def StreamGet (i : IStream) : Except JsonError (Char × IStream) :=
  if i.eofbit then throw (.runtime_error "istream bad after get()".toList)
  else
    match i.buf with
    | [] => throw (.runtime_error "istream bad after get()".toList)
    | c :: cs => pure (c, ⟨cs, false⟩)

/-- The `while` loop of `SkipWhiteSpaces`, at most `n` iterations. -/
def SkipWhiteSpaces.loop : Nat → IStream → Except JsonError IStream
  | 0, _ => throw .out_of_fuel
  | n + 1, i => do
    let c ← StreamPeek i
    if isspace c then
      let g ← StreamGet i
      SkipWhiteSpaces.loop n g.2
    else pure i

/-- The function `SkipWhiteSpaces`. -/
def SkipWhiteSpaces (i : IStream) : Except JsonError IStream :=
  SkipWhiteSpaces.loop (i.buf.length + 1) i

/-- The function `SkipSymbol`: the flag `skiped` and the stream afterwards. -/
def SkipSymbol (i : IStream) (ch : Char) : Except JsonError (Bool × IStream) := do
  let i ← SkipWhiteSpaces i
  let c ← StreamPeek i
  if c = ch then
    let g ← StreamGet i
    let i ← SkipWhiteSpaces g.2
    pure (true, i)
  else
    let i ← SkipWhiteSpaces i
    pure (false, i)

/-- The function `SkipSymbolUntil`. -/
def SkipSymbolUntil (i : IStream) (ch : Char) («until» : Char) :
    Except JsonError (Bool × IStream) := do
  let r ← SkipSymbol i ch
  if !r.1 then
    let c ← StreamPeek r.2
    if c = «until» then pure (true, r.2) else pure (false, r.2)
  else pure (true, r.2)

/-- The `while` loop of `ReadString`: characters are appended to `str` up to the next
double quote, at most `n` iterations. -/
def ReadString.loop : Nat → Str → IStream → Except JsonError (Str × IStream)
  | 0, _, _ => throw .out_of_fuel
  | n + 1, str, i => do
    let c ← StreamPeek i
    if c ≠ '"' then
      let g ← StreamGet i
      ReadString.loop n (str ++ [g.1]) g.2
    else pure (str, i)

/-- The function `ReadString`. -/
def ReadString (i : IStream) : Except JsonError (JsonNode × IStream) := do
  let g ← StreamGet i
  if g.1 ≠ '"' then throw (.runtime_error "Expected \" at start of string".toList)
  else
    let r ← ReadString.loop (g.2.buf.length + 1) [] g.2
    let h ← StreamGet r.2
    if h.1 ≠ '"' then throw (.runtime_error "Expected \" at end of string".toList)
    else pure (JsonNode.string r.1, h.2)

/-- The loop `while (std::isdigit(StreamPeek(in))) number_str << StreamGet(in)`, at
most `n` iterations. -/
def ReadNumber.digits : Nat → Str → IStream → Except JsonError (Str × IStream)
  | 0, _, _ => throw .out_of_fuel
  | n + 1, number_str, i => do
    let c ← StreamPeek i
    if isdigit c then
      let g ← StreamGet i
      ReadNumber.digits n (number_str ++ [g.1]) g.2
    else pure (number_str, i)

/-- The conversion at the end of `ReadNumber`: `stoi`, then `stol`, then `stod`,
each tried when the one before throws; the integer conversions are skipped for a
text with a fraction or an exponent. -/
def ReadNumber.convert (number_str : Str) (is_double : Bool) : Except JsonError JsonNode :=
  let asDouble : Except JsonError JsonNode :=
    match stod number_str with
    | some d => pure (JsonNode.double d)
    | none => throw (.runtime_error ("Can't convert ".toList ++ number_str ++ "to c++ type".toList))
  if !is_double then
    match stoi number_str with
    | some d => pure (JsonNode.int d)
    | none =>
      match stol number_str with
      | some d => pure (JsonNode.long d)
      | none => asDouble
  else asDouble

/-- The block `Get sign if exists` of `ReadNumber`: the text `number_str` so far and
the stream. -/
def ReadNumber.sign (i : IStream) : Except JsonError (Str × IStream) := do
  let c ← StreamPeek i
  if c = '-' then
    let g ← StreamGet i
    pure ([g.1], g.2)
  else pure ([], i)

/-- The block `Must be or 0 or [1-9][0-9]*` of `ReadNumber`. -/
def ReadNumber.integer (number_str : Str) (i : IStream) : Except JsonError (Str × IStream) := do
  let c ← StreamPeek i
  if c = '0' then
    let g ← StreamGet i
    pure (number_str ++ [g.1], g.2)
  else if isdigit c then ReadNumber.digits (i.buf.length + 1) number_str i
  else
    let c ← StreamPeek i
    throw (.runtime_error ("Read from stream ".toList ++ [c] ++ "when expected digit".toList))

/-- The block `Get fraction if exists` of `ReadNumber`, with the flag `is_double`. -/
def ReadNumber.fraction (number_str : Str) (i : IStream) :
    Except JsonError (Str × IStream × Bool) := do
  let c ← StreamPeek i
  if c = '.' then
    let g ← StreamGet i
    let r ← ReadNumber.digits (g.2.buf.length + 1) (number_str ++ [g.1]) g.2
    pure (r.1, r.2, true)
  else pure (number_str, i, false)

/-- The block `Get exponent if exists` of `ReadNumber`, with the flag `is_double`. -/
def ReadNumber.exponent (number_str : Str) (i : IStream) (is_double : Bool) :
    Except JsonError (Str × IStream × Bool) := do
  let c ← StreamPeek i
  if c = 'E' ∨ c = 'e' then
    let g ← StreamGet i
    let c ← StreamPeek g.2
    if c = '+' ∨ c = '-' then
      let h ← StreamGet g.2
      let r ← ReadNumber.digits (h.2.buf.length + 1) (number_str ++ [g.1] ++ [h.1]) h.2
      pure (r.1, r.2, true)
    else
      let r ← ReadNumber.digits (g.2.buf.length + 1) (number_str ++ [g.1]) g.2
      pure (r.1, r.2, true)
  else pure (number_str, i, is_double)

/-- The function `ReadNumber`. -/
def ReadNumber (i : IStream) : Except JsonError (JsonNode × IStream) := do
  let r0 ← ReadNumber.sign i
  let r1 ← ReadNumber.integer r0.1 r0.2
  let r2 ← ReadNumber.fraction r1.1 r1.2
  let r3 ← ReadNumber.exponent r2.1 r2.2.1 r2.2.2
  let node ← ReadNumber.convert r3.1 r3.2.2
  pure (node, r3.2.1)

/-- The longest prefix without white space. -/
def takeToken : List Char → List Char
  | [] => []
  | c :: cs => if isspace c then [] else c :: takeToken cs

/-- What follows the longest prefix without white space. -/
def dropToken : List Char → List Char
  | [] => []
  | c :: cs => if isspace c then c :: cs else dropToken cs

/-- The extraction `in >> s` into an empty `std::string`: leading white space is
skipped, then characters are taken up to the next white space or the end of the
input.  Running into the end of the input sets `eofbit`; on a stream that is not good
nothing is extracted. -/
def extractString (i : IStream) : Str × IStream :=
  if i.eofbit then ([], i)
  else
    let t := dropSpaces i.buf
    (takeToken t, ⟨dropToken t, decide (dropToken t = [])⟩)

/-- The function `ReadOther`. -/
def ReadOther (i : IStream) : Except JsonError (JsonNode × IStream) :=
  let r := extractString i
  if r.1 = "true".toList then pure (JsonNode.bool true, r.2)
  else if r.1 = "false".toList then pure (JsonNode.bool false, r.2)
  else if r.1 = "null".toList then pure (JsonNode.null, r.2)
  else throw (.runtime_error "Expected true|false|null".toList)

/-- The `do ... while` loop of `ReadArray`, at most `n` iterations; `Read` is the
recursive call. -/
def ReadArray.loop (Read : IStream → Except JsonError (JsonNode × IStream)) :
    Nat → List JsonNode → IStream → Except JsonError (List JsonNode × IStream)
  | 0, _, _ => throw .out_of_fuel
  | n + 1, array, i => do
    let i ← SkipWhiteSpaces i
    let c ← StreamPeek i
    if c = ']' then pure (array, i)
    else
      let r ← Read i
      let array := array ++ [r.1]
      let k ← SkipSymbolUntil r.2 ',' ']'
      if !k.1 then throw (JsonParserException r.1 "expected ','".toList)
      else
        let c ← StreamPeek k.2
        if c ≠ ']' then ReadArray.loop Read n array k.2 else pure (array, k.2)

/-- The function `ReadArray`; `Read` is the recursive call. -/
def ReadArray (Read : IStream → Except JsonError (JsonNode × IStream)) (i : IStream) :
    Except JsonError (JsonNode × IStream) := do
  let g ← StreamGet i
  if g.1 ≠ '[' then throw (.runtime_error "Expected [ at start of array".toList)
  else
    let r ← ReadArray.loop Read (g.2.buf.length + 1) [] g.2
    let k ← SkipSymbol r.2 ']'
    pure (JsonNode.array r.1, k.2)

/-- The `do ... while` loop of `ReadObject`, at most `n` iterations; `Read` is the
recursive call. -/
def ReadObject.loop (Read : IStream → Except JsonError (JsonNode × IStream)) :
    Nat → List (Str × JsonNode) → IStream → Except JsonError (List (Str × JsonNode) × IStream)
  | 0, _, _ => throw .out_of_fuel
  | n + 1, object, i => do
    let i ← SkipWhiteSpaces i
    let c ← StreamPeek i
    if c = '\x7d' then pure (object, i)
    else
      let key ← ReadString i
      let k ← SkipSymbol key.2 ':'
      if !k.1 then throw (JsonParserException key.1 "expected :".toList)
      else
        let value ← Read k.2
        let name ← key.1.AsString
        let object := try_emplace object name value.1
        let k ← SkipSymbolUntil value.2 ',' '\x7d'
        if !k.1 then
          let name ← key.1.AsString
          let node ← «at» object name
          throw (JsonParserException node "expected ,".toList)
        else
          let c ← StreamPeek k.2
          if c ≠ '\x7d' then ReadObject.loop Read n object k.2 else pure (object, k.2)

/-- The function `ReadObject`; `Read` is the recursive call. -/
def ReadObject (Read : IStream → Except JsonError (JsonNode × IStream)) (i : IStream) :
    Except JsonError (JsonNode × IStream) := do
  let g ← StreamGet i
  if g.1 ≠ '\x7b' then throw (.runtime_error "Expected \x7b ar start of object".toList)
  else
    let r ← ReadObject.loop Read (g.2.buf.length + 1) [] g.2
    let k ← SkipSymbol r.2 '\x7d'
    pure (JsonNode.object r.1, k.2)

/-- The function `JsonParser::Read` on a call stack with room for `d` nested
activations of `Read`, each with the frames of the readers that it calls.  `Read`
calls `ReadObject` and `ReadArray`, which call `Read` for every value; the source has
no guard on the depth of this recursion, and a call of `Read` for which no room is
left overflows the stack. -/
def ReadDepth : Nat → IStream → Except JsonError (JsonNode × IStream)
  | 0, _ => throw .stack_overflow
  | d + 1, i => do
    let i ← SkipWhiteSpaces i
    let c ← StreamPeek i
    if c = '\x7b' then ReadObject (ReadDepth d) i
    else if c = '[' then ReadArray (ReadDepth d) i
    else if c = '"' then ReadString i
    else if isdigit c ∨ c = '-' then ReadNumber i
    else ReadOther i

/-- The function `JsonParser::Read` on a call stack with room for more nested
activations of `Read` than there are unread characters.  A nested activation starts
behind an opening bracket or brace that its caller has taken, so the recursion on this
stream cannot use more; on a smaller stack the function is `ReadDepth`. -/
def Read (i : IStream) : Except JsonError (JsonNode × IStream) :=
  ReadDepth (i.buf.length + 1) i

/-- The function `JsonParser::Write`: the text written to `out`. -/
def Write (root : JsonNode) (pretty : Bool) : Str :=
  if pretty then PrettyWriter 0 true root else OneLineWriter root

end JsonParser

/-- A stream in its initial state over the text `s`, as a `std::stringstream` into
which `s` has been written. -/
def istream (s : String) : IStream := ⟨s.toList, false⟩

/-! ## Auxiliary definitions of the proofs -/

/-- The character a `peek` returns on a good stream over `b`. -/
def peekChar (b : List Char) : Char := b.headD eofChar

/-- The sign stage of `ReadNumber` on a good stream over `b`: the text taken and
the characters left. -/
def scanSign (b : List Char) : Str × List Char :=
  if peekChar b = '-' then (['-'], b.tail) else ([], b)

/-- The integer stage of `ReadNumber` on a good stream: a single `0`, or a run of
digits; `none` when the next character is no digit. -/
def scanInt (p : Str × List Char) : Option (Str × List Char) :=
  if peekChar p.2 = '0' then some (p.1 ++ ['0'], p.2.tail)
  else if isdigit (peekChar p.2) then some (p.1 ++ takeDigits p.2, dropDigits p.2)
  else none

/-- The fraction stage of `ReadNumber` on a good stream, with the flag
`is_double`. -/
def scanFrac (p : Str × List Char) : Str × List Char × Bool :=
  if peekChar p.2 = '.' then (p.1 ++ '.' :: takeDigits p.2.tail, dropDigits p.2.tail, true)
  else (p.1, p.2, false)

/-- The exponent stage of `ReadNumber` on a good stream, with the flag
`is_double`. -/
def scanExp (p : Str × List Char × Bool) : Str × List Char × Bool :=
  if peekChar p.2.1 = 'E' ∨ peekChar p.2.1 = 'e' then
    if peekChar p.2.1.tail = '+' ∨ peekChar p.2.1.tail = '-' then
      (p.1 ++ [peekChar p.2.1] ++ [peekChar p.2.1.tail] ++ takeDigits p.2.1.tail.tail,
        dropDigits p.2.1.tail.tail, true)
    else (p.1 ++ [peekChar p.2.1] ++ takeDigits p.2.1.tail, dropDigits p.2.1.tail, true)
  else p

/-- A character that no stage of `ReadNumber` takes: no digit, sign, point or
exponent mark. -/
def numStop (c : Char) : Prop :=
  isdigit c = false ∧ c ≠ '-' ∧ c ≠ '+' ∧ c ≠ '.' ∧ c ≠ 'e' ∧ c ≠ 'E'

/-- A character that ends a value inside a container: a comma, a closing bracket or
brace, or white space. -/
def isDelim (c : Char) : Prop :=
  c = ',' ∨ c = ']' ∨ c = '\x7d' ∨ isspace c = true

/-- The text `t` is a value text for the node `v`: in front of every continuation
that starts with a delimiter, `Read` returns `v`, leaves the stream good, and stops
at `rest` or inside the white space at its start. -/
def Decodes (t : Str) (v : JsonNode) : Prop :=
  ∀ rest : List Char, isDelim (peekChar rest) →
    ∃ r, JsonParser.Read ⟨t ++ rest, false⟩ = .ok (v, ⟨r, false⟩) ∧
      dropSpaces r = dropSpaces rest

/-- Texts of array elements with their nodes, each text followed by a comma. -/
def elemsText : List (Str × JsonNode) → Str
  | [] => []
  | e :: es => e.1 ++ ',' :: elemsText es

/-- Result of `SkipSymbolUntil` on a good stream over `b`: the flag and the
characters left. -/
def skipUntil (b : List Char) (ch «until» : Char) : Bool × List Char :=
  if peekChar (dropSpaces b) = ch then (true, dropSpaces (dropSpaces b).tail)
  else (decide (peekChar (dropSpaces b) = «until»), dropSpaces b)

/-- The value of the first entry with key `k` in a sequence of entries. -/
def firstValue (k : Str) : List (Str × JsonNode) → Option JsonNode
  | [] => none
  | e :: es => if e.1 = k then some e.2 else firstValue k es

/-- The map after `try_emplace` of the entries `es`, in their order, into `m`. -/
def insertAll (m : List (Str × JsonNode)) (es : List (Str × JsonNode)) :
    List (Str × JsonNode) :=
  es.foldl (fun acc e => try_emplace acc e.1 e.2) m

/-- An object entry as it is written: white space, the key between double quotes,
white space, a colon, and the text of the value, with the node of the value. -/
structure EntryText where
  pre : Str
  key : Str
  mid : Str
  text : Str
  value : JsonNode

/-- The text of an entry. -/
def EntryText.render (e : EntryText) : Str :=
  e.pre ++ '"' :: (e.key ++ '"' :: (e.mid ++ ':' :: e.text))

/-- The key and the node of an entry. -/
def EntryText.pair (e : EntryText) : Str × JsonNode := (e.key, e.value)

/-- An entry is well formed: `pre` and `mid` are white space, the key holds no double
quote, and the text of the value is a value text for its node. -/
def EntryText.WellFormed (e : EntryText) : Prop :=
  (∀ c ∈ e.pre, isspace c = true) ∧ '"' ∉ e.key ∧ (∀ c ∈ e.mid, isspace c = true) ∧
    Decodes e.text e.value

/-- The texts of entries separated by commas. -/
def entriesText : List EntryText → Str
  | [] => []
  | [e] => e.render
  | e :: es => e.render ++ ',' :: entriesText es

/-- The text of an object: the entries separated by commas, between braces. -/
def objectText (es : List EntryText) : Str :=
  '\x7b' :: (entriesText es ++ ['\x7d'])

/-- The keys of a map are strictly ascending in the order of `std::string`. -/
def KeysAscending (m : List (Str × JsonNode)) : Prop :=
  m.Pairwise (fun a b => strLt a.1 b.1 = true)

/-- The compact text of one object entry: the key between double quotes, a colon
and a space, and the compact text of the node. -/
def entryCompact (e : Str × JsonNode) : Str :=
  '"' :: (e.1 ++ '"' :: (": ".toList ++ OneLineWriter e.2))

/-- The stream `e` follows the stream `o` in front of `rest`: `o` reads a text and `e`
reads the same text followed by `rest`, at the same point of a decoding.  Either `e`
holds what `o` holds and then `rest`, or `o` is at its end and `e` holds `rest`
without some of the white space at its start. -/
def Follows (rest : List Char) (o e : IStream) : Prop :=
  e.eofbit = false ∧
    ((o.eofbit = false ∧ e.buf = o.buf ++ rest) ∨
     (o.buf = [] ∧ ∃ ws : List Char, (∀ c ∈ ws, isspace c = true) ∧ rest = ws ++ e.buf))

mutual
/-- A tree of nested arrays with scalar leaves: no Object occurs at any depth. -/
def arrayTree : JsonNode → Bool
  | .array arg => arrayTree.all arg
  | .object _ => false
  | _ => true
/-- Every node of a list is a tree of nested arrays with scalar leaves. -/
def arrayTree.all : List JsonNode → Bool
  | [] => true
  | e :: es => arrayTree e && arrayTree.all es
end

/-- A comma appended to the last of a sequence of lines. -/
def commaLast : List Str → List Str
  | [] => []
  | [l] => [l ++ [',']]
  | l :: l2 :: ls => l :: commaLast (l2 :: ls)

mutual
/-- The lines of the pretty text of a tree of nested arrays at nesting depth `d`, as
the indentation rule describes them.  A leaf is one line: `4 * d` spaces and its
compact text.  An empty array is the one line `[ ]` after `4 * d` spaces.  A non-empty
array is the line `[ ` after `4 * d` spaces, the lines of its elements at depth
`d + 1` with a comma closing each element but the last, and the line `]` after
`4 * d` spaces. -/
def prettyLines (d : Nat) : JsonNode → List Str
  | .array arg =>
    if arg.isEmpty then [List.replicate (4 * d) ' ' ++ "[ ]".toList]
    else
      (List.replicate (4 * d) ' ' ++ "[ ".toList)
        :: (prettyLines.elems (d + 1) arg ++ [List.replicate (4 * d) ' ' ++ "]".toList])
  | node => [List.replicate (4 * d) ' ' ++ OneLineWriter node]
/-- The lines of the elements of an array, each element at nesting depth `d`. -/
def prettyLines.elems (d : Nat) : List JsonNode → List Str
  | [] => []
  | e :: es =>
    (if es.isEmpty then prettyLines d e else commaLast (prettyLines d e))
      ++ prettyLines.elems d es
end

mutual
/-- The nodes of the round trip through the compact encoder: Int32 values, Int64
values outside the 32-bit range, strings and keys without a double quote, Arrays and
Objects (maps with ascending keys) of such nodes, and Null and Bool, no Double.  With
`everywhere` set, a Null or Bool is admitted at every place of the tree; without it,
only where `last` is set: at the root, as the last element of an Array, and as the
value of the last entry of an Object. -/
def plainTree (everywhere last : Bool) : JsonNode → Bool
  | .null => everywhere || last
  | .bool _ => everywhere || last
  | .int v => decide (-2147483648 ≤ v ∧ v ≤ 2147483647)
  | .long v =>
    decide (¬ (-2147483648 ≤ v ∧ v ≤ 2147483647) ∧
      -9223372036854775808 ≤ v ∧ v ≤ 9223372036854775807)
  | .double _ => false
  | .string v => decide ('"' ∉ v)
  | .array arg => plainTree.array everywhere arg
  | .object arg =>
    decide (arg.Pairwise (fun a b => strLt a.1 b.1 = true)) && plainTree.object everywhere arg
/-- The elements of an Array are nodes of the round trip; the last element is at a
last place. -/
def plainTree.array (everywhere : Bool) : List JsonNode → Bool
  | [] => true
  | e :: es => plainTree everywhere es.isEmpty e && plainTree.array everywhere es
/-- The keys of an Object hold no double quote and its values are nodes of the round
trip; the value of the last entry is at a last place. -/
def plainTree.object (everywhere : Bool) : List (Str × JsonNode) → Bool
  | [] => true
  | (k, v) :: m =>
    decide ('"' ∉ k) && plainTree everywhere m.isEmpty v && plainTree.object everywhere m
end

/-- The text `t` is a value text for the node `v` in front of white space: in front
of every continuation that starts with white space, `Read` returns `v`, leaves the
stream good, and stops at `rest` or inside the white space at its start. -/
def DecodesSp (t : Str) (v : JsonNode) : Prop :=
  ∀ rest : List Char, isspace (peekChar rest) = true →
    ∃ r, JsonParser.Read ⟨t ++ rest, false⟩ = .ok (v, ⟨r, false⟩) ∧
      dropSpaces r = dropSpaces rest

/-- An element of an Array as the compact encoder writes it in front of a comma: a
space and the compact text of the node. -/
def compactElem (e : JsonNode) : Str × JsonNode := (' ' :: OneLineWriter e, e)

/-- An entry of an Object as the compact encoder writes it: a space, the key between
double quotes, a colon, a space and the compact text of the node; the entry written
last is followed by a space. -/
def compactEntry (last : Bool) (e : Str × JsonNode) : EntryText :=
  ⟨[' '], e.1, [], ' ' :: (OneLineWriter e.2 ++ if last then [' '] else []), e.2⟩

/-- The texts of entries, each followed by a comma. -/
def entriesComma : List EntryText → Str
  | [] => []
  | e :: es => e.render ++ ',' :: entriesComma es

/-- The texts of the number grammar `-?(0|[1-9][0-9]*)(\.[0-9]+)?([eE][+-]?[0-9]*)?`: an
optional `-`, an integer part that is `0` or a digit other than `0` followed by
digits, an optional fraction, and an optional exponent.  With `strict` set the
fraction is a `.` followed by at least one digit, as the grammar says; without it the
fraction is a `.` followed by any number of digits, `(\.[0-9]*)?`. -/
def NumberText (strict : Bool) (c : Str) : Prop :=
  ∃ sign int frac exp : Str, c = sign ++ int ++ frac ++ exp ∧
    (sign = [] ∨ sign = ['-']) ∧
    (int = ['0'] ∨
      ∃ d ds, int = d :: ds ∧ isdigit d = true ∧ d ≠ '0' ∧ ∀ x ∈ ds, isdigit x = true) ∧
    (frac = [] ∨
      ∃ ds, frac = '.' :: ds ∧ (∀ x ∈ ds, isdigit x = true) ∧ (strict = true → ds ≠ [])) ∧
    (exp = [] ∨
      ∃ e sg ds, exp = e :: (sg ++ ds) ∧ (e = 'e' ∨ e = 'E') ∧
        (sg = [] ∨ sg = ['+'] ∨ sg = ['-']) ∧ ∀ x ∈ ds, isdigit x = true)

/-- The text `s` with every space and every newline character deleted. -/
def dropBlanks (s : Str) : Str :=
  s.filter (fun c => !(decide (c = ' ') || decide (c = '\n')))

/-- The text `s` with every space character deleted. -/
def dropSpaceChars (s : Str) : Str :=
  s.filter (fun c => !decide (c = ' '))

/-- The text `s` holds no space and no newline character. -/
def noBlank (s : Str) : Bool :=
  s.all (fun c => !(decide (c = ' ') || decide (c = '\n')))

mutual
/-- The strings and the object keys of a node hold no space and no newline
character. -/
def noBlanks : JsonNode → Bool
  | .string v => noBlank v
  | .array arg => noBlanks.array arg
  | .object arg => noBlanks.object arg
  | _ => true
/-- The strings and keys of the elements of an Array hold no space and no newline. -/
def noBlanks.array : List JsonNode → Bool
  | [] => true
  | e :: es => noBlanks e && noBlanks.array es
/-- The keys of an Object and the strings and keys of its values hold no space and no
newline. -/
def noBlanks.object : List (Str × JsonNode) → Bool
  | [] => true
  | (k, v) :: m => noBlank k && noBlanks v && noBlanks.object m
end

/-- The outcome `r` is a result, or it is an error for which `Q` holds. -/
def FailsOnly {α : Type} (Q : JsonError → Prop) : Except JsonError α → Prop
  | .ok _ => True
  | .error e => Q e

/-- The number of opening brackets and opening braces in a text. -/
def openings (b : List Char) : Nat := b.countP (fun c => c == '[' || c == '\x7b')

/-! # Lemmas and theorems -/

/-! ## Stream primitives on a good stream -/

section StreamLemmas
open JsonParser

theorem isspace_eofChar : isspace eofChar = false := by decide

theorem isdigit_eofChar : isdigit eofChar = false := by decide

@[simp] theorem StreamPeek_nil : StreamPeek ⟨[], false⟩ = .ok eofChar := rfl

@[simp] theorem StreamPeek_cons (c : Char) (cs : List Char) :
    StreamPeek ⟨c :: cs, false⟩ = .ok c := rfl

@[simp] theorem StreamGet_nil :
    StreamGet ⟨[], false⟩ = .error (.runtime_error "istream bad after get()".toList) := rfl

@[simp] theorem StreamGet_cons (c : Char) (cs : List Char) :
    StreamGet ⟨c :: cs, false⟩ = .ok (c, ⟨cs, false⟩) := rfl

@[simp] theorem StreamPeek_eofbit (b : List Char) :
    StreamPeek ⟨b, true⟩ = .error (.runtime_error "istream bad after peek()".toList) := rfl

@[simp] theorem StreamGet_eofbit (b : List Char) :
    StreamGet ⟨b, true⟩ = .error (.runtime_error "istream bad after get()".toList) := rfl

theorem StreamPeek_good (b : List Char) : StreamPeek ⟨b, false⟩ = .ok (peekChar b) := by
  cases b <;> rfl

theorem SkipWhiteSpaces_loop_good (b : List Char) :
    ∀ n, b.length < n → SkipWhiteSpaces.loop n ⟨b, false⟩ = .ok ⟨dropSpaces b, false⟩ := by
  induction b with
  | nil =>
    intro n hn
    cases n with
    | zero => simp at hn
    | succ n => simp [SkipWhiteSpaces.loop, bind, Except.bind, isspace_eofChar, dropSpaces, pure, Except.pure]
  | cons c cs ih =>
    intro n hn
    cases n with
    | zero => simp at hn
    | succ n =>
      simp only [List.length_cons, Nat.add_lt_add_iff_right] at hn
      by_cases hc : isspace c = true
      · simp [SkipWhiteSpaces.loop, bind, Except.bind, hc, dropSpaces, ih n hn]
      · simp [SkipWhiteSpaces.loop, bind, Except.bind, hc, dropSpaces, pure, Except.pure]

theorem SkipWhiteSpaces_good (b : List Char) :
    SkipWhiteSpaces ⟨b, false⟩ = .ok ⟨dropSpaces b, false⟩ :=
  SkipWhiteSpaces_loop_good b _ (Nat.lt_succ_self _)

theorem SkipWhiteSpaces_eofbit (b : List Char) :
    SkipWhiteSpaces ⟨b, true⟩ = .error (.runtime_error "istream bad after peek()".toList) := by
  simp [SkipWhiteSpaces, SkipWhiteSpaces.loop, bind, Except.bind]

theorem dropSpaces_idem (b : List Char) : dropSpaces (dropSpaces b) = dropSpaces b := by
  induction b with
  | nil => rfl
  | cons c cs ih =>
    by_cases hc : isspace c = true
    · simp [dropSpaces, hc, ih]
    · simp [dropSpaces, hc]

theorem dropSpaces_cons_of_not_space {c : Char} (hc : isspace c = false) (cs : List Char) :
    dropSpaces (c :: cs) = c :: cs := by
  simp [dropSpaces, hc]

theorem dropSpaces_cons_of_space {c : Char} (hc : isspace c = true) (cs : List Char) :
    dropSpaces (c :: cs) = dropSpaces cs := by
  simp [dropSpaces, hc]

theorem dropSpaces_append_of_all (w : List Char) (hw : ∀ c ∈ w, isspace c = true)
    (r : List Char) : dropSpaces (w ++ r) = dropSpaces r := by
  induction w with
  | nil => rfl
  | cons c cs ih =>
    have hc := hw c (List.mem_cons_self _ _)
    simp only [List.cons_append, dropSpaces, hc, if_true]
    exact ih (fun x hx => hw x (List.mem_cons_of_mem _ hx))

/-- The first character of what is left after white space is no white space. -/
theorem peekChar_dropSpaces (b : List Char) : isspace (peekChar (dropSpaces b)) = false := by
  induction b with
  | nil => exact isspace_eofChar
  | cons c cs ih =>
    by_cases hc : isspace c = true
    · simpa [dropSpaces, hc] using ih
    · simp [dropSpaces, hc, peekChar]

/-- Closed form of `SkipSymbol` on a good stream, for a symbol other than the
end-of-input character. -/
theorem SkipSymbol_good (b : List Char) (ch : Char) (hch : ch ≠ eofChar) :
    SkipSymbol ⟨b, false⟩ ch =
      .ok (match dropSpaces b with
        | [] => (false, ⟨[], false⟩)
        | c :: cs => if c = ch then (true, ⟨dropSpaces cs, false⟩) else (false, ⟨c :: cs, false⟩)) := by
  unfold SkipSymbol
  simp only [SkipWhiteSpaces_good, bind, Except.bind]
  cases h : dropSpaces b with
  | nil =>
    simp [Ne.symm hch, SkipWhiteSpaces_good, dropSpaces, pure, Except.pure]
  | cons c cs =>
    by_cases hc : c = ch
    · simp [hc, SkipWhiteSpaces_good, pure, Except.pure]
    · have : dropSpaces (c :: cs) = c :: cs := by rw [← h, dropSpaces_idem]
      simp [hc, SkipWhiteSpaces_good, this, pure, Except.pure]

end StreamLemmas

open JsonParser

/-- C1 (as the code behaves): decoding the text with key "a", a colon and no value fails
in `ReadOther`, which reads the token made of the closing brace and throws the plain
`std::runtime_error` with the text `Expected true|false|null`. -/
theorem C1_missing_value_error :
    Read (istream "\x7b\"a\": \x7d")
      = .error (.runtime_error "Expected true|false|null".toList) := by
  rfl

/-- C1 refuted as stated: the failure of decoding the text with key "a", a colon and no
value is no `JsonParserException`, whatever its message. -/
theorem C1_not_parser_exception :
    ¬ ∃ what, Read (istream "\x7b\"a\": \x7d") = .error (.JsonParserException what) := by
  rintro ⟨what, h⟩
  have h2 : Read (istream "\x7b\"a\": \x7d")
      = .error (.runtime_error "Expected true|false|null".toList) := rfl
  rw [h2] at h
  cases h

section StringLemmas
open JsonParser

theorem isspace_quote : isspace '"' = false := by decide

/-- The loop of `ReadString` on a good stream that holds a double quote: everything
in front of the first double quote is appended, the quote stays unread. -/
theorem ReadString_loop_good (s rest : List Char) (hs : '"' ∉ s) :
    ∀ n acc, s.length < n →
      ReadString.loop n acc ⟨s ++ '"' :: rest, false⟩ = .ok (acc ++ s, ⟨'"' :: rest, false⟩) := by
  induction s with
  | nil =>
    intro n acc hn
    cases n with
    | zero => simp at hn
    | succ n => simp [ReadString.loop, bind, Except.bind, pure, Except.pure]
  | cons c cs ih =>
    intro n acc hn
    cases n with
    | zero => simp at hn
    | succ n =>
      simp only [List.length_cons, Nat.add_lt_add_iff_right] at hn
      have hc : c ≠ '"' := fun h => hs (h ▸ List.mem_cons_self _ _)
      have hcs : '"' ∉ cs := fun h => hs (List.mem_cons_of_mem _ h)
      simp [ReadString.loop, bind, Except.bind, hc, ih hcs n (acc ++ [c]) hn]

/-- Closed form of `ReadString` on a quoted text. -/
theorem ReadString_good (s rest : List Char) (hs : '"' ∉ s) :
    ReadString ⟨'"' :: s ++ '"' :: rest, false⟩ = .ok (JsonNode.string s, ⟨rest, false⟩) := by
  unfold ReadString
  simp only [List.cons_append, StreamGet_cons, bind, Except.bind, ne_eq, not_true_eq_false,
    if_false]
  rw [ReadString_loop_good s rest hs _ [] (by simp; omega)]
  simp [pure, Except.pure]

/-- The dispatch of `ReadDepth` on a good stream whose first character after white
space is a double quote. -/
theorem ReadDepth_quote (d : Nat) (b t : List Char) (h : dropSpaces b = '"' :: t) :
    ReadDepth (d + 1) ⟨b, false⟩ = ReadString ⟨'"' :: t, false⟩ := by
  simp [ReadDepth, SkipWhiteSpaces_good, h, bind, Except.bind]

end StringLemmas

section LiteralLemmas
open JsonParser

/-- Reading a quoted text without an inner double quote through `Read`. -/
theorem Read_quoted (s rest : List Char) (hs : '"' ∉ s) :
    Read ⟨'"' :: s ++ '"' :: rest, false⟩ = .ok (JsonNode.string s, ⟨rest, false⟩) := by
  unfold Read
  rw [show ('"' :: s ++ '"' :: rest) = '"' :: (s ++ '"' :: rest) from rfl,
    ReadDepth_quote _ _ (s ++ '"' :: rest) (dropSpaces_cons_of_not_space isspace_quote _)]
  exact ReadString_good s rest hs

theorem takeToken_append (tok rest : List Char) (htok : ∀ c ∈ tok, isspace c = false)
    (hrest : rest = [] ∨ isspace (peekChar rest) = true) :
    takeToken (tok ++ rest) = tok := by
  induction tok with
  | nil =>
    rcases hrest with h | h
    · subst h; rfl
    · cases rest with
      | nil => simp [peekChar, isspace_eofChar] at h
      | cons c cs =>
        simp only [peekChar, List.headD_cons] at h
        simp [takeToken, h]
  | cons c cs ih =>
    have hc := htok c (List.mem_cons_self _ _)
    have h := ih (fun x hx => htok x (List.mem_cons_of_mem _ hx))
    simp [takeToken, hc, h]

theorem dropToken_append (tok rest : List Char) (htok : ∀ c ∈ tok, isspace c = false)
    (hrest : rest = [] ∨ isspace (peekChar rest) = true) :
    dropToken (tok ++ rest) = rest := by
  induction tok with
  | nil =>
    rcases hrest with h | h
    · subst h; rfl
    · cases rest with
      | nil => simp [peekChar, isspace_eofChar] at h
      | cons c cs =>
        simp only [peekChar, List.headD_cons] at h
        simp [dropToken, h]
  | cons c cs ih =>
    have hc := htok c (List.mem_cons_self _ _)
    have h := ih (fun x hx => htok x (List.mem_cons_of_mem _ hx))
    simp [dropToken, hc, h]

theorem dropSpaces_of_head_not_space (b : List Char) (h : isspace (peekChar b) = false) :
    dropSpaces b = b := by
  cases b with
  | nil => rfl
  | cons c cs => exact dropSpaces_cons_of_not_space (by simpa [peekChar] using h) cs

/-- The dispatch of `ReadDepth` on a good stream whose first character after white
space starts none of the other four kinds of token. -/
theorem ReadDepth_other (d : Nat) (b : List Char)
    (h1 : peekChar (dropSpaces b) ≠ '\x7b') (h2 : peekChar (dropSpaces b) ≠ '[')
    (h3 : peekChar (dropSpaces b) ≠ '"') (h4 : isdigit (peekChar (dropSpaces b)) = false)
    (h5 : peekChar (dropSpaces b) ≠ '-') :
    ReadDepth (d + 1) ⟨b, false⟩ = ReadOther ⟨dropSpaces b, false⟩ := by
  simp [ReadDepth, SkipWhiteSpaces_good, StreamPeek_good, h1, h2, h3, h4, h5, bind, Except.bind]

/-- Closed form of `ReadOther` on a good stream. -/
theorem ReadOther_good (b : List Char) :
    ReadOther ⟨b, false⟩ =
      (let tok := takeToken (dropSpaces b)
       let i : IStream := ⟨dropToken (dropSpaces b), decide (dropToken (dropSpaces b) = [])⟩
       if tok = "true".toList then .ok (JsonNode.bool true, i)
       else if tok = "false".toList then .ok (JsonNode.bool false, i)
       else if tok = "null".toList then .ok (JsonNode.null, i)
       else .error (.runtime_error "Expected true|false|null".toList)) := by
  simp only [ReadOther, extractString, Bool.false_eq_true, if_false, pure, Except.pure, throw,
    throwThe, MonadExceptOf.throw]

/-- Decoding of a token that starts none of the other four kinds of value. -/
theorem Read_literal (ws tok rest : List Char)
    (hws : ∀ c ∈ ws, isspace c = true) (htok : ∀ c ∈ tok, isspace c = false)
    (hrest : rest = [] ∨ isspace (peekChar rest) = true)
    (h1 : peekChar tok ≠ '\x7b') (h2 : peekChar tok ≠ '[') (h3 : peekChar tok ≠ '"')
    (h4 : isdigit (peekChar tok) = false) (h5 : peekChar tok ≠ '-') (hne : tok ≠ []) :
    Read ⟨ws ++ (tok ++ rest), false⟩ =
      if tok = "true".toList then .ok (JsonNode.bool true, ⟨rest, decide (rest = [])⟩)
      else if tok = "false".toList then .ok (JsonNode.bool false, ⟨rest, decide (rest = [])⟩)
      else if tok = "null".toList then .ok (JsonNode.null, ⟨rest, decide (rest = [])⟩)
      else .error (.runtime_error "Expected true|false|null".toList) := by
  obtain ⟨c, cs, rfl⟩ := List.exists_cons_of_ne_nil hne
  have hc : isspace c = false := htok c (List.mem_cons_self _ _)
  have hd : dropSpaces (ws ++ (c :: cs ++ rest)) = c :: cs ++ rest := by
    rw [dropSpaces_append_of_all ws hws]
    exact dropSpaces_cons_of_not_space hc _
  have hp : peekChar (c :: cs ++ rest) = peekChar (c :: cs) := rfl
  unfold Read
  rw [ReadDepth_other _ _ (by rw [hd, hp]; exact h1) (by rw [hd, hp]; exact h2)
    (by rw [hd, hp]; exact h3) (by rw [hd, hp]; exact h4) (by rw [hd, hp]; exact h5)]
  rw [ReadOther_good, dropSpaces_idem, hd, takeToken_append _ _ htok hrest,
    dropToken_append _ _ htok hrest]

end LiteralLemmas

/-- C8: a quoted text `"s"` in which `s` holds no double quote decodes to the String
node with content exactly `s`, backslashes and control characters included, and the
stream is left right behind the closing quote, whatever follows it. -/
theorem C8_string_verbatim (s rest : List Char) (hs : '"' ∉ s) :
    JsonParser.Read ⟨'"' :: s ++ '"' :: rest, false⟩
      = .ok (JsonNode.string s, ⟨rest, false⟩) :=
  Read_quoted s rest hs

/-- C8 at the text a, backslash, quote, b, quote behind an opening quote: the String
is the two characters a and backslash, and b and the last quote stay unread. -/
theorem C8_string_verbatim_witness :
    '"' ∉ ['a', '\\'] ∧
    JsonParser.Read (istream "\"a\\\"b\"")
      = .ok (JsonNode.string ['a', '\\'], ⟨['b', '"'], false⟩) :=
  ⟨by decide, C8_string_verbatim ['a', '\\'] ['b', '"'] (by decide)⟩

/-- C7: when the first character after white space starts neither an object, an
array, a string nor a number, `Read` takes the longest run of characters without
white space as one token; it returns Bool true, Bool false or Null exactly for the
tokens `true`, `false`, `null` and throws `Expected true|false|null` for every other
token.  A literal with a closing bracket, brace or a comma directly behind it is such
another token: the texts `[true]` and the object with entry "a":null are rejected. -/
theorem C7_literal_token :
    (∀ ws tok rest : List Char,
      (∀ c ∈ ws, isspace c = true) → (∀ c ∈ tok, isspace c = false) → tok ≠ [] →
      (rest = [] ∨ isspace (peekChar rest) = true) →
      peekChar tok ≠ '\x7b' → peekChar tok ≠ '[' → peekChar tok ≠ '"' →
      isdigit (peekChar tok) = false → peekChar tok ≠ '-' →
      JsonParser.Read ⟨ws ++ (tok ++ rest), false⟩ =
        if tok = "true".toList then .ok (JsonNode.bool true, ⟨rest, decide (rest = [])⟩)
        else if tok = "false".toList then .ok (JsonNode.bool false, ⟨rest, decide (rest = [])⟩)
        else if tok = "null".toList then .ok (JsonNode.null, ⟨rest, decide (rest = [])⟩)
        else .error (.runtime_error "Expected true|false|null".toList)) ∧
    JsonParser.Read (istream "[true]")
      = .error (.runtime_error "Expected true|false|null".toList) ∧
    JsonParser.Read (istream "\x7b\"a\":null\x7d")
      = .error (.runtime_error "Expected true|false|null".toList) :=
  ⟨fun ws tok rest hws htok hne hrest h1 h2 h3 h4 h5 =>
      Read_literal ws tok rest hws htok hrest h1 h2 h3 h4 h5 hne, rfl, rfl⟩

/-- C7 at the text ` false x`: the token `false` in front of white space decodes to
Bool false and the stream stops in front of that white space. -/
theorem C7_literal_token_witness :
    JsonParser.Read (istream " false x")
      = .ok (JsonNode.bool false, ⟨[' ', 'x'], false⟩) :=
  C7_literal_token.1 [' '] "false".toList [' ', 'x'] (by decide) (by decide) (by decide)
    (Or.inr (by decide)) (by decide) (by decide) (by decide) (by decide) (by decide)

section NumberLemmas
open JsonParser

theorem isdigit_digitChar {d : Nat} (h : d < 10) : isdigit (digitChar d) = true := by
  interval_cases d <;> decide

theorem digitVal_digitChar {d : Nat} (h : d < 10) : digitVal (digitChar d) = d := by
  interval_cases d <;> decide

theorem digitChar_ne_zero {d : Nat} (h : d < 10) (h0 : d ≠ 0) : digitChar d ≠ '0' := by
  interval_cases d <;> first | exact absurd rfl h0 | decide

theorem natDigits_acc (f : Nat) : ∀ n acc, natDigits f n acc = natDigits f n [] ++ acc := by
  induction f with
  | zero => intro n acc; rfl
  | succ f ih =>
    intro n acc
    by_cases h : n < 10
    · simp [natDigits, h]
    · simp only [natDigits, h, if_false]
      rw [ih (n / 10) (digitChar (n % 10) :: acc), ih (n / 10) [digitChar (n % 10)]]
      simp

theorem natDigits_fuel (f : Nat) :
    ∀ g n, n < 10 ^ (f + 1) → n < 10 ^ (g + 1) →
      natDigits (f + 1) n [] = natDigits (g + 1) n [] := by
  induction f with
  | zero =>
    intro g n hf _
    have h : n < 10 := by simpa using hf
    simp [natDigits, h]
  | succ f ih =>
    intro g n hf hg
    by_cases h : n < 10
    · simp [natDigits, h]
    · cases g with
      | zero => exact absurd (by simpa using hg) h
      | succ g =>
        have h1 : n / 10 < 10 ^ (f + 1) := by
          rw [Nat.div_lt_iff_lt_mul (by norm_num)]
          calc n < 10 ^ (f + 1 + 1) := hf
            _ = 10 ^ (f + 1) * 10 := by ring
        have h2 : n / 10 < 10 ^ (g + 1) := by
          rw [Nat.div_lt_iff_lt_mul (by norm_num)]
          calc n < 10 ^ (g + 1 + 1) := hg
            _ = 10 ^ (g + 1) * 10 := by ring
        have e1 : natDigits (f + 1 + 1) n [] = natDigits (f + 1) (n / 10) [digitChar (n % 10)] := by
          simp [natDigits, h]
        have e2 : natDigits (g + 1 + 1) n [] = natDigits (g + 1) (n / 10) [digitChar (n % 10)] := by
          simp [natDigits, h]
        rw [e1, e2, natDigits_acc (f + 1), natDigits_acc (g + 1), ih g (n / 10) h1 h2]

theorem showNat_lt_ten {n : Nat} (h : n < 10) : showNat n = [digitChar n] := by
  simp [showNat, natDigits, h]

theorem showNat_ge_ten {n : Nat} (h : ¬ n < 10) :
    showNat n = showNat (n / 10) ++ [digitChar (n % 10)] := by
  have hn : n = (n - 1) + 1 := by omega
  have e1 : showNat n = natDigits n (n / 10) [digitChar (n % 10)] := by
    simp [showNat, natDigits, h]
  rw [e1, natDigits_acc, hn]
  congr 1
  have h3 : (n - 1 + 1) / 10 = n / 10 := by rw [← hn]
  rw [h3]
  apply natDigits_fuel
  · calc n / 10 < n := Nat.div_lt_self (by omega) (by norm_num)
      _ < 10 ^ n := Nat.lt_pow_self (by norm_num : 1 < 10) n
      _ = 10 ^ (n - 1 + 1) := by rw [← hn]
  · exact lt_trans (Nat.lt_pow_self (by norm_num : 1 < 10) _)
      (Nat.pow_lt_pow_right (by norm_num) (Nat.lt_succ_self _))

theorem showNat_digits (n : Nat) : ∀ c ∈ showNat n, isdigit c = true := by
  induction n using Nat.strong_induction_on with
  | _ n ih =>
    by_cases h : n < 10
    · rw [showNat_lt_ten h]
      intro c hc
      simp only [List.mem_singleton] at hc
      subst hc
      exact isdigit_digitChar h
    · rw [showNat_ge_ten h]
      intro c hc
      rcases List.mem_append.1 hc with hc | hc
      · exact ih (n / 10) (Nat.div_lt_self (by omega) (by norm_num)) c hc
      · simp only [List.mem_singleton] at hc
        subst hc
        exact isdigit_digitChar (Nat.mod_lt _ (by norm_num))

theorem digitsVal_cons (a : Nat) (c : Char) (cs : List Char) :
    digitsVal a (c :: cs) = digitsVal (a * 10 + digitVal c) cs := rfl

theorem digitsVal_nil (a : Nat) : digitsVal a [] = a := rfl

theorem digitsVal_append (xs ys : List Char) :
    ∀ a, digitsVal a (xs ++ ys) = digitsVal (digitsVal a xs) ys := by
  induction xs with
  | nil => intro a; rfl
  | cons c cs ih =>
    intro a
    rw [List.cons_append, digitsVal_cons, digitsVal_cons]
    exact ih _

theorem digitsVal_showNat (n : Nat) : digitsVal 0 (showNat n) = n := by
  induction n using Nat.strong_induction_on with
  | _ n ih =>
    by_cases h : n < 10
    · rw [showNat_lt_ten h, digitsVal_cons, digitsVal_nil, digitVal_digitChar h]
      omega
    · rw [showNat_ge_ten h, digitsVal_append, ih (n / 10) (Nat.div_lt_self (by omega) (by norm_num)),
        digitsVal_cons, digitsVal_nil, digitVal_digitChar (Nat.mod_lt n (by norm_num : 10 > 0))]
      omega

/-- The decimal text of a positive number starts with a digit other than `0`. -/
theorem showNat_head (n : Nat) (hn : 0 < n) :
    ∃ c cs, showNat n = c :: cs ∧ c ≠ '0' ∧ isdigit c = true := by
  induction n using Nat.strong_induction_on with
  | _ n ih =>
    by_cases h : n < 10
    · exact ⟨digitChar n, [], showNat_lt_ten h, digitChar_ne_zero h (by omega), isdigit_digitChar h⟩
    · obtain ⟨c, cs, e, hc, hd⟩ := ih (n / 10) (Nat.div_lt_self (by omega) (by norm_num))
        (Nat.div_pos (by omega) (by norm_num))
      exact ⟨c, cs ++ [digitChar (n % 10)], by rw [showNat_ge_ten h, e]; rfl, hc, hd⟩

theorem showNat_zero : showNat 0 = ['0'] := rfl

theorem takeDigits_append (ds rest : List Char) (hds : ∀ c ∈ ds, isdigit c = true)
    (hrest : isdigit (peekChar rest) = false) : takeDigits (ds ++ rest) = ds := by
  induction ds with
  | nil =>
    cases rest with
    | nil => rfl
    | cons c cs =>
      have : isdigit c = false := by simpa [peekChar] using hrest
      simp [takeDigits, this]
  | cons c cs ih =>
    have hc := hds c (List.mem_cons_self _ _)
    have h := ih (fun x hx => hds x (List.mem_cons_of_mem _ hx))
    simp [takeDigits, hc, h]

theorem dropDigits_append (ds rest : List Char) (hds : ∀ c ∈ ds, isdigit c = true)
    (hrest : isdigit (peekChar rest) = false) : dropDigits (ds ++ rest) = rest := by
  induction ds with
  | nil =>
    cases rest with
    | nil => rfl
    | cons c cs =>
      have : isdigit c = false := by simpa [peekChar] using hrest
      simp [dropDigits, this]
  | cons c cs ih =>
    have hc := hds c (List.mem_cons_self _ _)
    have h := ih (fun x hx => hds x (List.mem_cons_of_mem _ hx))
    simp [dropDigits, hc, h]

/-- Closed form of the digit loop of `ReadNumber` on a good stream. -/
theorem ReadNumber_digits_good (b : List Char) :
    ∀ n acc, b.length < n →
      ReadNumber.digits n acc ⟨b, false⟩ = .ok (acc ++ takeDigits b, ⟨dropDigits b, false⟩) := by
  induction b with
  | nil =>
    intro n acc hn
    cases n with
    | zero => simp at hn
    | succ n =>
      simp [ReadNumber.digits, bind, Except.bind, isdigit_eofChar, takeDigits, dropDigits, pure,
        Except.pure]
  | cons c cs ih =>
    intro n acc hn
    cases n with
    | zero => simp at hn
    | succ n =>
      simp only [List.length_cons, Nat.add_lt_add_iff_right] at hn
      by_cases hc : isdigit c = true
      · simp [ReadNumber.digits, bind, Except.bind, hc, takeDigits, dropDigits, ih n _ hn]
      · simp [ReadNumber.digits, bind, Except.bind, hc, takeDigits, dropDigits, pure, Except.pure]

end NumberLemmas

section NumberScan
open JsonParser

theorem cons_of_peekChar {b : List Char} {c : Char} (h : peekChar b = c) (hc : c ≠ eofChar) :
    b = c :: b.tail := by
  cases b with
  | nil => exact absurd h.symm hc
  | cons x t => simp only [peekChar, List.headD_cons] at h; subst h; rfl

theorem cons_of_isdigit_peekChar {b : List Char} (h : isdigit (peekChar b) = true) :
    b = peekChar b :: b.tail := by
  cases b with
  | nil => simp [peekChar, isdigit_eofChar] at h
  | cons x t => rfl

theorem ReadNumber_sign_good (b : List Char) :
    ReadNumber.sign ⟨b, false⟩ = .ok ((scanSign b).1, ⟨(scanSign b).2, false⟩) := by
  unfold ReadNumber.sign scanSign
  simp only [StreamPeek_good, bind, Except.bind, pure, Except.pure]
  by_cases h : peekChar b = '-'
  · have hb := cons_of_peekChar h (by decide)
    rw [hb]
    simp [peekChar]
  · simp [h]

theorem ReadNumber_integer_good (s b : List Char) :
    ReadNumber.integer s ⟨b, false⟩ =
      match scanInt (s, b) with
      | none => .error (.runtime_error ("Read from stream ".toList ++ [peekChar b]
          ++ "when expected digit".toList))
      | some p => .ok (p.1, ⟨p.2, false⟩) := by
  unfold ReadNumber.integer scanInt
  simp only [StreamPeek_good, bind, Except.bind, pure, Except.pure]
  by_cases h : peekChar b = '0'
  · have hb := cons_of_peekChar h (by decide)
    rw [hb]
    simp [peekChar]
  · by_cases hd : isdigit (peekChar b) = true
    · simp only [h, hd, if_false, if_true]
      rw [ReadNumber_digits_good b _ s (Nat.lt_succ_self _)]
    · simp [h, hd, throw, throwThe, MonadExceptOf.throw]

theorem ReadNumber_fraction_good (s b : List Char) :
    ReadNumber.fraction s ⟨b, false⟩ =
      .ok ((scanFrac (s, b)).1, ⟨(scanFrac (s, b)).2.1, false⟩, (scanFrac (s, b)).2.2) := by
  unfold ReadNumber.fraction scanFrac
  simp only [StreamPeek_good, bind, Except.bind, pure, Except.pure]
  by_cases h : peekChar b = '.'
  · have hb := cons_of_peekChar h (by decide)
    generalize b.tail = t at hb
    subst hb
    simp only [StreamGet_cons, peekChar, List.headD_cons, if_true, List.tail_cons]
    rw [ReadNumber_digits_good t _ _ (Nat.lt_succ_self _)]
    simp
  · simp [h]

theorem ReadNumber_exponent_good (s b : List Char) (dbl : Bool) :
    ReadNumber.exponent s ⟨b, false⟩ dbl =
      .ok ((scanExp (s, b, dbl)).1, ⟨(scanExp (s, b, dbl)).2.1, false⟩,
        (scanExp (s, b, dbl)).2.2) := by
  unfold ReadNumber.exponent scanExp
  simp only [StreamPeek_good, bind, Except.bind, pure, Except.pure]
  by_cases h : peekChar b = 'E' ∨ peekChar b = 'e'
  · have hb : b = peekChar b :: b.tail := by
      rcases h with h | h
      · have := cons_of_peekChar h (by decide); rw [h]; exact this
      · have := cons_of_peekChar h (by decide); rw [h]; exact this
    generalize hc : peekChar b = c at hb h
    generalize b.tail = t at hb
    subst hb
    simp only [StreamGet_cons, h, if_true, List.tail_cons, StreamPeek_good]
    by_cases h2 : peekChar t = '+' ∨ peekChar t = '-'
    · have ht : t = peekChar t :: t.tail := by
        rcases h2 with h2 | h2
        · have := cons_of_peekChar h2 (by decide); rw [h2]; exact this
        · have := cons_of_peekChar h2 (by decide); rw [h2]; exact this
      generalize hc2 : peekChar t = c2 at ht h2
      generalize t.tail = u at ht
      subst ht
      simp only [StreamGet_cons, h2, if_true, List.tail_cons]
      rw [ReadNumber_digits_good u _ _ (Nat.lt_succ_self _)]
    · simp only [h2, if_false]
      rw [ReadNumber_digits_good t _ _ (Nat.lt_succ_self _)]
  · simp [h]

/-- Closed form of `ReadNumber` on a good stream. -/
theorem ReadNumber_good (b : List Char) :
    ReadNumber ⟨b, false⟩ =
      match scanInt (scanSign b) with
      | none => .error (.runtime_error ("Read from stream ".toList ++ [peekChar (scanSign b).2]
          ++ "when expected digit".toList))
      | some p =>
        match ReadNumber.convert (scanExp (scanFrac p)).1 (scanExp (scanFrac p)).2.2 with
        | .error e => .error e
        | .ok node => .ok (node, ⟨(scanExp (scanFrac p)).2.1, false⟩) := by
  unfold ReadNumber
  simp only [ReadNumber_sign_good, ReadNumber_integer_good, bind, Except.bind]
  cases h : scanInt (scanSign b) with
  | none => rfl
  | some p =>
    simp only [ReadNumber_fraction_good, ReadNumber_exponent_good]
    cases ReadNumber.convert (scanExp (scanFrac p)).1 (scanExp (scanFrac p)).2.2 <;> rfl

end NumberScan

section NumberText
open JsonParser

theorem isspace_of_isdigit {c : Char} (h : isdigit c = true) : isspace c = false := by
  simp only [isdigit, isspace, Bool.and_eq_true, decide_eq_true_eq] at h ⊢
  simp only [Bool.or_eq_false_iff, Bool.and_eq_false_iff, decide_eq_false_iff_not]
  omega

theorem toNat_of_eq {c d : Char} (h : c = d) : c.toNat = d.toNat := by rw [h]

theorem isdigit_ne {c d : Char} (h : isdigit c = true) (hd : isdigit d = false) : c ≠ d := by
  intro e; rw [e, hd] at h; exact absurd h (by decide)

theorem peekChar_append_cons (c : Char) (cs rest : List Char) :
    peekChar (c :: cs ++ rest) = c := rfl

/-- The dispatch of `ReadDepth` on a good stream whose first character after white
space is a digit or a minus sign. -/
theorem ReadDepth_number (d : Nat) (b : List Char)
    (h : isdigit (peekChar (dropSpaces b)) = true ∨ peekChar (dropSpaces b) = '-') :
    ReadDepth (d + 1) ⟨b, false⟩ = ReadNumber ⟨dropSpaces b, false⟩ := by
  have h1 : peekChar (dropSpaces b) ≠ '\x7b' := by
    rcases h with h | h
    · exact isdigit_ne h (by decide)
    · rw [h]; decide
  have h2 : peekChar (dropSpaces b) ≠ '[' := by
    rcases h with h | h
    · exact isdigit_ne h (by decide)
    · rw [h]; decide
  have h3 : peekChar (dropSpaces b) ≠ '"' := by
    rcases h with h | h
    · exact isdigit_ne h (by decide)
    · rw [h]; decide
  simp [ReadDepth, SkipWhiteSpaces_good, StreamPeek_good, h1, h2, h3, h, bind, Except.bind]

theorem showNat_ne_nil (n : Nat) : showNat n ≠ [] := by
  rcases Nat.eq_zero_or_pos n with h | h
  · subst h; simp [showNat_zero]
  · obtain ⟨c, cs, e, _, _⟩ := showNat_head n h
    simp [e]

/-- The first character of the decimal text of a natural number is a digit. -/
theorem showNat_cons (n : Nat) : ∃ c cs, showNat n = c :: cs ∧ isdigit c = true := by
  rcases Nat.eq_zero_or_pos n with h | h
  · subst h; exact ⟨'0', [], rfl, by decide⟩
  · obtain ⟨c, cs, e, _, hd⟩ := showNat_head n h
    exact ⟨c, cs, e, hd⟩

theorem takeDigits_showNat (n : Nat) : takeDigits (showNat n) = showNat n := by
  have := takeDigits_append (showNat n) [] (showNat_digits n) (by decide)
  simpa using this

/-- The integer that `strtol` reads from the decimal text of `i` is `i`. -/
theorem strtol_showInt (i : Int) : strtol (showInt i) = some i := by
  obtain ⟨c, cs, e, hd⟩ := showNat_cons i.natAbs
  have hne : takeDigits (showNat i.natAbs) ≠ [] := by
    rw [takeDigits_showNat]; exact showNat_ne_nil _
  by_cases hi : i < 0
  · have hs : showInt i = '-' :: showNat i.natAbs := by simp [showInt, hi]
    rw [hs]
    simp only [strtol]
    rw [dropSpaces_cons_of_not_space (by decide)]
    simp only [hne, if_false, takeDigits_showNat, digitsVal_showNat, if_true]
    have hab : -((i.natAbs : Nat) : Int) = i := by omega
    rw [hab, if_neg (showNat_ne_nil _)]
  · have hs : showInt i = showNat i.natAbs := by simp [showInt, hi]
    have hc1 : c ≠ '-' := isdigit_ne hd (by decide)
    have hc2 : c ≠ '+' := isdigit_ne hd (by decide)
    have hne2 : takeDigits (c :: cs) ≠ [] := by rw [← e]; exact hne
    have hv : digitsVal 0 (takeDigits (c :: cs)) = i.natAbs := by
      rw [← e, takeDigits_showNat, digitsVal_showNat]
    rw [hs, e]
    simp only [strtol]
    rw [dropSpaces_cons_of_not_space (isspace_of_isdigit hd)]
    split
    · rename_i t heq
      exact absurd (List.cons.inj heq).1 hc1
    · rename_i t heq
      exact absurd (List.cons.inj heq).1 hc2
    · simp only [hne2, if_false, hv]
      have hab : ((i.natAbs : Nat) : Int) = i := by omega
      simp [hab]

theorem stoi_showInt (i : Int) :
    stoi (showInt i) = if -2147483648 ≤ i ∧ i ≤ 2147483647 then some i else none := by
  simp only [stoi, strtol_showInt]

theorem stol_showInt (i : Int) :
    stol (showInt i)
      = if -9223372036854775808 ≤ i ∧ i ≤ 9223372036854775807 then some i else none := by
  simp only [stol, strtol_showInt]

/-- The stages of `ReadNumber` on the decimal text of a natural number in front of a
character that belongs to no number. -/
theorem scanInt_showNat (s : Str) (n : Nat) (rest : List Char)
    (hrest : numStop (peekChar rest)) :
    scanInt (s, showNat n ++ rest) = some (s ++ showNat n, rest) := by
  rcases Nat.eq_zero_or_pos n with h | h
  · subst h
    simp [scanInt, showNat_zero, peekChar]
  · obtain ⟨c, cs, e, hc, hd⟩ := showNat_head n h
    have hp : peekChar (showNat n ++ rest) = c := by rw [e]; rfl
    simp only [scanInt, hp, hc, if_false, hd, if_true]
    rw [takeDigits_append _ _ (showNat_digits n) hrest.1,
      dropDigits_append _ _ (showNat_digits n) hrest.1]

theorem scanFrac_stop (s rest : List Char) (hrest : numStop (peekChar rest)) :
    scanFrac (s, rest) = (s, rest, false) := by
  simp [scanFrac, hrest.2.2.2.1]

theorem scanExp_stop (s rest : List Char) (dbl : Bool) (hrest : numStop (peekChar rest)) :
    scanExp (s, rest, dbl) = (s, rest, dbl) := by
  simp [scanExp, hrest.2.2.2.2.1, hrest.2.2.2.2.2]

theorem scan_showInt (i : Int) (rest : List Char) (hrest : numStop (peekChar rest)) :
    scanInt (scanSign (showInt i ++ rest)) = some (showInt i, rest) := by
  by_cases hi : i < 0
  · have hs : showInt i = '-' :: showNat i.natAbs := by simp [showInt, hi]
    rw [hs]
    have : scanSign ('-' :: showNat i.natAbs ++ rest) = (['-'], showNat i.natAbs ++ rest) := by
      simp [scanSign, peekChar]
    rw [this, scanInt_showNat _ _ _ hrest]
    rfl
  · have hs : showInt i = showNat i.natAbs := by simp [showInt, hi]
    obtain ⟨c, cs, e, hd⟩ := showNat_cons i.natAbs
    have hc1 : c ≠ '-' := isdigit_ne hd (by decide)
    have : scanSign (showNat i.natAbs ++ rest) = ([], showNat i.natAbs ++ rest) := by
      rw [e]
      simp [scanSign, peekChar, hc1]
    rw [hs, this, scanInt_showNat _ _ _ hrest]
    rfl

/-- The first character of the decimal text of an integer: a digit or the minus
sign. -/
theorem showInt_head (i : Int) (rest : List Char) :
    dropSpaces (showInt i ++ rest) = showInt i ++ rest ∧
    (isdigit (peekChar (showInt i ++ rest)) = true ∨ peekChar (showInt i ++ rest) = '-') := by
  by_cases hi : i < 0
  · have hs : showInt i = '-' :: showNat i.natAbs := by simp [showInt, hi]
    rw [hs]
    exact ⟨dropSpaces_cons_of_not_space (by decide) _, Or.inr rfl⟩
  · have hs : showInt i = showNat i.natAbs := by simp [showInt, hi]
    obtain ⟨c, cs, e, hd⟩ := showNat_cons i.natAbs
    rw [hs, e]
    exact ⟨dropSpaces_cons_of_not_space (isspace_of_isdigit hd) _, Or.inl hd⟩

/-- Decoding of the decimal text of an integer in front of a character that belongs
to no number: the text is consumed and handed to the conversion. -/
theorem ReadDepth_showInt (d : Nat) (i : Int) (rest : List Char)
    (hrest : numStop (peekChar rest)) :
    ReadDepth (d + 1) ⟨showInt i ++ rest, false⟩ =
      match ReadNumber.convert (showInt i) false with
      | .error e => .error e
      | .ok node => .ok (node, ⟨rest, false⟩) := by
  have hh := showInt_head i rest
  rw [ReadDepth_number d _ (by rw [hh.1]; exact hh.2), hh.1, ReadNumber_good,
    scan_showInt i rest hrest]
  simp only [scanFrac_stop _ _ hrest, scanExp_stop _ _ _ hrest]

theorem numStop_eofChar : numStop (peekChar []) := by
  refine ⟨by decide, by decide, by decide, by decide, by decide, by decide⟩

theorem convert_int (i : Int) (h1 : -2147483648 ≤ i) (h2 : i ≤ 2147483647) :
    ReadNumber.convert (showInt i) false = .ok (JsonNode.int i) := by
  simp [ReadNumber.convert, stoi_showInt, h1, h2, pure, Except.pure]

theorem convert_long (i : Int) (h0 : ¬ (-2147483648 ≤ i ∧ i ≤ 2147483647))
    (h1 : -9223372036854775808 ≤ i) (h2 : i ≤ 9223372036854775807) :
    ReadNumber.convert (showInt i) false = .ok (JsonNode.long i) := by
  simp only [ReadNumber.convert, stoi_showInt, stol_showInt, h0, if_false]
  simp [h1, h2, pure, Except.pure]

/-- Decoding the decimal text of a 32-bit integer. -/
theorem Read_int (i : Int) (h1 : -2147483648 ≤ i) (h2 : i ≤ 2147483647) (rest : List Char)
    (hrest : numStop (peekChar rest)) :
    Read ⟨showInt i ++ rest, false⟩ = .ok (JsonNode.int i, ⟨rest, false⟩) := by
  unfold Read
  rw [ReadDepth_showInt _ i rest hrest, convert_int i h1 h2]

/-- Decoding the decimal text of a 64-bit integer outside the 32-bit range. -/
theorem Read_long (i : Int) (h0 : ¬ (-2147483648 ≤ i ∧ i ≤ 2147483647))
    (h1 : -9223372036854775808 ≤ i) (h2 : i ≤ 9223372036854775807) (rest : List Char)
    (hrest : numStop (peekChar rest)) :
    Read ⟨showInt i ++ rest, false⟩ = .ok (JsonNode.long i, ⟨rest, false⟩) := by
  unfold Read
  rw [ReadDepth_showInt _ i rest hrest, convert_long i h0 h1 h2]

end NumberText

section DoubleRange
open JsonParser

theorem ilog2Nat_spec (f : Nat) :
    ∀ n, 0 < n → n < 2 ^ f → 2 ^ ilog2Nat f n ≤ n ∧ n < 2 ^ (ilog2Nat f n + 1) := by
  induction f with
  | zero => intro n h0 h1; simp at h1; omega
  | succ f ih =>
    intro n h0 h1
    by_cases h : n < 2
    · have : n = 1 := by omega
      subst this
      simp [ilog2Nat]
    · have h2 : n / 2 < 2 ^ f := by
        rw [Nat.div_lt_iff_lt_mul (by norm_num)]
        calc n < 2 ^ (f + 1) := h1
          _ = 2 ^ f * 2 := by ring
      obtain ⟨a, b⟩ := ih (n / 2) (Nat.div_pos (by omega) (by norm_num)) h2
      simp only [ilog2Nat, h, if_false]
      constructor
      · calc 2 ^ (ilog2Nat f (n / 2) + 1) = 2 ^ ilog2Nat f (n / 2) * 2 := by ring
          _ ≤ n / 2 * 2 := Nat.mul_le_mul_right 2 a
          _ ≤ n := Nat.div_mul_le_self n 2
      · have : n / 2 + 1 ≤ 2 ^ (ilog2Nat f (n / 2) + 1) := b
        calc n < (n / 2 + 1) * 2 := by omega
          _ ≤ 2 ^ (ilog2Nat f (n / 2) + 1) * 2 := Nat.mul_le_mul_right 2 this
          _ = 2 ^ (ilog2Nat f (n / 2) + 1 + 1) := by ring

theorem ilog2_one (n : Nat) (h0 : 0 < n) : ilog2 n 1 = (ilog2Nat n n : Int) := by
  have hs := (ilog2Nat_spec n n h0 (Nat.lt_pow_self (by norm_num : 1 < 2) n)).1
  have h1 : ilog2Nat 1 1 = 0 := rfl
  simp only [ilog2, h1, scale2]
  simp [hs]

/-- The value of `roundHalfEven` lies between the quotient and its successor. -/
theorem roundHalfEven_bounds (num den : Nat) :
    num / den ≤ roundHalfEven num den ∧ roundHalfEven num den ≤ num / den + 1 := by
  unfold roundHalfEven
  simp only
  split
  · omega
  · split
    · omega
    · split <;> omega

end DoubleRange

section DoubleRange2
open JsonParser

/-- Shape of `Double.round` on an integer of at least 53 bits. -/
theorem round_int_eq (neg : Bool) (n : Nat) (h0 : 2 ^ 52 ≤ n) :
    Double.round neg n 1 =
      (if 1023 < (if roundHalfEven n (2 ^ (ilog2Nat n n - 52)) = 2 ^ 53
            then (ilog2Nat n n : Int) + 1 else (ilog2Nat n n : Int)) then none
       else some (if roundHalfEven n (2 ^ (ilog2Nat n n - 52)) = 2 ^ 53
            then ⟨neg, 2 ^ 52, (ilog2Nat n n : Int) - 52 + 1⟩
            else ⟨neg, roundHalfEven n (2 ^ (ilog2Nat n n - 52)), (ilog2Nat n n : Int) - 52⟩)) := by
  have hpos : 0 < n := lt_of_lt_of_le (by norm_num) h0
  obtain ⟨hL1, hL2⟩ := ilog2Nat_spec n n hpos (Nat.lt_pow_self (by norm_num : 1 < 2) n)
  have hL : 52 ≤ ilog2Nat n n := by
    by_contra hc
    have : ilog2Nat n n + 1 ≤ 52 := by omega
    have := Nat.pow_le_pow_right (by norm_num : 0 < 2) this
    omega
  have hq : (0 : Int) ≤ (ilog2Nat n n : Int) - 52 := by omega
  have hq2 : ((ilog2Nat n n : Int) - 52).toNat = ilog2Nat n n - 52 := by omega
  unfold Double.round
  rw [if_neg (by omega)]
  simp only [ilog2_one n hpos, scale2, hq, if_true, hq2, one_mul]
  have hge : (-1022 : Int) ≤ (if roundHalfEven n (2 ^ (ilog2Nat n n - 52)) = 2 ^ 53
      then (ilog2Nat n n : Int) + 1 else (ilog2Nat n n : Int)) := by
    split <;> omega
  rw [if_pos hge]

end DoubleRange2

section DoubleRange3
open JsonParser

theorem pow_split_1024 : (2 : Nat) ^ 1024 = 2 ^ 971 * 2 ^ 53 := by rw [← pow_add]
theorem pow_split_971 : (2 : Nat) ^ 971 = 2 * 2 ^ 970 := by rw [← pow_succ']
theorem pow_split_1023 : (2 : Nat) ^ 1023 = 2 ^ 971 * 2 ^ 52 := by rw [← pow_add]

/-- An integer of at least 53 bits below `2^1024 - 2^970` converts to a finite
`double`. -/
theorem round_int_some (neg : Bool) (n : Nat) (h0 : 2 ^ 52 ≤ n) (h1 : n < 2 ^ 1024 - 2 ^ 970) :
    ∃ d, Double.round neg n 1 = some d := by
  have hpos : 0 < n := lt_of_lt_of_le (by norm_num) h0
  obtain ⟨hL1, hL2⟩ := ilog2Nat_spec n n hpos (Nat.lt_pow_self (by norm_num : 1 < 2) n)
  rw [round_int_eq neg n h0]
  have hL : ilog2Nat n n ≤ 1023 := by
    by_contra hc
    have : 1024 ≤ ilog2Nat n n := by omega
    have := Nat.pow_le_pow_right (by norm_num : 0 < 2) this
    omega
  have hcond : ¬ (1023 : Int) < (if roundHalfEven n (2 ^ (ilog2Nat n n - 52)) = 2 ^ 53
      then (ilog2Nat n n : Int) + 1 else (ilog2Nat n n : Int)) := by
    split
    · rename_i hma
      rcases Nat.lt_or_ge (ilog2Nat n n) 1023 with hlt | hge
      · omega
      · have hLe : ilog2Nat n n = 1023 := by omega
        rw [hLe] at hma
        exfalso
        have hD : (2 : Nat) ^ (1023 - 52) = 2 ^ 971 := by norm_num
        rw [hD] at hma
        have hdm := Nat.div_add_mod n (2 ^ 971)
        have hr := Nat.mod_lt n (by positivity : 0 < 2 ^ 971)
        have hq : n / 2 ^ 971 < 2 ^ 53 := by
          rw [Nat.div_lt_iff_lt_mul (by positivity)]
          have := pow_split_1024
          omega
        unfold roundHalfEven at hma
        simp only at hma
        generalize n / 2 ^ 971 = q at *
        generalize n % 2 ^ 971 = r at *
        have e1 := pow_split_1024
        have e2 := pow_split_971
        generalize (2 : Nat) ^ 1024 = A at *
        generalize (2 : Nat) ^ 971 = D at *
        generalize (2 : Nat) ^ 970 = H at *
        have e53 : (2 : Nat) ^ 53 = 9007199254740992 := by norm_num
        rw [e53] at hma hq e1
        split at hma
        · omega
        · have hq' : q = 9007199254740991 := by
            split at hma <;> [omega; (split at hma <;> omega)]
          subst hq'
          have : D * 9007199254740991 + r < A - H := by omega
          rw [e1, e2] at this
          rw [e2] at hr
          rename_i hlt
          rw [e2] at hlt
          have e3 : 2 * H * 9007199254740992 = 2 * H * 9007199254740991 + 2 * H := by ring
          omega
    · omega
  rw [if_neg hcond]
  exact ⟨_, rfl⟩

/-- An integer from `2^1024 - 2^970` on is outside the range of `double`. -/
theorem round_int_none (neg : Bool) (n : Nat) (h1 : 2 ^ 1024 - 2 ^ 970 ≤ n) :
    Double.round neg n 1 = none := by
  have hT : (2 : Nat) ^ 1023 ≤ 2 ^ 1024 - 2 ^ 970 := by norm_num
  have h0 : 2 ^ 52 ≤ n := le_trans (by norm_num) (le_trans hT h1)
  have hpos : 0 < n := lt_of_lt_of_le (by norm_num) h0
  obtain ⟨hL1, hL2⟩ := ilog2Nat_spec n n hpos (Nat.lt_pow_self (by norm_num : 1 < 2) n)
  rw [round_int_eq neg n h0]
  have hL : 1023 ≤ ilog2Nat n n := by
    by_contra hc
    have : ilog2Nat n n + 1 ≤ 1023 := by omega
    have := Nat.pow_le_pow_right (by norm_num : 0 < 2) this
    omega
  have hcond : (1023 : Int) < (if roundHalfEven n (2 ^ (ilog2Nat n n - 52)) = 2 ^ 53
      then (ilog2Nat n n : Int) + 1 else (ilog2Nat n n : Int)) := by
    rcases Nat.lt_or_ge 1023 (ilog2Nat n n) with hlt | hge
    · split <;> omega
    · have hLe : ilog2Nat n n = 1023 := by omega
      rw [hLe] at hL2 ⊢
      have hD : (2 : Nat) ^ (1023 - 52) = 2 ^ 971 := by norm_num
      rw [hD]
      have hma : roundHalfEven n (2 ^ 971) = 2 ^ 53 := by
        have hdm := Nat.div_add_mod n (2 ^ 971)
        have hr := Nat.mod_lt n (by positivity : 0 < 2 ^ 971)
        have hq : n / 2 ^ 971 < 2 ^ 53 := by
          rw [Nat.div_lt_iff_lt_mul (by positivity)]
          have := pow_split_1024
          have h1024 : (1023 + 1) = 1024 := rfl
          rw [h1024] at hL2
          omega
        unfold roundHalfEven
        simp only
        generalize n / 2 ^ 971 = q at *
        generalize n % 2 ^ 971 = r at *
        have e1 := pow_split_1024
        have e2 := pow_split_971
        generalize (2 : Nat) ^ 1024 = A at *
        generalize (2 : Nat) ^ 971 = D at *
        generalize (2 : Nat) ^ 970 = H at *
        have e53 : (2 : Nat) ^ 53 = 9007199254740992 := by norm_num
        rw [e53] at hq e1 ⊢
        subst e1 e2
        have e3 : 2 * H * 9007199254740992 = 2 * H * 9007199254740991 + 2 * H := by ring
        have hq' : q = 9007199254740991 := by
          by_contra hne
          have hq2 : q + 1 ≤ 9007199254740991 := by omega
          have := Nat.mul_le_mul_left (2 * H) hq2
          have e4 : 2 * H * (q + 1) = 2 * H * q + 2 * H := by ring
          omega
        subst hq'
        have hr2 : H ≤ r := by omega
        split
        · omega
        · split
          · rfl
          · split
            · rename_i hodd; omega
            · rfl
      rw [if_pos hma]
      omega
  rw [if_pos hcond]

end DoubleRange3

section NumberKinds
open JsonParser

theorem dropDigits_showNat (n : Nat) : dropDigits (showNat n) = [] := by
  have := dropDigits_append (showNat n) [] (showNat_digits n) (by decide)
  simpa using this

/-- What `strtod` reads from the decimal text of an integer: its sign and magnitude,
no power of ten. -/
theorem strtodParse_showInt (i : Int) :
    strtodParse (showInt i) = some (decide (i < 0), i.natAbs, 0) := by
  obtain ⟨c, cs, e, hd⟩ := showNat_cons i.natAbs
  have hne : showNat i.natAbs ≠ [] := showNat_ne_nil _
  by_cases hi : i < 0
  · have hs : showInt i = '-' :: showNat i.natAbs := by simp [showInt, hi]
    rw [hs]
    simp only [strtodParse]
    rw [dropSpaces_cons_of_not_space (by decide)]
    simp [takeDigits_showNat, dropDigits_showNat, hne, digitsVal_showNat, hi]
  · have hs : showInt i = showNat i.natAbs := by simp [showInt, hi]
    have hc1 : c ≠ '-' := isdigit_ne hd (by decide)
    have hc2 : c ≠ '+' := isdigit_ne hd (by decide)
    have ht : takeDigits (c :: cs) = c :: cs := by rw [← e]; exact takeDigits_showNat _
    have hdr : dropDigits (c :: cs) = [] := by rw [← e]; exact dropDigits_showNat _
    have hv : digitsVal 0 (c :: cs) = i.natAbs := by rw [← e]; exact digitsVal_showNat _
    rw [hs, e]
    simp only [strtodParse]
    rw [dropSpaces_cons_of_not_space (isspace_of_isdigit hd)]
    split
    · rename_i t heq
      exact absurd (List.cons.inj heq).1 hc1
    · rename_i t heq
      exact absurd (List.cons.inj heq).1 hc2
    · simp [ht, hdr, hv, hi]

theorem stod_showInt (i : Int) :
    stod (showInt i) = Double.round (decide (i < 0)) i.natAbs 1 := by
  simp [stod, strtodParse_showInt, scale10]

/-- The conversion of the decimal text of an integer outside the 64-bit range goes
to `stod`. -/
theorem convert_big (i : Int)
    (h : ¬ (-9223372036854775808 ≤ i ∧ i ≤ 9223372036854775807)) :
    ReadNumber.convert (showInt i) false =
      match Double.round (decide (i < 0)) i.natAbs 1 with
      | some d => .ok (JsonNode.double d)
      | none => .error (.runtime_error
          ("Can't convert ".toList ++ showInt i ++ "to c++ type".toList)) := by
  have h0 : ¬ (-2147483648 ≤ i ∧ i ≤ 2147483647) := by omega
  simp only [ReadNumber.convert, stoi_showInt, stol_showInt, h0, h, if_false, stod_showInt]
  simp only [Bool.not_false, if_true]
  cases Double.round (decide (i < 0)) i.natAbs 1 <;> rfl

/-- Decoding the decimal text of an integer outside the 64-bit range whose magnitude
is below `2^1024 - 2^970`. -/
theorem Read_big (i : Int) (h : ¬ (-9223372036854775808 ≤ i ∧ i ≤ 9223372036854775807))
    (hlt : i.natAbs < 2 ^ 1024 - 2 ^ 970) (rest : List Char) (hrest : numStop (peekChar rest)) :
    ∃ d, Read ⟨showInt i ++ rest, false⟩ = .ok (JsonNode.double d, ⟨rest, false⟩) := by
  have h52 : 2 ^ 52 ≤ i.natAbs := by
    have : (2 : Nat) ^ 52 = 4503599627370496 := by norm_num
    omega
  obtain ⟨d, hd⟩ := round_int_some (decide (i < 0)) i.natAbs h52 hlt
  refine ⟨d, ?_⟩
  unfold Read
  rw [ReadDepth_showInt _ i rest hrest, convert_big i h, hd]

/-- Decoding the decimal text of an integer whose magnitude is `2^1024 - 2^970` or
more. -/
theorem Read_huge (i : Int) (hge : 2 ^ 1024 - 2 ^ 970 ≤ i.natAbs) (rest : List Char)
    (hrest : numStop (peekChar rest)) :
    Read ⟨showInt i ++ rest, false⟩ = .error (.runtime_error
      ("Can't convert ".toList ++ showInt i ++ "to c++ type".toList)) := by
  have hT : (2 : Nat) ^ 63 ≤ 2 ^ 1024 - 2 ^ 970 := by norm_num
  have h63 : (2 : Nat) ^ 63 = 9223372036854775808 := by norm_num
  have h : ¬ (-9223372036854775808 ≤ i ∧ i ≤ 9223372036854775807) := by omega
  unfold Read
  rw [ReadDepth_showInt _ i rest hrest, convert_big i h, round_int_none _ _ hge]

end NumberKinds

/-- C4: for every 32-bit signed integer `i`, decoding its plain decimal text yields
a node with `IsInt() == true` and `AsInt() == i` (the node is the Int32 node of `i`,
and the whole text is consumed). -/
theorem C4_int32_decode (i : Int) (h1 : -2147483648 ≤ i) (h2 : i ≤ 2147483647) :
    ∃ node, JsonParser.Read ⟨showInt i, false⟩ = .ok (node, ⟨[], false⟩) ∧
      node = JsonNode.int i ∧ node.IsInt = true ∧ node.AsInt = .ok i := by
  refine ⟨JsonNode.int i, ?_, rfl, rfl, rfl⟩
  have := Read_int i h1 h2 [] numStop_eofChar
  simpa using this

/-- C4 at the least 32-bit integer: the text `-2147483648` decodes to the Int32 node
of that value. -/
theorem C4_int32_decode_witness :
    ∃ node, JsonParser.Read (istream "-2147483648") = .ok (node, ⟨[], false⟩) ∧
      node = JsonNode.int (-2147483648) ∧ node.IsInt = true ∧
      node.AsInt = .ok (-2147483648) := by
  have h := C4_int32_decode (-2147483648) (by decide) (by decide)
  have e : showInt (-2147483648) = "-2147483648".toList := by rfl
  rw [e] at h
  exact h

/-- C6: for every 32-bit signed integer `i`, the compact encoding of the Int32 node
of `i` decodes to the same node, and decoding the decimal text of `i`, encoding the
result and decoding again gives the result of the first decoding. -/
theorem C6_int32_round_trip (i : Int) (h1 : -2147483648 ≤ i) (h2 : i ≤ 2147483647) :
    JsonParser.Read ⟨JsonParser.Write (JsonNode.int i) false, false⟩
        = .ok (JsonNode.int i, ⟨[], false⟩) ∧
    ∀ node st, JsonParser.Read ⟨showInt i, false⟩ = .ok (node, st) →
      JsonParser.Read ⟨JsonParser.Write node false, false⟩ = .ok (node, st) := by
  have h := Read_int i h1 h2 [] numStop_eofChar
  simp only [List.append_nil] at h
  refine ⟨h, ?_⟩
  intro node st hr
  rw [h] at hr
  cases hr
  exact h

/-- C6 at the integer -17: its compact encoding is the text `-17`, which decodes to
the same Int32 node. -/
theorem C6_int32_round_trip_witness :
    JsonParser.Write (JsonNode.int (-17)) false = "-17".toList ∧
    JsonParser.Read ⟨JsonParser.Write (JsonNode.int (-17)) false, false⟩
      = .ok (JsonNode.int (-17), ⟨[], false⟩) :=
  ⟨by rfl, (C6_int32_round_trip (-17) (by decide) (by decide)).1⟩

/-- C5 (as the code behaves): the decimal text of an integer outside the 32-bit range
and inside the 64-bit range decodes to a pure Long node with that value
(`IsPureLong`, not `IsInt`, `IsLong`, `AsLong() == n`).  The text of an integer
outside the 64-bit range decodes to a pure Double node when its magnitude is below
`2^1024 - 2^970`, the least magnitude that rounds out of the range of `double`; from
that magnitude on `stod` throws and decoding fails with the error
`Can't convert <text>to c++ type`. -/
theorem C5_long_double_kinds :
    (∀ n : Int, ¬ (-2147483648 ≤ n ∧ n ≤ 2147483647) →
      -9223372036854775808 ≤ n → n ≤ 9223372036854775807 →
      JsonParser.Read ⟨showInt n, false⟩ = .ok (JsonNode.long n, ⟨[], false⟩) ∧
      (JsonNode.long n).IsPureLong = true ∧ (JsonNode.long n).IsInt = false ∧
      (JsonNode.long n).IsLong = true ∧ (JsonNode.long n).AsLong = .ok n) ∧
    (∀ n : Int, ¬ (-9223372036854775808 ≤ n ∧ n ≤ 9223372036854775807) →
      n.natAbs < 2 ^ 1024 - 2 ^ 970 →
      ∃ d, JsonParser.Read ⟨showInt n, false⟩ = .ok (JsonNode.double d, ⟨[], false⟩) ∧
        (JsonNode.double d).IsPureDouble = true ∧ (JsonNode.double d).IsLong = false) ∧
    (∀ n : Int, 2 ^ 1024 - 2 ^ 970 ≤ n.natAbs →
      JsonParser.Read ⟨showInt n, false⟩ = .error (.runtime_error
        ("Can't convert ".toList ++ showInt n ++ "to c++ type".toList))) := by
  refine ⟨?_, ?_, ?_⟩
  · intro n h0 h1 h2
    have := Read_long n h0 h1 h2 [] numStop_eofChar
    simp only [List.append_nil] at this
    exact ⟨this, rfl, rfl, rfl, rfl⟩
  · intro n h hlt
    obtain ⟨d, hd⟩ := Read_big n h hlt [] numStop_eofChar
    simp only [List.append_nil] at hd
    exact ⟨d, hd, rfl, rfl⟩
  · intro n hge
    have := Read_huge n hge [] numStop_eofChar
    simpa using this

/-- C5 at the two texts of the claim: `2147483648` decodes to a pure Long and
`9223372036854775808` to a pure Double. -/
theorem C5_long_double_kinds_witness :
    JsonParser.Read (istream "2147483648") = .ok (JsonNode.long 2147483648, ⟨[], false⟩) ∧
    ∃ d, JsonParser.Read (istream "9223372036854775808")
      = .ok (JsonNode.double d, ⟨[], false⟩) :=
by
  have h1 := (C5_long_double_kinds.1 2147483648 (by decide) (by decide) (by decide)).1
  have h2 := C5_long_double_kinds.2.1 9223372036854775808 (by decide) (by norm_num)
  have e1 : showInt 2147483648 = "2147483648".toList := by rfl
  have e2 : showInt 9223372036854775808 = "9223372036854775808".toList := by rfl
  rw [e1] at h1
  rw [e2] at h2
  exact ⟨h1, h2.imp (fun _ h => h.1)⟩

set_option maxRecDepth 100000 in
set_option exponentiation.threshold 2000 in
/-- C5 refuted as stated: the integer written as the digit 2 followed by 308 zeros is
outside the 64-bit range, and decoding its text yields no node at all, hence no
Double node: `stod` throws `out_of_range` and `ReadNumber` rethrows. -/
theorem C5_huge_integer_fails :
    JsonParser.Read ⟨'2' :: List.replicate 308 '0', false⟩
      = .error (.runtime_error ("Can't convert ".toList ++ ('2' :: List.replicate 308 '0')
          ++ "to c++ type".toList)) ∧
    ¬ ∃ node st, JsonParser.Read ⟨'2' :: List.replicate 308 '0', false⟩ = .ok (node, st) ∧
      node.IsPureDouble = true := by
  have h : JsonParser.Read ⟨'2' :: List.replicate 308 '0', false⟩
      = .error (.runtime_error ("Can't convert ".toList ++ ('2' :: List.replicate 308 '0')
          ++ "to c++ type".toList)) := by rfl
  refine ⟨h, ?_⟩
  rintro ⟨node, st, hr, _⟩
  rw [h] at hr
  cases hr

section LoopSteps
open JsonParser

/-- One iteration of the array loop: the ways in which it succeeds. -/
theorem ReadArray_loop_ok_iff (R : IStream → Except JsonError (JsonNode × IStream))
    (n : Nat) (array : List JsonNode) (i : IStream) (r : List JsonNode × IStream) :
    ReadArray.loop R (n + 1) array i = .ok r ↔
      ∃ i1 c, SkipWhiteSpaces i = .ok i1 ∧ StreamPeek i1 = .ok c ∧
        ((c = ']' ∧ r = (array, i1)) ∨
         (c ≠ ']' ∧ ∃ v k c2, R i1 = .ok v ∧ SkipSymbolUntil v.2 ',' ']' = .ok k ∧
            k.1 = true ∧ StreamPeek k.2 = .ok c2 ∧
            ((c2 ≠ ']' ∧ ReadArray.loop R n (array ++ [v.1]) k.2 = .ok r) ∨
             (c2 = ']' ∧ r = (array ++ [v.1], k.2))))) := by
  constructor
  · intro h
    simp only [ReadArray.loop, bind, Except.bind] at h
    cases h1 : SkipWhiteSpaces i with
    | error e => rw [h1] at h; cases h
    | ok i1 =>
      rw [h1] at h
      simp only at h
      cases h2 : StreamPeek i1 with
      | error e => rw [h2] at h; cases h
      | ok c =>
        rw [h2] at h
        simp only at h
        refine ⟨i1, c, rfl, h2, ?_⟩
        by_cases hc : c = ']'
        · rw [if_pos hc] at h
          cases h
          exact Or.inl ⟨hc, rfl⟩
        · rw [if_neg hc] at h
          refine Or.inr ⟨hc, ?_⟩
          cases h3 : R i1 with
          | error e => rw [h3] at h; cases h
          | ok v =>
            rw [h3] at h
            simp only at h
            cases h4 : SkipSymbolUntil v.2 ',' ']' with
            | error e => rw [h4] at h; cases h
            | ok k =>
              rw [h4] at h
              simp only at h
              by_cases hk : k.1 = true
              · simp only [hk, Bool.not_true, Bool.false_eq_true, if_false] at h
                cases h5 : StreamPeek k.2 with
                | error e => rw [h5] at h; cases h
                | ok c2 =>
                  rw [h5] at h
                  simp only at h
                  refine ⟨v, k, c2, rfl, h4, hk, h5, ?_⟩
                  by_cases hc2 : c2 = ']'
                  · simp only [hc2, ne_eq, not_true_eq_false, if_false] at h
                    cases h
                    exact Or.inr ⟨hc2, rfl⟩
                  · simp only [ne_eq, hc2, not_false_eq_true, if_true] at h
                    exact Or.inl ⟨hc2, h⟩
              · simp only [hk, Bool.not_false, if_true] at h
                simp only [Bool.not_eq_true] at hk
                simp [hk, throw, throwThe, MonadExceptOf.throw] at h
  · rintro ⟨i1, c, h1, h2, (⟨hc, rfl⟩ | ⟨hc, v, k, c2, h3, h4, hk, h5, (⟨hc2, h6⟩ | ⟨hc2, rfl⟩)⟩)⟩
    · simp [ReadArray.loop, bind, Except.bind, h1, h2, hc, pure, Except.pure]
    · simp [ReadArray.loop, bind, Except.bind, h1, h2, hc, h3, h4, hk, h5, hc2, h6]
    · simp [ReadArray.loop, bind, Except.bind, h1, h2, hc, h3, h4, hk, h5, hc2, pure, Except.pure]

/-- One iteration of the object loop: the ways in which it succeeds. -/
theorem ReadObject_loop_ok_iff (R : IStream → Except JsonError (JsonNode × IStream))
    (n : Nat) (object : List (Str × JsonNode)) (i : IStream)
    (r : List (Str × JsonNode) × IStream) :
    ReadObject.loop R (n + 1) object i = .ok r ↔
      ∃ i1 c, SkipWhiteSpaces i = .ok i1 ∧ StreamPeek i1 = .ok c ∧
        ((c = '\x7d' ∧ r = (object, i1)) ∨
         (c ≠ '\x7d' ∧ ∃ key k value name k2 c2, ReadString i1 = .ok key ∧
            SkipSymbol key.2 ':' = .ok k ∧ k.1 = true ∧ R k.2 = .ok value ∧
            key.1.AsString = .ok name ∧ SkipSymbolUntil value.2 ',' '\x7d' = .ok k2 ∧
            k2.1 = true ∧ StreamPeek k2.2 = .ok c2 ∧
            ((c2 ≠ '\x7d' ∧
                ReadObject.loop R n (try_emplace object name value.1) k2.2 = .ok r) ∨
             (c2 = '\x7d' ∧ r = (try_emplace object name value.1, k2.2))))) := by
  constructor
  · intro h
    simp only [ReadObject.loop, bind, Except.bind] at h
    cases h1 : SkipWhiteSpaces i with
    | error e => rw [h1] at h; cases h
    | ok i1 =>
      rw [h1] at h
      simp only at h
      cases h2 : StreamPeek i1 with
      | error e => rw [h2] at h; cases h
      | ok c =>
        rw [h2] at h
        simp only at h
        refine ⟨i1, c, rfl, h2, ?_⟩
        by_cases hc : c = '\x7d'
        · rw [if_pos hc] at h
          cases h
          exact Or.inl ⟨hc, rfl⟩
        · rw [if_neg hc] at h
          refine Or.inr ⟨hc, ?_⟩
          cases h3 : ReadString i1 with
          | error e => rw [h3] at h; cases h
          | ok key =>
            rw [h3] at h
            simp only at h
            cases h4 : SkipSymbol key.2 ':' with
            | error e => rw [h4] at h; cases h
            | ok k =>
              rw [h4] at h
              simp only at h
              by_cases hk : k.1 = true
              · simp only [hk, Bool.not_true, Bool.false_eq_true, if_false] at h
                cases h5 : R k.2 with
                | error e => rw [h5] at h; cases h
                | ok value =>
                  rw [h5] at h
                  simp only at h
                  cases h6 : key.1.AsString with
                  | error e => rw [h6] at h; cases h
                  | ok name =>
                    rw [h6] at h
                    simp only at h
                    cases h7 : SkipSymbolUntil value.2 ',' '\x7d' with
                    | error e => rw [h7] at h; cases h
                    | ok k2 =>
                      rw [h7] at h
                      simp only at h
                      by_cases hk2 : k2.1 = true
                      · simp only [hk2, Bool.not_true, Bool.false_eq_true, if_false] at h
                        cases h8 : StreamPeek k2.2 with
                        | error e => rw [h8] at h; cases h
                        | ok c2 =>
                          rw [h8] at h
                          simp only at h
                          refine ⟨key, k, value, name, k2, c2, rfl, h4, hk, h5, h6, h7, hk2, h8, ?_⟩
                          by_cases hc2 : c2 = '\x7d'
                          · simp only [hc2, ne_eq, not_true_eq_false, if_false] at h
                            cases h
                            exact Or.inr ⟨hc2, rfl⟩
                          · simp only [ne_eq, hc2, not_false_eq_true, if_true] at h
                            exact Or.inl ⟨hc2, h⟩
                      · simp only [Bool.not_eq_true] at hk2
                        simp only [hk2, Bool.not_false, if_true] at h
                        cases h9 : «at» (try_emplace object name value.1) name with
                        | error e => rw [h9] at h; cases h
                        | ok node =>
                          rw [h9] at h
                          simp [throw, throwThe, MonadExceptOf.throw] at h
              · simp only [Bool.not_eq_true] at hk
                simp [hk, throw, throwThe, MonadExceptOf.throw] at h
  · rintro ⟨i1, c, h1, h2, (⟨hc, rfl⟩ | ⟨hc, key, k, value, name, k2, c2, h3, h4, hk, h5, h6, h7,
      hk2, h8, (⟨hc2, h9⟩ | ⟨hc2, rfl⟩)⟩)⟩
    · simp [ReadObject.loop, bind, Except.bind, h1, h2, hc, pure, Except.pure]
    · simp [ReadObject.loop, bind, Except.bind, h1, h2, hc, h3, h4, hk, h5, h6, h7, hk2, h8, hc2,
        h9]
    · simp [ReadObject.loop, bind, Except.bind, h1, h2, hc, h3, h4, hk, h5, h6, h7, hk2, h8, hc2,
        pure, Except.pure]

/-- The array loop succeeds again, with the same result, when it is given more
iterations and a reader that succeeds wherever the first one does. -/
theorem ReadArray_loop_mono (R1 R2 : IStream → Except JsonError (JsonNode × IStream))
    (hR : ∀ i r, R1 i = .ok r → R2 i = .ok r) :
    ∀ n m array i r, n ≤ m → ReadArray.loop R1 n array i = .ok r →
      ReadArray.loop R2 m array i = .ok r := by
  intro n
  induction n with
  | zero => intro m array i r _ h; simp [ReadArray.loop, throw, throwThe, MonadExceptOf.throw] at h
  | succ n ih =>
    intro m array i r hnm h
    obtain ⟨m, rfl⟩ : ∃ k, m = k + 1 := ⟨m - 1, by omega⟩
    rw [ReadArray_loop_ok_iff] at h ⊢
    obtain ⟨i1, c, h1, h2, h⟩ := h
    refine ⟨i1, c, h1, h2, ?_⟩
    rcases h with h | ⟨hc, v, k, c2, h3, h4, hk, h5, h⟩
    · exact Or.inl h
    · refine Or.inr ⟨hc, v, k, c2, hR _ _ h3, h4, hk, h5, ?_⟩
      rcases h with ⟨hc2, h⟩ | h
      · exact Or.inl ⟨hc2, ih m _ _ _ (by omega) h⟩
      · exact Or.inr h

/-- The object loop succeeds again, with the same result, when it is given more
iterations and a reader that succeeds wherever the first one does. -/
theorem ReadObject_loop_mono (R1 R2 : IStream → Except JsonError (JsonNode × IStream))
    (hR : ∀ i r, R1 i = .ok r → R2 i = .ok r) :
    ∀ n m object i r, n ≤ m → ReadObject.loop R1 n object i = .ok r →
      ReadObject.loop R2 m object i = .ok r := by
  intro n
  induction n with
  | zero =>
    intro m object i r _ h
    simp [ReadObject.loop, throw, throwThe, MonadExceptOf.throw] at h
  | succ n ih =>
    intro m object i r hnm h
    obtain ⟨m, rfl⟩ : ∃ k, m = k + 1 := ⟨m - 1, by omega⟩
    rw [ReadObject_loop_ok_iff] at h ⊢
    obtain ⟨i1, c, h1, h2, h⟩ := h
    refine ⟨i1, c, h1, h2, ?_⟩
    rcases h with h | ⟨hc, key, k, value, name, k2, c2, h3, h4, hk, h5, h6, h7, hk2, h8, h⟩
    · exact Or.inl h
    · refine Or.inr ⟨hc, key, k, value, name, k2, c2, h3, h4, hk, hR _ _ h5, h6, h7, hk2, h8, ?_⟩
      rcases h with ⟨hc2, h⟩ | h
      · exact Or.inl ⟨hc2, ih m _ _ _ (by omega) h⟩
      · exact Or.inr h

end LoopSteps

section DepthMonotone
open JsonParser

/-- The ways in which `ReadArray` succeeds. -/
theorem ReadArray_ok_iff (R : IStream → Except JsonError (JsonNode × IStream)) (i : IStream)
    (res : JsonNode × IStream) :
    ReadArray R i = .ok res ↔
      ∃ g r k, StreamGet i = .ok g ∧ g.1 = '[' ∧
        ReadArray.loop R (g.2.buf.length + 1) [] g.2 = .ok r ∧ SkipSymbol r.2 ']' = .ok k ∧
        res = (JsonNode.array r.1, k.2) := by
  constructor
  · intro h
    simp only [ReadArray, bind, Except.bind] at h
    cases h1 : StreamGet i with
    | error e => rw [h1] at h; cases h
    | ok g =>
      rw [h1] at h
      simp only at h
      by_cases hg : g.1 = '['
      · simp only [hg, ne_eq, not_true_eq_false, if_false] at h
        cases h2 : ReadArray.loop R (g.2.buf.length + 1) [] g.2 with
        | error e => rw [h2] at h; cases h
        | ok r =>
          rw [h2] at h
          simp only at h
          cases h3 : SkipSymbol r.2 ']' with
          | error e => rw [h3] at h; cases h
          | ok k =>
            rw [h3] at h
            simp only [pure, Except.pure] at h
            cases h
            exact ⟨g, r, k, rfl, hg, h2, h3, rfl⟩
      · simp [hg, throw, throwThe, MonadExceptOf.throw] at h
  · rintro ⟨g, r, k, h1, hg, h2, h3, rfl⟩
    simp [ReadArray, bind, Except.bind, h1, hg, h2, h3, pure, Except.pure]

/-- The ways in which `ReadObject` succeeds. -/
theorem ReadObject_ok_iff (R : IStream → Except JsonError (JsonNode × IStream)) (i : IStream)
    (res : JsonNode × IStream) :
    ReadObject R i = .ok res ↔
      ∃ g r k, StreamGet i = .ok g ∧ g.1 = '\x7b' ∧
        ReadObject.loop R (g.2.buf.length + 1) [] g.2 = .ok r ∧ SkipSymbol r.2 '\x7d' = .ok k ∧
        res = (JsonNode.object r.1, k.2) := by
  constructor
  · intro h
    simp only [ReadObject, bind, Except.bind] at h
    cases h1 : StreamGet i with
    | error e => rw [h1] at h; cases h
    | ok g =>
      rw [h1] at h
      simp only at h
      by_cases hg : g.1 = '\x7b'
      · simp only [hg, ne_eq, not_true_eq_false, if_false] at h
        cases h2 : ReadObject.loop R (g.2.buf.length + 1) [] g.2 with
        | error e => rw [h2] at h; cases h
        | ok r =>
          rw [h2] at h
          simp only at h
          cases h3 : SkipSymbol r.2 '\x7d' with
          | error e => rw [h3] at h; cases h
          | ok k =>
            rw [h3] at h
            simp only [pure, Except.pure] at h
            cases h
            exact ⟨g, r, k, rfl, hg, h2, h3, rfl⟩
      · simp [hg, throw, throwThe, MonadExceptOf.throw] at h
  · rintro ⟨g, r, k, h1, hg, h2, h3, rfl⟩
    simp [ReadObject, bind, Except.bind, h1, hg, h2, h3, pure, Except.pure]

theorem ReadArray_mono (R1 R2 : IStream → Except JsonError (JsonNode × IStream))
    (hR : ∀ i r, R1 i = .ok r → R2 i = .ok r) (i : IStream) (res : JsonNode × IStream)
    (h : ReadArray R1 i = .ok res) : ReadArray R2 i = .ok res := by
  rw [ReadArray_ok_iff] at h ⊢
  obtain ⟨g, r, k, h1, hg, h2, h3, h4⟩ := h
  exact ⟨g, r, k, h1, hg, ReadArray_loop_mono R1 R2 hR _ _ _ _ _ (le_refl _) h2, h3, h4⟩

theorem ReadObject_mono (R1 R2 : IStream → Except JsonError (JsonNode × IStream))
    (hR : ∀ i r, R1 i = .ok r → R2 i = .ok r) (i : IStream) (res : JsonNode × IStream)
    (h : ReadObject R1 i = .ok res) : ReadObject R2 i = .ok res := by
  rw [ReadObject_ok_iff] at h ⊢
  obtain ⟨g, r, k, h1, hg, h2, h3, h4⟩ := h
  exact ⟨g, r, k, h1, hg, ReadObject_loop_mono R1 R2 hR _ _ _ _ _ (le_refl _) h2, h3, h4⟩

/-- The dispatch of `ReadDepth` on a good stream. -/
theorem ReadDepth_good (d : Nat) (b : List Char) :
    ReadDepth (d + 1) ⟨b, false⟩ =
      if peekChar (dropSpaces b) = '\x7b' then ReadObject (ReadDepth d) ⟨dropSpaces b, false⟩
      else if peekChar (dropSpaces b) = '[' then ReadArray (ReadDepth d) ⟨dropSpaces b, false⟩
      else if peekChar (dropSpaces b) = '"' then ReadString ⟨dropSpaces b, false⟩
      else if isdigit (peekChar (dropSpaces b)) = true ∨ peekChar (dropSpaces b) = '-' then
        ReadNumber ⟨dropSpaces b, false⟩
      else ReadOther ⟨dropSpaces b, false⟩ := by
  simp only [ReadDepth, SkipWhiteSpaces_good, StreamPeek_good, bind, Except.bind]

theorem ReadDepth_eofbit (d : Nat) (b : List Char) (r : JsonNode × IStream) :
    ReadDepth d ⟨b, true⟩ ≠ .ok r := by
  cases d with
  | zero => simp [ReadDepth, throw, throwThe, MonadExceptOf.throw]
  | succ d => simp [ReadDepth, SkipWhiteSpaces_eofbit, bind, Except.bind]

/-- A successful `ReadDepth` succeeds with the same result at every larger depth. -/
theorem ReadDepth_mono_succ (d : Nat) :
    ∀ i r, ReadDepth d i = .ok r → ReadDepth (d + 1) i = .ok r := by
  induction d with
  | zero => intro i r h; simp [ReadDepth, throw, throwThe, MonadExceptOf.throw] at h
  | succ d ih =>
    intro i r h
    obtain ⟨b, eof⟩ := i
    cases eof with
    | true => exact absurd h (ReadDepth_eofbit _ _ _)
    | false =>
      rw [ReadDepth_good] at h ⊢
      split at h
      · rename_i h1
        rw [if_pos h1]
        exact ReadObject_mono _ _ ih _ _ h
      · rename_i h1
        rw [if_neg h1]
        split at h
        · rename_i h2
          rw [if_pos h2]
          exact ReadArray_mono _ _ ih _ _ h
        · rename_i h2
          rw [if_neg h2]
          exact h

theorem ReadDepth_mono (d e : Nat) (hde : d ≤ e) (i : IStream) (r : JsonNode × IStream)
    (h : ReadDepth d i = .ok r) : ReadDepth e i = .ok r := by
  induction hde with
  | refl => exact h
  | step _ ih => exact ReadDepth_mono_succ _ _ _ ih

/-- A successful `Read` gives the result of `ReadDepth` at every depth beyond the
length of the input. -/
theorem ReadDepth_of_Read (i : IStream) (r : JsonNode × IStream) (h : Read i = .ok r)
    (d : Nat) (hd : i.buf.length < d) : ReadDepth d i = .ok r :=
  ReadDepth_mono _ _ hd _ _ h

end DepthMonotone

section ArrayForward
open JsonParser

/-- Closed form of `SkipSymbol` on a good stream, by the first character after white
space. -/
theorem SkipSymbol_good_peek (b : List Char) (ch : Char) (hch : ch ≠ eofChar) :
    SkipSymbol ⟨b, false⟩ ch =
      .ok (if peekChar (dropSpaces b) = ch then (true, ⟨dropSpaces (dropSpaces b).tail, false⟩)
        else (false, ⟨dropSpaces b, false⟩)) := by
  rw [SkipSymbol_good b ch hch]
  cases h : dropSpaces b with
  | nil => simp [peekChar, Ne.symm hch]
  | cons c cs =>
    by_cases hc : c = ch
    · simp [peekChar, hc]
    · simp [peekChar, hc]

/-- Closed form of `SkipSymbolUntil` on a good stream. -/
theorem SkipSymbolUntil_good (b : List Char) (ch u : Char) (hch : ch ≠ eofChar) :
    SkipSymbolUntil ⟨b, false⟩ ch u
      = .ok ((skipUntil b ch u).1, ⟨(skipUntil b ch u).2, false⟩) := by
  unfold SkipSymbolUntil skipUntil
  rw [SkipSymbol_good_peek b ch hch]
  by_cases h : peekChar (dropSpaces b) = ch
  · simp [h, bind, Except.bind, pure, Except.pure]
  · by_cases h2 : peekChar (dropSpaces b) = u
    · have h3 : ¬ u = ch := by rw [← h2]; exact h
      simp only [h2, h3, if_false, bind, Except.bind, pure, Except.pure, StreamPeek_good,
        Bool.not_false, if_true, decide_True]
    · simp only [h, h2, if_false, bind, Except.bind, pure, Except.pure, StreamPeek_good,
        Bool.not_false, if_true, decide_False]

theorem SkipSymbolUntil_eofbit (b : List Char) (ch u : Char) (r : Bool × IStream) :
    SkipSymbolUntil ⟨b, true⟩ ch u ≠ .ok r := by
  simp [SkipSymbolUntil, SkipSymbol, SkipWhiteSpaces_eofbit, bind, Except.bind]

/-- The array loop does not see white space at the start of the stream. -/
theorem ReadArray_loop_dropSpaces (R : IStream → Except JsonError (JsonNode × IStream))
    (n : Nat) (array : List JsonNode) (b : List Char) :
    ReadArray.loop R n array ⟨dropSpaces b, false⟩ = ReadArray.loop R n array ⟨b, false⟩ := by
  cases n with
  | zero => rfl
  | succ n =>
    simp only [ReadArray.loop, SkipWhiteSpaces_good, dropSpaces_idem]

/-- The object loop does not see white space at the start of the stream. -/
theorem ReadObject_loop_dropSpaces (R : IStream → Except JsonError (JsonNode × IStream))
    (n : Nat) (object : List (Str × JsonNode)) (b : List Char) :
    ReadObject.loop R n object ⟨dropSpaces b, false⟩
      = ReadObject.loop R n object ⟨b, false⟩ := by
  cases n with
  | zero => rfl
  | succ n =>
    simp only [ReadObject.loop, SkipWhiteSpaces_good, dropSpaces_idem]

/-- `ReadDepth` does not see white space at the start of the stream. -/
theorem ReadDepth_dropSpaces (d : Nat) (b : List Char) :
    ReadDepth d ⟨dropSpaces b, false⟩ = ReadDepth d ⟨b, false⟩ := by
  cases d with
  | zero => rfl
  | succ d => simp only [ReadDepth_good, dropSpaces_idem]

theorem length_dropSpaces_le (b : List Char) : (dropSpaces b).length ≤ b.length := by
  induction b with
  | nil => simp [dropSpaces]
  | cons c cs ih =>
    by_cases hc : isspace c = true
    · simp only [dropSpaces, hc, if_true, List.length_cons]; omega
    · simp [dropSpaces, hc]

theorem ne_of_isspace_false {c d : Char} (hc : isspace c = false) (hd : isspace d = true) :
    c ≠ d := by
  intro e; rw [e, hd] at hc; exact absurd hc (by decide)

/-- A token that starts with a comma, a closing bracket or a closing brace is no
literal: `Read` fails on it. -/
theorem Read_ok_peek (b : List Char) (r : JsonNode × IStream) (d : Nat)
    (h : ReadDepth d ⟨b, false⟩ = .ok r) :
    peekChar (dropSpaces b) ≠ ',' ∧ peekChar (dropSpaces b) ≠ ']' ∧
      peekChar (dropSpaces b) ≠ '\x7d' := by
  cases d with
  | zero => simp [ReadDepth, throw, throwThe, MonadExceptOf.throw] at h
  | succ d =>
    have key : ∀ x : Char, x ≠ '\x7b' → x ≠ '[' → x ≠ '"' → isdigit x = false → x ≠ '-' →
        x ≠ 't' → x ≠ 'f' → x ≠ 'n' → isspace x = false → peekChar (dropSpaces b) ≠ x := by
      intro x h1 h2 h3 h4 h5 h6 h7 h8 h9 hx
      obtain ⟨cs, hb⟩ : ∃ cs, dropSpaces b = x :: cs := by
        cases hdb : dropSpaces b with
        | nil =>
          rw [hdb] at hx
          have h10 := peekChar_dropSpaces b
          rw [hdb] at h10
          have : peekChar ([] : List Char) = eofChar := rfl
          rw [ReadDepth_good, hdb] at h
          simp only [this] at h
          rw [if_neg (by decide), if_neg (by decide), if_neg (by decide), if_neg (by decide)] at h
          simp [ReadOther_good, dropSpaces, takeToken] at h
        | cons c cs =>
          rw [hdb] at hx
          simp only [peekChar, List.headD_cons] at hx
          exact ⟨cs, by rw [hx]⟩
      rw [ReadDepth_good, hb] at h
      simp only [peekChar, List.headD_cons] at h
      rw [if_neg h1, if_neg h2, if_neg h3, if_neg (by simp [h4, h5])] at h
      rw [ReadOther_good, dropSpaces_cons_of_not_space h9] at h
      simp only [takeToken, h9, Bool.false_eq_true, if_false] at h
      have e1 : ¬ (x :: takeToken cs = "true".toList) := by
        intro e; exact h6 (List.cons.inj e).1
      have e2 : ¬ (x :: takeToken cs = "false".toList) := by
        intro e; exact h7 (List.cons.inj e).1
      have e3 : ¬ (x :: takeToken cs = "null".toList) := by
        intro e; exact h8 (List.cons.inj e).1
      rw [if_neg e1, if_neg e2, if_neg e3] at h
      cases h
    exact ⟨key ',' (by decide) (by decide) (by decide) (by decide) (by decide) (by decide)
        (by decide) (by decide) (by decide),
      key ']' (by decide) (by decide) (by decide) (by decide) (by decide) (by decide)
        (by decide) (by decide) (by decide),
      key '\x7d' (by decide) (by decide) (by decide) (by decide) (by decide) (by decide)
        (by decide) (by decide) (by decide)⟩

end ArrayForward

section ArrayForward2
open JsonParser

/-- One iteration of the array loop on a good stream whose next element decodes. -/
theorem ReadArray_loop_step (R : IStream → Except JsonError (JsonNode × IStream))
    (n : Nat) (array : List JsonNode) (b r : List Char) (v : JsonNode)
    (hp : peekChar (dropSpaces b) ≠ ']')
    (hR : R ⟨dropSpaces b, false⟩ = .ok (v, ⟨r, false⟩)) :
    ReadArray.loop R (n + 1) array ⟨b, false⟩ =
      if (skipUntil r ',' ']').1 = false then
        .error (JsonParserException v "expected ','".toList)
      else if peekChar (skipUntil r ',' ']').2 ≠ ']' then
        ReadArray.loop R n (array ++ [v]) ⟨(skipUntil r ',' ']').2, false⟩
      else .ok (array ++ [v], ⟨(skipUntil r ',' ']').2, false⟩) := by
  simp only [ReadArray.loop, SkipWhiteSpaces_good, StreamPeek_good, bind, Except.bind, hp,
    if_false, hR, SkipSymbolUntil_good _ _ _ (by decide : ',' ≠ eofChar)]
  cases h : (skipUntil r ',' ']').1 with
  | false => simp [throw, throwThe, MonadExceptOf.throw]
  | true => simp [pure, Except.pure]

theorem skipUntil_comma (r more : List Char) (u : Char) (h : dropSpaces r = ',' :: more) :
    skipUntil r ',' u = (true, dropSpaces more) := by
  simp [skipUntil, h, peekChar]

theorem isDelim_comma (more : List Char) : isDelim (peekChar (',' :: more)) :=
  Or.inl rfl

theorem elemsText_length (es : List (Str × JsonNode)) : es.length ≤ (elemsText es).length := by
  induction es with
  | nil => simp [elemsText]
  | cons e es ih => simp only [elemsText, List.length_append, List.length_cons]; omega

/-- The array loop over element texts that are each followed by a comma: the nodes
are appended in the order of the texts. -/
theorem ReadArray_loop_elems (d : Nat) (rest : List Char) :
    ∀ (es : List (Str × JsonNode)) (array : List JsonNode) (n : Nat),
      (∀ e ∈ es, Decodes e.1 e.2) → (elemsText es ++ rest).length < d →
      ReadArray.loop (ReadDepth d) (n + 1 + es.length) array ⟨elemsText es ++ rest, false⟩
        = ReadArray.loop (ReadDepth d) (n + 1) (array ++ es.map Prod.snd) ⟨rest, false⟩ := by
  intro es
  induction es with
  | nil => intro array n _ _; simp [elemsText]
  | cons e es ih =>
    intro array n hdec hlen
    have hlen' : (elemsText es ++ rest).length < d := by
      simp only [elemsText, List.append_assoc, List.length_append, List.length_cons] at hlen ⊢
      omega
    obtain ⟨r, hr, hdr⟩ := hdec e (List.mem_cons_self _ _) (',' :: (elemsText es ++ rest))
      (isDelim_comma _)
    rw [dropSpaces_cons_of_not_space (by decide)] at hdr
    have hstream : elemsText (e :: es) ++ rest = e.1 ++ ',' :: (elemsText es ++ rest) := by
      simp [elemsText]
    have hRd := ReadDepth_of_Read _ _ hr d (by rw [← hstream]; exact hlen)
    have hp := (Read_ok_peek _ _ _ hRd).2.1
    rw [← ReadDepth_dropSpaces] at hRd
    have hfuel : n + 1 + (e :: es).length = (n + 1 + es.length) + 1 := by
      simp only [List.length_cons]; omega
    rw [hstream, hfuel, ReadArray_loop_step _ _ _ _ r e.2 hp hRd, skipUntil_comma r _ _ hdr]
    simp only [Bool.true_eq_false, if_false]
    have ih' := ih (array ++ [e.2]) n (fun x hx => hdec x (List.mem_cons_of_mem _ hx)) hlen'
    have hmap : array ++ (e :: es).map Prod.snd = array ++ [e.2] ++ es.map Prod.snd := by simp
    rw [hmap]
    by_cases hq : peekChar (dropSpaces (elemsText es ++ rest)) = ']'
    · rw [if_neg (by simpa using hq)]
      cases es with
      | nil =>
        simp only [elemsText, List.nil_append, List.map_nil, List.append_nil] at hq ⊢
        simp [ReadArray.loop, SkipWhiteSpaces_good, StreamPeek_good, bind, Except.bind, hq, pure,
          Except.pure]
      | cons e2 es2 =>
        exfalso
        obtain ⟨r2, hr2, _⟩ := hdec e2 (List.mem_cons_of_mem _ (List.mem_cons_self _ _))
          (',' :: (elemsText es2 ++ rest)) (isDelim_comma _)
        have hs2 : elemsText (e2 :: es2) ++ rest = e2.1 ++ ',' :: (elemsText es2 ++ rest) := by
          simp [elemsText]
        rw [hs2] at hq
        exact (Read_ok_peek _ _ _ hr2).2.1 hq
    · rw [if_pos (by simpa using hq), ReadArray_loop_dropSpaces, ih']

end ArrayForward2

section ArrayError
open JsonParser

theorem numStop_of_isspace {c : Char} (h : isspace c = true) : numStop c := by
  have h0 : ∀ d : Char, isspace d = false → c ≠ d := fun d hd => (ne_of_isspace_false hd h).symm
  refine ⟨?_, h0 _ (by decide), h0 _ (by decide), h0 _ (by decide), h0 _ (by decide),
    h0 _ (by decide)⟩
  cases hd : isdigit c with
  | false => rfl
  | true => rw [isspace_of_isdigit hd] at h; exact absurd h (by decide)

theorem numStop_of_isDelim {c : Char} (h : isDelim c) : numStop c := by
  rcases h with h | h | h | h
  · subst h; exact ⟨by decide, by decide, by decide, by decide, by decide, by decide⟩
  · subst h; exact ⟨by decide, by decide, by decide, by decide, by decide, by decide⟩
  · subst h; exact ⟨by decide, by decide, by decide, by decide, by decide, by decide⟩
  · exact numStop_of_isspace h

/-- The decimal text of a 32-bit integer is a value text for its Int32 node. -/
theorem Decodes_int (i : Int) (h1 : -2147483648 ≤ i) (h2 : i ≤ 2147483647) :
    Decodes (showInt i) (JsonNode.int i) := by
  intro rest hrest
  exact ⟨rest, Read_int i h1 h2 rest (numStop_of_isDelim hrest), rfl⟩

/-- Reading an array whose last decoded element is followed by something other than
a comma or a closing bracket. -/
theorem Read_array_separator (es : List (Str × JsonNode)) (s r : List Char) (v : JsonNode)
    (hes : ∀ e ∈ es, Decodes e.1 e.2) (hv : Read ⟨s, false⟩ = .ok (v, ⟨r, false⟩))
    (h1 : peekChar (dropSpaces r) ≠ ',') (h2 : peekChar (dropSpaces r) ≠ ']') :
    Read ⟨'[' :: (elemsText es ++ s), false⟩
      = .error (JsonParserException v "expected ','".toList) := by
  have hL := elemsText_length es
  have hd : dropSpaces ('[' :: (elemsText es ++ s)) = '[' :: (elemsText es ++ s) :=
    dropSpaces_cons_of_not_space (by decide) _
  unfold Read
  rw [ReadDepth_good, hd]
  simp only [peekChar, List.headD_cons, if_true]
  simp only [ReadArray, StreamGet_cons, bind, Except.bind, ne_eq, not_true_eq_false, if_false,
    List.length_cons]
  have hloop : ReadArray.loop (ReadDepth ((elemsText es ++ s).length + 1))
      ((elemsText es ++ s).length + 1) [] ⟨elemsText es ++ s, false⟩
        = .error (JsonParserException v "expected ','".toList) := by
    obtain ⟨n, hn⟩ : ∃ n, (elemsText es ++ s).length + 1 = n + 1 + es.length :=
      ⟨(elemsText es ++ s).length - es.length, by simp only [List.length_append]; omega⟩
    have h := ReadArray_loop_elems ((elemsText es ++ s).length + 1) s es [] n hes
      (Nat.lt_succ_self _)
    rw [← hn] at h
    rw [h]
    have hRd := ReadDepth_of_Read _ _ hv ((elemsText es ++ s).length + 1)
      (by simp only [List.length_append]; omega)
    have hp := (Read_ok_peek _ _ _ hRd).2.1
    rw [← ReadDepth_dropSpaces] at hRd
    rw [ReadArray_loop_step _ _ _ _ r v hp hRd]
    have hsk : (skipUntil r ',' ']').1 = false := by
      simp [skipUntil, h1, h2]
    rw [if_pos hsk]
  rw [if_neg (by decide), hloop]

end ArrayError

section MapLemmas

theorem char_toNat_inj {a b : Char} (h : a.toNat = b.toNat) : a = b := by
  apply Char.ext
  cases a with | mk va ha => cases b with | mk vb hb =>
  simp only [Char.toNat] at h
  cases va with | mk va1 => cases vb with | mk vb1 =>
  simp only [UInt32.toNat] at h
  have : va1 = vb1 := BitVec.eq_of_toNat_eq h
  subst this
  rfl

theorem strLt_irrefl (a : Str) : strLt a a = false := by
  induction a with
  | nil => rfl
  | cons c cs ih => simp [strLt, ih]

theorem strLt_trans : ∀ (a b c : Str), strLt a b = true → strLt b c = true →
    strLt a c = true := by
  intro a
  induction a with
  | nil =>
    intro b c h1 h2
    cases b with
    | nil => simp [strLt] at h1
    | cons y ys =>
      cases c with
      | nil => simp [strLt] at h2
      | cons z zs => simp [strLt]
  | cons x xs ih =>
    intro b c h1 h2
    cases b with
    | nil => simp [strLt] at h1
    | cons y ys =>
      cases c with
      | nil => simp [strLt] at h2
      | cons z zs =>
        simp only [strLt] at h1 h2 ⊢
        by_cases hxy : x.toNat < y.toNat
        · by_cases hyz : y.toNat < z.toNat
          · have : x.toNat < z.toNat := by omega
            simp [this]
          · simp only [hyz, if_false] at h2
            by_cases hzy : z.toNat < y.toNat
            · simp [hzy] at h2
            · have : x.toNat < z.toNat := by omega
              simp [this]
        · simp only [hxy, if_false] at h1
          by_cases hyx : y.toNat < x.toNat
          · simp [hyx] at h1
          · simp only [hyx, if_false] at h1
            by_cases hyz : y.toNat < z.toNat
            · have : x.toNat < z.toNat := by omega
              simp [this]
            · simp only [hyz, if_false] at h2
              by_cases hzy : z.toNat < y.toNat
              · simp [hzy] at h2
              · simp only [hzy, if_false] at h2
                have e1 : ¬ x.toNat < z.toNat := by omega
                have e2 : ¬ z.toNat < x.toNat := by omega
                simp only [e1, e2, if_false]
                exact ih ys zs h1 h2

theorem strLt_asymm {a b : Str} (h : strLt a b = true) : strLt b a = false := by
  cases hba : strLt b a with
  | false => rfl
  | true =>
    have := strLt_trans a b a h hba
    rw [strLt_irrefl] at this
    exact absurd this (by decide)

theorem strLt_total : ∀ (a b : Str), strLt a b = false → strLt b a = false → a = b := by
  intro a
  induction a with
  | nil =>
    intro b h1 _
    cases b with
    | nil => rfl
    | cons y ys => simp [strLt] at h1
  | cons x xs ih =>
    intro b h1 h2
    cases b with
    | nil => simp [strLt] at h2
    | cons y ys =>
      simp only [strLt] at h1 h2
      by_cases hxy : x.toNat < y.toNat
      · simp [hxy] at h1
      · by_cases hyx : y.toNat < x.toNat
        · simp [hyx] at h2
        · simp only [hxy, hyx, if_false] at h1 h2
          have hc : x = y := char_toNat_inj (by omega)
          rw [hc, ih ys h1 h2]

theorem strLt_ne {a b : Str} (h : strLt a b = true) : a ≠ b := by
  intro e; rw [e, strLt_irrefl] at h; exact absurd h (by decide)

theorem mem_try_emplace (m : List (Str × JsonNode)) (k : Str) (v : JsonNode)
    (x : Str × JsonNode) (hx : x ∈ try_emplace m k v) : x = (k, v) ∨ x ∈ m := by
  induction m with
  | nil => simp only [try_emplace, List.mem_singleton] at hx; exact Or.inl hx
  | cons e m ih =>
    obtain ⟨k1, v1⟩ := e
    simp only [try_emplace] at hx
    split at hx
    · rcases List.mem_cons.1 hx with h | h
      · exact Or.inl h
      · exact Or.inr h
    · split at hx
      · rcases List.mem_cons.1 hx with h | h
        · exact Or.inr (h ▸ List.mem_cons_self _ _)
        · rcases ih h with h | h
          · exact Or.inl h
          · exact Or.inr (List.mem_cons_of_mem _ h)
      · exact Or.inr hx

/-- The member `try_emplace` keeps the keys strictly ascending. -/
theorem try_emplace_ascending (m : List (Str × JsonNode)) (k : Str) (v : JsonNode)
    (hm : KeysAscending m) : KeysAscending (try_emplace m k v) := by
  unfold KeysAscending at hm ⊢
  induction m with
  | nil => simp [try_emplace]
  | cons e m ih =>
    obtain ⟨k1, v1⟩ := e
    have hm1 := (List.pairwise_cons.1 hm).1
    have hm2 := (List.pairwise_cons.1 hm).2
    simp only [try_emplace]
    split
    · rename_i h
      refine List.pairwise_cons.2 ⟨?_, hm⟩
      intro x hx
      rcases List.mem_cons.1 hx with hx | hx
      · rw [hx]; exact h
      · exact strLt_trans _ _ _ h (hm1 x hx)
    · split
      · rename_i h1 h2
        refine List.pairwise_cons.2 ⟨?_, ih hm2⟩
        intro x hx
        rcases mem_try_emplace m k v x hx with hx | hx
        · rw [hx]; exact h2
        · exact hm1 x hx
      · exact hm

theorem find_cons (k1 : Str) (v1 : JsonNode) (m : List (Str × JsonNode)) (k : Str) :
    find ((k1, v1) :: m) k =
      if strLt k k1 then none else if strLt k1 k then find m k else some v1 := rfl

theorem find_nil (k : Str) : find [] k = none := rfl

/-- Lookup after `try_emplace`: a key that was present keeps its node, the new key
gets the new node. -/
theorem find_try_emplace (m : List (Str × JsonNode)) (k : Str) (v : JsonNode) (k2 : Str) :
    find (try_emplace m k v) k2 =
      match find m k2 with
      | some x => some x
      | none => if k2 = k then some v else none := by
  induction m with
  | nil =>
    simp only [try_emplace, find_cons, find_nil]
    cases h1 : strLt k2 k with
    | true => simp [strLt_ne h1]
    | false =>
      cases h2 : strLt k k2 with
      | true => simp [(strLt_ne h2).symm]
      | false =>
        have : k2 = k := strLt_total _ _ h1 h2
        simp [this]
  | cons e m ih =>
    obtain ⟨k1, v1⟩ := e
    simp only [try_emplace]
    cases ha : strLt k k1 with
    | true =>
      simp only [if_true]
      rw [find_cons k v]
      cases h1 : strLt k2 k with
      | true =>
        have h3 : strLt k2 k1 = true := strLt_trans _ _ _ h1 ha
        simp [h3, find_cons, strLt_ne h1]
      | false =>
        cases h2 : strLt k k2 with
        | true =>
          simp only [Bool.false_eq_true, if_false, if_true, (strLt_ne h2).symm]
          generalize find ((k1, v1) :: m) k2 = F
          cases F <;> rfl
        | false =>
          have : k2 = k := strLt_total _ _ h1 h2
          subst this
          simp [ha, find_cons]
    | false =>
      simp only [Bool.false_eq_true, if_false]
      cases hb : strLt k1 k with
      | true =>
        simp only [if_true]
        rw [find_cons k1 v1, find_cons k1 v1]
        cases h1 : strLt k2 k1 with
        | true =>
          have h3 : strLt k2 k = true := strLt_trans _ _ _ h1 hb
          simp [strLt_ne h3]
        | false =>
          cases h2 : strLt k1 k2 with
          | true =>
            simp only [Bool.false_eq_true, if_false, if_true]
            exact ih
          | false => simp
      | false =>
        have hk : k = k1 := strLt_total _ _ ha hb
        subst hk
        simp only [Bool.false_eq_true, if_false]
        rw [find_cons]
        cases h1 : strLt k2 k with
        | true => simp [strLt_ne h1]
        | false =>
          cases h2 : strLt k k2 with
          | true =>
            simp only [Bool.false_eq_true, if_false, if_true, (strLt_ne h2).symm]
            generalize find m k2 = F
            cases F <;> rfl
          | false => simp

end MapLemmas

section MapLemmas2

theorem insertAll_nil (m : List (Str × JsonNode)) : insertAll m [] = m := rfl

theorem insertAll_cons (m : List (Str × JsonNode)) (e : Str × JsonNode)
    (es : List (Str × JsonNode)) :
    insertAll m (e :: es) = insertAll (try_emplace m e.1 e.2) es := rfl

theorem insertAll_append (es fs : List (Str × JsonNode)) :
    ∀ m, insertAll m (es ++ fs) = insertAll (insertAll m es) fs := by
  induction es with
  | nil => intro m; rfl
  | cons e es ih => intro m; simp only [List.cons_append, insertAll_cons, ih]

theorem insertAll_ascending (es : List (Str × JsonNode)) :
    ∀ m, KeysAscending m → KeysAscending (insertAll m es) := by
  induction es with
  | nil => intro m hm; exact hm
  | cons e es ih =>
    intro m hm
    rw [insertAll_cons]
    exact ih _ (try_emplace_ascending m e.1 e.2 hm)

/-- Lookup after a run of `try_emplace`: a key of the map keeps its node, any other
key gets the node of its first entry in the run. -/
theorem find_insertAll (es : List (Str × JsonNode)) (k : Str) :
    ∀ m, find (insertAll m es) k =
      match find m k with
      | some x => some x
      | none => firstValue k es := by
  induction es with
  | nil => intro m; rw [insertAll_nil]; cases find m k <;> rfl
  | cons e es ih =>
    intro m
    rw [insertAll_cons, ih, find_try_emplace]
    cases hf : find m k with
    | some x => rfl
    | none =>
      by_cases hk : e.1 = k
      · simp [firstValue, hk]
      · have hk2 : ¬ k = e.1 := fun h => hk h.symm
        simp [firstValue, hk, hk2]

theorem try_emplace_perm (m : List (Str × JsonNode)) (k : Str) (v : JsonNode)
    (hk : k ∉ m.map Prod.fst) : (try_emplace m k v).Perm ((k, v) :: m) := by
  induction m with
  | nil => exact List.Perm.refl _
  | cons e m ih =>
    obtain ⟨k1, v1⟩ := e
    simp only [List.map_cons, List.mem_cons, not_or] at hk
    simp only [try_emplace]
    cases ha : strLt k k1 with
    | true => simp
    | false =>
      cases hb : strLt k1 k with
      | true =>
        simp only [Bool.false_eq_true, if_false, if_true]
        exact ((ih hk.2).cons (k1, v1)).trans (List.Perm.swap _ _ _)
      | false => exact absurd (strLt_total _ _ ha hb) hk.1

theorem insertAll_perm (es : List (Str × JsonNode)) :
    ∀ m, (∀ e ∈ es, e.1 ∉ m.map Prod.fst) → (es.map Prod.fst).Nodup →
      (insertAll m es).Perm (es ++ m) := by
  induction es with
  | nil => intro m _ _; exact List.Perm.refl _
  | cons e es ih =>
    intro m hdis hnd
    rw [insertAll_cons]
    simp only [List.map_cons, List.nodup_cons] at hnd
    have hp := try_emplace_perm m e.1 e.2 (hdis e (List.mem_cons_self _ _))
    have hdis2 : ∀ x ∈ es, x.1 ∉ (try_emplace m e.1 e.2).map Prod.fst := by
      intro x hx hmem
      have := (hp.map Prod.fst).mem_iff.1 hmem
      simp only [List.map_cons, List.mem_cons] at this
      rcases this with h | h
      · exact hnd.1 (h ▸ List.mem_map_of_mem Prod.fst hx)
      · exact hdis x (List.mem_cons_of_mem _ hx) h
    refine (ih _ hdis2 hnd.2).trans ?_
    refine (List.Perm.append_left es hp).trans ?_
    simp only [List.cons_append]
    exact List.perm_middle

/-- Two maps with strictly ascending keys and the same entries are equal. -/
theorem ascending_perm_eq (a b : List (Str × JsonNode)) (ha : KeysAscending a)
    (hb : KeysAscending b) (hp : a.Perm b) : a = b := by
  haveI : IsAntisymm (Str × JsonNode) (fun x y => strLt x.1 y.1 = true) :=
    ⟨fun x y h1 h2 => by rw [strLt_asymm h1] at h2; exact absurd h2 (by decide)⟩
  exact List.eq_of_perm_of_sorted hp ha hb

end MapLemmas2

section ObjectForward
open JsonParser

/-- One iteration of the object loop on a good stream that holds a quoted key, a
colon and a value that decodes. -/
theorem ReadObject_loop_step (R : IStream → Except JsonError (JsonNode × IStream))
    (n : Nat) (object : List (Str × JsonNode)) (pre key mid more r : List Char) (v : JsonNode)
    (hpre : ∀ c ∈ pre, isspace c = true) (hkey : '"' ∉ key)
    (hmid : ∀ c ∈ mid, isspace c = true)
    (hR : R ⟨dropSpaces more, false⟩ = .ok (v, ⟨r, false⟩)) :
    ReadObject.loop R (n + 1) object ⟨pre ++ '"' :: (key ++ '"' :: (mid ++ ':' :: more)), false⟩ =
      if (skipUntil r ',' '\x7d').1 = false then
        («at» (try_emplace object key v) key).bind
          (fun node => .error (JsonParserException node "expected ,".toList))
      else if peekChar (skipUntil r ',' '\x7d').2 ≠ '\x7d' then
        ReadObject.loop R n (try_emplace object key v) ⟨(skipUntil r ',' '\x7d').2, false⟩
      else .ok (try_emplace object key v, ⟨(skipUntil r ',' '\x7d').2, false⟩) := by
  have h1 : dropSpaces (pre ++ '"' :: (key ++ '"' :: (mid ++ ':' :: more)))
      = '"' :: (key ++ '"' :: (mid ++ ':' :: more)) := by
    rw [dropSpaces_append_of_all pre hpre]
    exact dropSpaces_cons_of_not_space (by decide) _
  have h2 : ReadString ⟨'"' :: (key ++ '"' :: (mid ++ ':' :: more)), false⟩
      = .ok (JsonNode.string key, ⟨mid ++ ':' :: more, false⟩) :=
    ReadString_good key (mid ++ ':' :: more) hkey
  have h3 : dropSpaces (mid ++ ':' :: more) = ':' :: more := by
    rw [dropSpaces_append_of_all mid hmid]
    exact dropSpaces_cons_of_not_space (by decide) _
  have h4 : SkipSymbol ⟨mid ++ ':' :: more, false⟩ ':' = .ok (true, ⟨dropSpaces more, false⟩) := by
    rw [SkipSymbol_good_peek _ _ (by decide), h3]
    simp [peekChar]
  have h5 : (JsonNode.string key).AsString = .ok key := rfl
  simp only [ReadObject.loop, SkipWhiteSpaces_good, h1, StreamPeek_good, peekChar,
    List.headD_cons, bind, Except.bind, h2, h4, hR, h5,
    SkipSymbolUntil_good _ _ _ (by decide : ',' ≠ eofChar)]
  rw [if_neg (by decide)]
  simp only [Bool.not_true, Bool.false_eq_true, if_false]
  cases hs : (skipUntil r ',' '\x7d').1 with
  | false =>
    simp only [Bool.not_false, if_true]
    cases «at» (try_emplace object key v) key <;> rfl
  | true =>
    simp only [Bool.not_true, Bool.false_eq_true, if_false, pure, Except.pure]
    cases hh : (skipUntil r ',' '\x7d').2 with
    | nil => rfl
    | cons c cs => rfl

end ObjectForward

section ObjectForward2
open JsonParser

theorem entriesText_cons_cons (e e2 : EntryText) (es : List EntryText) :
    entriesText (e :: e2 :: es) = e.render ++ ',' :: entriesText (e2 :: es) := rfl

theorem entriesText_single (e : EntryText) : entriesText [e] = e.render := rfl

/-- The text of a non-empty run of entries starts with the white space and the
opening quote of its first entry. -/
theorem entriesText_head (e : EntryText) (es : List EntryText) (tl : List Char) :
    ∃ Y, entriesText (e :: es) ++ tl = e.pre ++ '"' :: Y := by
  cases es with
  | nil =>
    exact ⟨e.key ++ '"' :: (e.mid ++ ':' :: (e.text ++ tl)),
      by simp [entriesText_single, EntryText.render]⟩
  | cons e2 es =>
    exact ⟨e.key ++ '"' :: (e.mid ++ ':' :: (e.text ++ ',' :: (entriesText (e2 :: es) ++ tl))),
      by simp [entriesText_cons_cons, EntryText.render]⟩

theorem skipUntil_until (r more : List Char) (ch u : Char) (h : dropSpaces r = u :: more)
    (hne : u ≠ ch) : skipUntil r ch u = (true, u :: more) := by
  simp [skipUntil, h, peekChar, hne]

theorem isDelim_brace (more : List Char) : isDelim (peekChar ('\x7d' :: more)) :=
  Or.inr (Or.inr (Or.inl rfl))

/-- The object loop over well-formed entries separated by commas in front of a
closing brace: every entry is handed to `try_emplace`, in the order of the text. -/
theorem ReadObject_loop_entries (d : Nat) (rest : List Char) :
    ∀ (es : List EntryText) (e : EntryText) (object : List (Str × JsonNode)) (n : Nat),
      (∀ x ∈ e :: es, x.WellFormed) →
      (entriesText (e :: es) ++ '\x7d' :: rest).length < d → es.length < n →
      ReadObject.loop (ReadDepth d) n object ⟨entriesText (e :: es) ++ '\x7d' :: rest, false⟩
        = .ok (insertAll object ((e :: es).map EntryText.pair), ⟨'\x7d' :: rest, false⟩) := by
  intro es
  induction es with
  | nil =>
    intro e object n hwf hlen hn
    obtain ⟨n, rfl⟩ : ∃ k, n = k + 1 := ⟨n - 1, by simp at hn; omega⟩
    obtain ⟨hpre, hkey, hmid, hdec⟩ := hwf e (List.mem_cons_self _ _)
    obtain ⟨r, hr, hdr⟩ := hdec ('\x7d' :: rest) (isDelim_brace _)
    rw [dropSpaces_cons_of_not_space (by decide)] at hdr
    have hstream : entriesText [e] ++ '\x7d' :: rest
        = e.pre ++ '"' :: (e.key ++ '"' :: (e.mid ++ ':' :: (e.text ++ '\x7d' :: rest))) := by
      simp [entriesText_single, EntryText.render]
    rw [hstream] at hlen ⊢
    have hRd := ReadDepth_of_Read _ _ hr d
      (by simp only [List.length_append, List.length_cons] at hlen ⊢; omega)
    rw [← ReadDepth_dropSpaces] at hRd
    rw [ReadObject_loop_step _ _ _ _ _ _ _ r e.value hpre hkey hmid hRd,
      skipUntil_until r rest ',' '\x7d' hdr (by decide)]
    simp [peekChar, insertAll, EntryText.pair]
  | cons e2 es ih =>
    intro e object n hwf hlen hn
    obtain ⟨n, rfl⟩ : ∃ k, n = k + 1 := ⟨n - 1, by simp at hn; omega⟩
    obtain ⟨hpre, hkey, hmid, hdec⟩ := hwf e (List.mem_cons_self _ _)
    obtain ⟨r, hr, hdr⟩ := hdec (',' :: (entriesText (e2 :: es) ++ '\x7d' :: rest))
      (isDelim_comma _)
    rw [dropSpaces_cons_of_not_space (by decide)] at hdr
    have hstream : entriesText (e :: e2 :: es) ++ '\x7d' :: rest
        = e.pre ++ '"' :: (e.key ++ '"' :: (e.mid ++ ':' ::
            (e.text ++ ',' :: (entriesText (e2 :: es) ++ '\x7d' :: rest)))) := by
      simp [entriesText_cons_cons, EntryText.render]
    rw [hstream] at hlen ⊢
    have hRd := ReadDepth_of_Read _ _ hr d
      (by simp only [List.length_append, List.length_cons] at hlen ⊢; omega)
    rw [← ReadDepth_dropSpaces] at hRd
    rw [ReadObject_loop_step _ _ _ _ _ _ _ r e.value hpre hkey hmid hRd,
      skipUntil_comma r _ _ hdr]
    obtain ⟨Y, hY⟩ := entriesText_head e2 es ('\x7d' :: rest)
    have hpre2 := (hwf e2 (List.mem_cons_of_mem _ (List.mem_cons_self _ _))).1
    have hds : dropSpaces (entriesText (e2 :: es) ++ '\x7d' :: rest) = '"' :: Y := by
      rw [hY, dropSpaces_append_of_all _ hpre2]
      exact dropSpaces_cons_of_not_space (by decide) _
    have hpk : peekChar (dropSpaces (entriesText (e2 :: es) ++ '\x7d' :: rest)) ≠ '\x7d' := by
      rw [hds]
      simp only [peekChar, List.headD_cons]
      decide
    simp only [Bool.true_eq_false, if_false]
    rw [if_pos hpk, ReadObject_loop_dropSpaces]
    have hlen2 : (entriesText (e2 :: es) ++ '\x7d' :: rest).length < d := by
      simp only [List.length_append, List.length_cons] at hlen ⊢; omega
    rw [ih e2 _ n (fun x hx => hwf x (List.mem_cons_of_mem _ hx)) hlen2
      (by simp only [List.length_cons] at hn; omega)]
    rfl

theorem entriesText_length (es : List EntryText) : es.length ≤ (entriesText es).length + 1 := by
  induction es with
  | nil => simp
  | cons e es ih =>
    cases es with
    | nil => simp
    | cons e2 es =>
      simp only [entriesText_cons_cons, List.length_append, List.length_cons] at ih ⊢
      omega

/-- Decoding the text of an object with well-formed entries: the entries are handed
to `try_emplace` in the order of the text, starting from the empty map. -/
theorem Read_objectText (es : List EntryText) (rest : List Char)
    (hwf : ∀ x ∈ es, x.WellFormed) :
    Read ⟨objectText es ++ rest, false⟩
      = .ok (JsonNode.object (insertAll [] (es.map EntryText.pair)),
          ⟨dropSpaces rest, false⟩) := by
  have hd : dropSpaces (objectText es ++ rest) = objectText es ++ rest :=
    dropSpaces_cons_of_not_space (by decide) _
  have hlast : SkipSymbol ⟨'\x7d' :: rest, false⟩ '\x7d' = .ok (true, ⟨dropSpaces rest, false⟩) := by
    rw [SkipSymbol_good_peek _ _ (by decide), dropSpaces_cons_of_not_space (by decide)]
    simp [peekChar]
  unfold Read
  rw [ReadDepth_good, hd]
  have hpk : peekChar (objectText es ++ rest) = '\x7b' := rfl
  rw [if_pos hpk]
  have hform : objectText es ++ rest = '\x7b' :: (entriesText es ++ '\x7d' :: rest) := by
    simp [objectText]
  rw [hform]
  simp only [ReadObject, StreamGet_cons, bind, Except.bind, ne_eq, not_true_eq_false, if_false]
  cases es with
  | nil =>
    have hloop : ∀ n, ReadObject.loop
        (ReadDepth ('\x7b' :: (entriesText [] ++ '\x7d' :: rest)).length) (n + 1) []
        ⟨entriesText [] ++ '\x7d' :: rest, false⟩ = .ok ([], ⟨'\x7d' :: rest, false⟩) := by
      intro n
      simp [ReadObject.loop, entriesText, SkipWhiteSpaces_good, StreamPeek_good, bind,
        Except.bind, dropSpaces_cons_of_not_space, isspace, peekChar, pure, Except.pure]
    rw [hloop]
    simp only [hlast, pure, Except.pure]
    rfl
  | cons e es =>
    rw [ReadObject_loop_entries _ rest es e [] _ hwf (by simp)
      (by
        have := entriesText_length (e :: es)
        simp only [List.length_append, List.length_cons] at this ⊢
        omega)]
    simp only [hlast, pure, Except.pure]

end ObjectForward2

section ObjectClaims
open JsonParser

theorem intercalate_cons_cons (sep x y : List Char) (ys : List (List Char)) :
    sep.intercalate (x :: y :: ys) = x ++ sep ++ sep.intercalate (y :: ys) := by
  simp [List.intercalate]

theorem intercalate_single (sep x : List Char) : sep.intercalate [x] = x := by
  simp [List.intercalate]

theorem OneLineWriter_object_cons (k : Str) (v : JsonNode) (m : List (Str × JsonNode))
    (first : Bool) :
    OneLineWriter.object ((k, v) :: m) first
      = (if !first then ", ".toList else []) ++ entryCompact (k, v)
          ++ OneLineWriter.object m false := by
  rw [OneLineWriter.object]
  simp [entryCompact]

/-- The loop of the compact object writer: the entries in the order of the map,
separated by a comma and a space. -/
theorem OneLineWriter_object_loop (m : List (Str × JsonNode)) :
    OneLineWriter.object m true = (", ".toList).intercalate (m.map entryCompact) ∧
    (m ≠ [] → OneLineWriter.object m false
      = ", ".toList ++ (", ".toList).intercalate (m.map entryCompact)) := by
  induction m with
  | nil => exact ⟨rfl, fun h => absurd rfl h⟩
  | cons e m ih =>
    obtain ⟨k, v⟩ := e
    cases m with
    | nil =>
      have h0 : OneLineWriter.object [] false = [] := by rw [OneLineWriter.object]
      constructor
      · rw [OneLineWriter_object_cons, h0]
        simp [intercalate_single]
      · intro _
        rw [OneLineWriter_object_cons, h0]
        simp [intercalate_single]
    | cons e2 m =>
      have ih2 := ih.2 (by simp)
      constructor
      · rw [OneLineWriter_object_cons, ih2]
        simp only [List.map_cons]
        rw [intercalate_cons_cons (", ".toList) (entryCompact (k, v))]
        simp
      · intro _
        rw [OneLineWriter_object_cons, ih2]
        simp only [List.map_cons]
        rw [intercalate_cons_cons (", ".toList) (entryCompact (k, v))]
        simp

/-- The compact text of an Object node. -/
theorem Write_object (m : List (Str × JsonNode)) :
    Write (JsonNode.object m) false
      = "\x7b ".toList ++ (", ".toList).intercalate (m.map entryCompact) ++ " \x7d".toList := by
  simp only [Write, OneLineWriter, (OneLineWriter_object_loop m).1]
  rfl

theorem map_pair_key (es : List EntryText) :
    (es.map EntryText.pair).map Prod.fst = es.map EntryText.key := by
  induction es with
  | nil => rfl
  | cons e es ih => simp [EntryText.pair]

end ObjectClaims

section ObjectClaims2
open JsonParser

theorem KeysAscending_nil : KeysAscending [] := List.Pairwise.nil

/-- Decoding the text of an object with well-formed entries: the map has strictly
ascending keys and holds, for every key, the node of the first entry with that key. -/
theorem Read_objectText_first (es : List EntryText) (rest : List Char)
    (hwf : ∀ e ∈ es, e.WellFormed) :
    ∃ m, Read ⟨objectText es ++ rest, false⟩
        = .ok (JsonNode.object m, ⟨dropSpaces rest, false⟩) ∧
      KeysAscending m ∧ ∀ k, find m k = firstValue k (es.map EntryText.pair) := by
  refine ⟨insertAll [] (es.map EntryText.pair), Read_objectText es rest hwf,
    insertAll_ascending _ _ KeysAscending_nil, ?_⟩
  intro k
  rw [find_insertAll]
  rfl

/-- Decoding two object texts that hold the same entries with distinct keys in
different orders gives the same map, which holds the entries in ascending key
order. -/
theorem Read_objectText_sorted (es es2 : List EntryText) (hwf : ∀ e ∈ es, e.WellFormed)
    (hwf2 : ∀ e ∈ es2, e.WellFormed) (hnd : (es.map EntryText.key).Nodup)
    (hperm : (es.map EntryText.pair).Perm (es2.map EntryText.pair)) :
    ∃ m, Read ⟨objectText es, false⟩ = .ok (JsonNode.object m, ⟨[], false⟩) ∧
      Read ⟨objectText es2, false⟩ = .ok (JsonNode.object m, ⟨[], false⟩) ∧
      KeysAscending m ∧ m.Perm (es.map EntryText.pair) := by
  have h1 := Read_objectText es [] hwf
  have h2 := Read_objectText es2 [] hwf2
  simp only [List.append_nil] at h1 h2
  have hnd1 : ((es.map EntryText.pair).map Prod.fst).Nodup := by
    rw [map_pair_key]; exact hnd
  have hnd2 : ((es2.map EntryText.pair).map Prod.fst).Nodup :=
    (hperm.map Prod.fst).nodup_iff.1 hnd1
  have p1 := insertAll_perm (es.map EntryText.pair) [] (by simp) hnd1
  have p2 := insertAll_perm (es2.map EntryText.pair) [] (by simp) hnd2
  simp only [List.append_nil] at p1 p2
  have heq : insertAll [] (es2.map EntryText.pair) = insertAll [] (es.map EntryText.pair) :=
    ascending_perm_eq _ _ (insertAll_ascending _ _ KeysAscending_nil)
      (insertAll_ascending _ _ KeysAscending_nil) (p2.trans (hperm.symm.trans p1.symm))
  rw [heq] at h2
  exact ⟨_, h1, h2, insertAll_ascending _ _ KeysAscending_nil, p1⟩

end ObjectClaims2

/-- C2: an object text made of well-formed entries (quoted key without a double
quote, colon, value text; optional white space in front of the key and of the colon)
separated by commas decodes to an Object whose map has each key once and maps every
key to the node of the first entry with that key; the later entries with the key are
read, since the whole text is consumed, and leave the map as it is. -/
theorem C2_duplicate_key_first_wins (es : List EntryText) (rest : List Char)
    (hwf : ∀ e ∈ es, e.WellFormed) :
    ∃ m, JsonParser.Read ⟨objectText es ++ rest, false⟩
        = .ok (JsonNode.object m, ⟨dropSpaces rest, false⟩) ∧
      KeysAscending m ∧ ∀ k, find m k = firstValue k (es.map EntryText.pair) :=
  Read_objectText_first es rest hwf

/-- C2 at the text with the entries "a":1 and "a":2: the Object has the single entry
"a" with the Int32 node 1. -/
theorem C2_duplicate_key_first_wins_witness :
    JsonParser.Read (istream "\x7b\"a\":1,\"a\":2\x7d")
      = .ok (JsonNode.object [("a".toList, JsonNode.int 1)], ⟨[], false⟩) ∧
    ∃ m, JsonParser.Read (istream "\x7b\"a\":1,\"a\":2\x7d")
        = .ok (JsonNode.object m, ⟨[], false⟩) ∧
      KeysAscending m ∧
      ∀ k, find m k
        = firstValue k [("a".toList, JsonNode.int 1), ("a".toList, JsonNode.int 2)] :=
  ⟨by rfl,
    C2_duplicate_key_first_wins
      [⟨[], "a".toList, [], "1".toList, JsonNode.int 1⟩,
        ⟨[], "a".toList, [], "2".toList, JsonNode.int 2⟩] []
      (by
        intro e he
        simp only [List.mem_cons, List.mem_singleton, List.not_mem_nil, or_false] at he
        rcases he with rfl | rfl
        · exact ⟨by simp, by decide, by simp, Decodes_int 1 (by decide) (by decide)⟩
        · exact ⟨by simp, by decide, by simp, Decodes_int 2 (by decide) (by decide)⟩)⟩

/-- C3: two object texts made of well-formed entries that hold the same key and node
pairs with distinct keys, in whatever order, decode to the same Object; its map lists
these pairs in strictly ascending key order, and the compact encoding writes the
entries in the order of the map, so both texts give the same compact output. -/
theorem C3_sorted_key_order (es es2 : List EntryText) (hwf : ∀ e ∈ es, e.WellFormed)
    (hwf2 : ∀ e ∈ es2, e.WellFormed) (hnd : (es.map EntryText.key).Nodup)
    (hperm : (es.map EntryText.pair).Perm (es2.map EntryText.pair)) :
    ∃ m, JsonParser.Read ⟨objectText es, false⟩ = .ok (JsonNode.object m, ⟨[], false⟩) ∧
      JsonParser.Read ⟨objectText es2, false⟩ = .ok (JsonNode.object m, ⟨[], false⟩) ∧
      KeysAscending m ∧ m.Perm (es.map EntryText.pair) ∧
      JsonParser.Write (JsonNode.object m) false
        = "\x7b ".toList ++ (", ".toList).intercalate (m.map entryCompact)
            ++ " \x7d".toList := by
  obtain ⟨m, h1, h2, h3, h4⟩ := Read_objectText_sorted es es2 hwf hwf2 hnd hperm
  exact ⟨m, h1, h2, h3, h4, Write_object m⟩

/-- C3 at the texts with the entries "b":1, "a":2 and "a":2, "b":1: both decode to
the same Object, and in its compact output the entry of "a" stands in front of that
of "b". -/
theorem C3_sorted_key_order_witness :
    JsonParser.Read (istream "\x7b\"b\":1,\"a\":2\x7d")
      = .ok (JsonNode.object [("a".toList, JsonNode.int 2), ("b".toList, JsonNode.int 1)],
          ⟨[], false⟩) ∧
    JsonParser.Write
        (JsonNode.object [("a".toList, JsonNode.int 2), ("b".toList, JsonNode.int 1)]) false
      = "\x7b \"a\": 2, \"b\": 1 \x7d".toList ∧
    ∃ m, JsonParser.Read (istream "\x7b\"b\":1,\"a\":2\x7d")
        = .ok (JsonNode.object m, ⟨[], false⟩) ∧
      JsonParser.Read (istream "\x7b\"a\":2,\"b\":1\x7d")
        = .ok (JsonNode.object m, ⟨[], false⟩) ∧
      KeysAscending m :=
  ⟨by rfl, by rfl,
    (C3_sorted_key_order
      [⟨[], "b".toList, [], "1".toList, JsonNode.int 1⟩,
        ⟨[], "a".toList, [], "2".toList, JsonNode.int 2⟩]
      [⟨[], "a".toList, [], "2".toList, JsonNode.int 2⟩,
        ⟨[], "b".toList, [], "1".toList, JsonNode.int 1⟩]
      (by
        intro e he
        simp only [List.mem_cons, List.mem_singleton, List.not_mem_nil, or_false] at he
        rcases he with rfl | rfl
        · exact ⟨by simp, by decide, by simp, Decodes_int 1 (by decide) (by decide)⟩
        · exact ⟨by simp, by decide, by simp, Decodes_int 2 (by decide) (by decide)⟩)
      (by
        intro e he
        simp only [List.mem_cons, List.mem_singleton, List.not_mem_nil, or_false] at he
        rcases he with rfl | rfl
        · exact ⟨by simp, by decide, by simp, Decodes_int 2 (by decide) (by decide)⟩
        · exact ⟨by simp, by decide, by simp, Decodes_int 1 (by decide) (by decide)⟩)
      (by decide)
      (List.Perm.swap _ _ _)).imp (fun _ h => ⟨h.1, h.2.1, h.2.2.1⟩)⟩

section Continuation
open JsonParser

theorem ne_nil_of_isspace_peek {rest : List Char} (h : isspace (peekChar rest) = true) :
    rest ≠ [] := by
  intro e; rw [e] at h; exact absurd h (by decide)

theorem dropSpaces_append_ne_nil (b rest : List Char) (h : dropSpaces b ≠ []) :
    dropSpaces (b ++ rest) = dropSpaces b ++ rest := by
  induction b with
  | nil => exact absurd rfl h
  | cons c cs ih =>
    by_cases hc : isspace c = true
    · simp only [List.cons_append, dropSpaces, hc, if_true] at h ⊢
      exact ih h
    · simp [dropSpaces, hc]

theorem dropSpaces_append_nil (b rest : List Char) (h : dropSpaces b = []) :
    dropSpaces (b ++ rest) = dropSpaces rest := by
  induction b with
  | nil => rfl
  | cons c cs ih =>
    by_cases hc : isspace c = true
    · simp only [List.cons_append, dropSpaces, hc, if_true] at h ⊢
      exact ih h
    · simp [dropSpaces, hc] at h

theorem exists_spaces_prefix (b : List Char) :
    ∃ ws : List Char, (∀ c ∈ ws, isspace c = true) ∧ b = ws ++ dropSpaces b := by
  induction b with
  | nil => exact ⟨[], by simp, rfl⟩
  | cons c cs ih =>
    by_cases hc : isspace c = true
    · obtain ⟨ws, h1, h2⟩ := ih
      refine ⟨c :: ws, ?_, ?_⟩
      · intro x hx
        rcases List.mem_cons.1 hx with h | h
        · rw [h]; exact hc
        · exact h1 x h
      · simp only [dropSpaces, hc, if_true, List.cons_append]
        rw [← h2]
    · exact ⟨[], by simp, by simp [dropSpaces, hc]⟩

theorem peekChar_append_ne_nil (b rest : List Char) (h : b ≠ []) :
    peekChar (b ++ rest) = peekChar b := by
  cases b with
  | nil => exact absurd rfl h
  | cons c cs => rfl

theorem takeDigits_append_stop (x rest : List Char) (h : isdigit (peekChar rest) = false) :
    takeDigits (x ++ rest) = takeDigits x := by
  induction x with
  | nil =>
    cases rest with
    | nil => rfl
    | cons c cs =>
      have : isdigit c = false := by simpa [peekChar] using h
      simp [takeDigits, this]
  | cons c cs ih =>
    by_cases hc : isdigit c = true
    · simp [takeDigits, hc, ih]
    · simp [takeDigits, hc]

theorem dropDigits_append_stop (x rest : List Char) (h : isdigit (peekChar rest) = false) :
    dropDigits (x ++ rest) = dropDigits x ++ rest := by
  induction x with
  | nil =>
    cases rest with
    | nil => rfl
    | cons c cs =>
      have : isdigit c = false := by simpa [peekChar] using h
      simp [dropDigits, this]
  | cons c cs ih =>
    by_cases hc : isdigit c = true
    · simp [dropDigits, hc, ih]
    · simp [dropDigits, hc]

theorem takeToken_append_space (x rest : List Char) (h : isspace (peekChar rest) = true) :
    takeToken (x ++ rest) = takeToken x := by
  induction x with
  | nil =>
    cases rest with
    | nil => rfl
    | cons c cs =>
      have : isspace c = true := by simpa [peekChar] using h
      simp [takeToken, this]
  | cons c cs ih =>
    by_cases hc : isspace c = true
    · simp [takeToken, hc]
    · simp [takeToken, hc, ih]

theorem dropToken_append_space (x rest : List Char) (h : isspace (peekChar rest) = true) :
    dropToken (x ++ rest) = dropToken x ++ rest := by
  induction x with
  | nil =>
    cases rest with
    | nil => rfl
    | cons c cs =>
      have : isspace c = true := by simpa [peekChar] using h
      simp [dropToken, this]
  | cons c cs ih =>
    by_cases hc : isspace c = true
    · simp [dropToken, hc]
    · simp [dropToken, hc, ih]

/-- The string loop succeeds only on a stream that holds a double quote. -/
theorem ReadString_loop_inv :
    ∀ (n : Nat) (acc b : List Char) (eof : Bool) (r : Str × IStream),
      ReadString.loop n acc ⟨b, eof⟩ = .ok r →
      eof = false ∧ ∃ s t, b = s ++ '"' :: t ∧ '"' ∉ s ∧ r = (acc ++ s, ⟨'"' :: t, false⟩) := by
  intro n
  induction n with
  | zero =>
    intro acc b eof r h
    simp [ReadString.loop, throw, throwThe, MonadExceptOf.throw] at h
  | succ n ih =>
    intro acc b eof r h
    cases eof with
    | true => simp [ReadString.loop, bind, Except.bind] at h
    | false =>
      refine ⟨rfl, ?_⟩
      cases b with
      | nil =>
        simp [ReadString.loop, bind, Except.bind, eofChar] at h
      | cons c cs =>
        by_cases hc : c = '"'
        · subst hc
          simp only [ReadString.loop, StreamPeek_cons, bind, Except.bind, ne_eq,
            not_true_eq_false, if_false, pure, Except.pure] at h
          cases h
          exact ⟨[], cs, rfl, by simp, by simp⟩
        · simp only [ReadString.loop, StreamPeek_cons, StreamGet_cons, bind, Except.bind, ne_eq,
            hc, not_false_eq_true, if_true] at h
          obtain ⟨_, s, t, h1, h2, h3⟩ := ih _ _ _ _ h
          refine ⟨c :: s, t, by rw [h1]; rfl, ?_, by rw [h3]; simp⟩
          intro hmem
          rcases List.mem_cons.1 hmem with h4 | h4
          · exact hc h4.symm
          · exact h2 h4

/-- `ReadString` succeeds only on a quoted text. -/
theorem ReadString_inv (b : List Char) (eof : Bool) (r : JsonNode × IStream)
    (h : ReadString ⟨b, eof⟩ = .ok r) :
    eof = false ∧ ∃ s t, b = '"' :: (s ++ '"' :: t) ∧ '"' ∉ s ∧
      r = (JsonNode.string s, ⟨t, false⟩) := by
  cases eof with
  | true => simp [ReadString, bind, Except.bind] at h
  | false =>
    refine ⟨rfl, ?_⟩
    cases b with
    | nil => simp [ReadString, bind, Except.bind] at h
    | cons c cs =>
      by_cases hc : c = '"'
      · subst hc
        simp only [ReadString, StreamGet_cons, bind, Except.bind, ne_eq, not_true_eq_false,
          if_false] at h
        cases hl : ReadString.loop (cs.length + 1) [] ⟨cs, false⟩ with
        | error e => rw [hl] at h; cases h
        | ok q =>
          obtain ⟨_, s, t, h1, h2, h3⟩ := ReadString_loop_inv _ _ _ _ _ hl
          refine ⟨s, t, by rw [h1], h2, ?_⟩
          have h5 : ReadString ⟨'"' :: cs, false⟩ = .ok r := by
            simp only [ReadString, StreamGet_cons, bind, Except.bind, ne_eq, not_true_eq_false,
              if_false]
            exact h
          rw [h1] at h5
          have h6 : Except.ok (JsonNode.string s, (⟨t, false⟩ : IStream)) = Except.ok r :=
            (ReadString_good s t h2).symm.trans h5
          cases h6
          rfl
      · simp [ReadString, bind, Except.bind, hc, throw, throwThe, MonadExceptOf.throw] at h

end Continuation

section Continuation2
open JsonParser

theorem peekChar_nil : peekChar [] = eofChar := rfl

theorem peekChar_cons (c : Char) (cs : List Char) : peekChar (c :: cs) = c := rfl

theorem scanSign_append (b rest : List Char) (h : numStop (peekChar rest)) :
    scanSign (b ++ rest) = ((scanSign b).1, (scanSign b).2 ++ rest) := by
  cases b with
  | nil =>
    simp only [List.nil_append, scanSign, h.2.1, if_false, peekChar_nil]
    rw [if_neg (by decide)]
    rfl
  | cons c cs =>
    by_cases hc : c = '-'
    · simp [scanSign, peekChar, hc]
    · simp [scanSign, peekChar, hc]

theorem scanInt_append (s x rest : List Char) (h : numStop (peekChar rest)) :
    scanInt (s, x ++ rest) = (scanInt (s, x)).map (fun p => (p.1, p.2 ++ rest)) := by
  cases x with
  | nil =>
    have h0 : peekChar rest ≠ '0' := (fun e => by rw [e] at h; exact absurd h.1 (by decide))
    simp only [List.nil_append, scanInt, h0, if_false, h.1, Bool.false_eq_true, peekChar_nil]
    rw [if_neg (by decide), if_neg (by decide)]
    rfl
  | cons c cs =>
    by_cases hc : c = '0'
    · simp [scanInt, peekChar, hc]
    · by_cases hd : isdigit c = true
      · have e1 := takeDigits_append_stop (c :: cs) rest h.1
        have e2 := dropDigits_append_stop (c :: cs) rest h.1
        simp only [List.cons_append] at e1 e2
        simp [scanInt, peekChar, hc, hd, e1, e2]
      · simp [scanInt, peekChar, hc, hd]

theorem scanFrac_append (s x rest : List Char) (h : numStop (peekChar rest)) :
    scanFrac (s, x ++ rest)
      = ((scanFrac (s, x)).1, (scanFrac (s, x)).2.1 ++ rest, (scanFrac (s, x)).2.2) := by
  cases x with
  | nil =>
    simp only [List.nil_append, scanFrac, h.2.2.2.1, if_false, peekChar_nil]
    rw [if_neg (by decide)]
    rfl
  | cons c cs =>
    by_cases hc : c = '.'
    · simp [scanFrac, peekChar, hc, takeDigits_append_stop cs rest h.1,
        dropDigits_append_stop cs rest h.1]
    · simp [scanFrac, peekChar, hc]

theorem scanExp_append (s x rest : List Char) (dbl : Bool) (h : numStop (peekChar rest)) :
    scanExp (s, x ++ rest, dbl)
      = ((scanExp (s, x, dbl)).1, (scanExp (s, x, dbl)).2.1 ++ rest,
          (scanExp (s, x, dbl)).2.2) := by
  cases x with
  | nil =>
    have h1 : ¬ (peekChar rest = 'E' ∨ peekChar rest = 'e') := by
      intro hh; rcases hh with hh | hh
      · exact h.2.2.2.2.2 hh
      · exact h.2.2.2.2.1 hh
    simp only [List.nil_append, scanExp, h1, if_false, peekChar_nil]
    rw [if_neg (by decide)]
    rfl
  | cons c cs =>
    by_cases hc : c = 'E' ∨ c = 'e'
    · cases cs with
      | nil =>
        have h2 : ¬ (peekChar rest = '+' ∨ peekChar rest = '-') := by
          intro hh; rcases hh with hh | hh
          · exact h.2.2.1 hh
          · exact h.2.1 hh
        have h3 : ¬ (eofChar = '+' ∨ eofChar = '-') := by decide
        have e1 := takeDigits_append_stop [] rest h.1
        have e2 := dropDigits_append_stop [] rest h.1
        simp only [List.nil_append] at e1 e2
        simp only [scanExp, List.cons_append, List.nil_append, peekChar_cons, List.tail_cons, hc,
          if_true, h2, if_false, peekChar_nil, h3, e1, e2]
      | cons c2 cs2 =>
        by_cases hc2 : c2 = '+' ∨ c2 = '-'
        · simp [scanExp, peekChar, hc, hc2, takeDigits_append_stop cs2 rest h.1,
            dropDigits_append_stop cs2 rest h.1]
        · have e1 := takeDigits_append_stop (c2 :: cs2) rest h.1
          have e2 := dropDigits_append_stop (c2 :: cs2) rest h.1
          simp only [List.cons_append] at e1 e2
          simp [scanExp, peekChar, hc, hc2, e1, e2]
    · simp [scanExp, peekChar, hc]

end Continuation2

section Continuation3
open JsonParser

theorem Follows_append (rest b : List Char) : Follows rest ⟨b, false⟩ ⟨b ++ rest, false⟩ :=
  ⟨rfl, Or.inl ⟨rfl, rfl⟩⟩

theorem ReadString_follows (b rest : List Char) (node : JsonNode) (o : IStream)
    (h : ReadString ⟨b, false⟩ = .ok (node, o)) :
    ∃ e, ReadString ⟨b ++ rest, false⟩ = .ok (node, e) ∧ Follows rest o e := by
  obtain ⟨_, s, t, h1, h2, h3⟩ := ReadString_inv _ _ _ h
  cases h3
  refine ⟨⟨t ++ rest, false⟩, ?_, Follows_append _ _⟩
  rw [h1]
  have := ReadString_good s (t ++ rest) h2
  simpa using this

theorem ReadNumber_follows (b rest : List Char) (hrest : isspace (peekChar rest) = true)
    (node : JsonNode) (o : IStream) (h : ReadNumber ⟨b, false⟩ = .ok (node, o)) :
    ∃ e, ReadNumber ⟨b ++ rest, false⟩ = .ok (node, e) ∧ Follows rest o e := by
  have hs := numStop_of_isspace hrest
  rw [ReadNumber_good] at h ⊢
  rw [scanSign_append b rest hs, scanInt_append _ _ _ hs]
  cases hp : scanInt (scanSign b) with
  | none => rw [hp] at h; cases h
  | some p =>
    rw [hp] at h
    simp only [Option.map_some'] at h ⊢
    have e1 := scanFrac_append p.1 p.2 rest hs
    have e2 := scanExp_append (scanFrac (p.1, p.2)).1 (scanFrac (p.1, p.2)).2.1 rest
      (scanFrac (p.1, p.2)).2.2 hs
    have hpp : (p.1, p.2) = p := rfl
    rw [hpp] at e1 e2
    rw [e1, e2]
    have hqq : ((scanFrac p).1, (scanFrac p).2.1, (scanFrac p).2.2) = scanFrac p := rfl
    rw [hqq]
    cases hc : ReadNumber.convert (scanExp (scanFrac p)).1 (scanExp (scanFrac p)).2.2 with
    | error e => rw [hc] at h; cases h
    | ok nd =>
      rw [hc] at h
      simp only at h ⊢
      cases h
      exact ⟨_, rfl, Follows_append _ _⟩

theorem ReadOther_follows (b rest : List Char) (hrest : isspace (peekChar rest) = true)
    (node : JsonNode) (o : IStream) (h : ReadOther ⟨b, false⟩ = .ok (node, o)) :
    ∃ e, ReadOther ⟨b ++ rest, false⟩ = .ok (node, e) ∧ Follows rest o e := by
  have hne : dropSpaces b ≠ [] := by
    intro hb
    rw [ReadOther_good, hb] at h
    simp [takeToken] at h
  have hrne := ne_nil_of_isspace_peek hrest
  rw [ReadOther_good] at h ⊢
  rw [dropSpaces_append_ne_nil b rest hne, takeToken_append_space _ _ hrest,
    dropToken_append_space _ _ hrest]
  have hfol : Follows rest ⟨dropToken (dropSpaces b), decide (dropToken (dropSpaces b) = [])⟩
      ⟨dropToken (dropSpaces b) ++ rest, decide (dropToken (dropSpaces b) ++ rest = [])⟩ := by
    have hd : decide (dropToken (dropSpaces b) ++ rest = []) = false := by
      simp [hrne]
    refine ⟨hd, ?_⟩
    by_cases hx : dropToken (dropSpaces b) = []
    · exact Or.inr ⟨hx, [], by simp, by simp [hx]⟩
    · exact Or.inl ⟨by simp [hx], rfl⟩
  simp only at h ⊢
  split at h
  · rename_i h1
    cases h
    rw [if_pos h1]
    exact ⟨_, rfl, hfol⟩
  · rename_i h1
    rw [if_neg h1]
    split at h
    · rename_i h2
      cases h
      rw [if_pos h2]
      exact ⟨_, rfl, hfol⟩
    · rename_i h2
      rw [if_neg h2]
      split at h
      · rename_i h3
        cases h
        rw [if_pos h3]
        exact ⟨_, rfl, hfol⟩
      · cases h

end Continuation3

section Continuation4
open JsonParser

theorem ReadArray_loop_stop (R : IStream → Except JsonError (JsonNode × IStream))
    (n : Nat) (array : List JsonNode) (b : List Char) (hp : peekChar (dropSpaces b) = ']') :
    ReadArray.loop R (n + 1) array ⟨b, false⟩ = .ok (array, ⟨dropSpaces b, false⟩) := by
  simp only [ReadArray.loop, SkipWhiteSpaces_good, StreamPeek_good, bind, Except.bind, hp,
    if_true, pure, Except.pure]

theorem ReadArray_loop_error (R : IStream → Except JsonError (JsonNode × IStream))
    (n : Nat) (array : List JsonNode) (b : List Char) (e : JsonError)
    (hp : peekChar (dropSpaces b) ≠ ']') (hR : R ⟨dropSpaces b, false⟩ = .error e) :
    ReadArray.loop R (n + 1) array ⟨b, false⟩ = .error e := by
  simp only [ReadArray.loop, SkipWhiteSpaces_good, StreamPeek_good, bind, Except.bind, hp,
    if_false, hR]

theorem ReadArray_loop_eofbit (R : IStream → Except JsonError (JsonNode × IStream))
    (n : Nat) (array : List JsonNode) (b b1 : List Char) (v : JsonNode)
    (r : List JsonNode × IStream)
    (hp : peekChar (dropSpaces b) ≠ ']') (hR : R ⟨dropSpaces b, false⟩ = .ok (v, ⟨b1, true⟩)) :
    ReadArray.loop R (n + 1) array ⟨b, false⟩ ≠ .ok r := by
  simp [ReadArray.loop, SkipWhiteSpaces_good, StreamPeek_good, bind, Except.bind, hp, hR,
    SkipSymbolUntil, SkipSymbol, SkipWhiteSpaces_eofbit]

theorem ReadArray_loop_nil (R : IStream → Except JsonError (JsonNode × IStream))
    (hR0 : ∀ eof r, R ⟨[], eof⟩ ≠ .ok r) (n : Nat) (array : List JsonNode)
    (r : List JsonNode × IStream) : ReadArray.loop R n array ⟨[], false⟩ ≠ .ok r := by
  cases n with
  | zero => simp [ReadArray.loop, throw, throwThe, MonadExceptOf.throw]
  | succ n =>
    cases hR : R ⟨[], false⟩ with
    | ok v => exact absurd hR (hR0 _ _)
    | error e =>
      rw [ReadArray_loop_error R n array [] e (by decide) hR]
      simp

theorem skipUntil_nil (b : List Char) (ch u : Char) (h : dropSpaces b = [])
    (hch : ch ≠ eofChar) (hu : u ≠ eofChar) : (skipUntil b ch u).1 = false := by
  simp [skipUntil, h, peekChar, Ne.symm hch, Ne.symm hu]

/-- The array loop over a text and over the same text followed by `rest`: the same
elements, and the loop stops at the same closing bracket. -/
theorem ReadArray_loop_follows (R : IStream → Except JsonError (JsonNode × IStream))
    (rest : List Char)
    (hR : ∀ b node o, R ⟨b, false⟩ = .ok (node, o) →
      ∃ e, R ⟨b ++ rest, false⟩ = .ok (node, e) ∧ Follows rest o e)
    (hR0 : ∀ eof r, R ⟨[], eof⟩ ≠ .ok r) :
    ∀ (n : Nat) (array : List JsonNode) (b : List Char) (r : List JsonNode × IStream),
      ReadArray.loop R n array ⟨b, false⟩ = .ok r →
      ∃ x, r.2 = ⟨']' :: x, false⟩ ∧
        ReadArray.loop R n array ⟨b ++ rest, false⟩ = .ok (r.1, ⟨']' :: (x ++ rest), false⟩) := by
  intro n
  induction n with
  | zero =>
    intro array b r h
    simp [ReadArray.loop, throw, throwThe, MonadExceptOf.throw] at h
  | succ n ih =>
    intro array b r h
    by_cases hp : peekChar (dropSpaces b) = ']'
    · have hb := cons_of_peekChar hp (by decide)
      rw [ReadArray_loop_stop R n array b hp] at h
      cases h
      have hne : dropSpaces b ≠ [] := by rw [hb]; simp
      refine ⟨(dropSpaces b).tail, by rw [← hb], ?_⟩
      have hp2 : peekChar (dropSpaces (b ++ rest)) = ']' := by
        rw [dropSpaces_append_ne_nil b rest hne, peekChar_append_ne_nil _ _ hne, hp]
      rw [ReadArray_loop_stop R n array (b ++ rest) hp2, dropSpaces_append_ne_nil b rest hne]
      conv_lhs => rw [hb]
      rfl
    · have hne : dropSpaces b ≠ [] := by
        intro hb
        cases hRv : R ⟨[], false⟩ with
        | ok v => exact absurd hRv (hR0 _ _)
        | error e =>
          rw [ReadArray_loop_error R n array b e hp (by rw [hb]; exact hRv)] at h
          cases h
      cases hRv : R ⟨dropSpaces b, false⟩ with
      | error e => rw [ReadArray_loop_error R n array b e hp hRv] at h; cases h
      | ok vv =>
        obtain ⟨v, ⟨b1, eof1⟩⟩ := vv
        cases eof1 with
        | true => exact absurd h (ReadArray_loop_eofbit R n array b b1 v r hp hRv)
        | false =>
          rw [ReadArray_loop_step R n array b b1 v hp hRv] at h
          obtain ⟨e1, hRe, hfol⟩ := hR _ _ _ hRv
          have hsk : (skipUntil b1 ',' ']').1 = true := by
            cases hh : (skipUntil b1 ',' ']').1 with
            | true => rfl
            | false => rw [if_pos hh] at h; cases h
          have hne1 : dropSpaces b1 ≠ [] := by
            intro hb1
            rw [skipUntil_nil b1 ',' ']' hb1 (by decide) (by decide)] at hsk
            exact absurd hsk (by decide)
          have he1 : e1 = ⟨b1 ++ rest, false⟩ := by
            obtain ⟨h1, h2 | h2⟩ := hfol
            · obtain ⟨bb, ee⟩ := e1
              simp only at h1 h2
              rw [h1, h2.2]
            · exact absurd (by rw [show b1 = [] from h2.1]; rfl) hne1
          subst he1
          have hp2 : peekChar (dropSpaces (b ++ rest)) ≠ ']' := by
            rw [dropSpaces_append_ne_nil b rest hne, peekChar_append_ne_nil _ _ hne]; exact hp
          have hRe2 : R ⟨dropSpaces (b ++ rest), false⟩ = .ok (v, ⟨b1 ++ rest, false⟩) := by
            rw [dropSpaces_append_ne_nil b rest hne]; exact hRe
          rw [ReadArray_loop_step R n array (b ++ rest) (b1 ++ rest) v hp2 hRe2]
          rw [if_neg (by simp [hsk])] at h
          obtain ⟨c1, u1, hcu⟩ := List.exists_cons_of_ne_nil hne1
          by_cases hc1 : c1 = ','
          · subst hc1
            have hs1 : skipUntil b1 ',' ']' = (true, dropSpaces u1) := skipUntil_comma b1 u1 _ hcu
            have hs2 : skipUntil (b1 ++ rest) ',' ']' = (true, dropSpaces (u1 ++ rest)) :=
              skipUntil_comma _ _ _ (by rw [dropSpaces_append_ne_nil b1 rest hne1, hcu]; rfl)
            rw [hs1] at h
            rw [hs2]
            simp only [Bool.true_eq_false, if_false] at h ⊢
            have hne2 : dropSpaces u1 ≠ [] := by
              intro hu
              rw [hu] at h
              rw [if_pos (by decide)] at h
              exact ReadArray_loop_nil R hR0 _ _ _ h
            rw [dropSpaces_append_ne_nil u1 rest hne2, peekChar_append_ne_nil _ _ hne2]
            by_cases hq : peekChar (dropSpaces u1) = ']'
            · rw [if_neg (by simpa using hq)] at h ⊢
              cases h
              have hb := cons_of_peekChar hq (by decide)
              refine ⟨(dropSpaces u1).tail, by rw [← hb], ?_⟩
              conv_lhs => rw [hb]
              rfl
            · rw [if_pos (by simpa using hq)] at h ⊢
              exact ih _ _ _ h
          · have hs1 : skipUntil b1 ',' ']' = (decide (c1 = ']'), c1 :: u1) := by
              simp [skipUntil, hcu, peekChar, hc1]
            rw [hs1] at hsk h
            have hc2 : c1 = ']' := by simpa using hsk
            subst hc2
            have hs2 : skipUntil (b1 ++ rest) ',' ']' = (true, ']' :: (u1 ++ rest)) :=
              skipUntil_until _ _ _ _ (by rw [dropSpaces_append_ne_nil b1 rest hne1, hcu]; rfl)
                (by decide)
            rw [hs2]
            simp only [Bool.true_eq_false, if_false, peekChar_cons, ne_eq, not_true_eq_false] at h ⊢
            cases h
            exact ⟨u1, rfl, rfl⟩

end Continuation4

section Continuation5
open JsonParser

theorem Follows_dropSpaces (rest x : List Char) :
    Follows rest ⟨dropSpaces x, false⟩ ⟨dropSpaces (x ++ rest), false⟩ := by
  refine ⟨rfl, ?_⟩
  by_cases hx : dropSpaces x = []
  · right
    obtain ⟨ws, h1, h2⟩ := exists_spaces_prefix rest
    refine ⟨hx, ws, h1, ?_⟩
    simp only
    rw [dropSpaces_append_nil x rest hx]
    exact h2
  · left
    exact ⟨rfl, dropSpaces_append_ne_nil x rest hx⟩

theorem SkipSymbol_cons_self (c : Char) (x : List Char) (hc : isspace c = false)
    (hne : c ≠ eofChar) :
    SkipSymbol ⟨c :: x, false⟩ c = .ok (true, ⟨dropSpaces x, false⟩) := by
  rw [SkipSymbol_good_peek _ _ hne, dropSpaces_cons_of_not_space hc]
  simp [peekChar]

/-- `ReadArray` over a text and over the same text followed by `rest`. -/
theorem ReadArray_follows (R : IStream → Except JsonError (JsonNode × IStream))
    (rest : List Char)
    (hR : ∀ b node o, R ⟨b, false⟩ = .ok (node, o) →
      ∃ e, R ⟨b ++ rest, false⟩ = .ok (node, e) ∧ Follows rest o e)
    (hR0 : ∀ eof r, R ⟨[], eof⟩ ≠ .ok r)
    (b : List Char) (node : JsonNode) (o : IStream)
    (h : ReadArray R ⟨b, false⟩ = .ok (node, o)) :
    ∃ e, ReadArray R ⟨b ++ rest, false⟩ = .ok (node, e) ∧ Follows rest o e := by
  rw [ReadArray_ok_iff] at h
  obtain ⟨g, r, k, h1, hg, h2, h3, h4⟩ := h
  cases b with
  | nil => simp at h1
  | cons c t =>
    rw [StreamGet_cons] at h1
    cases h1
    simp only at hg h2
    subst hg
    obtain ⟨x, hx, hloop⟩ := ReadArray_loop_follows R rest hR hR0 _ _ _ _ h2
    rw [hx, SkipSymbol_cons_self ']' x (by decide) (by decide)] at h3
    cases h3
    cases h4
    refine ⟨⟨dropSpaces (x ++ rest), false⟩, ?_, Follows_dropSpaces rest x⟩
    rw [ReadArray_ok_iff]
    refine ⟨('[', ⟨t ++ rest, false⟩), (r.1, ⟨']' :: (x ++ rest), false⟩),
      (true, ⟨dropSpaces (x ++ rest), false⟩), rfl, rfl, ?_, ?_, rfl⟩
    · exact ReadArray_loop_mono R R (fun _ _ hh => hh) _ _ _ _ _
        (by simp only [List.length_append]; omega) hloop
    · exact SkipSymbol_cons_self ']' _ (by decide) (by decide)

theorem ReadObject_loop_stop (R : IStream → Except JsonError (JsonNode × IStream))
    (n : Nat) (object : List (Str × JsonNode)) (b : List Char)
    (hp : peekChar (dropSpaces b) = '\x7d') :
    ReadObject.loop R (n + 1) object ⟨b, false⟩ = .ok (object, ⟨dropSpaces b, false⟩) := by
  simp only [ReadObject.loop, SkipWhiteSpaces_good, StreamPeek_good, bind, Except.bind, hp,
    if_true, pure, Except.pure]

/-- The object loop goes on, behind a stream that does not start with a closing
brace, only over a quoted key and a colon. -/
theorem ReadObject_loop_form (R : IStream → Except JsonError (JsonNode × IStream))
    (n : Nat) (object : List (Str × JsonNode)) (b : List Char)
    (r : List (Str × JsonNode) × IStream) (hp : peekChar (dropSpaces b) ≠ '\x7d')
    (h : ReadObject.loop R (n + 1) object ⟨b, false⟩ = .ok r) :
    ∃ pre key mid more, (∀ c ∈ pre, isspace c = true) ∧ '"' ∉ key ∧
      (∀ c ∈ mid, isspace c = true) ∧
      b = pre ++ '"' :: (key ++ '"' :: (mid ++ ':' :: more)) := by
  rw [ReadObject_loop_ok_iff] at h
  obtain ⟨i1, c, h1, h2, h⟩ := h
  rw [SkipWhiteSpaces_good] at h1
  cases h1
  rw [StreamPeek_good] at h2
  cases h2
  rcases h with ⟨hc, _⟩ | ⟨_, key, k, value, name, k2, c2, h3, h4, hk, _⟩
  · exact absurd hc hp
  · obtain ⟨_, s, t, e1, e2, e3⟩ := ReadString_inv _ _ _ h3
    cases e3
    rw [SkipSymbol_good_peek _ _ (by decide)] at h4
    by_cases hq : peekChar (dropSpaces t) = ':'
    · have ht := cons_of_peekChar hq (by decide)
      obtain ⟨pre, p1, p2⟩ := exists_spaces_prefix b
      obtain ⟨mid, m1, m2⟩ := exists_spaces_prefix t
      refine ⟨pre, s, mid, (dropSpaces t).tail, p1, e2, m1, ?_⟩
      rw [← ht, ← m2, ← e1, ← p2]
    · rw [if_neg hq] at h4
      cases h4
      simp at hk

theorem ReadObject_loop_error (R : IStream → Except JsonError (JsonNode × IStream))
    (n : Nat) (object : List (Str × JsonNode)) (pre key mid more : List Char) (e : JsonError)
    (hpre : ∀ c ∈ pre, isspace c = true) (hkey : '"' ∉ key)
    (hmid : ∀ c ∈ mid, isspace c = true)
    (hR : R ⟨dropSpaces more, false⟩ = .error e) :
    ReadObject.loop R (n + 1) object ⟨pre ++ '"' :: (key ++ '"' :: (mid ++ ':' :: more)), false⟩
      = .error e := by
  have h1 : dropSpaces (pre ++ '"' :: (key ++ '"' :: (mid ++ ':' :: more)))
      = '"' :: (key ++ '"' :: (mid ++ ':' :: more)) := by
    rw [dropSpaces_append_of_all pre hpre]
    exact dropSpaces_cons_of_not_space (by decide) _
  have h2 : ReadString ⟨'"' :: (key ++ '"' :: (mid ++ ':' :: more)), false⟩
      = .ok (JsonNode.string key, ⟨mid ++ ':' :: more, false⟩) :=
    ReadString_good key (mid ++ ':' :: more) hkey
  have h3 : dropSpaces (mid ++ ':' :: more) = ':' :: more := by
    rw [dropSpaces_append_of_all mid hmid]
    exact dropSpaces_cons_of_not_space (by decide) _
  have h4 : SkipSymbol ⟨mid ++ ':' :: more, false⟩ ':' = .ok (true, ⟨dropSpaces more, false⟩) := by
    rw [SkipSymbol_good_peek _ _ (by decide), h3]
    simp [peekChar]
  simp only [ReadObject.loop, SkipWhiteSpaces_good, h1, StreamPeek_good, peekChar,
    List.headD_cons, bind, Except.bind, h2, h4, hR]
  rw [if_neg (by decide)]
  simp

theorem ReadObject_loop_eofbit (R : IStream → Except JsonError (JsonNode × IStream))
    (n : Nat) (object : List (Str × JsonNode)) (pre key mid more b1 : List Char) (v : JsonNode)
    (r : List (Str × JsonNode) × IStream)
    (hpre : ∀ c ∈ pre, isspace c = true) (hkey : '"' ∉ key)
    (hmid : ∀ c ∈ mid, isspace c = true)
    (hR : R ⟨dropSpaces more, false⟩ = .ok (v, ⟨b1, true⟩)) :
    ReadObject.loop R (n + 1) object ⟨pre ++ '"' :: (key ++ '"' :: (mid ++ ':' :: more)), false⟩
      ≠ .ok r := by
  have h1 : dropSpaces (pre ++ '"' :: (key ++ '"' :: (mid ++ ':' :: more)))
      = '"' :: (key ++ '"' :: (mid ++ ':' :: more)) := by
    rw [dropSpaces_append_of_all pre hpre]
    exact dropSpaces_cons_of_not_space (by decide) _
  have h2 : ReadString ⟨'"' :: (key ++ '"' :: (mid ++ ':' :: more)), false⟩
      = .ok (JsonNode.string key, ⟨mid ++ ':' :: more, false⟩) :=
    ReadString_good key (mid ++ ':' :: more) hkey
  have h3 : dropSpaces (mid ++ ':' :: more) = ':' :: more := by
    rw [dropSpaces_append_of_all mid hmid]
    exact dropSpaces_cons_of_not_space (by decide) _
  have h4 : SkipSymbol ⟨mid ++ ':' :: more, false⟩ ':' = .ok (true, ⟨dropSpaces more, false⟩) := by
    rw [SkipSymbol_good_peek _ _ (by decide), h3]
    simp [peekChar]
  have h5 : (JsonNode.string key).AsString = .ok key := rfl
  simp only [ReadObject.loop, SkipWhiteSpaces_good, h1, StreamPeek_good, peekChar,
    List.headD_cons, bind, Except.bind, h2, h4, hR, h5]
  rw [if_neg (by decide)]
  simp [SkipSymbolUntil, SkipSymbol, SkipWhiteSpaces_eofbit, bind, Except.bind]

theorem ReadObject_loop_nil (R : IStream → Except JsonError (JsonNode × IStream))
    (n : Nat) (object : List (Str × JsonNode))
    (r : List (Str × JsonNode) × IStream) : ReadObject.loop R n object ⟨[], false⟩ ≠ .ok r := by
  cases n with
  | zero => simp [ReadObject.loop, throw, throwThe, MonadExceptOf.throw]
  | succ n =>
    simp [ReadObject.loop, SkipWhiteSpaces_good, dropSpaces, bind, Except.bind, ReadString,
      eofChar]

end Continuation5

section Continuation6
open JsonParser

/-- The object loop over a text and over the same text followed by `rest`: the same
map, and the loop stops at the same closing brace. -/
theorem ReadObject_loop_follows (R : IStream → Except JsonError (JsonNode × IStream))
    (rest : List Char)
    (hR : ∀ b node o, R ⟨b, false⟩ = .ok (node, o) →
      ∃ e, R ⟨b ++ rest, false⟩ = .ok (node, e) ∧ Follows rest o e)
    (hR0 : ∀ eof r, R ⟨[], eof⟩ ≠ .ok r) :
    ∀ (n : Nat) (object : List (Str × JsonNode)) (b : List Char)
      (r : List (Str × JsonNode) × IStream),
      ReadObject.loop R n object ⟨b, false⟩ = .ok r →
      ∃ x, r.2 = ⟨'\x7d' :: x, false⟩ ∧
        ReadObject.loop R n object ⟨b ++ rest, false⟩
          = .ok (r.1, ⟨'\x7d' :: (x ++ rest), false⟩) := by
  intro n
  induction n with
  | zero =>
    intro object b r h
    simp [ReadObject.loop, throw, throwThe, MonadExceptOf.throw] at h
  | succ n ih =>
    intro object b r h
    by_cases hp : peekChar (dropSpaces b) = '\x7d'
    · have hb := cons_of_peekChar hp (by decide)
      rw [ReadObject_loop_stop R n object b hp] at h
      cases h
      have hne : dropSpaces b ≠ [] := by rw [hb]; simp
      refine ⟨(dropSpaces b).tail, by rw [← hb], ?_⟩
      have hp2 : peekChar (dropSpaces (b ++ rest)) = '\x7d' := by
        rw [dropSpaces_append_ne_nil b rest hne, peekChar_append_ne_nil _ _ hne, hp]
      rw [ReadObject_loop_stop R n object (b ++ rest) hp2, dropSpaces_append_ne_nil b rest hne]
      conv_lhs => rw [hb]
      rfl
    · obtain ⟨pre, key, mid, more, hpre, hkey, hmid, hform⟩ :=
        ReadObject_loop_form R n object b r hp h
      have hform2 : b ++ rest
          = pre ++ '"' :: (key ++ '"' :: (mid ++ ':' :: (more ++ rest))) := by
        rw [hform]; simp
      rw [hform2]
      rw [hform] at h
      cases hRv : R ⟨dropSpaces more, false⟩ with
      | error e =>
        rw [ReadObject_loop_error R n object pre key mid more e hpre hkey hmid hRv] at h
        cases h
      | ok vv =>
        obtain ⟨v, ⟨b1, eof1⟩⟩ := vv
        cases eof1 with
        | true =>
          exact absurd h (ReadObject_loop_eofbit R n object pre key mid more b1 v r hpre hkey
            hmid hRv)
        | false =>
          have hnm : dropSpaces more ≠ [] := by
            intro hm
            rw [hm] at hRv
            exact hR0 _ _ hRv
          rw [ReadObject_loop_step R n object pre key mid more b1 v hpre hkey hmid hRv] at h
          obtain ⟨e1, hRe, hfol⟩ := hR _ _ _ hRv
          have hsk : (skipUntil b1 ',' '\x7d').1 = true := by
            cases hh : (skipUntil b1 ',' '\x7d').1 with
            | true => rfl
            | false =>
              rw [if_pos hh] at h
              cases hat : «at» (try_emplace object key v) key with
              | error e => rw [hat] at h; cases h
              | ok nd => rw [hat] at h; cases h
          have hne1 : dropSpaces b1 ≠ [] := by
            intro hb1
            rw [skipUntil_nil b1 ',' '\x7d' hb1 (by decide) (by decide)] at hsk
            exact absurd hsk (by decide)
          have he1 : e1 = ⟨b1 ++ rest, false⟩ := by
            obtain ⟨h1, h2 | h2⟩ := hfol
            · obtain ⟨bb, ee⟩ := e1
              simp only at h1 h2
              rw [h1, h2.2]
            · exact absurd (by rw [show b1 = [] from h2.1]; rfl) hne1
          subst he1
          have hRe2 : R ⟨dropSpaces (more ++ rest), false⟩ = .ok (v, ⟨b1 ++ rest, false⟩) := by
            rw [dropSpaces_append_ne_nil more rest hnm]; exact hRe
          rw [ReadObject_loop_step R n object pre key mid (more ++ rest) (b1 ++ rest) v hpre hkey
            hmid hRe2]
          rw [if_neg (by simp [hsk])] at h
          obtain ⟨c1, u1, hcu⟩ := List.exists_cons_of_ne_nil hne1
          by_cases hc1 : c1 = ','
          · subst hc1
            have hs1 : skipUntil b1 ',' '\x7d' = (true, dropSpaces u1) :=
              skipUntil_comma b1 u1 _ hcu
            have hs2 : skipUntil (b1 ++ rest) ',' '\x7d' = (true, dropSpaces (u1 ++ rest)) :=
              skipUntil_comma _ _ _ (by rw [dropSpaces_append_ne_nil b1 rest hne1, hcu]; rfl)
            rw [hs1] at h
            rw [hs2]
            simp only [Bool.true_eq_false, if_false] at h ⊢
            have hne2 : dropSpaces u1 ≠ [] := by
              intro hu
              rw [hu] at h
              rw [if_pos (by decide)] at h
              exact ReadObject_loop_nil R _ _ _ h
            rw [dropSpaces_append_ne_nil u1 rest hne2, peekChar_append_ne_nil _ _ hne2]
            by_cases hq : peekChar (dropSpaces u1) = '\x7d'
            · rw [if_neg (by simpa using hq)] at h ⊢
              cases h
              have hb := cons_of_peekChar hq (by decide)
              refine ⟨(dropSpaces u1).tail, by rw [← hb], ?_⟩
              conv_lhs => rw [hb]
              rfl
            · rw [if_pos (by simpa using hq)] at h ⊢
              exact ih _ _ _ h
          · have hs1 : skipUntil b1 ',' '\x7d' = (decide (c1 = '\x7d'), c1 :: u1) := by
              simp [skipUntil, hcu, peekChar, hc1]
            rw [hs1] at hsk h
            have hc2 : c1 = '\x7d' := by simpa using hsk
            subst hc2
            have hs2 : skipUntil (b1 ++ rest) ',' '\x7d' = (true, '\x7d' :: (u1 ++ rest)) :=
              skipUntil_until _ _ _ _ (by rw [dropSpaces_append_ne_nil b1 rest hne1, hcu]; rfl)
                (by decide)
            rw [hs2]
            simp only [Bool.true_eq_false, if_false, peekChar_cons, ne_eq, not_true_eq_false] at h ⊢
            cases h
            exact ⟨u1, rfl, rfl⟩

/-- `ReadObject` over a text and over the same text followed by `rest`. -/
theorem ReadObject_follows (R : IStream → Except JsonError (JsonNode × IStream))
    (rest : List Char)
    (hR : ∀ b node o, R ⟨b, false⟩ = .ok (node, o) →
      ∃ e, R ⟨b ++ rest, false⟩ = .ok (node, e) ∧ Follows rest o e)
    (hR0 : ∀ eof r, R ⟨[], eof⟩ ≠ .ok r)
    (b : List Char) (node : JsonNode) (o : IStream)
    (h : ReadObject R ⟨b, false⟩ = .ok (node, o)) :
    ∃ e, ReadObject R ⟨b ++ rest, false⟩ = .ok (node, e) ∧ Follows rest o e := by
  rw [ReadObject_ok_iff] at h
  obtain ⟨g, r, k, h1, hg, h2, h3, h4⟩ := h
  cases b with
  | nil => simp at h1
  | cons c t =>
    rw [StreamGet_cons] at h1
    cases h1
    simp only at hg h2
    subst hg
    obtain ⟨x, hx, hloop⟩ := ReadObject_loop_follows R rest hR hR0 _ _ _ _ h2
    rw [hx, SkipSymbol_cons_self '\x7d' x (by decide) (by decide)] at h3
    cases h3
    cases h4
    refine ⟨⟨dropSpaces (x ++ rest), false⟩, ?_, Follows_dropSpaces rest x⟩
    rw [ReadObject_ok_iff]
    refine ⟨('\x7b', ⟨t ++ rest, false⟩), (r.1, ⟨'\x7d' :: (x ++ rest), false⟩),
      (true, ⟨dropSpaces (x ++ rest), false⟩), rfl, rfl, ?_, ?_, rfl⟩
    · exact ReadObject_loop_mono R R (fun _ _ hh => hh) _ _ _ _ _
        (by simp only [List.length_append]; omega) hloop
    · exact SkipSymbol_cons_self '\x7d' _ (by decide) (by decide)

theorem ReadDepth_nil (d : Nat) (eof : Bool) (r : JsonNode × IStream) :
    ReadDepth d ⟨[], eof⟩ ≠ .ok r := by
  cases eof with
  | true => exact ReadDepth_eofbit d [] r
  | false =>
    cases d with
    | zero => simp [ReadDepth, throw, throwThe, MonadExceptOf.throw]
    | succ d =>
      rw [ReadDepth_good]
      simp only [dropSpaces, peekChar_nil]
      rw [if_neg (by decide), if_neg (by decide), if_neg (by decide), if_neg (by decide),
        ReadOther_good]
      simp [dropSpaces, takeToken]

/-- `ReadDepth` over a text and over the same text followed by a continuation that
starts with white space: the same node, and the stream of the longer text follows
that of the shorter. -/
theorem ReadDepth_follows (rest : List Char) (hrest : isspace (peekChar rest) = true) :
    ∀ (d : Nat) (b : List Char) (node : JsonNode) (o : IStream),
      ReadDepth d ⟨b, false⟩ = .ok (node, o) →
      ∃ e, ReadDepth d ⟨b ++ rest, false⟩ = .ok (node, e) ∧ Follows rest o e := by
  intro d
  induction d with
  | zero => intro b node o h; simp [ReadDepth, throw, throwThe, MonadExceptOf.throw] at h
  | succ d ih =>
    intro b node o h
    have hne : dropSpaces b ≠ [] := by
      intro hb
      have := ReadDepth_dropSpaces (d + 1) b
      rw [hb] at this
      rw [← this] at h
      exact ReadDepth_nil _ _ _ h
    rw [ReadDepth_good] at h ⊢
    rw [dropSpaces_append_ne_nil b rest hne, peekChar_append_ne_nil _ _ hne]
    split at h
    · rename_i h1
      rw [if_pos h1]
      exact ReadObject_follows _ rest ih (ReadDepth_nil d) _ _ _ h
    · rename_i h1
      rw [if_neg h1]
      split at h
      · rename_i h2
        rw [if_pos h2]
        exact ReadArray_follows _ rest ih (ReadDepth_nil d) _ _ _ h
      · rename_i h2
        rw [if_neg h2]
        split at h
        · rename_i h3
          rw [if_pos h3]
          exact ReadString_follows _ rest _ _ h
        · rename_i h3
          rw [if_neg h3]
          split at h
          · rename_i h4
            rw [if_pos h4]
            exact ReadNumber_follows _ rest hrest _ _ h
          · rename_i h4
            rw [if_neg h4]
            exact ReadOther_follows _ rest hrest _ _ h

/-- `Read` over a text and over the same text followed by a continuation that
starts with white space. -/
theorem Read_follows (rest : List Char) (hrest : isspace (peekChar rest) = true)
    (v : List Char) (node : JsonNode) (o : IStream)
    (h : Read ⟨v, false⟩ = .ok (node, o)) :
    ∃ e, Read ⟨v ++ rest, false⟩ = .ok (node, e) ∧ Follows rest o e := by
  obtain ⟨e, h1, h2⟩ := ReadDepth_follows rest hrest _ _ _ _ h
  exact ⟨e, ReadDepth_mono _ _ (by simp only [List.length_append]; omega) _ _ h1, h2⟩

end Continuation6

/-- C9: when `Read` decodes a node from a text `v`, then in front of every
continuation `rest` that is empty or starts with white space it decodes the same node
from `v` followed by `rest`; what is left unread is what was left of `v` followed by
`rest`, without some white space at the start (no other character of `rest` is
consumed), and behind a non-empty `rest` the stream is good, ready for the next
`Read`. -/
theorem C9_read_one_value (v rest : List Char) (node : JsonNode) (o : IStream)
    (h : JsonParser.Read ⟨v, false⟩ = .ok (node, o))
    (hrest : rest = [] ∨ isspace (peekChar rest) = true) :
    ∃ e, JsonParser.Read ⟨v ++ rest, false⟩ = .ok (node, e) ∧
      (∃ ws : List Char, (∀ c ∈ ws, isspace c = true) ∧ o.buf ++ rest = ws ++ e.buf) ∧
      (rest ≠ [] → e.eofbit = false) := by
  rcases hrest with hrest | hrest
  · subst hrest
    refine ⟨o, by simpa using h, ⟨[], by simp, by simp⟩, fun hh => absurd rfl hh⟩
  · obtain ⟨e, h1, h2, h3⟩ := Read_follows rest hrest v node o h
    refine ⟨e, h1, ?_, fun _ => h2⟩
    rcases h3 with ⟨_, h4⟩ | ⟨h4, ws, h5, h6⟩
    · exact ⟨[], by simp, by rw [h4]; rfl⟩
    · exact ⟨ws, h5, by rw [h4, h6]; rfl⟩

/-- C9 at the text `[1] [2]`: the first `Read` returns the array of 1, exactly as on
the text `[1]` alone, and leaves `[2]`, from which the second `Read` returns the
array of 2. -/
theorem C9_read_one_value_witness :
    (∃ e, JsonParser.Read (istream "[1] [2]") = .ok (JsonNode.array [JsonNode.int 1], e) ∧
      (∃ ws : List Char, (∀ c ∈ ws, isspace c = true) ∧ " [2]".toList = ws ++ e.buf) ∧
      e.eofbit = false) ∧
    JsonParser.Read (istream "[1] [2]")
      = .ok (JsonNode.array [JsonNode.int 1], ⟨"[2]".toList, false⟩) ∧
    JsonParser.Read ⟨"[2]".toList, false⟩
      = .ok (JsonNode.array [JsonNode.int 2], ⟨[], false⟩) := by
  have h := C9_read_one_value "[1]".toList " [2]".toList (JsonNode.array [JsonNode.int 1])
    ⟨[], false⟩ (by rfl) (Or.inr (by decide))
  obtain ⟨e, h1, h2, h3⟩ := h
  exact ⟨⟨e, h1, h2, h3 (by decide)⟩, by rfl, by rfl⟩

/-! ## Compact text of containers -/

section CompactContainers
open JsonParser

theorem OneLineWriter_array_cons (e : JsonNode) (es : List JsonNode) (first : Bool) :
    OneLineWriter.array (e :: es) first
      = (if !first then ", ".toList else []) ++ OneLineWriter e
          ++ OneLineWriter.array es false := by
  rw [OneLineWriter.array]

theorem OneLineWriter_array_nil (first : Bool) : OneLineWriter.array [] first = [] := by
  rw [OneLineWriter.array]

/-- The loop of the compact array writer: the elements in their order, separated by
a comma and a space. -/
theorem OneLineWriter_array_loop (es : List JsonNode) :
    OneLineWriter.array es true = (", ".toList).intercalate (es.map OneLineWriter) ∧
    (es ≠ [] → OneLineWriter.array es false
      = ", ".toList ++ (", ".toList).intercalate (es.map OneLineWriter)) := by
  induction es with
  | nil => exact ⟨by rw [OneLineWriter_array_nil]; rfl, fun h => absurd rfl h⟩
  | cons e es ih =>
    cases es with
    | nil =>
      constructor
      · rw [OneLineWriter_array_cons, OneLineWriter_array_nil]
        simp [intercalate_single]
      · intro _
        rw [OneLineWriter_array_cons, OneLineWriter_array_nil]
        simp [intercalate_single]
    | cons e2 es =>
      have ih2 := ih.2 (by simp)
      constructor
      · rw [OneLineWriter_array_cons, ih2]
        simp only [List.map_cons]
        rw [intercalate_cons_cons (", ".toList) (OneLineWriter e)]
        simp
      · intro _
        rw [OneLineWriter_array_cons, ih2]
        simp only [List.map_cons]
        rw [intercalate_cons_cons (", ".toList) (OneLineWriter e)]
        simp

/-- The compact text of an Array node. -/
theorem Write_array (es : List JsonNode) :
    Write (JsonNode.array es) false
      = "[ ".toList ++ (", ".toList).intercalate (es.map OneLineWriter) ++ " ]".toList := by
  simp only [Write, OneLineWriter, (OneLineWriter_array_loop es).1]
  rfl

end CompactContainers

/-- C11: the compact encoding of an Array is `[ `, the compact encodings of its
elements joined by `, `, and ` ]`; the compact encoding of an Object is `{ `, its
entries `"key": value` in the order of the map joined by `, `, and ` }`.  The texts
`[]` and `{}` decode to the empty Array and the empty Object, whose compact encodings
are `[  ]` and `{  }` with two spaces. -/
theorem C11_compact_container_format :
    (∀ es : List JsonNode,
      JsonParser.Write (JsonNode.array es) false
        = "[ ".toList
            ++ (", ".toList).intercalate (es.map (fun e => JsonParser.Write e false))
            ++ " ]".toList) ∧
    (∀ m : List (Str × JsonNode),
      JsonParser.Write (JsonNode.object m) false
        = "\x7b ".toList
            ++ (", ".toList).intercalate
                (m.map (fun e => '"' :: (e.1 ++ '"' :: (": ".toList ++ JsonParser.Write e.2 false))))
            ++ " \x7d".toList) ∧
    (∃ node st, JsonParser.Read (istream "[]") = .ok (node, st) ∧ node = JsonNode.array [] ∧
      JsonParser.Write node false = "[  ]".toList) ∧
    (∃ node st, JsonParser.Read (istream "\x7b\x7d") = .ok (node, st) ∧
      node = JsonNode.object [] ∧ JsonParser.Write node false = "\x7b  \x7d".toList) := by
  refine ⟨fun es => ?_, fun m => ?_, ⟨_, _, rfl, rfl, rfl⟩, ⟨_, _, rfl, rfl, rfl⟩⟩
  · rw [Write_array]
    rfl
  · rw [Write_object]
    rfl

/-! ## Kind predicates and accessors -/


/-- C18: the kind predicates follow the stored alternative.  `IsLong` holds exactly on
the Int32 and Int64 nodes, `IsDouble` exactly on the Int32, Int64 and Double nodes,
and each other predicate exactly on the nodes of its own kind.  A node built from a
boolean `b` has `IsBool`, `AsBool() = b`, and no other predicate. -/
theorem C18_kind_predicates :
    (∀ n : JsonNode,
      (n.IsLong = true ↔ (∃ v, n = JsonNode.int v) ∨ (∃ v, n = JsonNode.long v)) ∧
      (n.IsDouble = true ↔
        (∃ v, n = JsonNode.int v) ∨ (∃ v, n = JsonNode.long v) ∨ (∃ v, n = JsonNode.double v)) ∧
      (n.IsLong = true ↔ n.GetTypeIndx = TYPE.INT ∨ n.GetTypeIndx = TYPE.LONG) ∧
      (n.IsDouble = true ↔
        n.GetTypeIndx = TYPE.INT ∨ n.GetTypeIndx = TYPE.LONG ∨ n.GetTypeIndx = TYPE.DOUBLE) ∧
      (n.IsNull = true ↔ n = JsonNode.null) ∧
      (n.IsBool = true ↔ ∃ v, n = JsonNode.bool v) ∧
      (n.IsInt = true ↔ ∃ v, n = JsonNode.int v) ∧
      (n.IsPureLong = true ↔ ∃ v, n = JsonNode.long v) ∧
      (n.IsPureDouble = true ↔ ∃ v, n = JsonNode.double v) ∧
      (n.IsString = true ↔ ∃ v, n = JsonNode.string v) ∧
      (n.IsArray = true ↔ ∃ v, n = JsonNode.array v) ∧
      (n.IsObject = true ↔ ∃ v, n = JsonNode.object v)) ∧
    (∀ b : Bool,
      (JsonNode.bool b).IsBool = true ∧ (JsonNode.bool b).AsBool = .ok b ∧
      (JsonNode.bool b).IsNull = false ∧ (JsonNode.bool b).IsInt = false ∧
      (JsonNode.bool b).IsLong = false ∧ (JsonNode.bool b).IsPureLong = false ∧
      (JsonNode.bool b).IsDouble = false ∧ (JsonNode.bool b).IsPureDouble = false ∧
      (JsonNode.bool b).IsString = false ∧ (JsonNode.bool b).IsArray = false ∧
      (JsonNode.bool b).IsObject = false) := by
  constructor
  · intro n
    cases n <;>
      simp [JsonNode.IsLong, JsonNode.IsDouble, JsonNode.IsNull, JsonNode.IsBool, JsonNode.IsInt,
        JsonNode.IsPureLong, JsonNode.IsPureDouble, JsonNode.IsString, JsonNode.IsArray,
        JsonNode.IsObject, JsonNode.GetTypeIndx]
  · intro b
    refine ⟨rfl, rfl, rfl, rfl, rfl, rfl, rfl, rfl, rfl, rfl, rfl⟩

/-- C14: every strict accessor returns a value on the nodes for which its predicate
holds and throws its `runtime_error` on all other nodes.  `AsLong` on an Int32 node
returns the stored integer, `AsDouble` returns a value on every Int32, Int64 and
Double node, and `AsInt` throws on every Int64 and Double node, whatever the stored
value. -/
theorem C14_strict_accessors :
    (∀ n : JsonNode,
      ((n.IsBool = true ∧ ∃ v, n.AsBool = .ok v) ∨
        (n.IsBool = false ∧
          n.AsBool = .error (JsonError.runtime_error "Node is not hold <bool>".toList))) ∧
      ((n.IsInt = true ∧ ∃ v, n.AsInt = .ok v) ∨
        (n.IsInt = false ∧
          n.AsInt = .error (JsonError.runtime_error "Node is not hold <int>".toList))) ∧
      ((n.IsLong = true ∧ ∃ v, n.AsLong = .ok v) ∨
        (n.IsLong = false ∧
          n.AsLong
            = .error (JsonError.runtime_error "Node is not hold <long> or <int>".toList))) ∧
      ((n.IsDouble = true ∧ ∃ v, n.AsDouble = .ok v) ∨
        (n.IsDouble = false ∧
          n.AsDouble = .error
            (JsonError.runtime_error "Node is not hold <double> or <long> of <int>".toList))) ∧
      ((n.IsString = true ∧ ∃ v, n.AsString = .ok v) ∨
        (n.IsString = false ∧
          n.AsString = .error (JsonError.runtime_error "Node is not hold <string>".toList))) ∧
      ((n.IsArray = true ∧ ∃ v, n.AsArray = .ok v) ∨
        (n.IsArray = false ∧
          n.AsArray = .error (JsonError.runtime_error "Node is not hold <Array>".toList))) ∧
      ((n.IsObject = true ∧ ∃ v, n.AsObject = .ok v) ∨
        (n.IsObject = false ∧
          n.AsObject = .error (JsonError.runtime_error "Node is not hold <Object>".toList)))) ∧
    (∀ i : Int, (JsonNode.int i).AsLong = .ok i) ∧
    (∀ i : Int, (JsonNode.int i).AsDouble = .ok (Double.ofInt i)) ∧
    (∀ i : Int, (JsonNode.long i).AsDouble = .ok (Double.ofInt i)) ∧
    (∀ d : Double, (JsonNode.double d).AsDouble = .ok d) ∧
    (∀ i : Int,
      (JsonNode.long i).AsInt
        = .error (JsonError.runtime_error "Node is not hold <int>".toList)) ∧
    (∀ d : Double,
      (JsonNode.double d).AsInt
        = .error (JsonError.runtime_error "Node is not hold <int>".toList)) := by
  refine ⟨fun n => ?_, fun _ => rfl, fun _ => rfl, fun _ => rfl, fun _ => rfl, fun _ => rfl,
    fun _ => rfl⟩
  cases n <;>
    simp [JsonNode.IsLong, JsonNode.IsDouble, JsonNode.IsBool, JsonNode.IsInt,
      JsonNode.IsPureLong, JsonNode.IsPureDouble, JsonNode.IsString, JsonNode.IsArray,
      JsonNode.IsObject, JsonNode.GetTypeIndx, JsonNode.AsBool, JsonNode.AsInt, JsonNode.AsLong,
      JsonNode.AsDouble, JsonNode.AsString, JsonNode.AsArray, JsonNode.AsObject,
      JsonNode.AsBool_err, JsonNode.AsInt_err, JsonNode.AsLong_err, JsonNode.AsDouble_err,
      JsonNode.AsString_err, JsonNode.AsArray_err, JsonNode.AsObject_err, pure, Except.pure,
      throw, throwThe, MonadExceptOf.throw]

/-- C15: a tolerant accessor never throws.  On a node for which its predicate holds
it leaves `err` false, whatever `err` was, and returns the value of the strict
accessor; on every other node it leaves `err` true and returns the default of its
type: `false`, `0`, `0`, `0.0`, the empty string, the empty array, the empty object. -/
theorem C15_tolerant_accessors (n : JsonNode) (err : Bool) :
    ((n.IsBool = true ∧ (n.AsBool_err err).2 = false ∧ n.AsBool = .ok (n.AsBool_err err).1) ∨
      (n.IsBool = false ∧ n.AsBool_err err = (false, true))) ∧
    ((n.IsInt = true ∧ (n.AsInt_err err).2 = false ∧ n.AsInt = .ok (n.AsInt_err err).1) ∨
      (n.IsInt = false ∧ n.AsInt_err err = (0, true))) ∧
    ((n.IsLong = true ∧ (n.AsLong_err err).2 = false ∧ n.AsLong = .ok (n.AsLong_err err).1) ∨
      (n.IsLong = false ∧ n.AsLong_err err = (0, true))) ∧
    ((n.IsDouble = true ∧ (n.AsDouble_err err).2 = false ∧
        n.AsDouble = .ok (n.AsDouble_err err).1) ∨
      (n.IsDouble = false ∧ n.AsDouble_err err = (⟨false, 0, 0⟩, true))) ∧
    ((n.IsString = true ∧ (n.AsString_err err).2 = false ∧
        n.AsString = .ok (n.AsString_err err).1) ∨
      (n.IsString = false ∧ n.AsString_err err = ([], true))) ∧
    ((n.IsArray = true ∧ (n.AsArray_err err).2 = false ∧
        n.AsArray = .ok (n.AsArray_err err).1) ∨
      (n.IsArray = false ∧ n.AsArray_err err = ([], true))) ∧
    ((n.IsObject = true ∧ (n.AsObject_err err).2 = false ∧
        n.AsObject = .ok (n.AsObject_err err).1) ∨
      (n.IsObject = false ∧ n.AsObject_err err = ([], true))) := by
  cases n <;>
    simp [JsonNode.IsLong, JsonNode.IsDouble, JsonNode.IsBool, JsonNode.IsInt,
      JsonNode.IsPureLong, JsonNode.IsPureDouble, JsonNode.IsString, JsonNode.IsArray,
      JsonNode.IsObject, JsonNode.GetTypeIndx, JsonNode.AsBool, JsonNode.AsInt, JsonNode.AsLong,
      JsonNode.AsDouble, JsonNode.AsString, JsonNode.AsArray, JsonNode.AsObject,
      JsonNode.AsBool_err, JsonNode.AsInt_err, JsonNode.AsLong_err, JsonNode.AsDouble_err,
      JsonNode.AsString_err, JsonNode.AsArray_err, JsonNode.AsObject_err, pure, Except.pure,
      throw, throwThe, MonadExceptOf.throw]

/-! ## Indexed access -/

section IndexLemmas

/-- Lookup in a map with ascending keys finds exactly the entries of the map. -/
theorem find_eq_some_iff (m : List (Str × JsonNode)) (hm : KeysAscending m) (k : Str)
    (v : JsonNode) : find m k = some v ↔ (k, v) ∈ m := by
  induction m with
  | nil => simp [find_nil]
  | cons e m ih =>
    obtain ⟨k1, v1⟩ := e
    have hm1 : ∀ x ∈ m, strLt k1 x.1 = true := (List.pairwise_cons.mp hm).1
    have hm2 : KeysAscending m := (List.pairwise_cons.mp hm).2
    rw [find_cons, List.mem_cons]
    cases h1 : strLt k k1 with
    | true =>
      simp only [if_true]
      constructor
      · intro h; cases h
      · rintro (h | h)
        · have hk : k = k1 := congrArg Prod.fst h
          rw [hk, strLt_irrefl] at h1
          cases h1
        · have h2 := hm1 _ h
          rw [strLt_asymm h1] at h2
          cases h2
    | false =>
      cases h2 : strLt k1 k with
      | true =>
        simp only [if_true, Bool.false_eq_true, if_false]
        rw [ih hm2]
        constructor
        · exact Or.inr
        · rintro (h | h)
          · have hk : k = k1 := congrArg Prod.fst h
            rw [hk, strLt_irrefl] at h2
            cases h2
          · exact h
      | false =>
        simp only [Bool.false_eq_true, if_false]
        have hk : k = k1 := strLt_total k k1 h1 h2
        constructor
        · intro h
          have hv : v1 = v := Option.some.inj h
          rw [hk, hv]
          exact Or.inl rfl
        · rintro (h | h)
          · have hv : v = v1 := congrArg Prod.snd h
            rw [hv]
          · have h3 := hm1 _ h
            rw [h2] at h3
            cases h3

theorem find_eq_none_iff (m : List (Str × JsonNode)) (hm : KeysAscending m) (k : Str) :
    find m k = none ↔ ∀ v, (k, v) ∉ m := by
  constructor
  · intro h v hv
    rw [(find_eq_some_iff m hm k v).mpr hv] at h
    cases h
  · intro h
    cases hf : find m k with
    | none => rfl
    | some v => exact absurd ((find_eq_some_iff m hm k v).mp hf) (h v)

theorem subscript_name_object (m : List (Str × JsonNode)) (k : Str) :
    (JsonNode.object m).subscript_name k = «at» m k := rfl

theorem subscript_idx_array (v : List JsonNode) (idx : Nat) :
    (JsonNode.array v).subscript_idx idx = .ok (v[idx]?) := rfl

end IndexLemmas

/-- C16: evaluation of `operator[](size_t)` on the one-element Array decoded from `[7]`.
Index 0 returns the element.  Index 1 is not rejected: no exception is thrown, the
call ends in the unchecked access `AsArray()[1]` outside the vector.  On every Array
the operator is the unchecked vector access, whatever the index. -/
theorem C16_index_not_checked :
    JsonParser.Read (istream "[7]") = .ok (JsonNode.array [JsonNode.int 7], ⟨[], false⟩) ∧
    (JsonNode.array [JsonNode.int 7]).subscript_idx 0 = .ok (some (JsonNode.int 7)) ∧
    (JsonNode.array [JsonNode.int 7]).subscript_idx 1 = .ok none ∧
    (¬ ∃ e, (JsonNode.array [JsonNode.int 7]).subscript_idx 1 = .error e) ∧
    (∀ (v : List JsonNode) (idx : Nat),
      (JsonNode.array v).subscript_idx idx = .ok (vector_subscript v idx)) := by
  refine ⟨rfl, rfl, rfl, ?_, fun _ _ => rfl⟩
  rintro ⟨e, h⟩
  cases h

/-- C17: on an Object whose map has ascending keys, `operator[](name)` returns the
node of the entry with key `name` when there is one and throws `std::out_of_range`,
not the `runtime_error` of a kind mismatch, when there is none.  On a node that is
no Object `operator[](name)` throws `runtime_error`, and on a node that is no Array
`operator[](idx)` throws `runtime_error` for every index. -/
theorem C17_key_lookup (m : List (Str × JsonNode)) (hm : KeysAscending m) (k : Str) :
    (∀ v, (k, v) ∈ m → (JsonNode.object m).subscript_name k = .ok v) ∧
    ((∀ v, (k, v) ∉ m) →
      (JsonNode.object m).subscript_name k
        = .error (JsonError.out_of_range "map::at".toList)) ∧
    (∀ what, JsonError.out_of_range "map::at".toList ≠ JsonError.runtime_error what) ∧
    (∀ n : JsonNode, n.IsObject = false →
      n.subscript_name k
        = .error (JsonError.runtime_error "JsonNode is not Object type".toList)) ∧
    (∀ (n : JsonNode) (idx : Nat), n.IsArray = false →
      n.subscript_idx idx
        = .error (JsonError.runtime_error "JsonNode is not Array type".toList)) := by
  refine ⟨?_, ?_, ?_, ?_, ?_⟩
  · intro v hv
    rw [subscript_name_object, «at», (find_eq_some_iff m hm k v).mpr hv]
    rfl
  · intro h
    rw [subscript_name_object, «at», (find_eq_none_iff m hm k).mpr h]
    rfl
  · intro what h
    cases h
  · intro n hn
    cases n <;> first | rfl | (exact Bool.noConfusion hn)
  · intro n idx hn
    cases n <;> first | rfl | (exact Bool.noConfusion hn)

/-- The map of the object decoded from `{"a":1,"b":2}`: the key `b` is found, the key
`c` is not, and indexing the Int32 node `1` by a key or a position is a kind
mismatch. -/
theorem C17_key_lookup_witness :
    (JsonNode.object [("a".toList, JsonNode.int 1), ("b".toList, JsonNode.int 2)]).subscript_name
        "b".toList = .ok (JsonNode.int 2) ∧
    (JsonNode.object [("a".toList, JsonNode.int 1), ("b".toList, JsonNode.int 2)]).subscript_name
        "c".toList = .error (JsonError.out_of_range "map::at".toList) ∧
    (JsonNode.int 1).subscript_name "c".toList
        = .error (JsonError.runtime_error "JsonNode is not Object type".toList) ∧
    (JsonNode.int 1).subscript_idx 0
        = .error (JsonError.runtime_error "JsonNode is not Array type".toList) := by
  have hm : KeysAscending [("a".toList, JsonNode.int 1), ("b".toList, JsonNode.int 2)] := by
    simp [KeysAscending, strLt]
  have h := C17_key_lookup _ hm "b".toList
  have h2 := C17_key_lookup _ hm "c".toList
  refine ⟨h.1 _ (by simp), h2.2.1 ?_, h2.2.2.2.1 _ rfl, h2.2.2.2.2 _ 0 rfl⟩
  intro v hv
  simp at hv

/-! ## Pretty text of nested arrays -/

section TreeInduction

/-- Induction over the tree of a node: a property that holds for the scalar nodes,
for an Array whose elements have it and for an Object whose values have it holds for
every node. -/
theorem JsonNode.tree_induction {P : JsonNode → Prop} (hnull : P JsonNode.null)
    (hbool : ∀ v, P (JsonNode.bool v)) (hint : ∀ v, P (JsonNode.int v))
    (hlong : ∀ v, P (JsonNode.long v)) (hdouble : ∀ v, P (JsonNode.double v))
    (hstring : ∀ v, P (JsonNode.string v))
    (harray : ∀ v : List JsonNode, (∀ e ∈ v, P e) → P (JsonNode.array v))
    (hobject : ∀ v : List (Str × JsonNode), (∀ e ∈ v, P e.2) → P (JsonNode.object v)) :
    ∀ n, P n :=
  @JsonNode.rec P (fun l => ∀ e ∈ l, P e) (fun l => ∀ e ∈ l, P e.2) (fun p => P p.2)
    hnull hbool hint hlong hdouble hstring harray hobject
    (fun e he => absurd he (List.not_mem_nil e))
    (fun h t ih1 ih2 e he => by
      rcases List.mem_cons.mp he with h1 | h1
      · rw [h1]; exact ih1
      · exact ih2 e h1)
    (fun e he => absurd he (List.not_mem_nil e))
    (fun h t ih1 ih2 e he => by
      rcases List.mem_cons.mp he with h1 | h1
      · rw [h1]; exact ih1
      · exact ih2 e h1)
    (fun _ _ ih => ih)

end TreeInduction

section PrettyArrays
open JsonParser

theorem join_append (sep : List Char) (A B : List (List Char)) (hA : A ≠ []) (hB : B ≠ []) :
    sep.intercalate (A ++ B) = sep.intercalate A ++ sep ++ sep.intercalate B := by
  induction A with
  | nil => exact absurd rfl hA
  | cons a A ih =>
    cases A with
    | nil =>
      cases B with
      | nil => exact absurd rfl hB
      | cons b B =>
        rw [List.singleton_append, intercalate_cons_cons, intercalate_single]
    | cons a2 A =>
      have ih2 := ih (by simp)
      rw [List.cons_append, List.cons_append, intercalate_cons_cons, ← List.cons_append, ih2,
        intercalate_cons_cons]
      simp only [List.append_assoc]

theorem join_bracket (sep A C : List Char) (B : List (List Char)) (hB : B ≠ []) :
    sep.intercalate (A :: (B ++ [C]))
      = A ++ sep ++ sep.intercalate B ++ sep ++ C := by
  have h : A :: (B ++ [C]) = [A] ++ (B ++ [C]) := rfl
  rw [h, join_append _ _ _ (by simp) (by simp), join_append _ _ _ hB (by simp),
    intercalate_single, intercalate_single]
  simp only [List.append_assoc]

theorem commaLast_ne_nil (L : List Str) (hL : L ≠ []) : commaLast L ≠ [] := by
  cases L with
  | nil => exact absurd rfl hL
  | cons a L => cases L <;> simp [commaLast]

theorem join_commaLast (sep : List Char) (L : List Str) (hL : L ≠ []) :
    sep.intercalate (commaLast L) = sep.intercalate L ++ [','] := by
  induction L with
  | nil => exact absurd rfl hL
  | cons a L ih =>
    cases L with
    | nil => simp [commaLast, intercalate_single]
    | cons a2 L =>
      have ih2 := ih (by simp)
      have hne : commaLast (a2 :: L) ≠ [] := commaLast_ne_nil _ (by simp)
      obtain ⟨b, B, hB⟩ := List.exists_cons_of_ne_nil hne
      have h1 : commaLast (a :: a2 :: L) = a :: commaLast (a2 :: L) := by rw [commaLast]
      rw [h1, hB, intercalate_cons_cons, ← hB, ih2, intercalate_cons_cons]
      simp only [List.append_assoc]

theorem prettyLines_array (d : Nat) (arg : List JsonNode) :
    prettyLines d (JsonNode.array arg) =
      if arg.isEmpty then [List.replicate (4 * d) ' ' ++ "[ ]".toList]
      else
        (List.replicate (4 * d) ' ' ++ "[ ".toList)
          :: (prettyLines.elems (d + 1) arg ++ [List.replicate (4 * d) ' ' ++ "]".toList]) := by
  rw [prettyLines]

theorem prettyLines_elems_cons (d : Nat) (e : JsonNode) (es : List JsonNode) :
    prettyLines.elems d (e :: es) =
      (if es.isEmpty then prettyLines d e else commaLast (prettyLines d e))
        ++ prettyLines.elems d es := by
  rw [prettyLines.elems]

theorem prettyLines_elems_nil (d : Nat) : prettyLines.elems d [] = [] := by
  rw [prettyLines.elems]

theorem prettyLines_ne_nil (d : Nat) (node : JsonNode) : prettyLines d node ≠ [] := by
  cases node with
  | array arg =>
    rw [prettyLines_array]
    cases arg <;> simp
  | _ => simp [prettyLines]

theorem prettyLines_elems_ne_nil (d : Nat) (e : JsonNode) (es : List JsonNode) :
    prettyLines.elems d (e :: es) ≠ [] := by
  rw [prettyLines_elems_cons]
  have h := prettyLines_ne_nil d e
  cases es with
  | nil =>
    intro hc
    exact h (List.append_eq_nil.mp hc).1
  | cons e2 es =>
    have h2 := commaLast_ne_nil _ h
    intro hc
    exact h2 (List.append_eq_nil.mp hc).1

theorem PrettyWriter_array_cons (ident : Nat) (node : JsonNode) (rest : List JsonNode)
    (first : Bool) :
    PrettyWriter.array ident (node :: rest) first
      = (if !first then ",\n".toList else ['\n']) ++ PrettyWriter (ident + 4) true node
          ++ PrettyWriter.array ident rest false := by
  rw [PrettyWriter.array]

theorem PrettyWriter_array_nil (ident : Nat) (first : Bool) :
    PrettyWriter.array ident [] first = if !first then ['\n'] else [] := by
  rw [PrettyWriter.array]

theorem PrettyWriter_array_node (ident : Nat) (need : Bool) (arg : List JsonNode) :
    PrettyWriter ident need (JsonNode.array arg)
      = PrintIdent ident need ++ "[ ".toList ++ PrettyWriter.array ident arg true
          ++ PrintIdent ident (!arg.isEmpty) ++ "]".toList := by
  rw [PrettyWriter]

/-- The loop of the pretty array writer over elements whose pretty texts are their
lines joined by line breaks. -/
theorem PrettyWriter_array_lines (d : Nat) (arg : List JsonNode)
    (h : ∀ e ∈ arg, PrettyWriter (4 * (d + 1)) true e
      = ['\n'].intercalate (prettyLines (d + 1) e)) (hne : arg ≠ []) (first : Bool) :
    PrettyWriter.array (4 * d) arg first
      = (if !first then ",\n".toList else ['\n'])
          ++ ['\n'].intercalate (prettyLines.elems (d + 1) arg) ++ ['\n'] := by
  induction arg generalizing first with
  | nil => exact absurd rfl hne
  | cons e es ih =>
    have he := h e (List.mem_cons_self _ _)
    have h4 : 4 * d + 4 = 4 * (d + 1) := by ring
    rw [PrettyWriter_array_cons, h4, he, prettyLines_elems_cons]
    cases es with
    | nil =>
      rw [PrettyWriter_array_nil, prettyLines_elems_nil]
      simp
    | cons e2 es =>
      have ih2 := ih (fun x hx => h x (List.mem_cons_of_mem _ hx)) (by simp) false
      rw [ih2]
      simp only [List.isEmpty_cons, Bool.false_eq_true, if_false]
      rw [join_append _ _ _ (commaLast_ne_nil _ (prettyLines_ne_nil _ _))
          (prettyLines_elems_ne_nil _ _ _), join_commaLast _ _ (prettyLines_ne_nil _ _)]
      simp

theorem arrayTree_all_mem (arg : List JsonNode) (h : arrayTree.all arg = true) :
    ∀ e ∈ arg, arrayTree e = true := by
  induction arg with
  | nil => intro e he; exact absurd he (List.not_mem_nil e)
  | cons a arg ih =>
    rw [arrayTree.all, Bool.and_eq_true] at h
    intro e he
    rcases List.mem_cons.mp he with h1 | h1
    · rw [h1]; exact h.1
    · exact ih h.2 e h1

/-- The pretty text of a tree of nested arrays written at indent `4 * d` is its lines
at depth `d` joined by line breaks. -/
theorem PrettyWriter_lines (node : JsonNode) :
    arrayTree node = true →
      ∀ d, PrettyWriter (4 * d) true node = ['\n'].intercalate (prettyLines d node) := by
  revert node
  apply JsonNode.tree_induction
  · intro _ d; simp [PrettyWriter, PrintIdent, prettyLines, intercalate_single, OneLineWriter]
  · intro v _ d; simp [PrettyWriter, PrintIdent, prettyLines, intercalate_single, OneLineWriter]
  · intro v _ d; simp [PrettyWriter, PrintIdent, prettyLines, intercalate_single, OneLineWriter]
  · intro v _ d; simp [PrettyWriter, PrintIdent, prettyLines, intercalate_single, OneLineWriter]
  · intro v _ d; simp [PrettyWriter, PrintIdent, prettyLines, intercalate_single, OneLineWriter]
  · intro v _ d; simp [PrettyWriter, PrintIdent, prettyLines, intercalate_single, OneLineWriter]
  · intro arg ih ht d
    rw [arrayTree] at ht
    have hall := arrayTree_all_mem arg ht
    rw [PrettyWriter_array_node, prettyLines_array]
    cases arg with
    | nil => simp [PrintIdent, PrettyWriter_array_nil, intercalate_single]
    | cons e es =>
      rw [PrettyWriter_array_lines d _ (fun x hx => ih x hx (hall x hx) (d + 1)) (by simp) true]
      simp only [List.isEmpty_cons, Bool.false_eq_true, if_false]
      rw [join_bracket _ _ _ _ (prettyLines_elems_ne_nil _ _ _)]
      simp [PrintIdent]
  · intro v _ ht
    rw [arrayTree] at ht
    cases ht

theorem head_of_digits (ds X : Str) (h : ∃ c cs, ds = c :: cs ∧ isdigit c = true) :
    ∃ c t, ds ++ X = c :: t ∧ c ≠ ' ' := by
  obtain ⟨c, cs, h1, h2⟩ := h
  exact ⟨c, cs ++ X, by rw [h1]; rfl, isdigit_ne h2 (by decide)⟩

theorem head_of_take (ds X Y Z : Str) (h : ∃ c cs, ds = c :: cs ∧ isdigit c = true) :
    ∃ c t, ds.take 1 ++ X ++ Y ++ Z = c :: t ∧ c ≠ ' ' := by
  obtain ⟨c, cs, h1, h2⟩ := h
  exact ⟨c, X ++ Y ++ Z, by rw [h1]; simp, isdigit_ne h2 (by decide)⟩

theorem showInt_head_ne_space (i : Int) : ∃ c t, showInt i = c :: t ∧ c ≠ ' ' := by
  unfold showInt
  split_ifs
  · exact ⟨'-', _, rfl, by decide⟩
  · simpa using head_of_digits (showNat i.natAbs) [] (showNat_cons _)

theorem Double_print_head (d : Double) : ∃ c t, d.print = c :: t ∧ c ≠ ' ' := by
  unfold Double.print
  cases hn : d.neg with
  | true =>
    simp only [if_true]
    split_ifs <;> exact ⟨'-', _, rfl, by decide⟩
  | false =>
    simp only [Bool.false_eq_true, if_false, List.nil_append]
    split_ifs <;> first
      | exact ⟨'0', [], rfl, by decide⟩
      | exact head_of_take _ _ _ _ (showNat_cons _)
      | exact head_of_digits _ _ (showNat_cons _)

/-- The compact text of a node is not empty and does not start with a space. -/
theorem OneLineWriter_head (node : JsonNode) :
    ∃ c t, OneLineWriter node = c :: t ∧ c ≠ ' ' := by
  cases node with
  | null => exact ⟨'n', "ull".toList, by rw [OneLineWriter]; rfl, by decide⟩
  | bool v =>
    cases v
    · exact ⟨'f', "alse".toList, by rw [OneLineWriter]; rfl, by decide⟩
    · exact ⟨'t', "rue".toList, by rw [OneLineWriter]; rfl, by decide⟩
  | int v => rw [OneLineWriter]; exact showInt_head_ne_space v
  | long v => rw [OneLineWriter]; exact showInt_head_ne_space v
  | double v => rw [OneLineWriter]; exact Double_print_head v
  | string v => exact ⟨'"', v ++ ['"'], by rw [OneLineWriter]; rfl, by decide⟩
  | array v => exact ⟨'[', _, by rw [OneLineWriter]; rfl, by decide⟩
  | object v => exact ⟨'\x7b', _, by rw [OneLineWriter]; rfl, by decide⟩

/-- The first line of a node at depth `d` is `4 * d` spaces followed by a character
that is no space. -/
theorem prettyLines_head (d : Nat) (node : JsonNode) :
    ∃ c t, (prettyLines d node).head? = some (List.replicate (4 * d) ' ' ++ c :: t) ∧ c ≠ ' ' := by
  have hleaf : ∀ n : JsonNode, ∃ c t,
      [List.replicate (4 * d) ' ' ++ OneLineWriter n].head?
        = some (List.replicate (4 * d) ' ' ++ c :: t) ∧ c ≠ ' ' := by
    intro n
    obtain ⟨c, t, h1, h2⟩ := OneLineWriter_head n
    exact ⟨c, t, by rw [h1]; rfl, h2⟩
  cases node with
  | array arg =>
    rw [prettyLines_array]
    cases arg with
    | nil => exact ⟨'[', " ]".toList, rfl, by decide⟩
    | cons e es => exact ⟨'[', " ".toList, rfl, by decide⟩
  | null => simp only [prettyLines]; exact hleaf _
  | bool v => simp only [prettyLines]; exact hleaf _
  | int v => simp only [prettyLines]; exact hleaf _
  | long v => simp only [prettyLines]; exact hleaf _
  | double v => simp only [prettyLines]; exact hleaf _
  | string v => simp only [prettyLines]; exact hleaf _
  | object v => simp only [prettyLines]; exact hleaf _

end PrettyArrays

/-- C12: the pretty encoding of a tree of nested arrays with scalar leaves is the
sequence of lines `prettyLines 0` joined by line breaks, and written at indent
`4 * d` it is the sequence `prettyLines d`: every element at nesting depth `d` starts
a line of its own with `4 * d` spaces, and a non-empty array at depth `d` ends with a
line holding `4 * d` spaces and `]`.  The first line of a node at depth `d` holds
exactly `4 * d` spaces: the character after them is no space. -/
theorem C12_pretty_nested_arrays (node : JsonNode) (h : arrayTree node = true) :
    JsonParser.Write node true = ['\n'].intercalate (prettyLines 0 node) ∧
    (∀ d, PrettyWriter (4 * d) true node = ['\n'].intercalate (prettyLines d node)) ∧
    (∀ d, ∃ c t,
      (prettyLines d node).head? = some (List.replicate (4 * d) ' ' ++ c :: t) ∧ c ≠ ' ') :=
  ⟨PrettyWriter_lines node h 0, PrettyWriter_lines node h, fun d => prettyLines_head d node⟩

/-- C12 at the array `[[1]]`: the five lines `[ `, `    [ `, `        1`, `    ]`
and `]`. -/
theorem C12_pretty_nested_arrays_witness :
    arrayTree (JsonNode.array [JsonNode.array [JsonNode.int 1]]) = true ∧
    prettyLines 0 (JsonNode.array [JsonNode.array [JsonNode.int 1]])
      = ["[ ".toList, "    [ ".toList, "        1".toList, "    ]".toList, "]".toList] ∧
    JsonParser.Write (JsonNode.array [JsonNode.array [JsonNode.int 1]]) true
      = ['\n'].intercalate
          ["[ ".toList, "    [ ".toList, "        1".toList, "    ]".toList, "]".toList] ∧
    JsonParser.Write (JsonNode.array [JsonNode.array [JsonNode.int 1]]) true
      = "[ \n    [ \n        1\n    ]\n]".toList :=
  ⟨rfl, rfl, (C12_pretty_nested_arrays (JsonNode.array [JsonNode.array [JsonNode.int 1]]) rfl).1,
    rfl⟩

/-! ## Pretty text of objects -/

section PrettyObjects
open JsonParser

theorem PrettyWriter_object_cons (ident : Nat) (key : Str) (node : JsonNode)
    (rest : List (Str × JsonNode)) (first : Bool) :
    PrettyWriter.object ident ((key, node) :: rest) first
      = (if !first then ", \n".toList else ['\n'])
          ++ (PrintIdent (ident + 4) true ++ ('"' :: key ++ ['"'])) ++ ": ".toList
          ++ PrettyWriter (ident + 4) false node ++ PrettyWriter.object ident rest false := by
  rw [PrettyWriter.object]

theorem PrettyWriter_object_nil (ident : Nat) (first : Bool) :
    PrettyWriter.object ident [] first = if !first then ['\n'] else [] := by
  rw [PrettyWriter.object]

theorem PrettyWriter_object_node (ident : Nat) (need : Bool) (arg : List (Str × JsonNode)) :
    PrettyWriter ident need (JsonNode.object arg)
      = PrintIdent ident need ++ "\x7b ".toList ++ PrettyWriter.object ident arg true
          ++ PrintIdent ident (!arg.isEmpty) ++ "\x7d".toList := by
  rw [PrettyWriter]

/-- The loop of the pretty object writer: one line for the key of every entry,
the lines separated by a comma, a space and a line break. -/
theorem PrettyWriter_object_loop (k : Nat) (m : List (Str × JsonNode)) (hne : m ≠ [])
    (first : Bool) :
    PrettyWriter.object k m first
      = (if !first then ", \n".toList else ['\n'])
          ++ (", \n".toList).intercalate
              (m.map (fun e => List.replicate (k + 4) ' '
                ++ '"' :: (e.1 ++ '"' :: (": ".toList ++ PrettyWriter (k + 4) false e.2))))
          ++ ['\n'] := by
  induction m generalizing first with
  | nil => exact absurd rfl hne
  | cons e m ih =>
    obtain ⟨key, node⟩ := e
    rw [PrettyWriter_object_cons]
    cases m with
    | nil =>
      rw [PrettyWriter_object_nil]
      simp [intercalate_single, PrintIdent]
    | cons e2 m =>
      rw [ih (by simp) false]
      simp only [List.map_cons]
      rw [intercalate_cons_cons]
      simp [PrintIdent]

/-- The loop of the pretty array writer: the elements written at the next indent,
separated by a comma and a line break. -/
theorem PrettyWriter_array_loop (k : Nat) (arg : List JsonNode) (hne : arg ≠ [])
    (first : Bool) :
    PrettyWriter.array k arg first
      = (if !first then ",\n".toList else ['\n'])
          ++ (",\n".toList).intercalate (arg.map (fun x => PrettyWriter (k + 4) true x))
          ++ ['\n'] := by
  induction arg generalizing first with
  | nil => exact absurd rfl hne
  | cons e es ih =>
    rw [PrettyWriter_array_cons]
    cases es with
    | nil =>
      rw [PrettyWriter_array_nil]
      simp [intercalate_single]
    | cons e2 es =>
      rw [ih (by simp) false]
      simp only [List.map_cons]
      rw [intercalate_cons_cons]
      simp

/-- The flag `need_ident` only decides whether the indentation is written in front
of the node. -/
theorem PrettyWriter_need (k : Nat) (x : JsonNode) :
    PrettyWriter k true x = List.replicate k ' ' ++ PrettyWriter k false x := by
  cases x <;> simp [PrettyWriter, PrintIdent]

end PrettyObjects

/-- C13: an Object with at least one entry, written at indent `k`, is `{ `, a line
break, one line for every entry, the lines separated by `, ` and a line break, then a
line break, `k` spaces and `}`.  The line of an entry is `k + 4` spaces, the key in
quotes, `: `, and the value written at indent `k + 4` with no indentation in front.
Such a value, when it is a non-empty Array or Object, has its members written with
`k + 8` spaces in front and its closing bracket after `k + 4` spaces; an empty Array
or Object is `[ ]` or `{ }`; a scalar is its compact text.  At the indents `4 * d`
that `Write` reaches, `k + 4` is `4 * (k / 4 + 1)`.  The input of the smoke test
decodes, and its pretty text has the keys in the order flags, name, obj, others,
statuses. -/
theorem C13_pretty_object_entries :
    (∀ (k : Nat) (need : Bool) (e : Str × JsonNode) (m : List (Str × JsonNode)),
      PrettyWriter k need (JsonNode.object (e :: m))
        = PrintIdent k need ++ "\x7b ".toList ++ ['\n']
            ++ (", \n".toList).intercalate
                ((e :: m).map (fun x => List.replicate (k + 4) ' '
                  ++ '"' :: (x.1 ++ '"' :: (": ".toList ++ PrettyWriter (k + 4) false x.2))))
            ++ ['\n'] ++ List.replicate k ' ' ++ "\x7d".toList) ∧
    (∀ (k : Nat) (e : JsonNode) (es : List JsonNode),
      PrettyWriter (k + 4) false (JsonNode.array (e :: es))
        = "[ ".toList ++ ['\n']
            ++ (",\n".toList).intercalate
                ((e :: es).map (fun x => List.replicate (k + 8) ' '
                  ++ PrettyWriter (k + 8) false x))
            ++ ['\n'] ++ List.replicate (k + 4) ' ' ++ "]".toList) ∧
    (∀ (k : Nat) (e : Str × JsonNode) (m : List (Str × JsonNode)),
      PrettyWriter (k + 4) false (JsonNode.object (e :: m))
        = "\x7b ".toList ++ ['\n']
            ++ (", \n".toList).intercalate
                ((e :: m).map (fun x => List.replicate (k + 8) ' '
                  ++ '"' :: (x.1 ++ '"' :: (": ".toList ++ PrettyWriter (k + 8) false x.2))))
            ++ ['\n'] ++ List.replicate (k + 4) ' ' ++ "\x7d".toList) ∧
    (∀ k : Nat,
      PrettyWriter (k + 4) false (JsonNode.array []) = "[ ]".toList ∧
      PrettyWriter (k + 4) false (JsonNode.object []) = "\x7b \x7d".toList ∧
      PrettyWriter (k + 4) false JsonNode.null = "null".toList ∧
      (∀ v, PrettyWriter (k + 4) false (JsonNode.bool v) = OneLineWriter (JsonNode.bool v)) ∧
      (∀ v, PrettyWriter (k + 4) false (JsonNode.int v) = showInt v) ∧
      (∀ v, PrettyWriter (k + 4) false (JsonNode.long v) = showInt v) ∧
      (∀ v, PrettyWriter (k + 4) false (JsonNode.double v) = v.print) ∧
      (∀ v, PrettyWriter (k + 4) false (JsonNode.string v) = '"' :: v ++ ['"'])) ∧
    (∀ d : Nat, PrintIdent (4 * (4 * d / 4 + 1)) true = List.replicate (4 * d + 4) ' ') ∧
    (∃ node st,
      JsonParser.Read (istream
        "\x7b\"others\": [ ], \"obj\": \x7b \"a\": \"a\" \x7d, \"name\": \"asdf\", \"statuses\": [ \"fill\", 4, 0.5, false ],  \"flags\": null \x7d")
        = .ok (node, st) ∧
      JsonParser.Write node true
        = "\x7b \n    \"flags\": null, \n    \"name\": \"asdf\", \n    \"obj\": \x7b \n        \"a\": \"a\"\n    \x7d, \n    \"others\": [ ], \n    \"statuses\": [ \n        \"fill\",\n        4,\n        0.5,\n        false\n    ]\n\x7d".toList) := by
  refine ⟨?_, ?_, ?_, ?_, ?_, ⟨_, _, rfl, rfl⟩⟩
  · intro k need e m
    rw [PrettyWriter_object_node, PrettyWriter_object_loop k (e :: m) (by simp) true]
    simp [PrintIdent]
  · intro k e es
    rw [PrettyWriter_array_node, PrettyWriter_array_loop (k + 4) (e :: es) (by simp) true]
    have h : (fun x => PrettyWriter (k + 4 + 4) true x)
        = (fun x => List.replicate (k + 8) ' ' ++ PrettyWriter (k + 8) false x) := by
      funext x
      exact PrettyWriter_need (k + 8) x
    rw [h]
    simp [PrintIdent]
  · intro k e m
    rw [PrettyWriter_object_node, PrettyWriter_object_loop (k + 4) (e :: m) (by simp) true]
    simp [PrintIdent]
  · intro k
    refine ⟨?_, ?_, ?_, ?_, ?_, ?_, ?_, ?_⟩ <;>
      simp [PrettyWriter, PrintIdent, PrettyWriter_array_nil, PrettyWriter_object_nil,
        OneLineWriter]
  · intro d
    have h : 4 * d / 4 = d := Nat.mul_div_cancel_left d (by decide)
    rw [h]
    simp [PrintIdent]
    ring_nf

/-! ## Round trip through the compact encoder -/

section ArraySuccess
open JsonParser

theorem isDelim_bracket (more : List Char) : isDelim (peekChar (']' :: more)) :=
  Or.inr (Or.inl rfl)

/-- Decoding the text of an array: element texts each followed by a comma, then the
text of the last element and the closing bracket. -/
theorem Read_arrayText (es : List (Str × JsonNode)) (s : Str) (v : JsonNode)
    (rest : List Char) (hes : ∀ e ∈ es, Decodes e.1 e.2) (hv : Decodes s v) :
    Read ⟨'[' :: (elemsText es ++ (s ++ ']' :: rest)), false⟩
      = .ok (JsonNode.array (es.map Prod.snd ++ [v]), ⟨dropSpaces rest, false⟩) := by
  have hL := elemsText_length es
  have hd : dropSpaces ('[' :: (elemsText es ++ (s ++ ']' :: rest)))
      = '[' :: (elemsText es ++ (s ++ ']' :: rest)) :=
    dropSpaces_cons_of_not_space (by decide) _
  have hlast : SkipSymbol ⟨']' :: rest, false⟩ ']' = .ok (true, ⟨dropSpaces rest, false⟩) := by
    rw [SkipSymbol_good_peek _ _ (by decide), dropSpaces_cons_of_not_space (by decide)]
    simp [peekChar]
  unfold Read
  rw [ReadDepth_good, hd]
  simp only [peekChar, List.headD_cons, if_true]
  simp only [ReadArray, StreamGet_cons, bind, Except.bind, ne_eq, not_true_eq_false, if_false,
    List.length_cons]
  have hloop : ReadArray.loop (ReadDepth ((elemsText es ++ (s ++ ']' :: rest)).length + 1))
      ((elemsText es ++ (s ++ ']' :: rest)).length + 1) []
      ⟨elemsText es ++ (s ++ ']' :: rest), false⟩
        = .ok (es.map Prod.snd ++ [v], ⟨']' :: rest, false⟩) := by
    obtain ⟨n, hn⟩ : ∃ n, (elemsText es ++ (s ++ ']' :: rest)).length + 1
        = n + 1 + es.length :=
      ⟨(elemsText es ++ (s ++ ']' :: rest)).length - es.length, by
        simp only [List.length_append]; omega⟩
    have h := ReadArray_loop_elems ((elemsText es ++ (s ++ ']' :: rest)).length + 1)
      (s ++ ']' :: rest) es [] n hes (Nat.lt_succ_self _)
    rw [← hn] at h
    rw [h]
    obtain ⟨r, hr, hdr⟩ := hv (']' :: rest) (isDelim_bracket _)
    rw [dropSpaces_cons_of_not_space (by decide)] at hdr
    have hRd := ReadDepth_of_Read _ _ hr ((elemsText es ++ (s ++ ']' :: rest)).length + 1)
      (by simp only [List.length_append]; omega)
    have hp := (Read_ok_peek _ _ _ hRd).2.1
    rw [← ReadDepth_dropSpaces] at hRd
    rw [ReadArray_loop_step _ _ _ _ r v hp hRd, skipUntil_until r rest ',' ']' hdr (by decide)]
    simp [peekChar]
  rw [if_neg (by decide), hloop]
  simp only [hlast, pure, Except.pure]

/-- Decoding the text of the empty array in its compact form. -/
theorem Read_empty_array (rest : List Char) :
    Read ⟨"[  ]".toList ++ rest, false⟩
      = .ok (JsonNode.array [], ⟨dropSpaces rest, false⟩) := by
  have hloop : ∀ n d, ReadArray.loop (ReadDepth d) (n + 1) [] ⟨' ' :: ' ' :: ']' :: rest, false⟩
      = .ok ([], ⟨']' :: rest, false⟩) := by
    intro n d
    simp [ReadArray.loop, SkipWhiteSpaces_good, StreamPeek_good, bind, Except.bind, dropSpaces,
      isspace, peekChar, pure, Except.pure]
  have hlast2 : SkipSymbol ⟨']' :: rest, false⟩ ']' = .ok (true, ⟨dropSpaces rest, false⟩) := by
    rw [SkipSymbol_good_peek _ _ (by decide), dropSpaces_cons_of_not_space (by decide)]
    simp [peekChar]
  unfold Read
  rw [ReadDepth_good]
  have hd : dropSpaces ("[  ]".toList ++ rest) = '[' :: ' ' :: ' ' :: ']' :: rest := rfl
  rw [hd]
  simp only [peekChar, List.headD_cons, if_true]
  rw [if_neg (by decide)]
  simp only [ReadArray, StreamGet_cons, bind, Except.bind, ne_eq, not_true_eq_false, if_false,
    List.length_cons, hloop, hlast2, pure, Except.pure]

end ArraySuccess

section CompactTexts
open JsonParser

/-- The compact text of the elements of a non-empty array, as element texts each
followed by a comma and the text of the last element. -/
theorem OneLineWriter_array_text (es : List JsonNode) (l : JsonNode) :
    (' ' :: OneLineWriter.array (es ++ [l]) true
      = elemsText (es.map compactElem) ++ ' ' :: OneLineWriter l) ∧
    (OneLineWriter.array (es ++ [l]) false
      = ',' :: (elemsText (es.map compactElem) ++ ' ' :: OneLineWriter l)) := by
  induction es with
  | nil =>
    constructor
    · rw [List.nil_append, OneLineWriter_array_cons, OneLineWriter_array_nil]
      simp [elemsText]
    · rw [List.nil_append, OneLineWriter_array_cons, OneLineWriter_array_nil]
      simp [elemsText]
  | cons e es ih =>
    constructor
    · rw [List.cons_append, OneLineWriter_array_cons, ih.2]
      simp [elemsText, compactElem]
    · rw [List.cons_append, OneLineWriter_array_cons, ih.2]
      simp [elemsText, compactElem]

theorem OneLineWriter_array_concat (es : List JsonNode) (l : JsonNode) :
    OneLineWriter (JsonNode.array (es ++ [l]))
      = '[' :: (elemsText (es.map compactElem)
          ++ ((' ' :: (OneLineWriter l ++ [' '])) ++ [']'])) := by
  have h := (OneLineWriter_array_text es l).1
  have h2 : OneLineWriter (JsonNode.array (es ++ [l]))
      = '[' :: ((' ' :: OneLineWriter.array (es ++ [l]) true) ++ [' ', ']']) := by
    rw [OneLineWriter]
    rfl
  rw [h2, h]
  simp

theorem entriesText_cons_ne (e : EntryText) (es : List EntryText) (h : es ≠ []) :
    entriesText (e :: es) = e.render ++ ',' :: entriesText es := by
  cases es with
  | nil => exact absurd rfl h
  | cons e2 es => rfl

theorem render_compactEntry (last : Bool) (e : Str × JsonNode) :
    (compactEntry last e).render
      = ' ' :: (entryCompact e ++ if last then [' '] else []) := by
  simp [compactEntry, EntryText.render, entryCompact]

/-- The compact text of the entries of a non-empty object, as entry texts separated
by commas. -/
theorem OneLineWriter_object_text (m : List (Str × JsonNode)) (l : Str × JsonNode) :
    (' ' :: (OneLineWriter.object (m ++ [l]) true ++ [' '])
      = entriesText (m.map (compactEntry false) ++ [compactEntry true l])) ∧
    (OneLineWriter.object (m ++ [l]) false ++ [' ']
      = ',' :: entriesText (m.map (compactEntry false) ++ [compactEntry true l])) := by
  induction m with
  | nil =>
    obtain ⟨k, v⟩ := l
    have h0 : OneLineWriter.object [] false = [] := by rw [OneLineWriter.object]
    constructor
    · rw [List.nil_append, OneLineWriter_object_cons, h0]
      simp [entriesText_single, render_compactEntry]
    · rw [List.nil_append, OneLineWriter_object_cons, h0]
      simp [entriesText_single, render_compactEntry]
  | cons e m ih =>
    obtain ⟨k, v⟩ := e
    have hne : m.map (compactEntry false) ++ [compactEntry true l] ≠ [] := by simp
    constructor
    · rw [List.cons_append, OneLineWriter_object_cons, List.map_cons, List.cons_append,
        entriesText_cons_ne _ _ hne, render_compactEntry]
      simp only [Bool.not_true, Bool.false_eq_true, if_false, List.nil_append,
        List.append_nil, List.append_assoc, ih.2]
      simp
    · rw [List.cons_append, OneLineWriter_object_cons, List.map_cons, List.cons_append,
        entriesText_cons_ne _ _ hne, render_compactEntry]
      simp only [Bool.not_false, if_true, Bool.false_eq_true, if_false, List.nil_append,
        List.append_nil, List.append_assoc, ih.2]
      simp

theorem OneLineWriter_object_concat (m : List (Str × JsonNode)) (l : Str × JsonNode) :
    OneLineWriter (JsonNode.object (m ++ [l]))
      = objectText (m.map (compactEntry false) ++ [compactEntry true l]) := by
  have h := (OneLineWriter_object_text m l).1
  have h2 : OneLineWriter (JsonNode.object (m ++ [l]))
      = '\x7b' :: ((' ' :: (OneLineWriter.object (m ++ [l]) true ++ [' '])) ++ ['\x7d']) := by
    rw [OneLineWriter]
    simp
  rw [h2, h]
  rfl

end CompactTexts

section RoundTrip
open JsonParser

theorem Read_space (b : List Char) (r : JsonNode × IStream) (h : Read ⟨b, false⟩ = .ok r) :
    Read ⟨' ' :: b, false⟩ = .ok r := by
  have h1 := ReadDepth_of_Read _ _ h ((' ' :: b).length + 1)
    (by simp only [List.length_cons]; omega)
  unfold Read
  rw [← ReadDepth_dropSpaces _ (' ' :: b), dropSpaces_cons_of_space (by decide),
    ReadDepth_dropSpaces]
  exact h1

theorem Decodes_space (t : Str) (v : JsonNode) (h : Decodes t v) : Decodes (' ' :: t) v := by
  intro rest hrest
  obtain ⟨r, hr, hdr⟩ := h rest hrest
  exact ⟨r, Read_space _ _ hr, hdr⟩

theorem Decodes_of_sp (t : Str) (v : JsonNode) (h : DecodesSp t v) :
    Decodes (t ++ [' ']) v := by
  intro rest _
  obtain ⟨r, hr, hdr⟩ := h (' ' :: rest) (by simp only [peekChar, List.headD_cons]; decide)
  refine ⟨r, ?_, ?_⟩
  · rw [List.append_assoc]
    exact hr
  · rw [hdr, dropSpaces_cons_of_space (by decide)]

theorem DecodesSp_of_Decodes (t : Str) (v : JsonNode) (h : Decodes t v) : DecodesSp t v :=
  fun rest hrest => h rest (Or.inr (Or.inr (Or.inr hrest)))

/-- A text after which `Read` stops behind the white space of every continuation is a
value text in front of every delimiter, and decodes on its own to the end of the
input. -/
theorem decodes_of_closed (t : Str) (v : JsonNode)
    (h : ∀ rest, Read ⟨t ++ rest, false⟩ = .ok (v, ⟨dropSpaces rest, false⟩)) :
    Decodes t v ∧ DecodesSp t v ∧ ∃ st, Read ⟨t, false⟩ = .ok (v, st) ∧ st.buf = [] := by
  have hd : Decodes t v := fun rest _ => ⟨dropSpaces rest, h rest, dropSpaces_idem rest⟩
  refine ⟨hd, DecodesSp_of_Decodes t v hd, ⟨[], false⟩, ?_, rfl⟩
  have h0 := h []
  rw [List.append_nil] at h0
  exact h0

theorem map_snd_compactElem (es : List JsonNode) : (es.map compactElem).map Prod.snd = es := by
  induction es with
  | nil => rfl
  | cons e es ih =>
    rw [List.map_cons, List.map_cons, ih]
    rfl

/-- Decoding the compact text of a non-empty Array whose elements are value texts. -/
theorem Read_compact_array (es : List JsonNode) (l : JsonNode) (rest : List Char)
    (hes : ∀ e ∈ es, Decodes (OneLineWriter e) e) (hl : DecodesSp (OneLineWriter l) l) :
    Read ⟨OneLineWriter (JsonNode.array (es ++ [l])) ++ rest, false⟩
      = .ok (JsonNode.array (es ++ [l]), ⟨dropSpaces rest, false⟩) := by
  have h := Read_arrayText (es.map compactElem) (' ' :: (OneLineWriter l ++ [' '])) l rest
    (by
      intro e he
      obtain ⟨x, hx, rfl⟩ := List.mem_map.mp he
      exact Decodes_space _ _ (hes x hx))
    (Decodes_space _ _ (Decodes_of_sp _ _ hl))
  rw [map_snd_compactElem] at h
  rw [OneLineWriter_array_concat, ← h]
  simp

theorem keys_nodup_of_ascending (m : List (Str × JsonNode)) (hm : KeysAscending m) :
    (m.map Prod.fst).Nodup := by
  rw [List.Nodup, List.pairwise_map]
  exact List.Pairwise.imp (fun h => strLt_ne h) hm

/-- Inserting the entries of a map with ascending keys, in their order, into the
empty map gives the map back. -/
theorem insertAll_sorted (m : List (Str × JsonNode)) (hm : KeysAscending m) :
    insertAll [] m = m := by
  have hp := insertAll_perm m [] (fun _ _ => by simp) (keys_nodup_of_ascending m hm)
  rw [List.append_nil] at hp
  exact ascending_perm_eq _ _ (insertAll_ascending m [] KeysAscending_nil) hm hp

theorem map_pair_compactEntry (m : List (Str × JsonNode)) (l : Str × JsonNode) :
    (m.map (compactEntry false) ++ [compactEntry true l]).map EntryText.pair = m ++ [l] := by
  induction m with
  | nil => simp [compactEntry, EntryText.pair]
  | cons e m ih =>
    simp only [List.map_cons, List.cons_append, ih]
    simp [compactEntry, EntryText.pair]

/-- Decoding the compact text of a non-empty Object whose keys ascend and hold no
double quote and whose values are value texts. -/
theorem Read_compact_object (m : List (Str × JsonNode)) (l : Str × JsonNode)
    (rest : List Char) (hm : KeysAscending (m ++ [l])) (hk : ∀ e ∈ m ++ [l], '"' ∉ e.1)
    (hes : ∀ e ∈ m, Decodes (OneLineWriter e.2) e.2) (hl : DecodesSp (OneLineWriter l.2) l.2) :
    Read ⟨OneLineWriter (JsonNode.object (m ++ [l])) ++ rest, false⟩
      = .ok (JsonNode.object (m ++ [l]), ⟨dropSpaces rest, false⟩) := by
  have hwf : ∀ x ∈ m.map (compactEntry false) ++ [compactEntry true l], x.WellFormed := by
    intro x hx
    rcases List.mem_append.mp hx with h1 | h1
    · obtain ⟨e, he, rfl⟩ := List.mem_map.mp h1
      refine ⟨by simp [compactEntry, isspace], hk e (List.mem_append_left _ he),
        by simp [compactEntry], ?_⟩
      have hd := Decodes_space _ _ (hes e he)
      simpa [compactEntry] using hd
    · rw [List.mem_singleton] at h1
      subst h1
      refine ⟨by simp [compactEntry, isspace], hk l (List.mem_append_right _ (by simp)),
        by simp [compactEntry], ?_⟩
      have hd := Decodes_space _ _ (Decodes_of_sp _ _ hl)
      simpa [compactEntry] using hd
  have h := Read_objectText _ rest hwf
  rw [map_pair_compactEntry, insertAll_sorted _ hm] at h
  rw [OneLineWriter_object_concat]
  exact h

/-- Decoding the text of the empty object in its compact form. -/
theorem Read_empty_object (rest : List Char) :
    Read ⟨"\x7b  \x7d".toList ++ rest, false⟩
      = .ok (JsonNode.object [], ⟨dropSpaces rest, false⟩) := by
  have hloop : ∀ n d, ReadObject.loop (ReadDepth d) (n + 1) []
      ⟨' ' :: ' ' :: '\x7d' :: rest, false⟩ = .ok ([], ⟨'\x7d' :: rest, false⟩) := by
    intro n d
    simp [ReadObject.loop, SkipWhiteSpaces_good, StreamPeek_good, bind, Except.bind, dropSpaces,
      isspace, peekChar, pure, Except.pure]
  have hlast2 : SkipSymbol ⟨'\x7d' :: rest, false⟩ '\x7d'
      = .ok (true, ⟨dropSpaces rest, false⟩) := by
    rw [SkipSymbol_good_peek _ _ (by decide), dropSpaces_cons_of_not_space (by decide)]
    simp [peekChar]
  unfold Read
  rw [ReadDepth_good]
  have hd : dropSpaces ("\x7b  \x7d".toList ++ rest)
      = '\x7b' :: ' ' :: ' ' :: '\x7d' :: rest := rfl
  rw [hd]
  simp only [peekChar, List.headD_cons, if_true]
  simp only [ReadObject, StreamGet_cons, bind, Except.bind, ne_eq, not_true_eq_false, if_false,
    List.length_cons, hloop, hlast2, pure, Except.pure]

theorem plainTree_array_cons (ev : Bool) (e : JsonNode) (es : List JsonNode) :
    plainTree.array ev (e :: es) = (plainTree ev es.isEmpty e && plainTree.array ev es) := by
  rw [plainTree.array]

theorem plainTree_object_cons (ev : Bool) (k : Str) (v : JsonNode)
    (m : List (Str × JsonNode)) :
    plainTree.object ev ((k, v) :: m)
      = (decide ('"' ∉ k) && plainTree ev m.isEmpty v && plainTree.object ev m) := by
  rw [plainTree.object]

theorem plainTree_array_concat (ev : Bool) (es : List JsonNode) (l : JsonNode)
    (h : plainTree.array ev (es ++ [l]) = true) :
    (∀ e ∈ es, plainTree ev false e = true) ∧ plainTree ev true l = true := by
  induction es with
  | nil =>
    rw [List.nil_append, plainTree_array_cons, Bool.and_eq_true] at h
    exact ⟨fun e he => absurd he (List.not_mem_nil e), h.1⟩
  | cons e es ih =>
    rw [List.cons_append, plainTree_array_cons, Bool.and_eq_true] at h
    have hemp : (es ++ [l]).isEmpty = false := by cases es <;> rfl
    rw [hemp] at h
    obtain ⟨h1, h2⟩ := ih h.2
    refine ⟨fun x hx => ?_, h2⟩
    rcases List.mem_cons.mp hx with hx | hx
    · rw [hx]; exact h.1
    · exact h1 x hx

theorem plainTree_object_concat (ev : Bool) (m : List (Str × JsonNode)) (l : Str × JsonNode)
    (h : plainTree.object ev (m ++ [l]) = true) :
    (∀ e ∈ m, '"' ∉ e.1 ∧ plainTree ev false e.2 = true) ∧
      '"' ∉ l.1 ∧ plainTree ev true l.2 = true := by
  induction m with
  | nil =>
    obtain ⟨k, v⟩ := l
    rw [List.nil_append, plainTree_object_cons, Bool.and_eq_true, Bool.and_eq_true] at h
    exact ⟨fun e he => absurd he (List.not_mem_nil e), of_decide_eq_true h.1.1, h.1.2⟩
  | cons e m ih =>
    obtain ⟨k, v⟩ := e
    rw [List.cons_append, plainTree_object_cons, Bool.and_eq_true, Bool.and_eq_true] at h
    have hemp : (m ++ [l]).isEmpty = false := by cases m <;> rfl
    rw [hemp] at h
    obtain ⟨h1, h2⟩ := ih h.2
    refine ⟨fun x hx => ?_, h2⟩
    rcases List.mem_cons.mp hx with hx | hx
    · rw [hx]; exact ⟨of_decide_eq_true h.1.1, h.1.2⟩
    · exact h1 x hx

/-- A literal token decodes in front of white space and on its own. -/
theorem literal_decodes (tok : Str) (v : JsonNode)
    (hkey : ∀ rest, (rest = [] ∨ isspace (peekChar rest) = true) →
      Read ⟨tok ++ rest, false⟩ = .ok (v, ⟨rest, decide (rest = [])⟩)) :
    DecodesSp tok v ∧ ∃ st, Read ⟨tok, false⟩ = .ok (v, st) ∧ st.buf = [] := by
  constructor
  · intro rest hrest
    have hne : rest ≠ [] := ne_nil_of_isspace_peek hrest
    have h := hkey rest (Or.inr hrest)
    rw [decide_eq_false hne] at h
    exact ⟨rest, h, rfl⟩
  · have h := hkey [] (Or.inl rfl)
    rw [List.append_nil] at h
    exact ⟨_, h, rfl⟩

theorem Read_token (tok rest : List Char) (htok : ∀ c ∈ tok, isspace c = false)
    (hrest : rest = [] ∨ isspace (peekChar rest) = true)
    (h1 : peekChar tok ≠ '\x7b') (h2 : peekChar tok ≠ '[') (h3 : peekChar tok ≠ '"')
    (h4 : isdigit (peekChar tok) = false) (h5 : peekChar tok ≠ '-') (hne : tok ≠ []) :
    Read ⟨tok ++ rest, false⟩ =
      if tok = "true".toList then .ok (JsonNode.bool true, ⟨rest, decide (rest = [])⟩)
      else if tok = "false".toList then .ok (JsonNode.bool false, ⟨rest, decide (rest = [])⟩)
      else if tok = "null".toList then .ok (JsonNode.null, ⟨rest, decide (rest = [])⟩)
      else .error (.runtime_error "Expected true|false|null".toList) :=
  Read_literal [] tok rest (fun c hc => absurd hc (List.not_mem_nil c)) htok hrest h1 h2 h3 h4
    h5 hne

/-- The nodes of the round trip, written by the compact encoder, are value texts: in
front of every delimiter where no Null or Bool stands, in front of white space
everywhere, and on their own. -/
theorem plainTree_decodes : ∀ node : JsonNode, ∀ last : Bool,
    plainTree false last node = true →
    (last = false → Decodes (OneLineWriter node) node) ∧
      DecodesSp (OneLineWriter node) node ∧
      ∃ st, Read ⟨OneLineWriter node, false⟩ = .ok (node, st) ∧ st.buf = [] := by
  apply JsonNode.tree_induction
  · intro last h
    have hlast : last = true := by simpa [plainTree] using h
    have hw : OneLineWriter JsonNode.null = "null".toList := by rw [OneLineWriter]
    rw [hw]
    refine ⟨fun hf => (by rw [hlast] at hf; cases hf), literal_decodes _ _ ?_⟩
    intro rest hrest
    have h0 := Read_token "null".toList rest (by decide) hrest (by decide) (by decide)
      (by decide) (by decide) (by decide) (by decide)
    rw [if_neg (by decide), if_neg (by decide), if_pos rfl] at h0
    exact h0
  · intro v last h
    have hlast : last = true := by simpa [plainTree] using h
    cases v with
    | false =>
      have hw : OneLineWriter (JsonNode.bool false) = "false".toList := by rw [OneLineWriter]; rfl
      rw [hw]
      refine ⟨fun hf => (by rw [hlast] at hf; cases hf), literal_decodes _ _ ?_⟩
      intro rest hrest
      have h0 := Read_token "false".toList rest (by decide) hrest (by decide) (by decide)
        (by decide) (by decide) (by decide) (by decide)
      rw [if_neg (by decide), if_pos rfl] at h0
      exact h0
    | true =>
      have hw : OneLineWriter (JsonNode.bool true) = "true".toList := by rw [OneLineWriter]; rfl
      rw [hw]
      refine ⟨fun hf => (by rw [hlast] at hf; cases hf), literal_decodes _ _ ?_⟩
      intro rest hrest
      have h0 := Read_token "true".toList rest (by decide) hrest (by decide) (by decide)
        (by decide) (by decide) (by decide) (by decide)
      rw [if_pos rfl] at h0
      exact h0
  · intro v last h
    rw [plainTree] at h
    have hv := of_decide_eq_true h
    have hw : OneLineWriter (JsonNode.int v) = showInt v := by rw [OneLineWriter]
    rw [hw]
    have hd : Decodes (showInt v) (JsonNode.int v) := Decodes_int v hv.1 hv.2
    refine ⟨fun _ => hd, DecodesSp_of_Decodes _ _ hd, ⟨[], false⟩, ?_, rfl⟩
    have h0 := Read_int v hv.1 hv.2 [] numStop_eofChar
    rw [List.append_nil] at h0
    exact h0
  · intro v last h
    rw [plainTree] at h
    have hv := of_decide_eq_true h
    have hw : OneLineWriter (JsonNode.long v) = showInt v := by rw [OneLineWriter]
    rw [hw]
    have hd : Decodes (showInt v) (JsonNode.long v) := fun rest hrest =>
      ⟨rest, Read_long v hv.1 hv.2.1 hv.2.2 rest (numStop_of_isDelim hrest), rfl⟩
    refine ⟨fun _ => hd, DecodesSp_of_Decodes _ _ hd, ⟨[], false⟩, ?_, rfl⟩
    have h0 := Read_long v hv.1 hv.2.1 hv.2.2 [] numStop_eofChar
    rw [List.append_nil] at h0
    exact h0
  · intro v last h
    rw [plainTree] at h
    cases h
  · intro v last h
    rw [plainTree] at h
    have hv := of_decide_eq_true h
    have hw : OneLineWriter (JsonNode.string v) = '"' :: v ++ ['"'] := by rw [OneLineWriter]
    rw [hw]
    have hc : ∀ rest, Read ⟨('"' :: v ++ ['"']) ++ rest, false⟩
        = .ok (JsonNode.string v, ⟨rest, false⟩) := by
      intro rest
      have h0 := Read_quoted v rest hv
      have he : ('"' :: v ++ ['"']) ++ rest = '"' :: v ++ '"' :: rest := by simp
      rw [he]
      exact h0
    have hd : Decodes ('"' :: v ++ ['"']) (JsonNode.string v) :=
      fun rest _ => ⟨rest, hc rest, rfl⟩
    refine ⟨fun _ => hd, DecodesSp_of_Decodes _ _ hd, ⟨[], false⟩, ?_, rfl⟩
    have h0 := hc []
    rw [List.append_nil] at h0
    exact h0
  · intro arg ih last h
    rw [plainTree] at h
    have hclosed : ∀ rest, Read ⟨OneLineWriter (JsonNode.array arg) ++ rest, false⟩
        = .ok (JsonNode.array arg, ⟨dropSpaces rest, false⟩) := by
      intro rest
      rcases List.eq_nil_or_concat arg with h0 | ⟨es, l, h0⟩
      · subst h0
        exact Read_empty_array rest
      · rw [List.concat_eq_append] at h0
        subst h0
        obtain ⟨h1, h2⟩ := plainTree_array_concat false es l h
        exact Read_compact_array es l rest
          (fun e he => (ih e (List.mem_append_left _ he) false (h1 e he)).1 rfl)
          (ih l (List.mem_append_right _ (List.mem_singleton_self l)) true h2).2.1
    have hc := decodes_of_closed _ _ hclosed
    exact ⟨fun _ => hc.1, hc.2.1, hc.2.2⟩
  · intro arg ih last h
    rw [plainTree, Bool.and_eq_true] at h
    have hm : KeysAscending arg := by
      have h0 := h.1
      simpa [KeysAscending] using h0
    have hclosed : ∀ rest, Read ⟨OneLineWriter (JsonNode.object arg) ++ rest, false⟩
        = .ok (JsonNode.object arg, ⟨dropSpaces rest, false⟩) := by
      intro rest
      rcases List.eq_nil_or_concat arg with h0 | ⟨m, l, h0⟩
      · subst h0
        exact Read_empty_object rest
      · rw [List.concat_eq_append] at h0
        subst h0
        obtain ⟨h1, h2, h3⟩ := plainTree_object_concat false m l h.2
        refine Read_compact_object m l rest hm ?_
          (fun e he => (ih e (List.mem_append_left _ he) false (h1 e he).2).1 rfl)
          (ih l (List.mem_append_right _ (List.mem_singleton_self l)) true h3).2.1
        intro e he
        rcases List.mem_append.mp he with he | he
        · exact (h1 e he).1
        · rw [List.mem_singleton] at he
          rw [he]
          exact h2
    have hc := decodes_of_closed _ _ hclosed
    exact ⟨fun _ => hc.1, hc.2.1, hc.2.2⟩

end RoundTrip

/-- Round trip through the compact encoder where it holds: for every node built from
Int32 values, Int64 values outside the 32-bit range, strings and object keys without a
double quote, Arrays and Objects of such nodes, with a Null or Bool only at the root,
as the last element of an Array or as the value of the last entry of an Object,
decoding the compact encoding of the node returns the node and reads the text to its
end. -/
theorem compact_round_trip (node : JsonNode) (h : plainTree false true node = true) :
    ∃ st, JsonParser.Read ⟨JsonParser.Write node false, false⟩ = .ok (node, st) ∧
      st.buf = [] :=
  (plainTree_decodes node true h).2.2

/-- The round trip at the array holding the empty Object, the Object with the entries
`a` = 1 and `b` = `[ "x", null ]`, the Int64 value 2147483648 and `true`. -/
theorem compact_round_trip_example :
    plainTree false true
      (JsonNode.array [JsonNode.object [],
        JsonNode.object [("a".toList, JsonNode.int 1),
          ("b".toList, JsonNode.array [JsonNode.string "x".toList, JsonNode.null])],
        JsonNode.long 2147483648, JsonNode.bool true]) = true ∧
    ∃ st, JsonParser.Read ⟨JsonParser.Write
      (JsonNode.array [JsonNode.object [],
        JsonNode.object [("a".toList, JsonNode.int 1),
          ("b".toList, JsonNode.array [JsonNode.string "x".toList, JsonNode.null])],
        JsonNode.long 2147483648, JsonNode.bool true]) false, false⟩
      = .ok (JsonNode.array [JsonNode.object [],
        JsonNode.object [("a".toList, JsonNode.int 1),
          ("b".toList, JsonNode.array [JsonNode.string "x".toList, JsonNode.null])],
        JsonNode.long 2147483648, JsonNode.bool true], st) ∧ st.buf = [] :=
  ⟨by decide, compact_round_trip _ (by decide)⟩

/-- C19 at the Array of `true` and `false`, a node built from Bool nodes only: its
compact encoding is `[ true, false ]`, and decoding that text reads the token `true,`
and fails, so the round trip does not return the node. -/
theorem C19_literal_before_comma :
    plainTree true true (JsonNode.array [JsonNode.bool true, JsonNode.bool false]) = true ∧
    JsonParser.Write (JsonNode.array [JsonNode.bool true, JsonNode.bool false]) false
      = "[ true, false ]".toList ∧
    JsonParser.Read
      ⟨JsonParser.Write (JsonNode.array [JsonNode.bool true, JsonNode.bool false]) false, false⟩
      = .error (JsonError.runtime_error "Expected true|false|null".toList) ∧
    ¬ ∃ st, JsonParser.Read
      ⟨JsonParser.Write (JsonNode.array [JsonNode.bool true, JsonNode.bool false]) false, false⟩
      = .ok (JsonNode.array [JsonNode.bool true, JsonNode.bool false], st) := by
  refine ⟨by decide, rfl, rfl, ?_⟩
  rintro ⟨st, h⟩
  have h2 : JsonParser.Read
      ⟨JsonParser.Write (JsonNode.array [JsonNode.bool true, JsonNode.bool false]) false, false⟩
      = .error (JsonError.runtime_error "Expected true|false|null".toList) := rfl
  rw [h2] at h
  cases h

/-! ## The separator error of the object loop -/

section ObjectError
open JsonParser

theorem entriesComma_length (es : List EntryText) : es.length ≤ (entriesComma es).length := by
  induction es with
  | nil => simp [entriesComma]
  | cons e es ih => simp only [entriesComma, List.length_append, List.length_cons]; omega

theorem entriesComma_head (e : EntryText) (es : List EntryText) (tl : List Char) :
    ∃ Y, entriesComma (e :: es) ++ tl = e.pre ++ '"' :: Y :=
  ⟨e.key ++ '"' :: (e.mid ++ ':' :: (e.text ++ ',' :: (entriesComma es ++ tl))),
    by simp [entriesComma, EntryText.render]⟩

/-- The object loop over well-formed entries that are each followed by a comma, in
front of a text that does not start with a closing brace: every entry is handed to
`try_emplace`, in the order of the text. -/
theorem ReadObject_loop_commas (d : Nat) (rest : List Char)
    (hrest : peekChar (dropSpaces rest) ≠ '\x7d') :
    ∀ (es : List EntryText) (object : List (Str × JsonNode)) (n : Nat),
      (∀ x ∈ es, x.WellFormed) → (entriesComma es ++ rest).length < d →
      ReadObject.loop (ReadDepth d) (n + 1 + es.length) object ⟨entriesComma es ++ rest, false⟩
        = ReadObject.loop (ReadDepth d) (n + 1) (insertAll object (es.map EntryText.pair))
            ⟨rest, false⟩ := by
  intro es
  induction es with
  | nil => intro object n _ _; simp [entriesComma, insertAll]
  | cons e es ih =>
    intro object n hwf hlen
    obtain ⟨hpre, hkey, hmid, hdec⟩ := hwf e (List.mem_cons_self _ _)
    obtain ⟨r, hr, hdr⟩ := hdec (',' :: (entriesComma es ++ rest)) (isDelim_comma _)
    rw [dropSpaces_cons_of_not_space (by decide)] at hdr
    have hstream : entriesComma (e :: es) ++ rest
        = e.pre ++ '"' :: (e.key ++ '"' :: (e.mid ++ ':' ::
            (e.text ++ ',' :: (entriesComma es ++ rest)))) := by
      simp [entriesComma, EntryText.render]
    rw [hstream] at hlen ⊢
    have hRd := ReadDepth_of_Read _ _ hr d
      (by simp only [List.length_append, List.length_cons] at hlen ⊢; omega)
    rw [← ReadDepth_dropSpaces] at hRd
    have hfuel : n + 1 + (e :: es).length = (n + 1 + es.length) + 1 := by
      simp only [List.length_cons]; omega
    rw [hfuel, ReadObject_loop_step _ _ _ _ _ _ _ r e.value hpre hkey hmid hRd,
      skipUntil_comma r _ _ hdr]
    have hpk : peekChar (dropSpaces (entriesComma es ++ rest)) ≠ '\x7d' := by
      cases es with
      | nil => simpa [entriesComma] using hrest
      | cons e2 es2 =>
        obtain ⟨Y, hY⟩ := entriesComma_head e2 es2 rest
        have hpre2 := (hwf e2 (List.mem_cons_of_mem _ (List.mem_cons_self _ _))).1
        rw [hY, dropSpaces_append_of_all _ hpre2, dropSpaces_cons_of_not_space (by decide)]
        simp only [peekChar, List.headD_cons]
        decide
    simp only [Bool.true_eq_false, if_false]
    rw [if_pos hpk, ReadObject_loop_dropSpaces]
    have hlen2 : (entriesComma es ++ rest).length < d := by
      simp only [List.length_append, List.length_cons] at hlen ⊢; omega
    rw [ih _ n (fun x hx => hwf x (List.mem_cons_of_mem _ hx)) hlen2]
    rfl

theorem find_try_emplace_self (m : List (Str × JsonNode)) (k : Str) (v : JsonNode) :
    find (try_emplace m k v) k = some ((find m k).getD v) := by
  rw [find_try_emplace]
  cases find m k with
  | some x => rfl
  | none => simp

/-- Reading an object whose last decoded entry is followed by something other than a
comma or a closing brace: the node of the message is the node that the map holds for
the key of that entry. -/
theorem Read_object_separator (es : List EntryText) (pre key mid s r : List Char)
    (v : JsonNode) (hes : ∀ e ∈ es, e.WellFormed) (hpre : ∀ c ∈ pre, isspace c = true)
    (hkey : '"' ∉ key) (hmid : ∀ c ∈ mid, isspace c = true)
    (hv : Read ⟨s, false⟩ = .ok (v, ⟨r, false⟩))
    (h1 : peekChar (dropSpaces r) ≠ ',') (h2 : peekChar (dropSpaces r) ≠ '\x7d') :
    Read ⟨'\x7b' :: (entriesComma es ++ (pre ++ '"' :: (key ++ '"' :: (mid ++ ':' :: s)))),
        false⟩
      = .error (JsonParserException ((firstValue key (es.map EntryText.pair)).getD v)
          "expected ,".toList) := by
  have hL := entriesComma_length es
  have hd : dropSpaces ('\x7b' :: (entriesComma es ++
      (pre ++ '"' :: (key ++ '"' :: (mid ++ ':' :: s)))))
      = '\x7b' :: (entriesComma es ++ (pre ++ '"' :: (key ++ '"' :: (mid ++ ':' :: s)))) :=
    dropSpaces_cons_of_not_space (by decide) _
  unfold Read
  rw [ReadDepth_good, hd]
  simp only [peekChar, List.headD_cons, if_true]
  simp only [ReadObject, StreamGet_cons, bind, Except.bind, ne_eq, not_true_eq_false, if_false,
    List.length_cons]
  have hq : peekChar (dropSpaces (pre ++ '"' :: (key ++ '"' :: (mid ++ ':' :: s)))) ≠ '\x7d' := by
    rw [dropSpaces_append_of_all _ hpre, dropSpaces_cons_of_not_space (by decide)]
    simp only [peekChar, List.headD_cons]
    decide
  have hloop : ReadObject.loop
      (ReadDepth ((entriesComma es ++ (pre ++ '"' :: (key ++ '"' :: (mid ++ ':' :: s)))).length
        + 1))
      ((entriesComma es ++ (pre ++ '"' :: (key ++ '"' :: (mid ++ ':' :: s)))).length + 1) []
      ⟨entriesComma es ++ (pre ++ '"' :: (key ++ '"' :: (mid ++ ':' :: s))), false⟩
        = .error (JsonParserException ((firstValue key (es.map EntryText.pair)).getD v)
            "expected ,".toList) := by
    obtain ⟨n, hn⟩ : ∃ n,
        (entriesComma es ++ (pre ++ '"' :: (key ++ '"' :: (mid ++ ':' :: s)))).length + 1
          = n + 1 + es.length :=
      ⟨(entriesComma es ++ (pre ++ '"' :: (key ++ '"' :: (mid ++ ':' :: s)))).length
          - es.length, by simp only [List.length_append]; omega⟩
    have h := ReadObject_loop_commas
      ((entriesComma es ++ (pre ++ '"' :: (key ++ '"' :: (mid ++ ':' :: s)))).length + 1)
      (pre ++ '"' :: (key ++ '"' :: (mid ++ ':' :: s))) hq es [] n hes (Nat.lt_succ_self _)
    rw [← hn] at h
    rw [h]
    have hRd := ReadDepth_of_Read _ _ hv
      ((entriesComma es ++ (pre ++ '"' :: (key ++ '"' :: (mid ++ ':' :: s)))).length + 1)
      (by simp only [List.length_append, List.length_cons]; omega)
    rw [← ReadDepth_dropSpaces] at hRd
    rw [ReadObject_loop_step _ _ _ _ _ _ _ r v hpre hkey hmid hRd]
    have hsk : (skipUntil r ',' '\x7d').1 = false := by
      simp [skipUntil, h1, h2]
    rw [if_pos hsk, «at», find_try_emplace_self, find_insertAll, find_nil]
    rfl
  rw [hloop]

end ObjectError

/-- C20: in an object text, let the entries in front be well formed and each followed
by a comma, and let the value of the next entry, with key `key`, decode to `v` and be
followed by something that, after optional white space, is neither a comma nor a
closing brace.  Then `Read` fails with a `JsonParserException` whose message `_what` is
`expected ,`, then ` after node: `, then the compact encoding of the node that the
map holds for `key`: the node `v` just parsed when no entry in front has the key, and
the node of the first entry with the key otherwise.  The text `{"a":1 "b":2}` fails
with `expected , after node: 1`; the text `{"a":1,"a":2 "b":3}` fails with
`expected , after node: 1` too, although the value parsed last is `2`. -/
theorem C20_object_separator_context :
    (∀ (es : List EntryText) (pre key mid s r : List Char) (v : JsonNode),
      (∀ e ∈ es, e.WellFormed) → (∀ c ∈ pre, isspace c = true) → '"' ∉ key →
      (∀ c ∈ mid, isspace c = true) →
      JsonParser.Read ⟨s, false⟩ = .ok (v, ⟨r, false⟩) →
      peekChar (dropSpaces r) ≠ ',' → peekChar (dropSpaces r) ≠ '\x7d' →
      JsonParser.Read
          ⟨'\x7b' :: (entriesComma es ++ (pre ++ '"' :: (key ++ '"' :: (mid ++ ':' :: s)))),
            false⟩
        = .error (JsonError.JsonParserException ("expected ,".toList ++ " after node: ".toList
            ++ JsonParser.Write ((firstValue key (es.map EntryText.pair)).getD v) false))) ∧
    JsonParser.Read (istream "\x7b\"a\":1 \"b\":2\x7d")
      = .error (JsonError.JsonParserException "expected , after node: 1".toList) ∧
    JsonParser.Read (istream "\x7b\"a\":1,\"a\":2 \"b\":3\x7d")
      = .error (JsonError.JsonParserException "expected , after node: 1".toList) :=
  ⟨fun es pre key mid s r v hes hpre hkey hmid hv h1 h2 =>
    Read_object_separator es pre key mid s r v hes hpre hkey hmid hv h1 h2, rfl, rfl⟩

/-- C20 at the text `{"a":1,"a":2 "b":3}`: the entry `"a":1` is followed by a comma,
the value `2` of the second entry with key `a` decodes and is followed by a quote,
and the node of the message is the `1` of the first entry. -/
theorem C20_object_separator_context_witness :
    JsonParser.Read ⟨"2 \"b\":3\x7d".toList, false⟩
      = .ok (JsonNode.int 2, ⟨" \"b\":3\x7d".toList, false⟩) ∧
    JsonParser.Read
        ⟨'\x7b' :: (entriesComma [⟨[], "a".toList, [], "1".toList, JsonNode.int 1⟩]
          ++ ([] ++ '"' :: ("a".toList ++ '"' :: ([] ++ ':' :: "2 \"b\":3\x7d".toList)))), false⟩
      = .error (JsonError.JsonParserException ("expected ,".toList ++ " after node: ".toList
          ++ JsonParser.Write (JsonNode.int 1) false)) :=
  ⟨rfl, C20_object_separator_context.1 [⟨[], "a".toList, [], "1".toList, JsonNode.int 1⟩]
    [] "a".toList [] "2 \"b\":3\x7d".toList " \"b\":3\x7d".toList (JsonNode.int 2)
    (by
      intro e he
      rw [List.mem_singleton] at he
      subst he
      exact ⟨by simp, by decide, by simp, Decodes_int 1 (by decide) (by decide)⟩)
    (by simp) (by decide) (by simp) rfl (by decide) (by decide)⟩

/-! ## The texts that the number reader consumes -/

section NumberGrammar
open JsonParser

theorem takeDigits_dropDigits (t : List Char) : takeDigits t ++ dropDigits t = t := by
  induction t with
  | nil => rfl
  | cons c cs ih =>
    by_cases hc : isdigit c = true
    · simp [takeDigits, dropDigits, hc, ih]
    · simp [takeDigits, dropDigits, hc]

theorem takeDigits_all (t : List Char) : ∀ x ∈ takeDigits t, isdigit x = true := by
  induction t with
  | nil => intro x hx; exact absurd hx (List.not_mem_nil x)
  | cons c cs ih =>
    by_cases hc : isdigit c = true
    · intro x hx
      simp only [takeDigits, hc, if_true, List.mem_cons] at hx
      rcases hx with hx | hx
      · rw [hx]; exact hc
      · exact ih x hx
    · intro x hx
      simp [takeDigits, hc] at hx

theorem scanSign_shape (b : List Char) :
    (scanSign b).1 ++ (scanSign b).2 = b ∧ ((scanSign b).1 = [] ∨ (scanSign b).1 = ['-']) := by
  unfold scanSign
  by_cases h : peekChar b = '-'
  · have hb := cons_of_peekChar h (by decide)
    rw [if_pos h]
    exact ⟨hb.symm, Or.inr rfl⟩
  · rw [if_neg h]
    exact ⟨rfl, Or.inl rfl⟩

theorem scanInt_shape (p q : Str × List Char) (h : scanInt p = some q) :
    ∃ int, q.1 = p.1 ++ int ∧ int ++ q.2 = p.2 ∧
      (int = ['0'] ∨
        ∃ d ds, int = d :: ds ∧ isdigit d = true ∧ d ≠ '0' ∧ ∀ x ∈ ds, isdigit x = true) := by
  unfold scanInt at h
  by_cases h0 : peekChar p.2 = '0'
  · rw [if_pos h0] at h
    have hq := Option.some.inj h
    have hb := cons_of_peekChar h0 (by decide)
    refine ⟨['0'], by rw [← hq], ?_, Or.inl rfl⟩
    rw [← hq]
    exact hb.symm
  · rw [if_neg h0] at h
    by_cases hd : isdigit (peekChar p.2) = true
    · rw [if_pos hd] at h
      have hq := Option.some.inj h
      refine ⟨takeDigits p.2, by rw [← hq], by rw [← hq]; exact takeDigits_dropDigits _, Or.inr ?_⟩
      have hb := cons_of_isdigit_peekChar hd
      refine ⟨peekChar p.2, takeDigits p.2.tail, ?_, hd, h0, takeDigits_all _⟩
      conv_lhs => rw [hb]
      simp [takeDigits, hd]
    · rw [if_neg hd] at h
      cases h

theorem scanFrac_shape (p : Str × List Char) :
    ∃ frac, (scanFrac p).1 = p.1 ++ frac ∧ frac ++ (scanFrac p).2.1 = p.2 ∧
      (frac = [] ∨ ∃ ds, frac = '.' :: ds ∧ ∀ x ∈ ds, isdigit x = true) := by
  unfold scanFrac
  by_cases h : peekChar p.2 = '.'
  · rw [if_pos h]
    have hb := cons_of_peekChar h (by decide)
    refine ⟨'.' :: takeDigits p.2.tail, rfl, ?_, Or.inr ⟨_, rfl, takeDigits_all _⟩⟩
    show '.' :: (takeDigits p.2.tail ++ dropDigits p.2.tail) = p.2
    rw [takeDigits_dropDigits]
    exact hb.symm
  · rw [if_neg h]
    exact ⟨[], by simp, rfl, Or.inl rfl⟩

theorem scanExp_shape (p : Str × List Char × Bool) :
    ∃ exp, (scanExp p).1 = p.1 ++ exp ∧ exp ++ (scanExp p).2.1 = p.2.1 ∧
      (exp = [] ∨
        ∃ e sg ds, exp = e :: (sg ++ ds) ∧ (e = 'e' ∨ e = 'E') ∧
          (sg = [] ∨ sg = ['+'] ∨ sg = ['-']) ∧ ∀ x ∈ ds, isdigit x = true) := by
  unfold scanExp
  by_cases h : peekChar p.2.1 = 'E' ∨ peekChar p.2.1 = 'e'
  · rw [if_pos h]
    have hb : p.2.1 = peekChar p.2.1 :: p.2.1.tail := by
      rcases h with h | h
      · have := cons_of_peekChar h (by decide); rw [h]; exact this
      · have := cons_of_peekChar h (by decide); rw [h]; exact this
    by_cases h2 : peekChar p.2.1.tail = '+' ∨ peekChar p.2.1.tail = '-'
    · rw [if_pos h2]
      have ht : p.2.1.tail = peekChar p.2.1.tail :: p.2.1.tail.tail := by
        rcases h2 with h2 | h2
        · have := cons_of_peekChar h2 (by decide); rw [h2]; exact this
        · have := cons_of_peekChar h2 (by decide); rw [h2]; exact this
      refine ⟨peekChar p.2.1 :: ([peekChar p.2.1.tail] ++ takeDigits p.2.1.tail.tail),
        by simp, ?_, Or.inr ⟨_, _, _, rfl, h.symm, ?_, takeDigits_all _⟩⟩
      · show peekChar p.2.1 :: (peekChar p.2.1.tail
          :: (takeDigits p.2.1.tail.tail ++ dropDigits p.2.1.tail.tail)) = p.2.1
        rw [takeDigits_dropDigits, ← ht, ← hb]
      · rcases h2 with h2 | h2
        · exact Or.inr (Or.inl (by rw [h2]))
        · exact Or.inr (Or.inr (by rw [h2]))
    · rw [if_neg h2]
      refine ⟨peekChar p.2.1 :: ([] ++ takeDigits p.2.1.tail), by simp, ?_,
        Or.inr ⟨_, _, _, rfl, h.symm, Or.inl rfl, takeDigits_all _⟩⟩
      show peekChar p.2.1 :: (takeDigits p.2.1.tail ++ dropDigits p.2.1.tail) = p.2.1
      rw [takeDigits_dropDigits, ← hb]
  · rw [if_neg h]
    exact ⟨[], by simp, rfl, Or.inl rfl⟩

/-- Whenever `ReadNumber` returns a node, the characters it took from the stream form
a text of the number grammar in which the fraction may be a `.` without digits. -/
theorem ReadNumber_consumed (b : List Char) (node : JsonNode) (o : IStream)
    (h : ReadNumber ⟨b, false⟩ = .ok (node, o)) :
    ∃ c, b = c ++ o.buf ∧ NumberText false c := by
  rw [ReadNumber_good] at h
  cases hi : scanInt (scanSign b) with
  | none => rw [hi] at h; cases h
  | some p =>
    rw [hi] at h
    simp only at h
    cases hc : ReadNumber.convert (scanExp (scanFrac p)).1 (scanExp (scanFrac p)).2.2 with
    | error e => rw [hc] at h; cases h
    | ok nd =>
      rw [hc] at h
      simp only [Except.ok.injEq, Prod.mk.injEq] at h
      obtain ⟨hs1, hs2⟩ := scanSign_shape b
      obtain ⟨int, hi1, hi2, hi3⟩ := scanInt_shape _ _ hi
      obtain ⟨frac, hf1, hf2, hf3⟩ := scanFrac_shape p
      obtain ⟨exp, he1, he2, he3⟩ := scanExp_shape (scanFrac p)
      refine ⟨(scanSign b).1 ++ int ++ frac ++ exp, ?_, (scanSign b).1, int, frac, exp, rfl, hs2,
        hi3, ?_, he3⟩
      · rw [← h.2]
        simp only [List.append_assoc]
        rw [he2, hf2, hi2, hs1]
      · rcases hf3 with hf3 | ⟨ds, hf3, hd⟩
        · exact Or.inl hf3
        · exact Or.inr ⟨ds, hf3, hd, fun hx => Bool.noConfusion hx⟩

/-- The text `1.` is no text of the number grammar: its `.` has no digit behind it. -/
theorem not_NumberText_point : ¬ NumberText true "1.".toList := by
  rintro ⟨sign, int, frac, exp, hc, hs, hi, hf, he⟩
  have hc2 : ['1', '.'] = sign ++ int ++ frac ++ exp := hc
  have hs0 : sign = [] := by
    rcases hs with hs | hs
    · exact hs
    · rw [hs] at hc2
      simp at hc2
  subst hs0
  simp only [List.nil_append] at hc2
  rcases hi with hi | ⟨d, ds, hi, _, _, hds⟩
  · rw [hi] at hc2
    simp at hc2
  · rw [hi] at hc2
    simp only [List.cons_append, List.append_assoc, List.cons.injEq] at hc2
    obtain ⟨_, hrest⟩ := hc2
    cases ds with
    | cons x xs =>
      simp only [List.cons_append, List.cons.injEq] at hrest
      have hx := hds x (List.mem_cons_self _ _)
      rw [← hrest.1] at hx
      exact absurd hx (by decide)
    | nil =>
      simp only [List.nil_append] at hrest
      rcases hf with hf | ⟨fs, hf, _, hne⟩
      · rw [hf] at hrest
        simp only [List.nil_append] at hrest
        rcases he with he | ⟨e, sg, es, he, hee, _, _⟩
        · rw [he] at hrest
          cases hrest
        · rw [he] at hrest
          simp only [List.cons.injEq] at hrest
          rcases hee with hee | hee
          · rw [hee] at hrest; exact absurd hrest.1 (by decide)
          · rw [hee] at hrest; exact absurd hrest.1 (by decide)
      · rw [hf] at hrest
        simp only [List.cons_append, List.cons.injEq, true_and] at hrest
        have hfs : fs = [] := (List.append_eq_nil.mp hrest.symm).1
        exact hne rfl hfs

end NumberGrammar

/-- C21 at the inputs `1.]`, `012` and `-5e`.  On `1.]` the number reader takes `1.`,
a `.` with no digit behind it, leaves `]` and returns the Double 1, and the text `1.`
is no text of the grammar; the array text `[1.]` decodes.  On `012` it takes the `0`
alone, and on `-5e` it takes `-5e` and returns the Double -5.  Whenever the reader
returns a node, the characters it took form a text of the grammar with the fraction
relaxed to a `.` followed by any number of digits. -/
theorem C21_number_grammar :
    JsonParser.ReadNumber (istream "1.]")
      = .ok (JsonNode.double ⟨false, 4503599627370496, -52⟩, ⟨"]".toList, false⟩) ∧
    ¬ NumberText true "1.".toList ∧
    JsonParser.Read (istream "[1.]")
      = .ok (JsonNode.array [JsonNode.double ⟨false, 4503599627370496, -52⟩], ⟨[], false⟩) ∧
    JsonParser.ReadNumber (istream "012") = .ok (JsonNode.int 0, ⟨"12".toList, false⟩) ∧
    JsonParser.ReadNumber (istream "-5e")
      = .ok (JsonNode.double ⟨true, 5629499534213120, -50⟩, ⟨[], false⟩) ∧
    (∀ (b : List Char) (node : JsonNode) (o : IStream),
      JsonParser.ReadNumber ⟨b, false⟩ = .ok (node, o) →
        ∃ c, b = c ++ o.buf ∧ NumberText false c) :=
  ⟨rfl, not_NumberText_point, rfl, rfl, rfl, fun b node o h => ReadNumber_consumed b node o h⟩

/-! ## A comma in front of the closing bracket -/

section TrailingComma
open JsonParser

theorem elemsText_append (es fs : List (Str × JsonNode)) :
    elemsText (es ++ fs) = elemsText es ++ elemsText fs := by
  induction es with
  | nil => rfl
  | cons e es ih => simp [elemsText, ih]

/-- Decoding the text of an array in which every element text, the last one too, is
followed by a comma. -/
theorem Read_arrayText_comma (es : List (Str × JsonNode)) (rest : List Char)
    (hes : ∀ e ∈ es, Decodes e.1 e.2) :
    Read ⟨'[' :: (elemsText es ++ ']' :: rest), false⟩
      = .ok (JsonNode.array (es.map Prod.snd), ⟨dropSpaces rest, false⟩) := by
  have hL := elemsText_length es
  have hd : dropSpaces ('[' :: (elemsText es ++ ']' :: rest))
      = '[' :: (elemsText es ++ ']' :: rest) :=
    dropSpaces_cons_of_not_space (by decide) _
  have hlast : SkipSymbol ⟨']' :: rest, false⟩ ']' = .ok (true, ⟨dropSpaces rest, false⟩) := by
    rw [SkipSymbol_good_peek _ _ (by decide), dropSpaces_cons_of_not_space (by decide)]
    simp [peekChar]
  unfold Read
  rw [ReadDepth_good, hd]
  simp only [peekChar, List.headD_cons, if_true]
  simp only [ReadArray, StreamGet_cons, bind, Except.bind, ne_eq, not_true_eq_false, if_false,
    List.length_cons]
  have hloop : ReadArray.loop (ReadDepth ((elemsText es ++ ']' :: rest).length + 1))
      ((elemsText es ++ ']' :: rest).length + 1) [] ⟨elemsText es ++ ']' :: rest, false⟩
        = .ok (es.map Prod.snd, ⟨']' :: rest, false⟩) := by
    obtain ⟨n, hn⟩ : ∃ n, (elemsText es ++ ']' :: rest).length + 1 = n + 1 + es.length :=
      ⟨(elemsText es ++ ']' :: rest).length - es.length, by
        simp only [List.length_append]; omega⟩
    have h := ReadArray_loop_elems ((elemsText es ++ ']' :: rest).length + 1)
      (']' :: rest) es [] n hes (Nat.lt_succ_self _)
    rw [← hn] at h
    rw [h]
    simp [ReadArray.loop, SkipWhiteSpaces_good, StreamPeek_good, bind, Except.bind, dropSpaces,
      isspace, peekChar, pure, Except.pure]
  rw [if_neg (by decide), hloop]
  simp only [hlast, pure, Except.pure]

theorem entriesText_concat (init : List EntryText) (last : EntryText) :
    entriesText (init ++ [last]) = entriesComma init ++ last.render := by
  induction init with
  | nil => simp [entriesText_single, entriesComma]
  | cons e init ih =>
    rw [List.cons_append, entriesText_cons_ne _ _ (by simp), ih]
    simp [entriesComma]

/-- The object loop over well-formed entries that are each followed by a comma, the
last one too, in front of the closing brace. -/
theorem ReadObject_loop_comma (d : Nat) (rest : List Char) (init : List EntryText)
    (last : EntryText) (n : Nat) (hwf : ∀ x ∈ init ++ [last], x.WellFormed)
    (hlen : (entriesComma init ++ (last.render ++ ',' :: '\x7d' :: rest)).length < d) :
    ReadObject.loop (ReadDepth d) (n + 1 + 1 + init.length) []
        ⟨entriesComma init ++ (last.render ++ ',' :: '\x7d' :: rest), false⟩
      = .ok (insertAll [] ((init ++ [last]).map EntryText.pair), ⟨'\x7d' :: rest, false⟩) := by
  obtain ⟨hpre, hkey, hmid, hdec⟩ := hwf last (List.mem_append_right _ (by simp))
  have hq : peekChar (dropSpaces (last.render ++ ',' :: '\x7d' :: rest)) ≠ '\x7d' := by
    have hr : last.render ++ ',' :: '\x7d' :: rest
        = last.pre ++ '"' :: (last.key ++ '"' :: (last.mid ++ ':' ::
            (last.text ++ ',' :: '\x7d' :: rest))) := by
      simp [EntryText.render]
    rw [hr, dropSpaces_append_of_all _ hpre, dropSpaces_cons_of_not_space (by decide)]
    simp only [peekChar, List.headD_cons]
    decide
  rw [ReadObject_loop_commas d _ hq init [] (n + 1)
    (fun x hx => hwf x (List.mem_append_left _ hx)) hlen]
  obtain ⟨r, hr, hdr⟩ := hdec (',' :: '\x7d' :: rest) (isDelim_comma _)
  rw [dropSpaces_cons_of_not_space (by decide)] at hdr
  have hstream : last.render ++ ',' :: '\x7d' :: rest
      = last.pre ++ '"' :: (last.key ++ '"' :: (last.mid ++ ':' ::
          (last.text ++ ',' :: '\x7d' :: rest))) := by
    simp [EntryText.render]
  rw [hstream] at hlen ⊢
  have hRd := ReadDepth_of_Read _ _ hr d
    (by simp only [List.length_append, List.length_cons] at hlen ⊢; omega)
  rw [← ReadDepth_dropSpaces] at hRd
  rw [ReadObject_loop_step _ _ _ _ _ _ _ r last.value hpre hkey hmid hRd,
    skipUntil_comma r _ _ hdr, dropSpaces_cons_of_not_space (by decide)]
  simp [peekChar, List.map_append, insertAll_append, insertAll_cons, insertAll_nil,
    EntryText.pair]

/-- Decoding the text of an object with well-formed entries and a comma in front of
the closing brace. -/
theorem Read_objectText_comma (e : EntryText) (es : List EntryText) (rest : List Char)
    (hwf : ∀ x ∈ e :: es, x.WellFormed) :
    Read ⟨'\x7b' :: (entriesText (e :: es) ++ ',' :: '\x7d' :: rest), false⟩
      = .ok (JsonNode.object (insertAll [] ((e :: es).map EntryText.pair)),
          ⟨dropSpaces rest, false⟩) := by
  rcases List.eq_nil_or_concat (e :: es) with h0 | ⟨init, last, h0⟩
  · cases h0
  · rw [List.concat_eq_append] at h0
    rw [h0] at hwf ⊢
    have hlast : SkipSymbol ⟨'\x7d' :: rest, false⟩ '\x7d'
        = .ok (true, ⟨dropSpaces rest, false⟩) := by
      rw [SkipSymbol_good_peek _ _ (by decide), dropSpaces_cons_of_not_space (by decide)]
      simp [peekChar]
    have hd : dropSpaces ('\x7b' :: (entriesText (init ++ [last]) ++ ',' :: '\x7d' :: rest))
        = '\x7b' :: (entriesText (init ++ [last]) ++ ',' :: '\x7d' :: rest) :=
      dropSpaces_cons_of_not_space (by decide) _
    unfold Read
    rw [ReadDepth_good, hd]
    simp only [peekChar, List.headD_cons, if_true]
    simp only [ReadObject, StreamGet_cons, bind, Except.bind, ne_eq, not_true_eq_false, if_false,
      List.length_cons]
    have htext : entriesText (init ++ [last]) ++ ',' :: '\x7d' :: rest
        = entriesComma init ++ (last.render ++ ',' :: '\x7d' :: rest) := by
      rw [entriesText_concat, List.append_assoc]
    rw [htext]
    have hL := entriesComma_length init
    have hloop : ReadObject.loop
        (ReadDepth ((entriesComma init ++ (last.render ++ ',' :: '\x7d' :: rest)).length + 1))
        ((entriesComma init ++ (last.render ++ ',' :: '\x7d' :: rest)).length + 1) []
        ⟨entriesComma init ++ (last.render ++ ',' :: '\x7d' :: rest), false⟩
          = .ok (insertAll [] ((init ++ [last]).map EntryText.pair),
              ⟨'\x7d' :: rest, false⟩) := by
      obtain ⟨n, hn⟩ : ∃ n,
          (entriesComma init ++ (last.render ++ ',' :: '\x7d' :: rest)).length + 1
            = n + 1 + 1 + init.length :=
        ⟨(entriesComma init ++ (last.render ++ ',' :: '\x7d' :: rest)).length - 1 - init.length,
          by simp only [List.length_append, List.length_cons]; omega⟩
      have h := ReadObject_loop_comma
        ((entriesComma init ++ (last.render ++ ',' :: '\x7d' :: rest)).length + 1) rest init
        last n hwf (Nat.lt_succ_self _)
      rw [← hn] at h
      exact h
    rw [hloop]
    simp only [hlast, pure, Except.pure]

end TrailingComma

/-- C22: an array text made of value texts separated by commas decodes, and the text
with a comma inserted directly in front of the closing `]` decodes to the same Array
node and stops at the same place; likewise an object text made of well-formed entries
and the text with a comma inserted directly in front of the closing `}`.  The text
`[1,]` decodes to the array of `1` and `{"a":1,}` to the object with the entry
`a` = 1.  A second trailing comma is not accepted: `[1,,]` fails. -/
theorem C22_trailing_comma :
    (∀ (es : List (Str × JsonNode)) (s : Str) (v : JsonNode) (rest : List Char),
      (∀ e ∈ es, Decodes e.1 e.2) → Decodes s v →
      JsonParser.Read ⟨'[' :: (elemsText es ++ (s ++ ']' :: rest)), false⟩
        = .ok (JsonNode.array (es.map Prod.snd ++ [v]), ⟨dropSpaces rest, false⟩) ∧
      JsonParser.Read ⟨'[' :: (elemsText es ++ (s ++ ',' :: ']' :: rest)), false⟩
        = .ok (JsonNode.array (es.map Prod.snd ++ [v]), ⟨dropSpaces rest, false⟩)) ∧
    (∀ (e : EntryText) (es : List EntryText) (rest : List Char),
      (∀ x ∈ e :: es, x.WellFormed) →
      JsonParser.Read ⟨'\x7b' :: (entriesText (e :: es) ++ '\x7d' :: rest), false⟩
        = .ok (JsonNode.object (insertAll [] ((e :: es).map EntryText.pair)),
            ⟨dropSpaces rest, false⟩) ∧
      JsonParser.Read ⟨'\x7b' :: (entriesText (e :: es) ++ ',' :: '\x7d' :: rest), false⟩
        = .ok (JsonNode.object (insertAll [] ((e :: es).map EntryText.pair)),
            ⟨dropSpaces rest, false⟩)) ∧
    JsonParser.Read (istream "[1,]") = .ok (JsonNode.array [JsonNode.int 1], ⟨[], false⟩) ∧
    JsonParser.Read (istream "\x7b\"a\":1,\x7d")
      = .ok (JsonNode.object [("a".toList, JsonNode.int 1)], ⟨[], false⟩) ∧
    JsonParser.Read (istream "[1,,]")
      = .error (JsonError.runtime_error "Expected true|false|null".toList) := by
  refine ⟨?_, ?_, rfl, rfl, rfl⟩
  · intro es s v rest hes hv
    refine ⟨Read_arrayText es s v rest hes hv, ?_⟩
    have h := Read_arrayText_comma (es ++ [(s, v)]) rest (by
      intro e he
      rcases List.mem_append.mp he with he | he
      · exact hes e he
      · rw [List.mem_singleton] at he
        rw [he]
        exact hv)
    rw [elemsText_append, List.map_append] at h
    simpa [elemsText] using h
  · intro e es rest hwf
    refine ⟨?_, Read_objectText_comma e es rest hwf⟩
    have h := Read_objectText (e :: es) rest hwf
    have ht : objectText (e :: es) ++ rest
        = '\x7b' :: (entriesText (e :: es) ++ '\x7d' :: rest) := by
      simp [objectText]
    rw [ht] at h
    exact h

/-- C22 at the texts `[1, 2 ]` and `[1, 2 ,]`, and `{"a":1, "b":2}` and
`{"a":1, "b":2,}`. -/
theorem C22_trailing_comma_witness :
    (JsonParser.Read (istream "[1, 2 ]")
        = .ok (JsonNode.array [JsonNode.int 1, JsonNode.int 2], ⟨[], false⟩) ∧
      JsonParser.Read (istream "[1, 2 ,]")
        = .ok (JsonNode.array [JsonNode.int 1, JsonNode.int 2], ⟨[], false⟩)) ∧
    (JsonParser.Read (istream "\x7b\"a\":1, \"b\":2\x7d")
        = .ok (JsonNode.object [("a".toList, JsonNode.int 1), ("b".toList, JsonNode.int 2)],
            ⟨[], false⟩) ∧
      JsonParser.Read (istream "\x7b\"a\":1, \"b\":2,\x7d")
        = .ok (JsonNode.object [("a".toList, JsonNode.int 1), ("b".toList, JsonNode.int 2)],
            ⟨[], false⟩)) := by
  have hsp : ∀ c ∈ [' '], isspace c = true := by decide
  have hd2 : Decodes (" 2 ".toList) (JsonNode.int 2) := by
    have h := Decodes_space _ _ (Decodes_of_sp _ _
      (DecodesSp_of_Decodes _ _ (Decodes_int 2 (by decide) (by decide))))
    exact h
  have ha := C22_trailing_comma.1 [("1".toList, JsonNode.int 1)] " 2 ".toList (JsonNode.int 2) []
    (by
      intro e he
      rw [List.mem_singleton] at he
      rw [he]
      exact Decodes_int 1 (by decide) (by decide))
    hd2
  have hb := C22_trailing_comma.2.1 ⟨[], "a".toList, [], "1".toList, JsonNode.int 1⟩
    [⟨[' '], "b".toList, [], "2".toList, JsonNode.int 2⟩] []
    (by
      intro x hx
      rcases List.mem_cons.mp hx with hx | hx
      · rw [hx]
        exact ⟨by simp, by decide, by simp, Decodes_int 1 (by decide) (by decide)⟩
      · rw [List.mem_singleton] at hx
        rw [hx]
        exact ⟨hsp, by decide, by simp, Decodes_int 2 (by decide) (by decide)⟩)
  exact ⟨ha, hb⟩

/-! ## The two encoders up to white space -/

section EncodersAgree
open JsonParser

theorem dropBlanks_append (a b : Str) : dropBlanks (a ++ b) = dropBlanks a ++ dropBlanks b := by
  simp [dropBlanks]

theorem dropSpaceChars_append (a b : Str) :
    dropSpaceChars (a ++ b) = dropSpaceChars a ++ dropSpaceChars b := by
  simp [dropSpaceChars]

theorem dropBlanks_cons (c : Char) (s : Str) :
    dropBlanks (c :: s) = if c = ' ' ∨ c = '\n' then dropBlanks s else c :: dropBlanks s := by
  by_cases h : c = ' ' ∨ c = '\n'
  · rw [if_pos h]
    rcases h with h | h <;> simp [dropBlanks, h]
  · rw [if_neg h]
    have h1 : c ≠ ' ' := fun hc => h (Or.inl hc)
    have h2 : c ≠ '\n' := fun hc => h (Or.inr hc)
    simp [dropBlanks, h1, h2]

theorem dropSpaceChars_cons (c : Char) (s : Str) :
    dropSpaceChars (c :: s) = if c = ' ' then dropSpaceChars s else c :: dropSpaceChars s := by
  by_cases h : c = ' '
  · simp [dropSpaceChars, h]
  · simp [dropSpaceChars, h]

theorem dropBlanks_replicate (k : Nat) : dropBlanks (List.replicate k ' ') = [] := by
  induction k with
  | zero => rfl
  | succ k ih => rw [List.replicate_succ, dropBlanks_cons, if_pos (Or.inl rfl), ih]

theorem dropBlanks_PrintIdent (k : Nat) (need : Bool) : dropBlanks (PrintIdent k need) = [] := by
  unfold PrintIdent
  split_ifs
  · exact dropBlanks_replicate k
  · rfl

/-- On a text without newline the two deletions agree. -/
theorem dropBlanks_eq_of_no_newline (s : Str) (h : '\n' ∉ s) :
    dropBlanks s = dropSpaceChars s := by
  induction s with
  | nil => rfl
  | cons c s ih =>
    have hc : c ≠ '\n' := fun hc => h (by rw [hc]; exact List.mem_cons_self _ _)
    have hs : '\n' ∉ s := fun hs => h (List.mem_cons_of_mem _ hs)
    rw [dropBlanks_cons, dropSpaceChars_cons, ih hs]
    by_cases h1 : c = ' '
    · rw [if_pos (Or.inl h1), if_pos h1]
    · rw [if_neg (fun hx => hx.elim h1 hc), if_neg h1]

theorem noBlank_no_newline (s : Str) (h : noBlank s = true) : '\n' ∉ s := by
  intro hm
  have := List.all_eq_true.mp h '\n' hm
  simp at this

theorem showNat_no_newline (n : Nat) : '\n' ∉ showNat n := by
  intro hm
  have := showNat_digits n '\n' hm
  exact absurd this (by decide)

theorem showInt_no_newline (i : Int) : '\n' ∉ showInt i := by
  unfold showInt
  split_ifs
  · intro hm
    rcases List.mem_cons.mp hm with h | h
    · exact absurd h (by decide)
    · exact showNat_no_newline _ h
  · exact showNat_no_newline _

theorem mem_stripZeros {c : Char} {s : Str} (h : c ∈ stripZeros s) : c ∈ s := by
  unfold stripZeros at h
  rw [List.mem_reverse] at h
  have := (List.dropWhile_sublist _).subset h
  exact List.mem_reverse.mp this

theorem mem_padZeros {c : Char} {w : Nat} {s : Str} (h : c ∈ padZeros w s) :
    c = '0' ∨ c ∈ s := by
  unfold padZeros at h
  rcases List.mem_append.mp h with h | h
  · exact Or.inl (List.eq_of_mem_replicate h)
  · exact Or.inr h

theorem Double_print_no_newline (d : Double) : '\n' ∉ d.print := by
  have hN : ∀ n, '\n' ∉ showNat n := showNat_no_newline
  have h1 : ∀ n, '\n' ∉ (showNat n).take 1 := fun n h => hN n (List.mem_of_mem_take h)
  have h2 : ∀ n, '\n' ∉ stripZeros (showNat n).tail :=
    fun n h => hN n (List.mem_of_mem_tail (mem_stripZeros h))
  have h3 : ∀ w n, '\n' ∉ padZeros w (showNat n) := by
    intro w n h
    rcases mem_padZeros h with h | h
    · exact absurd h (by decide)
    · exact hN n h
  have h4 : ∀ w n, '\n' ∉ stripZeros (padZeros w (showNat n)) :=
    fun w n h => h3 w n (mem_stripZeros h)
  unfold Double.print
  simp only []
  split_ifs <;>
    simp [h1, h2, h3, h4, hN]

theorem noBlanks_array_mem (arg : List JsonNode) (h : noBlanks.array arg = true) :
    ∀ e ∈ arg, noBlanks e = true := by
  induction arg with
  | nil => intro e he; exact absurd he (List.not_mem_nil e)
  | cons a arg ih =>
    rw [noBlanks.array, Bool.and_eq_true] at h
    intro e he
    rcases List.mem_cons.mp he with h1 | h1
    · rw [h1]; exact h.1
    · exact ih h.2 e h1

theorem noBlanks_object_mem (m : List (Str × JsonNode)) (h : noBlanks.object m = true) :
    ∀ e ∈ m, noBlank e.1 = true ∧ noBlanks e.2 = true := by
  induction m with
  | nil => intro e he; exact absurd he (List.not_mem_nil e)
  | cons a m ih =>
    obtain ⟨k, v⟩ := a
    rw [noBlanks.object, Bool.and_eq_true, Bool.and_eq_true] at h
    intro e he
    rcases List.mem_cons.mp he with h1 | h1
    · rw [h1]; exact h.1
    · exact ih h.2 e h1

/-- A text without newline written after the indentation. -/
theorem dropBlanks_indented (k : Nat) (need : Bool) (t : Str) (h : '\n' ∉ t) :
    dropBlanks (PrintIdent k need ++ t) = dropSpaceChars t := by
  rw [dropBlanks_append, dropBlanks_PrintIdent, List.nil_append, dropBlanks_eq_of_no_newline t h]

theorem quoted_no_newline (v : Str) (h : noBlank v = true) : '\n' ∉ '"' :: v ++ ['"'] := by
  intro hm
  have hv := noBlank_no_newline v h
  simp only [List.cons_append, List.mem_cons, List.mem_append, List.mem_singleton,
    List.not_mem_nil, or_false] at hm
  rcases hm with hm | hm | hm
  · exact absurd hm (by decide)
  · exact hv hm
  · exact absurd hm (by decide)

/-- The loops of the two array writers agree up to white space. -/
theorem array_loops_agree (k : Nat) (arg : List JsonNode)
    (h : ∀ e ∈ arg, ∀ k need, dropBlanks (PrettyWriter k need e)
      = dropSpaceChars (OneLineWriter e)) (first : Bool) :
    dropBlanks (PrettyWriter.array k arg first)
      = dropSpaceChars (OneLineWriter.array arg first) := by
  induction arg generalizing first with
  | nil =>
    rw [PrettyWriter_array_nil, OneLineWriter_array_nil]
    cases first <;> rfl
  | cons e es ih =>
    rw [PrettyWriter_array_cons, OneLineWriter_array_cons, dropBlanks_append, dropBlanks_append,
      dropSpaceChars_append, dropSpaceChars_append, h e (List.mem_cons_self _ _),
      ih (fun x hx => h x (List.mem_cons_of_mem _ hx)) false]
    cases first <;> rfl

/-- The loops of the two object writers agree up to white space. -/
theorem object_loops_agree (k : Nat) (m : List (Str × JsonNode))
    (hk : ∀ e ∈ m, noBlank e.1 = true)
    (h : ∀ e ∈ m, ∀ k need, dropBlanks (PrettyWriter k need e.2)
      = dropSpaceChars (OneLineWriter e.2)) (first : Bool) :
    dropBlanks (PrettyWriter.object k m first)
      = dropSpaceChars (OneLineWriter.object m first) := by
  induction m generalizing first with
  | nil =>
    have h0 : OneLineWriter.object [] first = [] := by rw [OneLineWriter.object]
    rw [PrettyWriter_object_nil, h0]
    cases first <;> rfl
  | cons e m ih =>
    obtain ⟨key, node⟩ := e
    have he : entryCompact (key, node)
        = ('"' :: key ++ ['"']) ++ (": ".toList ++ OneLineWriter node) := by
      simp [entryCompact]
    have hq := dropBlanks_eq_of_no_newline _
      (quoted_no_newline key (hk (key, node) (List.mem_cons_self _ _)))
    rw [PrettyWriter_object_cons, OneLineWriter_object_cons, he]
    generalize '"' :: key ++ ['"'] = q at hq
    simp only [dropBlanks_append, dropSpaceChars_append]
    rw [dropBlanks_PrintIdent, h (key, node) (List.mem_cons_self _ _),
      ih (fun x hx => hk x (List.mem_cons_of_mem _ hx))
        (fun x hx => h x (List.mem_cons_of_mem _ hx)) false, hq]
    have e1 : dropBlanks ": ".toList = [':'] := rfl
    have e2 : dropSpaceChars ": ".toList = [':'] := rfl
    rw [e1, e2]
    have e3 : dropBlanks ", \n".toList = [','] := rfl
    have e4 : dropSpaceChars ", ".toList = [','] := rfl
    have e5 : dropBlanks ['\n'] = [] := rfl
    have e6 : dropSpaceChars ([] : Str) = [] := rfl
    cases first
    · simp only [Bool.not_false, if_true, e3, e4, List.nil_append, List.append_assoc]
    · simp only [Bool.not_true, Bool.false_eq_true, if_false, e5, e6, List.nil_append,
        List.append_assoc]

/-- The pretty text of a node at any indent and its compact text agree up to white
space when the strings and keys of the node hold no space and no newline. -/
theorem encoders_agree : ∀ node : JsonNode, noBlanks node = true →
    ∀ (k : Nat) (need : Bool),
      dropBlanks (PrettyWriter k need node) = dropSpaceChars (OneLineWriter node) := by
  apply JsonNode.tree_induction
  · intro _ k need
    rw [PrettyWriter, OneLineWriter]
    exact dropBlanks_indented k need _ (by decide)
  · intro v _ k need
    rw [PrettyWriter, OneLineWriter]
    cases v <;> exact dropBlanks_indented k need _ (by decide)
  · intro v _ k need
    rw [PrettyWriter, OneLineWriter]
    exact dropBlanks_indented k need _ (showInt_no_newline v)
  · intro v _ k need
    rw [PrettyWriter, OneLineWriter]
    exact dropBlanks_indented k need _ (showInt_no_newline v)
  · intro v _ k need
    rw [PrettyWriter, OneLineWriter]
    exact dropBlanks_indented k need _ (Double_print_no_newline v)
  · intro v h k need
    rw [noBlanks] at h
    rw [PrettyWriter, OneLineWriter]
    exact dropBlanks_indented k need _ (quoted_no_newline v h)
  · intro arg ih h k need
    rw [noBlanks] at h
    have hall := noBlanks_array_mem arg h
    have hloop := array_loops_agree k arg (fun e he => ih e he (hall e he)) true
    rw [PrettyWriter_array_node, OneLineWriter]
    simp only [dropBlanks_append, dropSpaceChars_append, dropBlanks_PrintIdent, hloop]
    have e1 : dropBlanks "[ ".toList = ['['] := rfl
    have e2 : dropBlanks "]".toList = [']'] := rfl
    have e3 : dropSpaceChars "[ ".toList = ['['] := rfl
    have e4 : dropSpaceChars " ]".toList = [']'] := rfl
    rw [e1, e2, e3, e4]
    simp
  · intro arg ih h k need
    rw [noBlanks] at h
    have hall := noBlanks_object_mem arg h
    have hloop := object_loops_agree k arg (fun e he => (hall e he).1)
      (fun e he => ih e he (hall e he).2) true
    rw [PrettyWriter_object_node, OneLineWriter]
    simp only [dropBlanks_append, dropSpaceChars_append, dropBlanks_PrintIdent, hloop]
    have e1 : dropBlanks "\x7b ".toList = ['\x7b'] := rfl
    have e2 : dropBlanks "\x7d".toList = ['\x7d'] := rfl
    have e3 : dropSpaceChars "\x7b ".toList = ['\x7b'] := rfl
    have e4 : dropSpaceChars " \x7d".toList = ['\x7d'] := rfl
    rw [e1, e2, e3, e4]
    simp

end EncodersAgree

/-- C24: for every node whose strings and object keys hold no space and no newline
character, the pretty encoding with every space and newline deleted is the compact
encoding with every space deleted. -/
theorem C24_encoders_differ_in_whitespace (node : JsonNode) (h : noBlanks node = true) :
    dropBlanks (JsonParser.Write node true) = dropSpaceChars (JsonParser.Write node false) :=
  encoders_agree node h 0 true

/-- C24 at the object with the entries `a` = `[1, "x", null, []]` and `b` = `{}`:
both encodings reduce to the same text. -/
theorem C24_encoders_differ_in_whitespace_witness :
    noBlanks (JsonNode.object [("a".toList, JsonNode.array [JsonNode.int 1,
      JsonNode.string "x".toList, JsonNode.null, JsonNode.array []]),
      ("b".toList, JsonNode.object [])]) = true ∧
    dropBlanks (JsonParser.Write (JsonNode.object [("a".toList, JsonNode.array [JsonNode.int 1,
      JsonNode.string "x".toList, JsonNode.null, JsonNode.array []]),
      ("b".toList, JsonNode.object [])]) true)
      = "\x7b\"a\":[1,\"x\",null,[]],\"b\":\x7b\x7d\x7d".toList ∧
    dropBlanks (JsonParser.Write (JsonNode.object [("a".toList, JsonNode.array [JsonNode.int 1,
      JsonNode.string "x".toList, JsonNode.null, JsonNode.array []]),
      ("b".toList, JsonNode.object [])]) true)
      = dropSpaceChars (JsonParser.Write (JsonNode.object [("a".toList,
          JsonNode.array [JsonNode.int 1, JsonNode.string "x".toList, JsonNode.null,
            JsonNode.array []]),
          ("b".toList, JsonNode.object [])]) false) :=
  ⟨rfl, rfl, C24_encoders_differ_in_whitespace _ rfl⟩

/-! ## Termination: the budgets of the loops, and the depth of the recursion -/

section Termination
open JsonParser

theorem FailsOnly_ok {α : Type} (Q : JsonError → Prop) (a : α) :
    FailsOnly Q (.ok a : Except JsonError α) :=
  True.intro

theorem FailsOnly_error {α : Type} (Q : JsonError → Prop) (e : JsonError) (h : Q e) :
    FailsOnly Q (.error e : Except JsonError α) :=
  h

theorem FailsOnly_of_eq {α : Type} (Q : JsonError → Prop) (r : Except JsonError α)
    (h : FailsOnly Q r) (e : JsonError) (he : r = .error e) : Q e := by
  rw [he] at h; exact h

theorem length_skipUntil_le (b : List Char) (ch u : Char) :
    (skipUntil b ch u).2.length ≤ b.length := by
  unfold skipUntil
  have h1 := length_dropSpaces_le b
  split_ifs
  · have h2 := length_dropSpaces_le (dropSpaces b).tail
    have h3 : (dropSpaces b).tail.length ≤ (dropSpaces b).length := by
      simp only [List.length_tail]; omega
    show (dropSpaces (dropSpaces b).tail).length ≤ b.length
    omega
  · exact h1

theorem dropSpaces_suffix (b : List Char) : dropSpaces b <:+ b := by
  induction b with
  | nil => exact List.suffix_refl _
  | cons c cs ih =>
    by_cases hc : isspace c = true
    · simp only [dropSpaces, hc, if_true]
      exact ih.trans (List.suffix_cons c cs)
    · simp only [dropSpaces, hc, Bool.false_eq_true, if_false]
      exact List.suffix_refl _

theorem dropToken_suffix (b : List Char) : dropToken b <:+ b := by
  induction b with
  | nil => exact List.suffix_refl _
  | cons c cs ih =>
    by_cases hc : isspace c = true
    · simp only [dropToken, hc, if_true]
      exact List.suffix_refl _
    · simp only [dropToken, hc, Bool.false_eq_true, if_false]
      exact ih.trans (List.suffix_cons c cs)

theorem skipUntil_suffix (b : List Char) (ch u : Char) : (skipUntil b ch u).2 <:+ b := by
  unfold skipUntil
  have h1 := dropSpaces_suffix b
  split_ifs
  · exact ((dropSpaces_suffix (dropSpaces b).tail).trans (List.tail_suffix _)).trans h1
  · exact h1

theorem openings_le_of_suffix {a b : List Char} (h : a <:+ b) : openings a ≤ openings b :=
  h.sublist.countP_le _

theorem openings_le_length (b : List Char) : openings b ≤ b.length :=
  List.countP_le_length _

/-- Behind an opening bracket or brace, a proper suffix of the text has fewer opening
brackets and braces than the text. -/
theorem openings_lt_of_suffix (b b2 : List Char) (d : Nat) (c : Char)
    (hc : c = '[' ∨ c = '\x7b') (hp : peekChar (dropSpaces b) = c)
    (h2 : b2 <:+ dropSpaces b) (hl : b2.length < (dropSpaces b).length)
    (hb : openings b < d + 1) : openings b2 < d := by
  have hce : c ≠ eofChar := by rcases hc with hc | hc <;> rw [hc] <;> decide
  have hform := cons_of_peekChar hp hce
  have h3 : b2 <:+ (dropSpaces b).tail := by
    rw [hform] at h2
    rcases List.suffix_cons_iff.mp h2 with h2 | h2
    · rw [h2, ← hform] at hl
      exact absurd hl (Nat.lt_irrefl _)
    · exact h2
  have h4 := openings_le_of_suffix h3
  have h5 := openings_le_of_suffix (dropSpaces_suffix b)
  have h6 : openings (dropSpaces b) = openings (dropSpaces b).tail + 1 := by
    rw [hform]
    rcases hc with hc | hc <;> rw [hc] <;> simp [openings]
  omega

theorem SkipSymbolUntil_eofbit_error (b : List Char) (ch u : Char) :
    SkipSymbolUntil ⟨b, true⟩ ch u
      = .error (.runtime_error "istream bad after peek()".toList) := by
  simp [SkipSymbolUntil, SkipSymbol, SkipWhiteSpaces_eofbit, bind, Except.bind]

theorem SkipSymbol_eofbit_error (b : List Char) (ch : Char) :
    SkipSymbol ⟨b, true⟩ ch = .error (.runtime_error "istream bad after peek()".toList) := by
  simp [SkipSymbol, SkipWhiteSpaces_eofbit, bind, Except.bind]

/-- A failing `StreamGet` throws. -/
theorem StreamGet_fails (Q : JsonError → Prop) (hQ : ∀ e, e.thrown = true → Q e)
    (i : IStream) : FailsOnly Q (StreamGet i) := by
  obtain ⟨b, eof⟩ := i
  cases eof with
  | true => rw [StreamGet_eofbit]; exact hQ _ rfl
  | false =>
    cases b with
    | nil => rw [StreamGet_nil]; exact hQ _ rfl
    | cons c cs => rw [StreamGet_cons]; exact True.intro

/-- The loop of `ReadString` does not exhaust a budget larger than the number of
unread characters: it returns or it throws. -/
theorem ReadString_loop_fuel (Q : JsonError → Prop) (hQ : ∀ e, e.thrown = true → Q e)
    (b : List Char) :
    ∀ (n : Nat) (str : Str), b.length < n →
      FailsOnly Q (ReadString.loop n str ⟨b, false⟩) := by
  induction b with
  | nil =>
    intro n str hn
    obtain ⟨n, rfl⟩ : ∃ k, n = k + 1 := ⟨n - 1, by simp at hn; omega⟩
    have h : ReadString.loop (n + 1) str ⟨[], false⟩
        = .error (.runtime_error "istream bad after get()".toList) := by
      simp [ReadString.loop, bind, Except.bind, eofChar]
    rw [h]
    exact hQ _ rfl
  | cons c cs ih =>
    intro n str hn
    obtain ⟨n, rfl⟩ : ∃ k, n = k + 1 := ⟨n - 1, by simp at hn; omega⟩
    simp only [List.length_cons, Nat.add_lt_add_iff_right] at hn
    by_cases hc : c = '"'
    · have h : ReadString.loop (n + 1) str ⟨c :: cs, false⟩ = .ok (str, ⟨c :: cs, false⟩) := by
        simp [ReadString.loop, bind, Except.bind, hc, pure, Except.pure]
      rw [h]
      exact True.intro
    · simp only [ReadString.loop, StreamPeek_cons, bind, Except.bind, ne_eq, hc,
        not_false_eq_true, if_true, StreamGet_cons]
      exact ih n _ hn

/-- The function `ReadString` returns or throws, and a returned stream holds fewer
characters than the stream it was called on. -/
theorem ReadString_total (Q : JsonError → Prop) (hQ : ∀ e, e.thrown = true → Q e)
    (b : List Char) (eof : Bool) :
    FailsOnly Q (ReadString ⟨b, eof⟩) ∧
      ∀ v o, ReadString ⟨b, eof⟩ = .ok (v, o) →
        o.buf <:+ b ∧ o.buf.length < b.length := by
  constructor
  · cases eof with
    | true =>
      have h : ReadString ⟨b, true⟩
          = .error (.runtime_error "istream bad after get()".toList) := by
        simp [ReadString, bind, Except.bind]
      rw [h]
      exact hQ _ rfl
    | false =>
      cases b with
      | nil =>
        have h : ReadString ⟨[], false⟩
            = .error (.runtime_error "istream bad after get()".toList) := by
          simp [ReadString, bind, Except.bind]
        rw [h]
        exact hQ _ rfl
      | cons c cs =>
        by_cases hc : c = '"'
        · simp only [ReadString, StreamGet_cons, bind, Except.bind, ne_eq, hc,
            not_true_eq_false, if_false]
          have hl0 := ReadString_loop_fuel Q hQ cs (cs.length + 1) [] (Nat.lt_succ_self _)
          cases hl : ReadString.loop (cs.length + 1) [] ⟨cs, false⟩ with
          | error e =>
            rw [hl] at hl0
            exact hl0
          | ok r =>
            simp only
            have hg0 := StreamGet_fails Q hQ r.2
            cases hg : StreamGet r.2 with
            | error e =>
              rw [hg] at hg0
              exact hg0
            | ok g =>
              simp only
              split_ifs
              · exact True.intro
              · exact hQ _ rfl
        · have h : ReadString ⟨c :: cs, false⟩
              = .error (.runtime_error "Expected \" at start of string".toList) := by
            simp [ReadString, bind, Except.bind, hc, throw, throwThe, MonadExceptOf.throw]
          rw [h]
          exact hQ _ rfl
  · intro v o h
    obtain ⟨_, s, t, hb, _, hr⟩ := ReadString_inv b eof (v, o) h
    have ho : o = ⟨t, false⟩ := (Prod.mk.inj hr).2
    rw [ho, hb]
    refine ⟨?_, ?_⟩
    · exact ⟨'"' :: (s ++ ['"']), by simp⟩
    · simp only [List.length_cons, List.length_append]
      omega

theorem convert_fails (Q : JsonError → Prop) (hQ : ∀ e, e.thrown = true → Q e)
    (s : Str) (dbl : Bool) : FailsOnly Q (ReadNumber.convert s dbl) := by
  unfold ReadNumber.convert
  cases dbl <;> cases stod s <;> cases stoi s <;> cases stol s <;>
    first
      | exact True.intro
      | exact hQ _ rfl

theorem NumberText_ne_nil (strict : Bool) (c : Str) (h : NumberText strict c) : c ≠ [] := by
  obtain ⟨sign, int, frac, exp, hc, _, hi, _, _⟩ := h
  have hint : int ≠ [] := by
    rcases hi with hi | ⟨d, ds, hi, _⟩
    · rw [hi]; simp
    · rw [hi]; simp
  intro h0
  rw [h0] at hc
  have := List.append_eq_nil.mp hc.symm
  have := List.append_eq_nil.mp this.1
  have := List.append_eq_nil.mp this.1
  exact hint this.2

/-- The function `ReadNumber` returns or throws, and a returned stream holds fewer
characters than the stream it was called on. -/
theorem ReadNumber_total (Q : JsonError → Prop) (hQ : ∀ e, e.thrown = true → Q e)
    (b : List Char) (eof : Bool) :
    FailsOnly Q (ReadNumber ⟨b, eof⟩) ∧
      ∀ v o, ReadNumber ⟨b, eof⟩ = .ok (v, o) →
        o.buf <:+ b ∧ o.buf.length < b.length := by
  cases eof with
  | true =>
    have h : ReadNumber ⟨b, true⟩ = .error (.runtime_error "istream bad after peek()".toList) := by
      simp [ReadNumber, ReadNumber.sign, bind, Except.bind]
    rw [h]
    exact ⟨hQ _ rfl, fun v o ho => by cases ho⟩
  | false =>
    constructor
    · rw [ReadNumber_good]
      cases scanInt (scanSign b) with
      | none => exact hQ _ rfl
      | some p =>
        simp only
        have hc0 := convert_fails Q hQ (scanExp (scanFrac p)).1 (scanExp (scanFrac p)).2.2
        cases hc : ReadNumber.convert (scanExp (scanFrac p)).1 (scanExp (scanFrac p)).2.2 with
        | error e =>
          rw [hc] at hc0
          exact hc0
        | ok nd => exact True.intro
    · intro v o h
      obtain ⟨c, hb, hc⟩ := ReadNumber_consumed b v o h
      have hne := NumberText_ne_nil _ _ hc
      refine ⟨⟨c, hb.symm⟩, ?_⟩
      rw [hb, List.length_append]
      have : 0 < c.length := List.length_pos.mpr hne
      omega

theorem length_takeToken_dropToken (t : List Char) :
    (takeToken t).length + (dropToken t).length = t.length := by
  induction t with
  | nil => rfl
  | cons c cs ih =>
    by_cases hc : isspace c = true
    · simp [takeToken, dropToken, hc]
    · simp only [takeToken, dropToken, hc, Bool.false_eq_true, if_false, List.length_cons]
      omega

/-- The function `ReadOther` returns or throws, and a returned stream holds fewer
characters than the stream it was called on. -/
theorem ReadOther_total (Q : JsonError → Prop) (hQ : ∀ e, e.thrown = true → Q e)
    (b : List Char) (eof : Bool) :
    FailsOnly Q (ReadOther ⟨b, eof⟩) ∧
      ∀ v o, ReadOther ⟨b, eof⟩ = .ok (v, o) →
        o.buf <:+ b ∧ o.buf.length < b.length := by
  cases eof with
  | true =>
    have h : ReadOther ⟨b, true⟩ = .error (.runtime_error "Expected true|false|null".toList) := by
      simp [ReadOther, extractString, throw, throwThe, MonadExceptOf.throw]
    rw [h]
    exact ⟨hQ _ rfl, fun v o ho => by cases ho⟩
  | false =>
    rw [ReadOther_good]
    have hlen := length_takeToken_dropToken (dropSpaces b)
    have hle := length_dropSpaces_le b
    have hsuf : dropToken (dropSpaces b) <:+ b :=
      (dropToken_suffix _).trans (dropSpaces_suffix b)
    simp only
    split_ifs with h1 h2 h3
    · refine ⟨True.intro, fun v o ho => ?_⟩
      simp only [Except.ok.injEq, Prod.mk.injEq] at ho
      rw [← ho.2]
      rw [h1] at hlen
      simp only [String.toList, List.length_cons, List.length_nil] at hlen
      refine ⟨hsuf, ?_⟩
      show (dropToken (dropSpaces b)).length < b.length
      omega
    · refine ⟨True.intro, fun v o ho => ?_⟩
      simp only [Except.ok.injEq, Prod.mk.injEq] at ho
      rw [← ho.2]
      rw [h2] at hlen
      simp only [String.toList, List.length_cons, List.length_nil] at hlen
      refine ⟨hsuf, ?_⟩
      show (dropToken (dropSpaces b)).length < b.length
      omega
    · refine ⟨True.intro, fun v o ho => ?_⟩
      simp only [Except.ok.injEq, Prod.mk.injEq] at ho
      rw [← ho.2]
      rw [h3] at hlen
      simp only [String.toList, List.length_cons, List.length_nil] at hlen
      refine ⟨hsuf, ?_⟩
      show (dropToken (dropSpaces b)).length < b.length
      omega
    · exact ⟨hQ _ rfl, fun v o ho => by cases ho⟩

/-- The loop of `ReadArray` does not exhaust a budget larger than the number of unread
characters when every recursive call that returns takes at least one character: it
returns, it throws, or it fails as a recursive call fails.  A returned stream holds no
more characters than the stream it was called on. -/
theorem ReadArray_loop_total (Q : JsonError → Prop) (hQ : ∀ e, e.thrown = true → Q e)
    (R : IStream → Except JsonError (JsonNode × IStream)) :
    ∀ (n : Nat) (array : List JsonNode) (b : List Char), b.length < n →
      (∀ b2 : List Char, b2 <:+ b →
        FailsOnly Q (R ⟨b2, false⟩) ∧
          ∀ v o, R ⟨b2, false⟩ = .ok (v, o) → o.buf <:+ b2 ∧ o.buf.length < b2.length) →
      FailsOnly Q (ReadArray.loop R n array ⟨b, false⟩) ∧
        ∀ a o, ReadArray.loop R n array ⟨b, false⟩ = .ok (a, o) → o.buf <:+ b := by
  intro n
  induction n with
  | zero => intro array b hb; exact absurd hb (Nat.not_lt_zero _)
  | succ n ih =>
    intro array b hb hR
    have hds := length_dropSpaces_le b
    have hdsuf := dropSpaces_suffix b
    by_cases hp : peekChar (dropSpaces b) = ']'
    · rw [ReadArray_loop_stop R n array b hp]
      refine ⟨True.intro, fun a o ho => ?_⟩
      simp only [Except.ok.injEq, Prod.mk.injEq] at ho
      rw [← ho.2]
      exact hdsuf
    · obtain ⟨hR1, hR2⟩ := hR (dropSpaces b) hdsuf
      cases hr : R ⟨dropSpaces b, false⟩ with
      | error e =>
        rw [ReadArray_loop_error R n array b e hp hr]
        rw [hr] at hR1
        exact ⟨hR1, fun a o ho => by cases ho⟩
      | ok r =>
        obtain ⟨v, ob, oeof⟩ := r
        have hlt : ob.length < (dropSpaces b).length := (hR2 v ⟨ob, oeof⟩ hr).2
        have hosuf : ob <:+ dropSpaces b := (hR2 v ⟨ob, oeof⟩ hr).1
        cases oeof with
        | true =>
          have hl : ReadArray.loop R (n + 1) array ⟨b, false⟩
              = .error (.runtime_error "istream bad after peek()".toList) := by
            simp only [ReadArray.loop, SkipWhiteSpaces_good, StreamPeek_good, bind, Except.bind,
              hp, if_false, hr, SkipSymbolUntil_eofbit_error]
          rw [hl]
          exact ⟨hQ _ rfl, fun a o ho => by cases ho⟩
        | false =>
          rw [ReadArray_loop_step R n array b ob v hp hr]
          have hsk := length_skipUntil_le ob ',' ']'
          have hsksuf : (skipUntil ob ',' ']').2 <:+ b :=
            ((skipUntil_suffix ob ',' ']').trans hosuf).trans hdsuf
          split_ifs with h1 h2
          · exact ⟨hQ _ rfl, fun a o ho => by cases ho⟩
          · have hb2 : (skipUntil ob ',' ']').2.length < n := by omega
            obtain ⟨i1, i2⟩ := ih (array ++ [v]) (skipUntil ob ',' ']').2 hb2
              (fun b2 hb2 => hR b2 (hb2.trans hsksuf))
            exact ⟨i1, fun a o ho => (i2 a o ho).trans hsksuf⟩
          · refine ⟨True.intro, fun a o ho => ?_⟩
            simp only [Except.ok.injEq, Prod.mk.injEq] at ho
            rw [← ho.2]
            exact hsksuf

theorem at_fails (Q : JsonError → Prop) (hQ : ∀ e, e.thrown = true → Q e)
    (m : List (Str × JsonNode)) (k : Str) : FailsOnly Q («at» m k) := by
  unfold «at»
  cases find m k
  · exact hQ _ rfl
  · exact True.intro

theorem ReadObject_loop_eofbit_error (R : IStream → Except JsonError (JsonNode × IStream))
    (n : Nat) (object : List (Str × JsonNode)) (pre key mid more b1 : List Char) (v : JsonNode)
    (hpre : ∀ c ∈ pre, isspace c = true) (hkey : '"' ∉ key)
    (hmid : ∀ c ∈ mid, isspace c = true)
    (hR : R ⟨dropSpaces more, false⟩ = .ok (v, ⟨b1, true⟩)) :
    ReadObject.loop R (n + 1) object ⟨pre ++ '"' :: (key ++ '"' :: (mid ++ ':' :: more)), false⟩
      = .error (.runtime_error "istream bad after peek()".toList) := by
  have h1 : dropSpaces (pre ++ '"' :: (key ++ '"' :: (mid ++ ':' :: more)))
      = '"' :: (key ++ '"' :: (mid ++ ':' :: more)) := by
    rw [dropSpaces_append_of_all pre hpre]
    exact dropSpaces_cons_of_not_space (by decide) _
  have h2 : ReadString ⟨'"' :: (key ++ '"' :: (mid ++ ':' :: more)), false⟩
      = .ok (JsonNode.string key, ⟨mid ++ ':' :: more, false⟩) :=
    ReadString_good key (mid ++ ':' :: more) hkey
  have h3 : dropSpaces (mid ++ ':' :: more) = ':' :: more := by
    rw [dropSpaces_append_of_all mid hmid]
    exact dropSpaces_cons_of_not_space (by decide) _
  have h4 : SkipSymbol ⟨mid ++ ':' :: more, false⟩ ':' = .ok (true, ⟨dropSpaces more, false⟩) := by
    rw [SkipSymbol_good_peek _ _ (by decide), h3]
    simp [peekChar]
  have h5 : (JsonNode.string key).AsString = .ok key := rfl
  simp only [ReadObject.loop, SkipWhiteSpaces_good, h1, StreamPeek_good, peekChar,
    List.headD_cons, bind, Except.bind, h2, h4, hR, h5, SkipSymbolUntil_eofbit_error]
  rw [if_neg (by decide)]
  simp

/-- An iteration of the object loop whose key is not followed by a colon throws the
`JsonParserException` of the key. -/
theorem ReadObject_loop_no_colon (R : IStream → Except JsonError (JsonNode × IStream))
    (n : Nat) (object : List (Str × JsonNode)) (b s t : List Char)
    (hb : dropSpaces b = '"' :: (s ++ '"' :: t)) (hs : '"' ∉ s)
    (hc : peekChar (dropSpaces t) ≠ ':') :
    ReadObject.loop R (n + 1) object ⟨b, false⟩
      = .error (JsonParserException (JsonNode.string s) "expected :".toList) := by
  have h2 : ReadString ⟨'"' :: (s ++ '"' :: t), false⟩
      = .ok (JsonNode.string s, ⟨t, false⟩) := ReadString_good s t hs
  have h4 : SkipSymbol ⟨t, false⟩ ':' = .ok (false, ⟨dropSpaces t, false⟩) := by
    rw [SkipSymbol_good_peek _ _ (by decide), if_neg hc]
  simp only [ReadObject.loop, SkipWhiteSpaces_good, hb, StreamPeek_good, peekChar,
    List.headD_cons, bind, Except.bind, h2, h4]
  rw [if_neg (by decide)]
  simp [throw, throwThe, MonadExceptOf.throw]

/-- An iteration of the object loop in which `ReadString` fails on the key. -/
theorem ReadObject_loop_key_error (R : IStream → Except JsonError (JsonNode × IStream))
    (n : Nat) (object : List (Str × JsonNode)) (b : List Char) (e : JsonError)
    (hp : peekChar (dropSpaces b) ≠ '\x7d')
    (hk : ReadString ⟨dropSpaces b, false⟩ = .error e) :
    ReadObject.loop R (n + 1) object ⟨b, false⟩ = .error e := by
  simp only [ReadObject.loop, SkipWhiteSpaces_good, StreamPeek_good, bind, Except.bind, hp,
    if_false, hk]

/-- The loop of `ReadObject` does not exhaust a budget larger than the number of
unread characters when every recursive call that returns takes at least one
character: it returns, it throws, or it fails as a recursive call fails.  A returned
stream holds no more characters than the stream it was called on. -/
theorem ReadObject_loop_total (Q : JsonError → Prop) (hQ : ∀ e, e.thrown = true → Q e)
    (R : IStream → Except JsonError (JsonNode × IStream)) :
    ∀ (n : Nat) (object : List (Str × JsonNode)) (b : List Char), b.length < n →
      (∀ b2 : List Char, b2 <:+ b →
        FailsOnly Q (R ⟨b2, false⟩) ∧
          ∀ v o, R ⟨b2, false⟩ = .ok (v, o) → o.buf <:+ b2 ∧ o.buf.length < b2.length) →
      FailsOnly Q (ReadObject.loop R n object ⟨b, false⟩) ∧
        ∀ a o, ReadObject.loop R n object ⟨b, false⟩ = .ok (a, o) → o.buf <:+ b := by
  intro n
  induction n with
  | zero => intro object b hb; exact absurd hb (Nat.not_lt_zero _)
  | succ n ih =>
    intro object b hb hR
    have hds := length_dropSpaces_le b
    by_cases hp : peekChar (dropSpaces b) = '\x7d'
    · rw [ReadObject_loop_stop R n object b hp]
      refine ⟨True.intro, fun a o ho => ?_⟩
      simp only [Except.ok.injEq, Prod.mk.injEq] at ho
      rw [← ho.2]
      exact dropSpaces_suffix b
    · have hk0 := (ReadString_total Q hQ (dropSpaces b) false).1
      cases hk : ReadString ⟨dropSpaces b, false⟩ with
      | error e =>
        rw [ReadObject_loop_key_error R n object b e hp hk]
        rw [hk] at hk0
        exact ⟨hk0, fun a o ho => by cases ho⟩
      | ok kr =>
        obtain ⟨_, s, t, hdb, hs, _⟩ := ReadString_inv _ _ kr hk
        by_cases hc : peekChar (dropSpaces t) = ':'
        · obtain ⟨pre, hpre, hbp⟩ := exists_spaces_prefix b
          obtain ⟨mid, hmid, htm⟩ := exists_spaces_prefix t
          have hdt := cons_of_peekChar hc (by decide)
          generalize (dropSpaces t).tail = more at hdt
          have hform : b = pre ++ '"' :: (s ++ '"' :: (mid ++ ':' :: more)) := by
            rw [← hdt, ← htm, ← hdb]
            exact hbp
          have hlen : more.length < b.length := by
            rw [hform]
            simp only [List.length_append, List.length_cons]
            omega
          have hdm := length_dropSpaces_le more
          have hmsuf : more <:+ b :=
            ⟨pre ++ '"' :: (s ++ '"' :: (mid ++ [':'])), by rw [hform]; simp⟩
          have hdmsuf : dropSpaces more <:+ b := (dropSpaces_suffix more).trans hmsuf
          obtain ⟨hR1, hR2⟩ := hR (dropSpaces more) hdmsuf
          rw [hform]
          rw [hform] at hdmsuf
          cases hr : R ⟨dropSpaces more, false⟩ with
          | error e =>
            rw [ReadObject_loop_error R n object pre s mid more e hpre hs hmid hr]
            rw [hr] at hR1
            exact ⟨hR1, fun a o ho => by cases ho⟩
          | ok r =>
            obtain ⟨v, ob, oeof⟩ := r
            have hlt : ob.length < (dropSpaces more).length := (hR2 v ⟨ob, oeof⟩ hr).2
            have hosuf : ob <:+ dropSpaces more := (hR2 v ⟨ob, oeof⟩ hr).1
            cases oeof with
            | true =>
              rw [ReadObject_loop_eofbit_error R n object pre s mid more ob v hpre hs hmid hr]
              exact ⟨hQ _ rfl, fun a o ho => by cases ho⟩
            | false =>
              rw [ReadObject_loop_step R n object pre s mid more ob v hpre hs hmid hr]
              have hsk := length_skipUntil_le ob ',' '\x7d'
              have hsksuf := ((skipUntil_suffix ob ',' '\x7d').trans hosuf).trans hdmsuf
              split_ifs with h1 h2
              · have ha0 := at_fails Q hQ (try_emplace object s v) s
                cases ha : «at» (try_emplace object s v) s with
                | error e =>
                  rw [ha] at ha0
                  exact ⟨ha0, fun a o ho => by cases ho⟩
                | ok node =>
                  exact ⟨hQ _ rfl, fun a o ho => by cases ho⟩
              · have hb2 : (skipUntil ob ',' '\x7d').2.length < n := by
                  rw [hform] at hb
                  simp only [List.length_append, List.length_cons] at hb
                  omega
                obtain ⟨i1, i2⟩ := ih (try_emplace object s v) (skipUntil ob ',' '\x7d').2 hb2
                  (fun b2 hb2 => hR b2 (by rw [hform]; exact hb2.trans hsksuf))
                exact ⟨i1, fun a o ho => (i2 a o ho).trans hsksuf⟩
              · refine ⟨True.intro, fun a o ho => ?_⟩
                simp only [Except.ok.injEq, Prod.mk.injEq] at ho
                rw [← ho.2]
                exact hsksuf
        · rw [ReadObject_loop_no_colon R n object b s t hdb hs hc]
          exact ⟨hQ _ rfl, fun a o ho => by cases ho⟩

theorem SkipSymbol_total (Q : JsonError → Prop) (hQ : ∀ e, e.thrown = true → Q e)
    (b : List Char) (eof : Bool) (ch : Char) (hch : ch ≠ eofChar) :
    FailsOnly Q (SkipSymbol ⟨b, eof⟩ ch) ∧
      ∀ k, SkipSymbol ⟨b, eof⟩ ch = .ok k → k.2.buf <:+ b := by
  cases eof with
  | true =>
    rw [SkipSymbol_eofbit_error]
    exact ⟨hQ _ rfl, fun k hk => by cases hk⟩
  | false =>
    rw [SkipSymbol_good_peek _ _ hch]
    refine ⟨True.intro, fun k hk => ?_⟩
    simp only [Except.ok.injEq] at hk
    rw [← hk]
    have h1 := dropSpaces_suffix b
    split_ifs
    · exact ((dropSpaces_suffix (dropSpaces b).tail).trans (List.tail_suffix _)).trans h1
    · exact h1

/-- The function `ReadArray` returns, throws, or fails as a recursive call fails, when
every recursive call that returns takes at least one character; a returned stream
holds fewer characters than the stream it was called on. -/
theorem ReadArray_total (Q : JsonError → Prop) (hQ : ∀ e, e.thrown = true → Q e)
    (R : IStream → Except JsonError (JsonNode × IStream))
    (b : List Char) (eof : Bool)
    (hR : ∀ b2 : List Char, b2 <:+ b → b2.length < b.length →
      FailsOnly Q (R ⟨b2, false⟩) ∧
        ∀ v o, R ⟨b2, false⟩ = .ok (v, o) → o.buf <:+ b2 ∧ o.buf.length < b2.length) :
    FailsOnly Q (ReadArray R ⟨b, eof⟩) ∧
      ∀ v o, ReadArray R ⟨b, eof⟩ = .ok (v, o) → o.buf <:+ b ∧ o.buf.length < b.length := by
  cases eof with
  | true =>
    have h : ReadArray R ⟨b, true⟩ = .error (.runtime_error "istream bad after get()".toList) := by
      simp [ReadArray, bind, Except.bind]
    rw [h]
    exact ⟨hQ _ rfl, fun v o ho => by cases ho⟩
  | false =>
    cases b with
    | nil =>
      have h : ReadArray R ⟨[], false⟩
          = .error (.runtime_error "istream bad after get()".toList) := by
        simp [ReadArray, bind, Except.bind]
      rw [h]
      exact ⟨hQ _ rfl, fun v o ho => by cases ho⟩
    | cons c cs =>
      by_cases hc : c = '['
      · obtain ⟨l1, l2⟩ := ReadArray_loop_total Q hQ R (cs.length + 1) [] cs (Nat.lt_succ_self _)
          (fun b2 hb2 => hR b2 (hb2.trans (List.suffix_cons c cs))
            (by have := hb2.length_le; simp only [List.length_cons]; omega))
        simp only [ReadArray, StreamGet_cons, bind, Except.bind, ne_eq, hc, not_true_eq_false,
          if_false]
        cases hl : ReadArray.loop R (cs.length + 1) [] ⟨cs, false⟩ with
        | error e =>
          rw [hl] at l1
          exact ⟨l1, fun v o ho => by cases ho⟩
        | ok r =>
          obtain ⟨a, rb, reof⟩ := r
          have hrs : rb <:+ cs := l2 a ⟨rb, reof⟩ hl
          obtain ⟨s1, s2⟩ := SkipSymbol_total Q hQ rb reof ']' (by decide)
          simp only
          cases hs : SkipSymbol ⟨rb, reof⟩ ']' with
          | error e =>
            rw [hs] at s1
            exact ⟨s1, fun v o ho => by cases ho⟩
          | ok k =>
            refine ⟨True.intro, fun v o ho => ?_⟩
            simp only [pure, Except.pure, Except.ok.injEq, Prod.mk.injEq] at ho
            rw [← ho.2]
            have hks : k.2.buf <:+ cs := (s2 k hs).trans hrs
            refine ⟨hks.trans (List.suffix_cons _ cs), ?_⟩
            have := hks.length_le
            simp only [List.length_cons]
            omega
      · have h : ReadArray R ⟨c :: cs, false⟩
            = .error (.runtime_error "Expected [ at start of array".toList) := by
          simp [ReadArray, bind, Except.bind, hc, throw, throwThe, MonadExceptOf.throw]
        rw [h]
        exact ⟨hQ _ rfl, fun v o ho => by cases ho⟩

/-- The function `ReadObject` returns, throws, or fails as a recursive call fails,
when every recursive call that returns takes at least one character; a returned
stream holds fewer characters than the stream it was called on. -/
theorem ReadObject_total (Q : JsonError → Prop) (hQ : ∀ e, e.thrown = true → Q e)
    (R : IStream → Except JsonError (JsonNode × IStream))
    (b : List Char) (eof : Bool)
    (hR : ∀ b2 : List Char, b2 <:+ b → b2.length < b.length →
      FailsOnly Q (R ⟨b2, false⟩) ∧
        ∀ v o, R ⟨b2, false⟩ = .ok (v, o) → o.buf <:+ b2 ∧ o.buf.length < b2.length) :
    FailsOnly Q (ReadObject R ⟨b, eof⟩) ∧
      ∀ v o, ReadObject R ⟨b, eof⟩ = .ok (v, o) → o.buf <:+ b ∧ o.buf.length < b.length := by
  cases eof with
  | true =>
    have h : ReadObject R ⟨b, true⟩
        = .error (.runtime_error "istream bad after get()".toList) := by
      simp [ReadObject, bind, Except.bind]
    rw [h]
    exact ⟨hQ _ rfl, fun v o ho => by cases ho⟩
  | false =>
    cases b with
    | nil =>
      have h : ReadObject R ⟨[], false⟩
          = .error (.runtime_error "istream bad after get()".toList) := by
        simp [ReadObject, bind, Except.bind]
      rw [h]
      exact ⟨hQ _ rfl, fun v o ho => by cases ho⟩
    | cons c cs =>
      by_cases hc : c = '\x7b'
      · obtain ⟨l1, l2⟩ := ReadObject_loop_total Q hQ R (cs.length + 1) [] cs (Nat.lt_succ_self _)
          (fun b2 hb2 => hR b2 (hb2.trans (List.suffix_cons c cs))
            (by have := hb2.length_le; simp only [List.length_cons]; omega))
        simp only [ReadObject, StreamGet_cons, bind, Except.bind, ne_eq, hc, not_true_eq_false,
          if_false]
        cases hl : ReadObject.loop R (cs.length + 1) [] ⟨cs, false⟩ with
        | error e =>
          rw [hl] at l1
          exact ⟨l1, fun v o ho => by cases ho⟩
        | ok r =>
          obtain ⟨a, rb, reof⟩ := r
          have hrs : rb <:+ cs := l2 a ⟨rb, reof⟩ hl
          obtain ⟨s1, s2⟩ := SkipSymbol_total Q hQ rb reof '\x7d' (by decide)
          simp only
          cases hs : SkipSymbol ⟨rb, reof⟩ '\x7d' with
          | error e =>
            rw [hs] at s1
            exact ⟨s1, fun v o ho => by cases ho⟩
          | ok k =>
            refine ⟨True.intro, fun v o ho => ?_⟩
            simp only [pure, Except.pure, Except.ok.injEq, Prod.mk.injEq] at ho
            rw [← ho.2]
            have hks : k.2.buf <:+ cs := (s2 k hs).trans hrs
            refine ⟨hks.trans (List.suffix_cons _ cs), ?_⟩
            have := hks.length_le
            simp only [List.length_cons]
            omega
      · have h : ReadObject R ⟨c :: cs, false⟩
            = .error (.runtime_error "Expected \x7b ar start of object".toList) := by
          simp [ReadObject, bind, Except.bind, hc, throw, throwThe, MonadExceptOf.throw]
        rw [h]
        exact ⟨hQ _ rfl, fun v o ho => by cases ho⟩

/-- On a call stack with room for `d` nested calls, `Read` returns, throws, or
overflows the stack, and it overflows only when `d` is not larger than the number of
unread characters.  A returned stream holds fewer characters than the stream it was
called on.  No loop exhausts its budget. -/
theorem ReadDepth_total (Q : JsonError → Prop) (hQ : ∀ e, e.thrown = true → Q e) :
    ∀ (d : Nat) (b : List Char) (eof : Bool), (openings b < d ∨ Q .stack_overflow) →
      FailsOnly Q (ReadDepth d ⟨b, eof⟩) ∧
        ∀ v o, ReadDepth d ⟨b, eof⟩ = .ok (v, o) →
          o.buf <:+ b ∧ o.buf.length < b.length := by
  intro d
  induction d with
  | zero =>
    intro b eof hb
    have h : ReadDepth 0 ⟨b, eof⟩ = .error .stack_overflow := rfl
    rw [h]
    refine ⟨?_, fun v o ho => by cases ho⟩
    rcases hb with hb | hb
    · exact absurd hb (Nat.not_lt_zero _)
    · exact hb
  | succ d ih =>
    intro b eof hb
    cases eof with
    | true =>
      have h : ReadDepth (d + 1) ⟨b, true⟩
          = .error (.runtime_error "istream bad after peek()".toList) := by
        simp [ReadDepth, SkipWhiteSpaces_eofbit, bind, Except.bind]
      rw [h]
      exact ⟨hQ _ rfl, fun v o ho => by cases ho⟩
    | false =>
      have hds := length_dropSpaces_le b
      have hdsuf := dropSpaces_suffix b
      have hrec : ∀ c : Char, c = '[' ∨ c = '\x7b' → peekChar (dropSpaces b) = c →
          ∀ b2 : List Char, b2 <:+ dropSpaces b → b2.length < (dropSpaces b).length →
          FailsOnly Q (ReadDepth d ⟨b2, false⟩) ∧
            ∀ v o, ReadDepth d ⟨b2, false⟩ = .ok (v, o) →
              o.buf <:+ b2 ∧ o.buf.length < b2.length :=
        fun c hc hp b2 hs hl =>
          ih b2 false (hb.imp (fun h => openings_lt_of_suffix b b2 d c hc hp hs hl h) id)
      have lift : ∀ r : Except JsonError (JsonNode × IStream),
          (FailsOnly Q r ∧
            ∀ v o, r = .ok (v, o) →
              o.buf <:+ dropSpaces b ∧ o.buf.length < (dropSpaces b).length) →
          (FailsOnly Q r ∧ ∀ v o, r = .ok (v, o) → o.buf <:+ b ∧ o.buf.length < b.length) :=
        fun r h => ⟨h.1, fun v o ho =>
          ⟨(h.2 v o ho).1.trans hdsuf, by have := (h.2 v o ho).2; omega⟩⟩
      rw [ReadDepth_good]
      split_ifs with h1 h2
      · exact lift _ (ReadObject_total Q hQ _ _ _ (hrec _ (Or.inr rfl) h1))
      · exact lift _ (ReadArray_total Q hQ _ _ _ (hrec _ (Or.inl rfl) h2))
      · exact lift _ (ReadString_total Q hQ _ _)
      · exact lift _ (ReadNumber_total Q hQ _ _)
      · exact lift _ (ReadOther_total Q hQ _ _)

/-- An input of `d` opening brackets overflows a call stack with room for `d` nested
calls of `Read`. -/
theorem ReadDepth_brackets (d : Nat) :
    ReadDepth d ⟨List.replicate d '[', false⟩ = .error .stack_overflow := by
  induction d with
  | zero => rfl
  | succ d ih =>
    have hd : dropSpaces (List.replicate (d + 1) '[') = '[' :: List.replicate d '[' := by
      rw [List.replicate_succ]
      exact dropSpaces_cons_of_not_space (by decide) _
    have hp : peekChar (dropSpaces (List.replicate d '[')) ≠ ']' := by
      cases d with
      | zero => decide
      | succ k =>
        rw [List.replicate_succ, dropSpaces_cons_of_not_space (by decide) _]
        simp only [peekChar, List.headD_cons]
        decide
    rw [ReadDepth_good, hd]
    simp only [peekChar, List.headD_cons]
    rw [if_neg (by decide), if_pos True.intro]
    simp only [ReadArray, StreamGet_cons, bind, Except.bind, ne_eq, not_true_eq_false, if_false]
    rw [ReadArray_loop_error _ _ _ _ _ hp (by rw [ReadDepth_dropSpaces]; exact ih)]

end Termination

/-! ## Room on the call stack -/

section StackRoom
open JsonParser

/-- The array loop gives the same outcome with a second recursive call that agrees
with the first wherever the first does not overflow the stack, unless the loop itself
ends in the overflow. -/
theorem ReadArray_loop_stable (R1 R2 : IStream → Except JsonError (JsonNode × IStream))
    (hR : ∀ b : List Char, R1 ⟨b, false⟩ ≠ .error .stack_overflow →
      R2 ⟨b, false⟩ = R1 ⟨b, false⟩) :
    ∀ (n : Nat) (array : List JsonNode) (b : List Char),
      ReadArray.loop R1 n array ⟨b, false⟩ ≠ .error .stack_overflow →
      ReadArray.loop R2 n array ⟨b, false⟩ = ReadArray.loop R1 n array ⟨b, false⟩ := by
  intro n
  induction n with
  | zero => intro array b _; rfl
  | succ n ih =>
    intro array b h
    by_cases hp : peekChar (dropSpaces b) = ']'
    · rw [ReadArray_loop_stop R1 n array b hp, ReadArray_loop_stop R2 n array b hp]
    · cases hr : R1 ⟨dropSpaces b, false⟩ with
      | error e =>
        rw [ReadArray_loop_error R1 n array b e hp hr] at h ⊢
        have he : e ≠ .stack_overflow := fun hh => h (by rw [hh])
        have hr2 : R2 ⟨dropSpaces b, false⟩ = .error e := by
          rw [hR _ (by rw [hr]; exact fun hh => he (by cases hh; rfl))]; exact hr
        rw [ReadArray_loop_error R2 n array b e hp hr2]
      | ok r =>
        obtain ⟨v, ob, oeof⟩ := r
        have hr2 : R2 ⟨dropSpaces b, false⟩ = .ok (v, ⟨ob, oeof⟩) := by
          rw [hR _ (by rw [hr]; exact fun hh => by cases hh)]; exact hr
        cases oeof with
        | true =>
          have hl : ∀ R : IStream → Except JsonError (JsonNode × IStream),
              R ⟨dropSpaces b, false⟩ = .ok (v, ⟨ob, true⟩) →
              ReadArray.loop R (n + 1) array ⟨b, false⟩
                = .error (.runtime_error "istream bad after peek()".toList) := by
            intro R hR
            simp only [ReadArray.loop, SkipWhiteSpaces_good, StreamPeek_good, bind, Except.bind,
              hp, if_false, hR, SkipSymbolUntil_eofbit_error]
          rw [hl R1 hr, hl R2 hr2]
        | false =>
          rw [ReadArray_loop_step R1 n array b ob v hp hr] at h ⊢
          rw [ReadArray_loop_step R2 n array b ob v hp hr2]
          split_ifs at h ⊢ with h1 h2 <;>
            first
              | rfl
              | exact ih (array ++ [v]) (skipUntil ob ',' ']').2 h

/-- The object loop gives the same outcome with a second recursive call that agrees
with the first wherever the first does not overflow the stack, unless the loop itself
ends in the overflow. -/
theorem ReadObject_loop_stable (R1 R2 : IStream → Except JsonError (JsonNode × IStream))
    (hR : ∀ b : List Char, R1 ⟨b, false⟩ ≠ .error .stack_overflow →
      R2 ⟨b, false⟩ = R1 ⟨b, false⟩) :
    ∀ (n : Nat) (object : List (Str × JsonNode)) (b : List Char),
      ReadObject.loop R1 n object ⟨b, false⟩ ≠ .error .stack_overflow →
      ReadObject.loop R2 n object ⟨b, false⟩ = ReadObject.loop R1 n object ⟨b, false⟩ := by
  intro n
  induction n with
  | zero => intro object b _; rfl
  | succ n ih =>
    intro object b h
    by_cases hp : peekChar (dropSpaces b) = '\x7d'
    · rw [ReadObject_loop_stop R1 n object b hp, ReadObject_loop_stop R2 n object b hp]
    · cases hk : ReadString ⟨dropSpaces b, false⟩ with
      | error e =>
        rw [ReadObject_loop_key_error R1 n object b e hp hk,
          ReadObject_loop_key_error R2 n object b e hp hk]
      | ok kr =>
        obtain ⟨_, s, t, hdb, hs, _⟩ := ReadString_inv _ _ kr hk
        by_cases hc : peekChar (dropSpaces t) = ':'
        · obtain ⟨pre, hpre, hbp⟩ := exists_spaces_prefix b
          obtain ⟨mid, hmid, htm⟩ := exists_spaces_prefix t
          have hdt := cons_of_peekChar hc (by decide)
          generalize (dropSpaces t).tail = more at hdt
          have hform : b = pre ++ '"' :: (s ++ '"' :: (mid ++ ':' :: more)) := by
            rw [← hdt, ← htm, ← hdb]
            exact hbp
          subst hform
          cases hr : R1 ⟨dropSpaces more, false⟩ with
          | error e =>
            rw [ReadObject_loop_error R1 n object pre s mid more e hpre hs hmid hr] at h ⊢
            have he : e ≠ .stack_overflow := fun hh => h (by rw [hh])
            have hr2 : R2 ⟨dropSpaces more, false⟩ = .error e := by
              rw [hR _ (by rw [hr]; exact fun hh => he (by cases hh; rfl))]; exact hr
            rw [ReadObject_loop_error R2 n object pre s mid more e hpre hs hmid hr2]
          | ok r =>
            obtain ⟨v, ob, oeof⟩ := r
            have hr2 : R2 ⟨dropSpaces more, false⟩ = .ok (v, ⟨ob, oeof⟩) := by
              rw [hR _ (by rw [hr]; exact fun hh => by cases hh)]; exact hr
            cases oeof with
            | true =>
              rw [ReadObject_loop_eofbit_error R1 n object pre s mid more ob v hpre hs hmid hr,
                ReadObject_loop_eofbit_error R2 n object pre s mid more ob v hpre hs hmid hr2]
            | false =>
              rw [ReadObject_loop_step R1 n object pre s mid more ob v hpre hs hmid hr] at h ⊢
              rw [ReadObject_loop_step R2 n object pre s mid more ob v hpre hs hmid hr2]
              split_ifs at h ⊢ with h1 h2 <;>
                first
                  | rfl
                  | exact ih (try_emplace object s v) (skipUntil ob ',' '\x7d').2 h
        · rw [ReadObject_loop_no_colon R1 n object b s t hdb hs hc,
            ReadObject_loop_no_colon R2 n object b s t hdb hs hc]

theorem ReadArray_stable (R1 R2 : IStream → Except JsonError (JsonNode × IStream))
    (hR : ∀ b : List Char, R1 ⟨b, false⟩ ≠ .error .stack_overflow →
      R2 ⟨b, false⟩ = R1 ⟨b, false⟩)
    (b : List Char) (eof : Bool) (h : ReadArray R1 ⟨b, eof⟩ ≠ .error .stack_overflow) :
    ReadArray R2 ⟨b, eof⟩ = ReadArray R1 ⟨b, eof⟩ := by
  cases eof with
  | true => simp [ReadArray, bind, Except.bind]
  | false =>
    cases b with
    | nil => simp [ReadArray, bind, Except.bind]
    | cons c cs =>
      simp only [ReadArray, StreamGet_cons, bind, Except.bind] at h ⊢
      split_ifs at h ⊢ with hc
      · rfl
      · have hl : ReadArray.loop R1 (cs.length + 1) [] ⟨cs, false⟩ ≠ .error .stack_overflow := by
          intro hh
          rw [hh] at h
          exact h rfl
        rw [ReadArray_loop_stable R1 R2 hR (cs.length + 1) [] cs hl]

theorem ReadObject_stable (R1 R2 : IStream → Except JsonError (JsonNode × IStream))
    (hR : ∀ b : List Char, R1 ⟨b, false⟩ ≠ .error .stack_overflow →
      R2 ⟨b, false⟩ = R1 ⟨b, false⟩)
    (b : List Char) (eof : Bool) (h : ReadObject R1 ⟨b, eof⟩ ≠ .error .stack_overflow) :
    ReadObject R2 ⟨b, eof⟩ = ReadObject R1 ⟨b, eof⟩ := by
  cases eof with
  | true => simp [ReadObject, bind, Except.bind]
  | false =>
    cases b with
    | nil => simp [ReadObject, bind, Except.bind]
    | cons c cs =>
      simp only [ReadObject, StreamGet_cons, bind, Except.bind] at h ⊢
      split_ifs at h ⊢ with hc
      · rfl
      · have hl : ReadObject.loop R1 (cs.length + 1) [] ⟨cs, false⟩
            ≠ .error .stack_overflow := by
          intro hh
          rw [hh] at h
          exact h rfl
        rw [ReadObject_loop_stable R1 R2 hR (cs.length + 1) [] cs hl]

/-- A call of `Read` that does not overflow the stack has the same outcome with room
for one more nested call. -/
theorem ReadDepth_stable_succ : ∀ (d : Nat) (b : List Char) (eof : Bool),
    ReadDepth d ⟨b, eof⟩ ≠ .error .stack_overflow →
      ReadDepth (d + 1) ⟨b, eof⟩ = ReadDepth d ⟨b, eof⟩ := by
  intro d
  induction d with
  | zero => intro b eof h; exact absurd rfl h
  | succ d ih =>
    intro b eof h
    cases eof with
    | true => simp [ReadDepth, SkipWhiteSpaces_eofbit, bind, Except.bind]
    | false =>
      rw [ReadDepth_good] at h
      rw [ReadDepth_good (d + 1), ReadDepth_good d]
      split_ifs at h ⊢
      · exact ReadObject_stable _ _ (fun b2 h2 => ih b2 false h2) _ _ h
      · exact ReadArray_stable _ _ (fun b2 h2 => ih b2 false h2) _ _ h
      · rfl
      · rfl
      · rfl

/-- A call of `Read` that does not overflow the stack has the same outcome on every
stack with more room. -/
theorem ReadDepth_stable (d room : Nat) (hd : d ≤ room) (i : IStream)
    (h : ReadDepth d i ≠ .error .stack_overflow) : ReadDepth room i = ReadDepth d i := by
  induction hd with
  | refl => rfl
  | step _ ih =>
    obtain ⟨b, eof⟩ := i
    rw [ReadDepth_stable_succ _ b eof (by rw [ih]; exact h), ih]

end StackRoom

section StackRoom2
open JsonParser

/-- With more room on the call stack than the text has opening brackets and braces,
`Read` does not overflow the stack. -/
theorem ReadDepth_no_overflow (d : Nat) (b : List Char) (eof : Bool) (h : openings b < d) :
    ReadDepth d ⟨b, eof⟩ ≠ .error .stack_overflow := by
  intro hh
  have h1 := (ReadDepth_total (fun e => e.thrown = true) (fun _ he => he) d b eof (Or.inl h)).1
  rw [hh] at h1
  have h2 : JsonError.thrown .stack_overflow = true := h1
  exact absurd h2 (by decide)

/-- With more room on the call stack than the text has opening brackets and braces,
`Read` is the function `JsonParser.Read`. -/
theorem ReadDepth_eq_Read (stack : Nat) (i : IStream) (h : openings i.buf < stack) :
    ReadDepth stack i = Read i := by
  obtain ⟨b, eof⟩ := i
  have h1 := ReadDepth_no_overflow stack b eof h
  have h2 := ReadDepth_no_overflow (b.length + 1) b eof
    (Nat.lt_succ_of_le (openings_le_length b))
  show ReadDepth stack ⟨b, eof⟩ = ReadDepth (b.length + 1) ⟨b, eof⟩
  rcases Nat.le_total stack (b.length + 1) with hle | hle
  · exact (ReadDepth_stable _ _ hle _ h1).symm
  · exact ReadDepth_stable _ _ hle _ h2

end StackRoom2

/-! ## The decoder on a finite call stack -/

section MessageText
open JsonParser

/-- A text without a 0 byte is read in full as a C string. -/
theorem c_str_of_no_zero (s : Str) (h : Char.ofNat 0 ∉ s) : c_str s = s := by
  unfold c_str
  rw [List.takeWhile_eq_self_iff]
  intro c hc
  simp only [ne_eq, decide_not, Bool.not_eq_true', decide_eq_false_iff_not]
  intro h0
  rw [h0] at hc
  exact h hc

/-- The C string of a text behind a text without a 0 byte. -/
theorem c_str_append (s t : Str) (h : Char.ofNat 0 ∉ s) : c_str (s ++ t) = s ++ c_str t := by
  unfold c_str
  rw [List.takeWhile_append_of_pos]
  intro c hc
  simp only [ne_eq, decide_not, Bool.not_eq_true', decide_eq_false_iff_not]
  intro h0
  rw [h0] at hc
  exact h hc

end MessageText

section LiteralAtEnd
open JsonParser

/-- A successful `SkipSymbol` leaves the stream good. -/
theorem SkipSymbol_ok_good (i : IStream) (ch : Char) (hch : ch ≠ eofChar)
    (k : Bool × IStream) (h : SkipSymbol i ch = .ok k) : k.2.eofbit = false := by
  obtain ⟨b, eof⟩ := i
  cases eof with
  | true => rw [SkipSymbol_eofbit_error] at h; cases h
  | false =>
    rw [SkipSymbol_good_peek _ _ hch] at h
    simp only [Except.ok.injEq] at h
    rw [← h]
    split_ifs <;> rfl

/-- A successful decoding leaves `eofbit` set only behind a literal `true`, `false` or
`null` that ends the input: every other reader looks ahead with `StreamPeek`, which
clears the bit. -/
theorem ReadDepth_eofbit_literal (d : Nat) (b : List Char) (v : JsonNode) (o : IStream)
    (h : ReadDepth d ⟨b, false⟩ = .ok (v, o)) (he : o.eofbit = true) :
    o.buf = [] ∧ (v.IsBool = true ∨ v.IsNull = true) := by
  cases d with
  | zero => cases h
  | succ d =>
    rw [ReadDepth_good] at h
    split_ifs at h
    · rw [ReadObject_ok_iff] at h
      obtain ⟨g, r, k, _, _, _, hk, hres⟩ := h
      have ho : o = k.2 := (Prod.mk.inj hres).2
      have := SkipSymbol_ok_good _ _ (by decide) _ hk
      rw [ho, this] at he
      cases he
    · rw [ReadArray_ok_iff] at h
      obtain ⟨g, r, k, _, _, _, hk, hres⟩ := h
      have ho : o = k.2 := (Prod.mk.inj hres).2
      have := SkipSymbol_ok_good _ _ (by decide) _ hk
      rw [ho, this] at he
      cases he
    · obtain ⟨_, s, t, _, _, hr⟩ := ReadString_inv _ _ _ h
      have ho : o = ⟨t, false⟩ := (Prod.mk.inj hr).2
      rw [ho] at he
      cases he
    · rw [ReadNumber_good] at h
      cases hs : scanInt (scanSign (dropSpaces b)) with
      | none => rw [hs] at h; cases h
      | some p =>
        rw [hs] at h
        simp only at h
        cases hc : ReadNumber.convert (scanExp (scanFrac p)).1 (scanExp (scanFrac p)).2.2 with
        | error e => rw [hc] at h; cases h
        | ok nd =>
          rw [hc] at h
          simp only [Except.ok.injEq, Prod.mk.injEq] at h
          rw [← h.2] at he
          cases he
    · rw [ReadOther_good] at h
      simp only at h
      split_ifs at h <;>
        simp only [Except.ok.injEq, Prod.mk.injEq] at h <;>
        · obtain ⟨hv, ho⟩ := h
          rw [← ho] at he ⊢
          rw [← hv]
          simp only [decide_eq_true_eq] at he
          exact ⟨he, by decide⟩

end LiteralAtEnd

/-- C10 (as the code behaves): in an array text, let the elements in front be value
texts each followed by a comma, and let the decoding of the rest of the text yield a
node `v` that is no literal `true`, `false` or `null` ending the input, and stop in
front of something that, after optional white space, is neither a comma nor a closing
bracket (the end of the input included).  Then `Read` fails with a
`JsonParserException` that stores `expected ','`, then ` after node: `, then the
compact encoding of `v`, the element appended last.  The text that `what()` gives is
that string up to the first 0 byte of the encoding: it is exactly that string when the
encoding of `v` holds no 0 byte. -/
theorem C10_array_separator_error (es : List (Str × JsonNode)) (s : List Char)
    (v : JsonNode) (o : IStream) (hes : ∀ e ∈ es, Decodes e.1 e.2)
    (hv : JsonParser.Read ⟨s, false⟩ = .ok (v, o))
    (hend : o.buf = [] → v.IsBool = false ∧ v.IsNull = false)
    (h1 : peekChar (dropSpaces o.buf) ≠ ',') (h2 : peekChar (dropSpaces o.buf) ≠ ']') :
    JsonParser.Read ⟨'[' :: (elemsText es ++ s), false⟩
      = .error (JsonError.JsonParserException
          ("expected ','".toList ++ " after node: ".toList ++ JsonParser.Write v false)) ∧
    JsonError.what (JsonError.JsonParserException
          ("expected ','".toList ++ " after node: ".toList ++ JsonParser.Write v false))
      = "expected ','".toList ++ " after node: ".toList ++ c_str (JsonParser.Write v false) ∧
    (Char.ofNat 0 ∉ JsonParser.Write v false →
      JsonError.what (JsonError.JsonParserException
          ("expected ','".toList ++ " after node: ".toList ++ JsonParser.Write v false))
        = "expected ','".toList ++ " after node: ".toList ++ JsonParser.Write v false) := by
  have hw : JsonError.what (JsonError.JsonParserException
        ("expected ','".toList ++ " after node: ".toList ++ JsonParser.Write v false))
      = "expected ','".toList ++ " after node: ".toList ++ c_str (JsonParser.Write v false) :=
    c_str_append ("expected ','".toList ++ " after node: ".toList) _ (by decide)
  have hgood : o.eofbit = false := by
    cases hb : o.eofbit with
    | false => rfl
    | true =>
      obtain ⟨h3, h4⟩ := ReadDepth_eofbit_literal _ _ _ _ hv hb
      obtain ⟨h5, h6⟩ := hend h3
      rw [h5, h6] at h4
      rcases h4 with h4 | h4 <;> cases h4
  have ho : o = ⟨o.buf, false⟩ := by
    obtain ⟨ob, oe⟩ := o
    simp only at hgood
    rw [hgood]
  rw [ho] at hv
  refine ⟨Read_array_separator es s o.buf v hes hv h1 h2, hw, fun h0 => ?_⟩
  rw [hw, c_str_of_no_zero _ h0]

/-- C10 at the texts `[1 2]`, `[7,1 2]` and `[1`: the element `1` is followed by white
space and `2`, or by the end of the input, and the message is
`expected ',' after node: 1`. -/
theorem C10_array_separator_error_witness :
    (JsonParser.Read (istream "[1 2]")
      = .error (JsonError.JsonParserException "expected ',' after node: 1".toList) ∧
     JsonError.what (JsonError.JsonParserException "expected ',' after node: 1".toList)
      = "expected ',' after node: 1".toList) ∧
    JsonParser.Read (istream "[7,1 2]")
      = .error (JsonError.JsonParserException "expected ',' after node: 1".toList) ∧
    JsonParser.Read (istream "[1")
      = .error (JsonError.JsonParserException "expected ',' after node: 1".toList) :=
  ⟨⟨(C10_array_separator_error [] "1 2]".toList (JsonNode.int 1) ⟨" 2]".toList, false⟩
        (by intro e he; cases he) (by rfl) (by intro h; cases h) (by decide) (by decide)).1,
      (C10_array_separator_error [] "1 2]".toList (JsonNode.int 1) ⟨" 2]".toList, false⟩
        (by intro e he; cases he) (by rfl) (by intro h; cases h) (by decide)
        (by decide)).2.2 (by decide)⟩,
    (C10_array_separator_error [("7".toList, JsonNode.int 7)] "1 2]".toList
      (JsonNode.int 1) ⟨" 2]".toList, false⟩
      (by
        intro e he
        simp only [List.mem_singleton] at he
        subst he
        exact Decodes_int 7 (by decide) (by decide))
      (by rfl) (by intro h; cases h) (by decide) (by decide)).1,
    (C10_array_separator_error [] "1".toList (JsonNode.int 1) ⟨[], false⟩
      (by intro e he; cases he) (by rfl) (by intro _; exact ⟨rfl, rfl⟩) (by decide)
      (by decide)).1⟩

/-- C10 refuted as stated.  In the text `["a?b" 2]`, where `?` stands for a 0 byte,
the String element is decoded and followed by white space and `2`.  `Read` fails with
a `JsonParserException`, and the text that `what()` gives stops in front of the 0
byte, `expected ',' after node: "a`: it is not `expected ','`, ` after node: ` and
the compact encoding of the element.  In the text `[true` the element `true` is
decoded and followed by the end of the input; `Read` fails with the `runtime_error`
of `StreamPeek`, not with a `JsonParserException`. -/
theorem C10_message_not_exact :
    JsonParser.Read (istream "\"a\x00b\" 2]")
      = .ok (JsonNode.string "a\x00b".toList, ⟨" 2]".toList, false⟩) ∧
    JsonParser.Read (istream "[\"a\x00b\" 2]")
      = .error (JsonError.JsonParserException
          "expected ',' after node: \"a\x00b\"".toList) ∧
    JsonError.what (JsonError.JsonParserException
          "expected ',' after node: \"a\x00b\"".toList)
      = "expected ',' after node: \"a".toList ∧
    "expected ',' after node: \"a".toList
      ≠ "expected ','".toList ++ " after node: ".toList
          ++ JsonParser.Write (JsonNode.string "a\x00b".toList) false ∧
    JsonParser.Read (istream "true") = .ok (JsonNode.bool true, ⟨[], true⟩) ∧
    JsonParser.Read (istream "[true")
      = .error (JsonError.runtime_error "istream bad after peek()".toList) ∧
    JsonParser.Read (istream "[1")
      = .error (JsonError.JsonParserException "expected ',' after node: 1".toList) :=
  ⟨rfl, rfl, rfl, by decide, rfl, rfl, rfl⟩

end JSON
